import Mathlib

/-!
# TinyCacheSystem: the ARC cache (`ArcCache`, `ArcLruPart`, `ArcLfuPart`)

Shallow embedding of `src/include/ArcNode.h`, `ArcLruPart.h`, `ArcLfuPart.h` and
`ArcCache.h`; further down, of `ClockCache.h` and of `LruCache` and `LruKCache` of
`LruCache.h`.

* A `std::shared_ptr<ArcNode>` is a `NodePtr`: `none` is `nullptr`, `some i` is the
  `i`-th node ever allocated by the partition (`std::make_shared` appends to the heap).
  Nodes are never freed in the model; a node that is no longer referenced is
  simply unreachable.
* Every statement of the source that dereferences a pointer reads or writes the heap
  at that moment, in source order, so aliasing between `node`, `node->prev`,
  the sentinels, ... behaves as in C++.  Dereferencing `nullptr` is undefined
  behaviour: the operation yields `none`.
* `std::unordered_map<K, NodePtr>` is an association list with at most one entry per
  key (`find`, `operator[]`, `erase`, `size`, `empty`).
* `size_t` counters that are incremented wrap modulo `2 ^ 64`.
* Every operation runs to completion on its own; where the methods of the partitions take
  their mutex is modelled apart, as the list of the steps of each method.
-/

namespace mycache

/-- Modulus of `size_t` arithmetic. -/
def SIZE_MOD : Nat := 2 ^ 64

/-- A `std::shared_ptr<ArcNode<K,V>>`: `none` is `nullptr`. -/
abbrev NodePtr := Option Nat

/-- The class `ArcNode` of `ArcNode.h`. -/
structure ArcNode (K V : Type) where
  key : K
  value : V
  dirty : Bool
  accessCount : Nat
  prev : NodePtr
  next : NodePtr
deriving DecidableEq, Repr

/-- Constructor `ArcNode(const K& k, const V& v)`. -/
def ArcNode.create {K V : Type} (k : K) (v : V) : ArcNode K V :=
  { key := k, value := v, dirty := false, accessCount := 1, prev := none, next := none }

/-- Method `increaseAccessCount`: `accessCount++` on a `size_t`. -/
def ArcNode.increaseAccessCount {K V : Type} (n : ArcNode K V) : ArcNode K V :=
  { n with accessCount := (n.accessCount + 1) % SIZE_MOD }

/-- Method `setValue`. -/
def ArcNode.setValue {K V : Type} (n : ArcNode K V) (v : V) : ArcNode K V :=
  { n with value := v }

/-! ## The heap of nodes -/

/-- Read `*p`; `none` when `p` is `nullptr`. -/
def readNode {K V : Type} (h : List (ArcNode K V)) (p : NodePtr) : Option (ArcNode K V) :=
  match p with
  | none => none
  | some i => h[i]?

/-- Update `*p` in place; `none` when `p` is `nullptr`. -/
def writeNode {K V : Type} (h : List (ArcNode K V)) (p : NodePtr)
    (f : ArcNode K V → ArcNode K V) : Option (List (ArcNode K V)) :=
  match p with
  | none => none
  | some i =>
    match h[i]? with
    | none => none
    | some n => some (h.set i (f n))

/-- Allocation by `std::make_shared<NodeType>(k, v)`: a fresh node at the end of the heap. -/
def allocNode {K V : Type} (h : List (ArcNode K V)) (k : K) (v : V) :
    List (ArcNode K V) × NodePtr :=
  (h ++ [ArcNode.create k v], some h.length)

/-! ## Field views of the heap

The proofs read and write single fields of heap cells.  `hPrev h i` is `heap[i].prev`
and so on; the setters leave the heap untouched when `i` is not allocated. -/

section HeapViews

variable {K V : Type}

/-- Field `prev` of cell `i` (`none` also when the cell does not exist). -/
def hPrev (h : List (ArcNode K V)) (i : Nat) : NodePtr :=
  match h[i]? with
  | some n => n.prev
  | none => none

/-- Field `next` of cell `i`. -/
def hNext (h : List (ArcNode K V)) (i : Nat) : NodePtr :=
  match h[i]? with
  | some n => n.next
  | none => none

/-- Field `key` of cell `i`. -/
def hKey (h : List (ArcNode K V)) (i : Nat) : Option K :=
  match h[i]? with
  | some n => some n.key
  | none => none

/-- Field `value` of cell `i`. -/
def hValue (h : List (ArcNode K V)) (i : Nat) : Option V :=
  match h[i]? with
  | some n => some n.value
  | none => none

/-- Field `accessCount` of cell `i`. -/
def hCount (h : List (ArcNode K V)) (i : Nat) : Option Nat :=
  match h[i]? with
  | some n => some n.accessCount
  | none => none

/-- In-place update of cell `i`. -/
def hUpd (h : List (ArcNode K V)) (i : Nat) (f : ArcNode K V → ArcNode K V) :
    List (ArcNode K V) :=
  match h[i]? with
  | some n => h.set i (f n)
  | none => h

/-- Assignment `heap[i].next = v`. -/
def setNext (h : List (ArcNode K V)) (i : Nat) (v : NodePtr) : List (ArcNode K V) :=
  hUpd h i (fun x => { x with next := v })

/-- Assignment `heap[i].prev = v`. -/
def setPrev (h : List (ArcNode K V)) (i : Nat) (v : NodePtr) : List (ArcNode K V) :=
  hUpd h i (fun x => { x with prev := v })

/-- Assignment `heap[i].accessCount = c`. -/
def setCount (h : List (ArcNode K V)) (i : Nat) (c : Nat) : List (ArcNode K V) :=
  hUpd h i (fun x => { x with accessCount := c })

/-- Assignment `heap[i].value = v`. -/
def setValue (h : List (ArcNode K V)) (i : Nat) (v : V) : List (ArcNode K V) :=
  hUpd h i (fun x => x.setValue v)

/-- Statement `heap[i].accessCount++`. -/
def incCount (h : List (ArcNode K V)) (i : Nat) : List (ArcNode K V) :=
  hUpd h i (fun x => x.increaseAccessCount)

/-- The two assignments of `removeNode` for a node with `prev = p` and `next = q`. -/
def unlink (h : List (ArcNode K V)) (p q : Nat) : List (ArcNode K V) :=
  setPrev (setNext h p (some q)) q (some p)

/-- The four assignments that link node `y` in front of the tail sentinel `t`, the
tail's `prev` being `b` on entry. -/
def linkTail (h : List (ArcNode K V)) (y t b : Nat) : List (ArcNode K V) :=
  setPrev (setNext (setPrev (setNext h y (some t)) y (some b)) b (some y)) t (some y)

/-- The heap after `addToGhost(n1)` followed by `removeMainNode(n1)` in
`evictLeastRecent`, when `ghostTail->prev` is `ghostHead`: the node is linked in front of
`ghostTail` and unlinked from there again. -/
def reghost (h : List (ArcNode K V)) (n1 : Nat) : List (ArcNode K V) :=
  unlink (linkTail (setCount h n1 1) n1 3 2) 2 3

end HeapViews

/-! ## `std::unordered_map` as an association list -/

/-- Member `find`: the mapped value, `none` for `end()`. -/
def umFind {A B : Type} [DecidableEq A] (m : List (A × B)) (k : A) : Option B :=
  match m with
  | [] => none
  | (a, b) :: rest => if a = k then some b else umFind rest k

/-- Assignment `m[k] = v`: overwrite the entry of `k`, or add one. -/
def umSet {A B : Type} [DecidableEq A] (m : List (A × B)) (k : A) (v : B) : List (A × B) :=
  match m with
  | [] => [(k, v)]
  | (a, b) :: rest => if a = k then (a, v) :: rest else (a, b) :: umSet rest k v

/-- Member `erase(k)`. -/
def umErase {A B : Type} [DecidableEq A] (m : List (A × B)) (k : A) : List (A × B) :=
  match m with
  | [] => []
  | (a, b) :: rest => if a = k then umErase rest k else (a, b) :: umErase rest k

/-! ## `ArcLruPart` -/

/-- The data members of `ArcLruPart` (the mutex apart) and the heap its nodes live in. -/
structure ArcLruPart (K V : Type) where
  mainCapacity : Nat
  ghostCapacity : Nat
  transformThreshold : Nat
  mainCache : List (K × NodePtr)
  ghostCache : List (K × NodePtr)
  mainHead : NodePtr
  mainTail : NodePtr
  ghostHead : NodePtr
  ghostTail : NodePtr
  heap : List (ArcNode K V)
deriving DecidableEq, Repr

namespace ArcLruPart

variable {K V : Type} [DecidableEq K]

/-- Constructor and `initialize`: the four sentinels are allocated and linked in pairs. -/
def create [Inhabited K] [Inhabited V] (capacity TransformThreshold : Nat) : ArcLruPart K V :=
  { mainCapacity := capacity
    ghostCapacity := capacity
    transformThreshold := TransformThreshold
    mainCache := []
    ghostCache := []
    mainHead := some 0
    mainTail := some 1
    ghostHead := some 2
    ghostTail := some 3
    heap :=
      [ { ArcNode.create default default with next := some 1 },
        { ArcNode.create default default with prev := some 0 },
        { ArcNode.create default default with next := some 3 },
        { ArcNode.create default default with prev := some 2 } ] }

/-- Source `removeNode`:
`node->prev->next = node->next; node->next->prev = node->prev;`. -/
def removeNode (s : ArcLruPart K V) (node : NodePtr) : Option (ArcLruPart K V) := do
  let n ← readNode s.heap node
  let h1 ← writeNode s.heap n.prev (fun x => { x with next := n.next })
  let n1 ← readNode h1 node
  let h2 ← writeNode h1 n1.next (fun x => { x with prev := n1.prev })
  pure { s with heap := h2 }

/-- Source `addToMainTail`. -/
def addToMainTail (s : ArcLruPart K V) (node : NodePtr) : Option (ArcLruPart K V) := do
  -- node->next = mainTail;
  let h1 ← writeNode s.heap node (fun x => { x with next := s.mainTail })
  -- node->prev = mainTail->prev;
  let t1 ← readNode h1 s.mainTail
  let h2 ← writeNode h1 node (fun x => { x with prev := t1.prev })
  -- mainTail->prev->next = node;
  let t2 ← readNode h2 s.mainTail
  let h3 ← writeNode h2 t2.prev (fun x => { x with next := node })
  -- mainTail->prev = node;
  let h4 ← writeNode h3 s.mainTail (fun x => { x with prev := node })
  pure { s with heap := h4 }

/-- Source `moveToMainTail`. -/
def moveToMainTail (s : ArcLruPart K V) (node : NodePtr) : Option (ArcLruPart K V) := do
  let s1 ← removeNode s node
  addToMainTail s1 node

/-- Source `removeMainNode`. -/
def removeMainNode (s : ArcLruPart K V) (node : NodePtr) : Option (ArcLruPart K V) :=
  removeNode s node

/-- Source `removeGhostNode`. -/
def removeGhostNode (s : ArcLruPart K V) (node : NodePtr) : Option (ArcLruPart K V) :=
  removeNode s node

/-- Source `evictOldestGhost`. -/
def evictOldestGhost (s : ArcLruPart K V) : Option (ArcLruPart K V) :=
  if s.ghostCache.isEmpty then some s
  else do
    let gh ← readNode s.heap s.ghostHead
    if gh.next = s.ghostTail then pure s
    else
      let node := gh.next
      let s1 ← removeGhostNode s node
      let n ← readNode s1.heap node
      pure { s1 with ghostCache := umErase s1.ghostCache n.key }

/-- Source `addToGhost`. -/
def addToGhost (s : ArcLruPart K V) (node : NodePtr) : Option (ArcLruPart K V) := do
  -- node->accessCount = 1;
  let h0 ← writeNode s.heap node (fun x => { x with accessCount := 1 })
  -- node->next = ghostTail;
  let h1 ← writeNode h0 node (fun x => { x with next := s.ghostTail })
  -- node->prev = ghostTail->prev;
  let t1 ← readNode h1 s.ghostTail
  let h2 ← writeNode h1 node (fun x => { x with prev := t1.prev })
  -- ghostTail->prev->next = node;
  let t2 ← readNode h2 s.ghostTail
  let h3 ← writeNode h2 t2.prev (fun x => { x with next := node })
  -- ghostTail->prev = node;
  let h4 ← writeNode h3 s.ghostTail (fun x => { x with prev := node })
  -- ghostCache[node->getKey()] = node;
  let n ← readNode h4 node
  pure { s with heap := h4, ghostCache := umSet s.ghostCache n.key node }

/-- Source `evictLeastRecent`. -/
def evictLeastRecent (s : ArcLruPart K V) : Option (ArcLruPart K V) :=
  if s.mainCache.isEmpty then some s
  else do
    let mh ← readNode s.heap s.mainHead
    if mh.next = s.mainTail then pure s
    else
      let node := mh.next
      let s1 ← if s.ghostCache.length ≥ s.ghostCapacity then evictOldestGhost s else pure s
      let s2 ← addToGhost s1 node
      let s3 ← removeMainNode s2 node
      let n ← readNode s3.heap node
      pure { s3 with mainCache := umErase s3.mainCache n.key }

/-- Source `addNewNode` (its result is always `true`). -/
def addNewNode (s : ArcLruPart K V) (key : K) (value : V) : Option (ArcLruPart K V) := do
  let s1 ← if s.mainCache.length ≥ s.mainCapacity then evictLeastRecent s else pure s
  let (h, node) := allocNode s1.heap key value
  let s2 ← addToMainTail { s1 with heap := h } node
  pure { s2 with mainCache := umSet s2.mainCache key node }

/-- Source `updateMainNode` (its result is always `true`). -/
def updateMainNode (s : ArcLruPart K V) (node : NodePtr) (value : V) :
    Option (ArcLruPart K V) := do
  let h ← writeNode s.heap node (fun x => x.setValue value)
  moveToMainTail { s with heap := h } node

/-- Source `updateAccessCount`: the new state and
`node->getAccessCount() >= transformThreshold`. -/
def updateAccessCount (s : ArcLruPart K V) (node : NodePtr) :
    Option (ArcLruPart K V × Bool) := do
  let s1 ← moveToMainTail s node
  let h ← writeNode s1.heap node (fun x => x.increaseAccessCount)
  let n ← readNode h node
  pure ({ s1 with heap := h }, decide (n.accessCount ≥ s.transformThreshold))

/-- Source `put`: the new state and the returned flag. -/
def put (s : ArcLruPart K V) (key : K) (value : V) : Option (ArcLruPart K V × Bool) :=
  if s.mainCapacity = 0 then some (s, false)
  else
    match umFind s.mainCache key with
    | some node => do
      let s1 ← updateMainNode s node value
      pure (s1, true)
    | none => do
      let s1 ← addNewNode s key value
      pure (s1, true)

/-- Source `get(key, value, shouldTransform)`: the new state, the returned flag and the
contents of the two reference parameters after the call. -/
def get (s : ArcLruPart K V) (key : K) (value : V) (shouldTransform : Bool) :
    Option (ArcLruPart K V × Bool × V × Bool) :=
  if s.mainCapacity = 0 then some (s, false, value, shouldTransform)
  else
    match umFind s.mainCache key with
    | some node => do
      let (s1, st) ← updateAccessCount s node
      let n ← readNode s1.heap node
      pure (s1, true, n.value, st)
    | none => some (s, false, value, shouldTransform)

/-- Source `checkGhost`. -/
def checkGhost (s : ArcLruPart K V) (key : K) : Option (ArcLruPart K V × Bool) :=
  match umFind s.ghostCache key with
  | some node => do
    let s1 ← removeGhostNode s node
    let n ← readNode s1.heap node
    let s2 ← addNewNode s1 key n.value
    pure (s2, true)
  | none => some (s, false)

/-- Source `increaseCapacity`: `mainCapacity++`. -/
def increaseCapacity (s : ArcLruPart K V) : ArcLruPart K V :=
  { s with mainCapacity := (s.mainCapacity + 1) % SIZE_MOD }

/-- Source `decreaseCapacity`: the new state and the returned flag. -/
def decreaseCapacity (s : ArcLruPart K V) : Option (ArcLruPart K V × Bool) :=
  if s.mainCapacity = 0 then some ({ s with mainCapacity := 0 }, false)
  else do
    let s1 ← if s.mainCapacity ≥ s.mainCache.length then evictLeastRecent s else pure s
    pure ({ s1 with mainCapacity := s1.mainCapacity - 1 }, true)

end ArcLruPart

/-! ## Invariants of the recency partition

The sentinels are the cells `0` (`mainHead`), `1` (`mainTail`), `2` (`ghostHead`) and
`3` (`ghostTail`); every other cell is a node made by `addNewNode`. -/

section LruInvariants

variable {K V : Type}

/-- The sentinel pointers are the first four cells. -/
def ArcLruPart.Base (s : ArcLruPart K V) : Prop :=
  s.mainHead = some 0 ∧ s.mainTail = some 1 ∧ s.ghostHead = some 2 ∧ s.ghostTail = some 3 ∧
    4 ≤ s.heap.length

/-- Cells `0`, `1` and the nodes other than `ex` form a locally consistent doubly linked
list (`next` and `prev` are inverse to each other), and the ghost list is empty.  With
`ex = h.length` no node is left out. -/
def DllEx (h : List (ArcNode K V)) (ex : Nat) : Prop :=
  (∃ a, hNext h 0 = some a ∧ (a = 1 ∨ 4 ≤ a) ∧ a ≠ ex ∧ hPrev h a = some 0) ∧
  (∃ b, hPrev h 1 = some b ∧ (b = 0 ∨ 4 ≤ b) ∧ b ≠ ex ∧ hNext h b = some 1) ∧
  (∀ i, 4 ≤ i → i < h.length → i ≠ ex →
    (∃ p, hPrev h i = some p ∧ (p = 0 ∨ 4 ≤ p) ∧ p ≠ ex ∧ hNext h p = some i) ∧
    (∃ q, hNext h i = some q ∧ (q = 1 ∨ 4 ≤ q) ∧ q ≠ ex ∧ hPrev h q = some i)) ∧
  hNext h 2 = some 3 ∧ hPrev h 3 = some 2

/-- Every entry of a node map points to a node that carries the entry's key and
satisfies `P`. -/
def MapOk (h : List (ArcNode K V)) (m : List (K × NodePtr)) (P : Nat → Prop) : Prop :=
  ∀ k p, (k, p) ∈ m → ∃ i, p = some i ∧ i < h.length ∧ P i ∧ hKey h i = some k

/-- Before the first eviction: the main list is a consistent doubly linked list and
nothing was ever put into the ghost structures. -/
def ArcLruPart.Phase1 (s : ArcLruPart K V) : Prop :=
  s.ghostCache = [] ∧ DllEx s.heap s.heap.length ∧ MapOk s.heap s.mainCache (fun i => 4 ≤ i)

/-- The links after the first eviction, `n1` being the node evicted first.  `mainHead`
still points to `n1`, whose `prev` is `ghostHead`; no other node points to `n1`, to
`mainHead` or (by `next`) to `ghostTail`.  With `strict = false` the `next` fields of
`n1` and of `ghostHead` may also be `mainTail`, as happens in the middle of
`evictLeastRecent` and of `moveToMainTail`.  Nothing is said about the fields of the
node `ex` (a node that is being linked); with `ex = h.length` no node is left out. -/
def Links2 (h : List (ArcNode K V)) (n1 : Nat) (strict : Bool) (ex : Nat) : Prop :=
  hNext h 0 = some n1 ∧ 4 ≤ n1 ∧ n1 < h.length ∧ n1 ≠ ex ∧ hPrev h n1 = some 2 ∧
  (∃ q, hNext h n1 = some q ∧ ((q = 1 ∧ strict = false) ∨ q = 3 ∨ 4 ≤ q) ∧ q < h.length) ∧
  hPrev h 3 = some 2 ∧
  (∃ c, hNext h 2 = some c ∧ ((c = 1 ∧ strict = false) ∨ c = 3 ∨ 4 ≤ c) ∧ c < h.length ∧
    c ≠ n1) ∧
  (∃ b, hPrev h 1 = some b ∧ (b = 2 ∨ 4 ≤ b) ∧ b < h.length) ∧
  (∀ i, 4 ≤ i → i < h.length → i ≠ ex →
    (∃ p, hPrev h i = some p ∧ (p = 2 ∨ 4 ≤ p) ∧ p < h.length) ∧
    (∃ q, hNext h i = some q ∧ (q = 1 ∨ q = 3 ∨ 4 ≤ q) ∧ q < h.length ∧ q ≠ n1 ∧
      (q = 3 → i = n1)))

/-- After the first eviction. -/
def ArcLruPart.Phase2 (s : ArcLruPart K V) : Prop :=
  ∃ n1, Links2 s.heap n1 true s.heap.length ∧
    (∀ k p, (k, p) ∈ s.ghostCache → p = some n1 ∧ hKey s.heap n1 = some k) ∧
    MapOk s.heap s.mainCache (fun i => 4 ≤ i ∧ i ≠ n1)

/-- Two heaps with the same cells up to the link fields. -/
def SameData (h h1 : List (ArcNode K V)) : Prop :=
  h1.length = h.length ∧
    ∀ i, hKey h1 i = hKey h i ∧ hValue h1 i = hValue h i ∧ hCount h1 i = hCount h i

/-- Two heaps with the same link fields. -/
def SameLinks (h h1 : List (ArcNode K V)) : Prop :=
  h1.length = h.length ∧ ∀ i, hPrev h1 i = hPrev h i ∧ hNext h1 i = hNext h i

/-- The invariant of the recency partition in every reachable state. -/
def ArcLruPart.Inv (s : ArcLruPart K V) : Prop :=
  s.Base ∧ (s.Phase1 ∨ s.Phase2)

/-- What `put`, `get` and `checkGhost` of the recency partition never change: the
capacities, the threshold, and the key of every node that already exists. -/
def ArcLruPart.Frame (s s1 : ArcLruPart K V) : Prop :=
  s1.mainCapacity = s.mainCapacity ∧ s1.ghostCapacity = s.ghostCapacity ∧
    s1.transformThreshold = s.transformThreshold ∧ s.heap.length ≤ s1.heap.length ∧
    ∀ i, i < s.heap.length → hKey s1.heap i = hKey s.heap i

end LruInvariants

/-! ## `ArcLfuPart` -/

/-- The type `FreqMap`: `std::unordered_map<size_t, std::list<NodePtr>>`. -/
abbrev FreqMap := List (Nat × List NodePtr)

/-- Expression `freqListMap[f]` used as a reference: `operator[]` adds an empty list
when the key `f` has no entry. -/
def fmTouch (m : FreqMap) (f : Nat) : FreqMap :=
  match umFind m f with
  | some _ => m
  | none => m ++ [(f, [])]

/-- The data members of `ArcLfuPart` (the mutex apart) and the heap its nodes live in. -/
structure ArcLfuPart (K V : Type) where
  mainCapacity : Nat
  ghostCapacity : Nat
  minFreq : Nat
  transformThreshold : Nat
  mainCache : List (K × NodePtr)
  ghostCache : List (K × NodePtr)
  freqListMap : FreqMap
  ghostHead : NodePtr
  ghostTail : NodePtr
  heap : List (ArcNode K V)
deriving DecidableEq, Repr

namespace ArcLfuPart

variable {K V : Type} [DecidableEq K]

/-- Constructor and `initialiaze`: the two ghost sentinels are allocated and linked. -/
def create [Inhabited K] [Inhabited V] (capacity TransformThreshold : Nat) : ArcLfuPart K V :=
  { mainCapacity := capacity
    ghostCapacity := capacity
    minFreq := 0
    transformThreshold := TransformThreshold
    mainCache := []
    ghostCache := []
    freqListMap := []
    ghostHead := some 0
    ghostTail := some 1
    heap :=
      [ { ArcNode.create default default with next := some 1 },
        { ArcNode.create default default with prev := some 0 } ] }

/-- Source `removeGhostNode`:
`node->prev->next = node->next; node->next->prev = node->prev;`. -/
def removeGhostNode (s : ArcLfuPart K V) (node : NodePtr) : Option (ArcLfuPart K V) := do
  let n ← readNode s.heap node
  let h1 ← writeNode s.heap n.prev (fun x => { x with next := n.next })
  let n1 ← readNode h1 node
  let h2 ← writeNode h1 n1.next (fun x => { x with prev := n1.prev })
  pure { s with heap := h2 }

/-- Source `evictOldestGhost`. -/
def evictOldestGhost (s : ArcLfuPart K V) : Option (ArcLfuPart K V) :=
  if s.ghostCache.isEmpty then some s
  else do
    let gh ← readNode s.heap s.ghostHead
    if gh.next = s.ghostTail then pure s
    else
      let node := gh.next
      let s1 ← removeGhostNode s node
      let n ← readNode s1.heap node
      pure { s1 with ghostCache := umErase s1.ghostCache n.key }

/-- Source `addToGhost`. -/
def addToGhost (s : ArcLfuPart K V) (node : NodePtr) : Option (ArcLfuPart K V) := do
  -- node->accessCount = 1;
  let h0 ← writeNode s.heap node (fun x => { x with accessCount := 1 })
  -- node->next = ghostTail;
  let h1 ← writeNode h0 node (fun x => { x with next := s.ghostTail })
  -- node->prev = ghostTail->prev;
  let t1 ← readNode h1 s.ghostTail
  let h2 ← writeNode h1 node (fun x => { x with prev := t1.prev })
  -- ghostTail->prev->next = node;
  let t2 ← readNode h2 s.ghostTail
  let h3 ← writeNode h2 t2.prev (fun x => { x with next := node })
  -- ghostTail->prev = node;
  let h4 ← writeNode h3 s.ghostTail (fun x => { x with prev := node })
  -- ghostCache[node->getKey()] = node;
  let n ← readNode h4 node
  pure { s with heap := h4, ghostCache := umSet s.ghostCache n.key node }

/-- Source `evictLeastFrequent`.  The argument `order` stands for the iteration order of
`std::unordered_map`, which the C++ standard leaves unspecified: `order m` is the key of
`m.begin()`. -/
def evictLeastFrequent (order : FreqMap → Nat) (s : ArcLfuPart K V) :
    Option (ArcLfuPart K V) :=
  -- auto &minFreqList = freqListMap[minFreq];
  let fm := fmTouch s.freqListMap s.minFreq
  match (umFind fm s.minFreq).getD [] with
  | [] => some { s with freqListMap := fm }
  | node :: rest => do
    -- minFreqList.pop_front();
    let fm1 := umSet fm s.minFreq rest
    let s1 : ArcLfuPart K V :=
      if rest.isEmpty then
        let fm2 := umErase fm1 s.minFreq
        { s with freqListMap := fm2, minFreq := if fm2.isEmpty then 0 else order fm2 }
      else { s with freqListMap := fm1 }
    let s2 ← if s1.ghostCache.length ≥ s1.ghostCapacity then evictOldestGhost s1 else pure s1
    let s3 ← addToGhost s2 node
    let n ← readNode s3.heap node
    pure { s3 with mainCache := umErase s3.mainCache n.key }

/-- Source `addNewNode` (its result is always `true`). -/
def addNewNode (order : FreqMap → Nat) (s : ArcLfuPart K V) (key : K) (value : V) :
    Option (ArcLfuPart K V) := do
  let s1 ← if s.mainCache.length ≥ s.mainCapacity then evictLeastFrequent order s else pure s
  let (h, node) := allocNode s1.heap key value
  let fm := match umFind s1.freqListMap 1 with
    | some _ => s1.freqListMap
    | none => umSet s1.freqListMap 1 []
  let fm1 := umSet fm 1 ((umFind fm 1).getD [] ++ [node])
  pure { s1 with heap := h, freqListMap := fm1, minFreq := 1,
                 mainCache := umSet s1.mainCache key node }

/-- Source `updateNodeFrequency`. -/
def updateNodeFrequency (s : ArcLfuPart K V) (node : NodePtr) : Option (ArcLfuPart K V) := do
  let n ← readNode s.heap node
  let oldFreq := n.accessCount
  let h ← writeNode s.heap node (fun x => x.increaseAccessCount)
  let n1 ← readNode h node
  let newFreq := n1.accessCount
  -- auto &oldList = freqListMap[oldFreq]; oldList.remove(node);
  let fm := fmTouch s.freqListMap oldFreq
  let oldList := ((umFind fm oldFreq).getD []).filter (fun p => p ≠ node)
  let fm1 := umSet fm oldFreq oldList
  let (fm2, mf) :=
    if oldList.isEmpty then
      (umErase fm1 oldFreq, if s.minFreq = oldFreq then newFreq else s.minFreq)
    else (fm1, s.minFreq)
  let fm3 := match umFind fm2 newFreq with
    | some _ => fm2
    | none => umSet fm2 newFreq []
  let fm4 := umSet fm3 newFreq ((umFind fm3 newFreq).getD [] ++ [node])
  pure { s with heap := h, freqListMap := fm4, minFreq := mf }

/-- Source `updateMainNode` (its result is always `true`). -/
def updateMainNode (s : ArcLfuPart K V) (node : NodePtr) (value : V) :
    Option (ArcLfuPart K V) := do
  let h ← writeNode s.heap node (fun x => x.setValue value)
  updateNodeFrequency { s with heap := h } node

/-- Source `put`: the new state and the returned flag. -/
def put (order : FreqMap → Nat) (s : ArcLfuPart K V) (key : K) (value : V) :
    Option (ArcLfuPart K V × Bool) :=
  if s.mainCapacity = 0 then some (s, false)
  else
    match umFind s.mainCache key with
    | some node => do
      let s1 ← updateMainNode s node value
      pure (s1, true)
    | none => do
      let s1 ← addNewNode order s key value
      pure (s1, true)

/-- Source `get(key, value)`: the new state, the returned flag and the contents of the
reference parameter after the call. -/
def get (s : ArcLfuPart K V) (key : K) (value : V) : Option (ArcLfuPart K V × Bool × V) :=
  if s.mainCapacity = 0 then some (s, false, value)
  else
    match umFind s.mainCache key with
    | some node => do
      let n ← readNode s.heap node
      let s1 ← updateNodeFrequency s node
      pure (s1, true, n.value)
    | none => some (s, false, value)

/-- Source `checkGhost`. -/
def checkGhost (s : ArcLfuPart K V) (key : K) : Option (ArcLfuPart K V × Bool) :=
  match umFind s.ghostCache key with
  | some node => do
    let s1 ← removeGhostNode s node
    pure ({ s1 with ghostCache := umErase s1.ghostCache key }, true)
  | none => some (s, false)

/-- Source `increaseCapacity`: `mainCapacity++`. -/
def increaseCapacity (s : ArcLfuPart K V) : ArcLfuPart K V :=
  { s with mainCapacity := (s.mainCapacity + 1) % SIZE_MOD }

/-- Source `decreaseCapacity`: the new state and the returned flag. -/
def decreaseCapacity (order : FreqMap → Nat) (s : ArcLfuPart K V) :
    Option (ArcLfuPart K V × Bool) :=
  if s.mainCapacity = 0 then some (s, false)
  else do
    let s1 ← if s.mainCapacity = s.mainCache.length then evictLeastFrequent order s else pure s
    pure ({ s1 with mainCapacity := s1.mainCapacity - 1 }, true)

end ArcLfuPart

/-! ## Invariants of the frequency partition

The sentinels are the cells `0` (`ghostHead`) and `1` (`ghostTail`); every other cell is
a node made by `addNewNode`.  A node is linked when its `prev` is not `nullptr`, which
happens when it is moved to the ghost list. -/

section LfuInvariants

variable {K V : Type} [DecidableEq K]

/-- The sentinel pointers are the first two cells. -/
def ArcLfuPart.Base (s : ArcLfuPart K V) : Prop :=
  s.ghostHead = some 0 ∧ s.ghostTail = some 1 ∧ 2 ≤ s.heap.length

/-- Cell `p` may be stored in a link field of the ghost list: it is the sentinel `z` or
a linked node. -/
def GPtr (h : List (ArcNode K V)) (z p : Nat) : Prop :=
  p < h.length ∧ (p = z ∨ (2 ≤ p ∧ (hPrev h p).isSome = true))

/-- The link fields of the ghost list only hold sentinels and linked nodes. -/
def GLinks (h : List (ArcNode K V)) : Prop :=
  (∃ c, hNext h 0 = some c ∧ GPtr h 1 c) ∧ (∃ b, hPrev h 1 = some b ∧ GPtr h 0 b) ∧
    ∀ i, 2 ≤ i → i < h.length → ∀ p, hPrev h i = some p →
      GPtr h 0 p ∧ ∃ q, hNext h i = some q ∧ GPtr h 1 q

/-- Every node of a frequency bucket is in the bucket of its access count, once, and is
the entry of its key in the main index. -/
def FreqOk (h : List (ArcNode K V)) (main : List (K × NodePtr)) (fm : FreqMap) : Prop :=
  ∀ f l, umFind fm f = some l → l.Nodup ∧ ∀ p ∈ l, ∃ i k, p = some i ∧ 2 ≤ i ∧
    i < h.length ∧ hCount h i = some f ∧ hKey h i = some k ∧ umFind main k = some (some i)

/-- The invariant of the frequency partition in every reachable state. -/
def ArcLfuPart.Inv (s : ArcLfuPart K V) : Prop :=
  s.Base ∧ GLinks s.heap ∧
    MapOk s.heap s.ghostCache (fun i => 2 ≤ i ∧ (hPrev s.heap i).isSome = true) ∧
    MapOk s.heap s.mainCache (fun i => 2 ≤ i) ∧ FreqOk s.heap s.mainCache s.freqListMap

/-- No key is in the main index and in the ghost index of the frequency partition. -/
def ArcLfuPart.Disj (s : ArcLfuPart K V) : Prop :=
  ∀ k, (umFind s.mainCache k).isSome = true → umFind s.ghostCache k = none

/-- What the operations of the frequency partition other than the capacity changes
never change: the capacities, the threshold, and the key of every node that already
exists. -/
def ArcLfuPart.Frame (s s1 : ArcLfuPart K V) : Prop :=
  s1.mainCapacity = s.mainCapacity ∧ s1.ghostCapacity = s.ghostCapacity ∧
    s1.transformThreshold = s.transformThreshold ∧ s.heap.length ≤ s1.heap.length ∧
    ∀ i, i < s.heap.length → hKey s1.heap i = hKey s.heap i

/-- The statements `if (m.find(f) == m.end()) m[f] = list(); m[f].push_back(node);`. -/
def freqPush (fm0 : FreqMap) (f : Nat) (node : NodePtr) : FreqMap :=
  let fm := match umFind fm0 f with
    | some _ => fm0
    | none => umSet fm0 f []
  umSet fm f ((umFind fm f).getD [] ++ [node])

/-- The bucket bookkeeping of `updateNodeFrequency` for a node that goes from access
count `oldFreq` to `newFreq`: the new `freqListMap` and the new `minFreq`. -/
def freqBump (fm0 : FreqMap) (minFreq oldFreq newFreq : Nat) (node : NodePtr) :
    FreqMap × Nat :=
  let fm := fmTouch fm0 oldFreq
  let oldList := ((umFind fm oldFreq).getD []).filter (fun p => p ≠ node)
  let fm1 := umSet fm oldFreq oldList
  let fm2 := if oldList.isEmpty then umErase fm1 oldFreq else fm1
  let mf := if oldList.isEmpty then (if minFreq = oldFreq then newFreq else minFreq)
    else minFreq
  (freqPush fm2 newFreq node, mf)

/-- The tail of `addNewNode`, after the eviction: the new node is allocated, pushed on
the bucket of frequency 1 and entered in the main index, and `minFreq` becomes 1. -/
def ArcLfuPart.pushNew (s : ArcLfuPart K V) (key : K) (value : V) : ArcLfuPart K V :=
  { s with heap := s.heap ++ [ArcNode.create key value]
           freqListMap := freqPush s.freqListMap 1 (some s.heap.length)
           minFreq := 1
           mainCache := umSet s.mainCache key (some s.heap.length) }

end LfuInvariants

/-! ## `ArcCache` -/

/-- The data members of `ArcCache`. -/
structure ArcCache (K V : Type) where
  capacity : Nat
  transformThreshold : Nat
  lruPart : ArcLruPart K V
  lfuPart : ArcLfuPart K V
deriving DecidableEq, Repr

namespace ArcCache

variable {K V : Type} [DecidableEq K]

/-- Constructor `ArcCache(size_t Capacity = 10, size_t TransformThreshold = 3)`. -/
def create [Inhabited K] [Inhabited V] (Capacity TransformThreshold : Nat) : ArcCache K V :=
  { capacity := Capacity
    transformThreshold := TransformThreshold
    lruPart := ArcLruPart.create (Capacity / 2) TransformThreshold
    lfuPart := ArcLfuPart.create (Capacity / 2) TransformThreshold }

/-- Source `checkGhostCache`: the new state and `inGhost`. -/
def checkGhostCache (order : FreqMap → Nat) (c : ArcCache K V) (key : K) :
    Option (ArcCache K V × Bool) := do
  let (lru1, inLru) ← c.lruPart.checkGhost key
  if inLru then
    let (lfu1, ok) ← c.lfuPart.decreaseCapacity order
    if ok then pure ({ c with lruPart := lru1.increaseCapacity, lfuPart := lfu1 }, true)
    else pure ({ c with lruPart := lru1, lfuPart := lfu1 }, true)
  else
    let (lfu1, inLfu) ← c.lfuPart.checkGhost key
    if inLfu then
      let (lru2, ok) ← lru1.decreaseCapacity
      if ok then pure ({ c with lruPart := lru2, lfuPart := lfu1.increaseCapacity }, true)
      else pure ({ c with lruPart := lru2, lfuPart := lfu1 }, true)
    else pure ({ c with lruPart := lru1, lfuPart := lfu1 }, false)

/-- Source `put`. -/
def put (order : FreqMap → Nat) (c : ArcCache K V) (key : K) (value : V) :
    Option (ArcCache K V) := do
  let (c1, inGhost) ← checkGhostCache order c key
  if !inGhost then
    let (lru1, ok) ← c1.lruPart.put key value
    if ok then
      let (lfu1, _) ← c1.lfuPart.put order key value
      pure { c1 with lruPart := lru1, lfuPart := lfu1 }
    else pure { c1 with lruPart := lru1 }
  else
    let (lru1, _) ← c1.lruPart.put key value
    pure { c1 with lruPart := lru1 }

/-- Source `get(key, value)`: the new state, the returned flag and the contents of the
reference parameter `value` after the call. -/
def get (order : FreqMap → Nat) (c : ArcCache K V) (key : K) (value : V) :
    Option (ArcCache K V × Bool × V) := do
  let (c1, _) ← checkGhostCache order c key
  let (lru1, found, value1, sholdTransform) ← c1.lruPart.get key value false
  if found then
    if sholdTransform then
      let (lfu1, _) ← c1.lfuPart.put order key value1
      pure ({ c1 with lruPart := lru1, lfuPart := lfu1 }, true, value1)
    else pure ({ c1 with lruPart := lru1 }, true, value1)
  else
    let (lfu1, r, value2) ← c1.lfuPart.get key value1
    pure ({ c1 with lruPart := lru1, lfuPart := lfu1 }, r, value2)

/-- Source `get(key)`: `V value{}; get(key, value); return value;`. -/
def getValue [Inhabited V] (order : FreqMap → Nat) (c : ArcCache K V) (key : K) :
    Option (ArcCache K V × V) := do
  let (c1, _, value) ← get order c key default
  pure (c1, value)

end ArcCache

/-! ## Sequences of calls -/

/-- One call of the public interface of `ArcCache`: `put(key, value)` or
`get(key, value)`.  Each call carries the iteration order the frequency partition meets
when it looks for the next lowest frequency (see `ArcLfuPart.evictLeastFrequent`). -/
inductive ArcCall (K V : Type) where
  | put (order : FreqMap → Nat) (key : K) (value : V)
  | get (order : FreqMap → Nat) (key : K) (out : V)

/-- The key argument of a call. -/
def ArcCall.key {K V : Type} : ArcCall K V → K
  | .put _ k _ => k
  | .get _ k _ => k

/-- The iteration order met by a call. -/
def ArcCall.order {K V : Type} : ArcCall K V → (FreqMap → Nat)
  | .put o _ _ => o
  | .get o _ _ => o

/-- The keys that are arguments of a `put` in a list of calls. -/
def ArcCall.putKeys {K V : Type} : List (ArcCall K V) → List K
  | [] => []
  | .put _ k _ :: rest => k :: ArcCall.putKeys rest
  | .get _ _ _ :: rest => ArcCall.putKeys rest

namespace ArcCache

variable {K V : Type} [DecidableEq K]

/-- The state after one call. -/
def call (c : ArcCache K V) : ArcCall K V → Option (ArcCache K V)
  | .put order k v => c.put order k v
  | .get order k out => (c.get order k out).map Prod.fst

/-- The state after a list of calls, the first call of the list being made first. -/
def run (c : ArcCache K V) : List (ArcCall K V) → Option (ArcCache K V)
  | [] => some c
  | a :: rest => (c.call a).bind (fun c1 => run c1 rest)

/-- State `c` is reached from the cache built by `ArcCache(C, T)` by the calls `calls`. -/
def ReachedBy [Inhabited K] [Inhabited V] (C T : Nat) (calls : List (ArcCall K V))
    (c : ArcCache K V) : Prop :=
  (ArcCache.create C T).run calls = some c

/-- State `c` is reached from the cache built by `ArcCache(C, T)` by some calls. -/
def Reachable [Inhabited K] [Inhabited V] (C T : Nat) (c : ArcCache K V) : Prop :=
  ∃ calls, ReachedBy C T calls c

/-- Both capacities are those of `c`. -/
def SameCaps (c c1 : ArcCache K V) : Prop :=
  c1.lruPart.mainCapacity = c.lruPart.mainCapacity ∧
    c1.lfuPart.mainCapacity = c.lfuPart.mainCapacity

/-- From `c` to `c1` one unit of capacity went from the frequency partition to the
recency partition. -/
def LfuToLru (c c1 : ArcCache K V) : Prop :=
  c1.lruPart.mainCapacity = c.lruPart.mainCapacity + 1 ∧
    c1.lfuPart.mainCapacity + 1 = c.lfuPart.mainCapacity

/-- From `c` to `c1` one unit of capacity went from the recency partition to the
frequency partition. -/
def LruToLfu (c c1 : ArcCache K V) : Prop :=
  c1.lfuPart.mainCapacity = c.lfuPart.mainCapacity + 1 ∧
    c1.lruPart.mainCapacity + 1 = c.lruPart.mainCapacity

end ArcCache

/-! ## Invariant of the whole cache -/

section CacheInvariants

variable {K V : Type} [DecidableEq K]

/-- Every node from cell `n` on carries a key of `S`. -/
def NodeKeys (h : List (ArcNode K V)) (n : Nat) (S : List K) : Prop :=
  ∀ i, n ≤ i → i < h.length → ∃ k, hKey h i = some k ∧ k ∈ S

/-- The invariant of `ArcCache` in every state reached from `ArcCache(C, T)` by calls
whose `put` keys are in `S`. -/
def ArcCache.Inv (C T : Nat) (S : List K) (c : ArcCache K V) : Prop :=
  c.lruPart.Inv ∧ c.lfuPart.Inv ∧
    c.lruPart.mainCapacity + c.lfuPart.mainCapacity = 2 * (C / 2) ∧
    c.lruPart.transformThreshold = T ∧
    NodeKeys c.lruPart.heap 4 S ∧ NodeKeys c.lfuPart.heap 2 S ∧
    (3 ≤ T → c.lfuPart.Disj)

end CacheInvariants

/-! ## Scenarios on one partition -/

/-- One admissible iteration order of the frequency map: `begin()` is the first entry of
the association list.  The value on the empty map is never read by the source. -/
def firstKey (m : FreqMap) : Nat :=
  match m with
  | [] => 0
  | (f, _) :: _ => f

/-- The recency partition after `put` of each pair of the list, in order. -/
def ArcLruPart.putAll {K V : Type} [DecidableEq K] (s : ArcLruPart K V) :
    List (K × V) → Option (ArcLruPart K V)
  | [] => some s
  | (k, v) :: rest => (s.put k v).bind (fun r => ArcLruPart.putAll r.1 rest)

/-- The frequency partition after `put` of each pair of the list, in order. -/
def ArcLfuPart.putAll {K V : Type} [DecidableEq K] (order : FreqMap → Nat)
    (s : ArcLfuPart K V) : List (K × V) → Option (ArcLfuPart K V)
  | [] => some s
  | (k, v) :: rest => (s.put order k v).bind (fun r => ArcLfuPart.putAll order r.1 rest)

/-- The frequency partition after `get(key, out)` of each pair of the list, in order. -/
def ArcLfuPart.getAll {K V : Type} [DecidableEq K] (s : ArcLfuPart K V) :
    List (K × V) → Option (ArcLfuPart K V)
  | [] => some s
  | (k, out) :: rest => (s.get k out).bind (fun r => ArcLfuPart.getAll r.1 rest)

/-- The state after the calls `calls` made on `ArcCache(C, T)` with `int` keys and
values; it is used for the concrete scenarios. -/
def ArcCache.after (C T : Nat) (calls : List (ArcCall Nat Nat)) : ArcCache Nat Nat :=
  ((ArcCache.create C T).run calls).getD (ArcCache.create C T)

/-- The states of the scenario "`put(k, v)` on the fresh cache, then `get(k)` calls":
the key is in both main indexes with the value `v` and in no ghost index. -/
def ArcCache.Holds {K V : Type} [DecidableEq K] (C T : Nat) (k : K) (v : V)
    (c : ArcCache K V) : Prop :=
  c.Inv C T [k] ∧ c.lruPart.mainCapacity ≠ 0 ∧ c.lfuPart.mainCapacity ≠ 0 ∧
    umFind c.lruPart.ghostCache k = none ∧ umFind c.lfuPart.ghostCache k = none ∧
    (∃ y, umFind c.lruPart.mainCache k = some (some y) ∧ hValue c.lruPart.heap y = some v) ∧
    (∃ z, umFind c.lfuPart.mainCache k = some (some z) ∧ hValue c.lfuPart.heap z = some v)

/-- The states of the scenario "`put` of the distinct keys `ks` into the empty frequency
partition of capacity `c`, then one `get` of each key of `G`": nothing was evicted, the
keys not in `G` are in the bucket of frequency 1, the keys of `G` have frequency 2. -/
def ArcLfuPart.Scene {K V : Type} [DecidableEq K] (c : Nat) (ks G : List K)
    (s : ArcLfuPart K V) : Prop :=
  s.Inv ∧ s.mainCapacity = c ∧ s.ghostCapacity = c ∧ s.ghostCache = [] ∧
    s.mainCache.length = ks.length ∧
    (∀ k, (umFind s.mainCache k).isSome = true ↔ k ∈ ks) ∧
    ((∃ k, k ∈ ks ∧ k ∉ G) → s.minFreq = 1) ∧
    (∀ k, k ∈ ks → k ∉ G → ∃ i l, umFind s.mainCache k = some (some i) ∧
      umFind s.freqListMap 1 = some l ∧ some i ∈ l) ∧
    (∀ k, k ∈ G → ∃ i, umFind s.mainCache k = some (some i) ∧ hCount s.heap i = some 2)

/-! ## What one call of `ArcCache` does to each partition -/

section Steps

variable {K V : Type} [DecidableEq K]

/-- What `checkGhostCache` does to the recency partition: nothing (a miss of
`checkGhost`, or a `decreaseCapacity` that is not reached), a hit of `checkGhost`
followed or not by `increaseCapacity` (which does not wrap), or `decreaseCapacity`. -/
def ArcLruPart.GhostStep (k : K) (s s1 : ArcLruPart K V) : Prop :=
  s1 = s ∨
    (∃ l, s.checkGhost k = some (l, true) ∧
      (s1 = l ∨ (s1 = l.increaseCapacity ∧ s1.mainCapacity = l.mainCapacity + 1))) ∨
    (∃ ok, s.decreaseCapacity = some (s1, ok))

/-- What `checkGhostCache` does to the frequency partition: nothing,
`decreaseCapacity`, or a hit of `checkGhost` followed or not by `increaseCapacity`
(which does not wrap). -/
def ArcLfuPart.GhostStep (order : FreqMap → Nat) (k : K) (s s1 : ArcLfuPart K V) : Prop :=
  s1 = s ∨ (∃ ok, s.decreaseCapacity order = some (s1, ok)) ∨
    (∃ l, s.checkGhost k = some (l, true) ∧
      (s1 = l ∨ (s1 = l.increaseCapacity ∧ s1.mainCapacity = l.mainCapacity + 1)))

/-- What `put` and `get` of `ArcCache` do to the frequency partition after
`checkGhostCache`: nothing, a `put` or a `get` of the key. -/
def ArcLfuPart.MainStep (order : FreqMap → Nat) (k : K) (s s1 : ArcLfuPart K V) : Prop :=
  s1 = s ∨ (∃ v ok, s.put order k v = some (s1, ok)) ∨
    (∃ out r val, s.get k out = some (s1, r, val))

/-- What `put` and `get` of `ArcCache` do to the recency partition after
`checkGhostCache`: a `put` or a `get` of the key. -/
def ArcLruPart.MainStep (k : K) (s s1 : ArcLruPart K V) : Prop :=
  (∃ v ok, s.put k v = some (s1, ok)) ∨
    (∃ out r val st, s.get k out false = some (s1, r, val, st))

end Steps

/-! ## Sequences of calls on one partition -/

/-- One call of the interface of `ArcLruPart`. -/
inductive LruCall (K V : Type) where
  | put (key : K) (value : V)
  | get (key : K) (out : V)
  | checkGhost (key : K)
  | increaseCapacity
  | decreaseCapacity

/-- One call of the interface of `ArcLfuPart`; a call that may evict carries the
iteration order it meets (see `ArcLfuPart.evictLeastFrequent`). -/
inductive LfuCall (K V : Type) where
  | put (order : FreqMap → Nat) (key : K) (value : V)
  | get (key : K) (out : V)
  | checkGhost (key : K)
  | increaseCapacity
  | decreaseCapacity (order : FreqMap → Nat)

/-- The state after one call on the recency partition. -/
def ArcLruPart.call {K V : Type} [DecidableEq K] (s : ArcLruPart K V) :
    LruCall K V → Option (ArcLruPart K V)
  | .put k v => (s.put k v).map Prod.fst
  | .get k out => (s.get k out false).map Prod.fst
  | .checkGhost k => (s.checkGhost k).map Prod.fst
  | .increaseCapacity => some s.increaseCapacity
  | .decreaseCapacity => s.decreaseCapacity.map Prod.fst

/-- The state after a list of calls on the recency partition, the first call of the list
being made first. -/
def ArcLruPart.run {K V : Type} [DecidableEq K] (s : ArcLruPart K V) :
    List (LruCall K V) → Option (ArcLruPart K V)
  | [] => some s
  | a :: rest => (s.call a).bind (fun s1 => ArcLruPart.run s1 rest)

/-- State `s` is reached from the partition built by `ArcLruPart(c, T)` by the calls
`calls`. -/
def ArcLruPart.ReachedBy {K V : Type} [DecidableEq K] [Inhabited K] [Inhabited V]
    (c T : Nat) (calls : List (LruCall K V)) (s : ArcLruPart K V) : Prop :=
  (ArcLruPart.create c T).run calls = some s

/-- The state after the calls `calls` made on `ArcLruPart(c, T)` with `int` keys and
values; it is used for the concrete scenarios. -/
def ArcLruPart.after (c T : Nat) (calls : List (LruCall Nat Nat)) : ArcLruPart Nat Nat :=
  ((ArcLruPart.create c T).run calls).getD (ArcLruPart.create c T)

/-- The state after one call on the frequency partition. -/
def ArcLfuPart.call {K V : Type} [DecidableEq K] (s : ArcLfuPart K V) :
    LfuCall K V → Option (ArcLfuPart K V)
  | .put order k v => (s.put order k v).map Prod.fst
  | .get k out => (s.get k out).map Prod.fst
  | .checkGhost k => (s.checkGhost k).map Prod.fst
  | .increaseCapacity => some s.increaseCapacity
  | .decreaseCapacity order => (s.decreaseCapacity order).map Prod.fst

/-- The state after a list of calls on the frequency partition, the first call of the
list being made first. -/
def ArcLfuPart.run {K V : Type} [DecidableEq K] (s : ArcLfuPart K V) :
    List (LfuCall K V) → Option (ArcLfuPart K V)
  | [] => some s
  | a :: rest => (s.call a).bind (fun s1 => ArcLfuPart.run s1 rest)

/-- State `s` is reached from the partition built by `ArcLfuPart(c, T)` by the calls
`calls`. -/
def ArcLfuPart.ReachedBy {K V : Type} [DecidableEq K] [Inhabited K] [Inhabited V]
    (c T : Nat) (calls : List (LfuCall K V)) (s : ArcLfuPart K V) : Prop :=
  (ArcLfuPart.create c T).run calls = some s

/-- The state after the calls `calls` made on `ArcLfuPart(c, T)` with `int` keys and
values; it is used for the concrete scenarios. -/
def ArcLfuPart.after (c T : Nat) (calls : List (LfuCall Nat Nat)) : ArcLfuPart Nat Nat :=
  ((ArcLfuPart.create c T).run calls).getD (ArcLfuPart.create c T)

/-! ## `ClockCache`

The vector `clockList` holds one shared pointer per slot and no node is shared between
two slots, so a slot is modelled by the node itself.  An index outside the vector and a
remainder by zero are undefined behaviour in the source; the model stops there with a
fault.  The loop of `put` runs on fuel. -/

/-- Source `ClockNode`. -/
structure ClockNode (K V : Type) where
  key : K
  value : V
  reference : Bool
  dirty : Bool
deriving DecidableEq, Repr

/-- Constructor `ClockNode(k, v)`. -/
def ClockNode.create {K V : Type} (k : K) (v : V) : ClockNode K V :=
  { key := k, value := v, reference := false, dirty := false }

/-- Why a run of the `ClockCache` model stopped without a result. -/
inductive ClockFault where
  | outOfRange
  | remainderByZero
  | outOfFuel
deriving DecidableEq, Repr

/-- The data members of `ClockCache` (the mutex apart). -/
structure ClockCache (K V : Type) where
  nodeMap : List (K × Nat)
  clockList : List (ClockNode K V)
  capacity : Nat
  size : Nat
  clockHand : Nat
deriving DecidableEq, Repr

namespace ClockCache

variable {K V : Type} [DecidableEq K]

/-- Constructor `ClockCache(size_t capacity)`. -/
def create (capacity : Nat) : ClockCache K V :=
  { nodeMap := [], clockList := [], capacity := capacity, size := 0, clockHand := 0 }

/-- The expression `clockList[i]`. -/
def slot (s : ClockCache K V) (i : Nat) : Except ClockFault (ClockNode K V) :=
  match s.clockList[i]? with
  | some n => pure n
  | none => throw ClockFault.outOfRange

/-- Source `get(key, value)`: the new state, the returned flag and the contents of the
reference parameter after the call. -/
def get (s : ClockCache K V) (key : K) (value : V) :
    Except ClockFault (ClockCache K V × Bool × V) :=
  match umFind s.nodeMap key with
  | none => pure (s, false, value)
  | some i => do
    let n ← s.slot i
    pure ({ s with clockList := s.clockList.set i { n with reference := true } }, true,
      n.value)

/-- The loop `while (true)` of source `put`, with `fuel` iterations at most. -/
def sweep (key : K) (value : V) : Nat → ClockCache K V → Except ClockFault (ClockCache K V)
  | 0, _ => throw ClockFault.outOfFuel
  | fuel + 1, s => do
    let n ← s.slot s.clockHand
    if n.reference then
      if s.capacity = 0 then throw ClockFault.remainderByZero
      else
        sweep key value fuel
          { s with clockList := s.clockList.set s.clockHand { n with reference := false }
                   clockHand := ((s.clockHand + 1) % SIZE_MOD) % s.capacity }
    else
      -- both branches of the test of `dirty` replace the node in the same way
      pure { s with nodeMap := umSet (umErase s.nodeMap n.key) key s.clockHand
                    clockList := s.clockList.set s.clockHand
                      { ClockNode.create key value with reference := true } }

/-- Source `put`; `fuel` bounds the iterations of its loop. -/
def put (fuel : Nat) (s : ClockCache K V) (key : K) (value : V) :
    Except ClockFault (ClockCache K V) :=
  match umFind s.nodeMap key with
  | some i => do
    let n ← s.slot i
    pure { s with clockList :=
      s.clockList.set i { n with value := value, reference := true, dirty := true } }
  | none =>
    if s.size < s.capacity then
      pure { s with clockList := s.clockList ++ [ClockNode.create key value]
                    nodeMap := umSet s.nodeMap key s.size
                    size := (s.size + 1) % SIZE_MOD }
    else sweep key value fuel s

end ClockCache

/-! ## The buckets of the frequency partition -/

/-- An iteration order of the frequency map is admissible when, on every map that is not
empty, it yields a key of the map, as `begin()->first` does. -/
def Admissible (order : FreqMap → Nat) : Prop :=
  ∀ m : FreqMap, m ≠ [] → (umFind m (order m)).isSome = true

/-- The buckets cover the main index: every node of the main index is in a bucket, no
bucket is empty, and `minFreq` is the frequency of a bucket unless the main index is
empty. -/
def Buckets {K : Type} [DecidableEq K] (main : List (K × NodePtr)) (fm : FreqMap)
    (mf : Nat) : Prop :=
  (∀ k i, umFind main k = some (some i) → ∃ f l, umFind fm f = some l ∧ some i ∈ l) ∧
    (∀ f l, umFind fm f = some l → l ≠ []) ∧
    (main ≠ [] → (umFind fm mf).isSome = true)

/-- The buckets cover the main index, and the main index holds at most `mainCapacity`
keys. -/
def ArcLfuPart.Tidy {K V : Type} [DecidableEq K] (s : ArcLfuPart K V) : Prop :=
  Buckets s.mainCache s.freqListMap s.minFreq ∧ s.mainCache.length ≤ s.mainCapacity

/-! ## Calls on one key, and the iteration order of the buckets -/

/-- The calls `put(k, _)` and `get(k, _)` of the recency partition. -/
def LruCall.onKey {K V : Type} (k : K) : LruCall K V → Prop
  | .put k1 _ => k1 = k
  | .get k1 _ => k1 = k
  | _ => False

/-- The number of `get` calls in a list of calls. -/
def LruCall.gets {K V : Type} : List (LruCall K V) → Nat
  | [] => 0
  | .get _ _ :: rest => LruCall.gets rest + 1
  | _ :: rest => LruCall.gets rest

/-- Another admissible iteration order of the frequency map: `begin()` is the entry that
was inserted last (the last entry of the association list). -/
def lastKey (m : FreqMap) : Nat :=
  match m.getLast? with
  | some (f, _) => f
  | none => 0

/-- The iteration order met by a call of the frequency partition is admissible. -/
def LfuCall.Admissible {K V : Type} : LfuCall K V → Prop
  | .put order _ _ => mycache.Admissible order
  | .decreaseCapacity order => mycache.Admissible order
  | _ => True

/-- The number of `increaseCapacity` calls in a list of calls. -/
def LfuCall.increases {K V : Type} : List (LfuCall K V) → Nat
  | [] => 0
  | .increaseCapacity :: rest => LfuCall.increases rest + 1
  | _ :: rest => LfuCall.increases rest

/-! ## `LruCache` and `LruKCache` (`LruCache.h`)

The same conventions as for the ARC partitions: a `std::shared_ptr<LruNode>` is a
`NodePtr` into the heap of the nodes ever allocated by the cache, every statement that
dereferences a pointer reads or writes the heap in source order, and dereferencing
`nullptr` yields `none`. -/

/-- The class `LruNode` of `LruCache.h`. -/
structure LruNode (K V : Type) where
  key : K
  value : V
  prev : NodePtr
  next : NodePtr
deriving DecidableEq, Repr

/-- Constructor `LruNode(const K& k, const V& v)`. -/
def LruNode.create {K V : Type} (k : K) (v : V) : LruNode K V :=
  { key := k, value := v, prev := none, next := none }

/-- Method `setValue`. -/
def LruNode.setValue {K V : Type} (n : LruNode K V) (v : V) : LruNode K V :=
  { n with value := v }

/-- Read `*p`; `none` when `p` is `nullptr`. -/
def readLru {K V : Type} (h : List (LruNode K V)) (p : NodePtr) : Option (LruNode K V) :=
  match p with
  | none => none
  | some i => h[i]?

/-- Update `*p` in place; `none` when `p` is `nullptr`. -/
def writeLru {K V : Type} (h : List (LruNode K V)) (p : NodePtr)
    (f : LruNode K V → LruNode K V) : Option (List (LruNode K V)) :=
  match p with
  | none => none
  | some i =>
    match h[i]? with
    | none => none
    | some n => some (h.set i (f n))

/-- Allocation by `std::make_shared<LruNodeType>(k, v)`: a fresh node at the end of the
heap. -/
def allocLru {K V : Type} (h : List (LruNode K V)) (k : K) (v : V) :
    List (LruNode K V) × NodePtr :=
  (h ++ [LruNode.create k v], some h.length)

/-- Field `prev` of cell `i` (`none` also when the cell does not exist). -/
def lPrev {K V : Type} (h : List (LruNode K V)) (i : Nat) : NodePtr :=
  match h[i]? with
  | some n => n.prev
  | none => none

/-- Field `next` of cell `i`. -/
def lNext {K V : Type} (h : List (LruNode K V)) (i : Nat) : NodePtr :=
  match h[i]? with
  | some n => n.next
  | none => none

/-- Field `key` of cell `i`. -/
def lKey {K V : Type} (h : List (LruNode K V)) (i : Nat) : Option K :=
  match h[i]? with
  | some n => some n.key
  | none => none

/-- Field `value` of cell `i`. -/
def lValue {K V : Type} (h : List (LruNode K V)) (i : Nat) : Option V :=
  match h[i]? with
  | some n => some n.value
  | none => none

/-- The data members of `LruCache` (the mutex apart) and the heap its nodes live in. -/
structure LruCache (K V : Type) where
  capacity : Nat
  nodeMap : List (K × NodePtr)
  head : NodePtr
  tail : NodePtr
  heap : List (LruNode K V)
deriving DecidableEq, Repr

namespace LruCache

variable {K V : Type} [DecidableEq K]

/-- Constructor `LruCache(size_t n)`: the two sentinels are allocated and linked. -/
def create [Inhabited K] [Inhabited V] (n : Nat) : LruCache K V :=
  { capacity := n
    nodeMap := []
    head := some 0
    tail := some 1
    heap :=
      [ { LruNode.create default default with next := some 1 },
        { LruNode.create default default with prev := some 0 } ] }

/-- Source `removeNode`:
`node->prev->next = node->next; node->next->prev = node->prev;`. -/
def removeNode (s : LruCache K V) (node : NodePtr) : Option (LruCache K V) := do
  let n ← readLru s.heap node
  let h1 ← writeLru s.heap n.prev (fun x => { x with next := n.next })
  let n1 ← readLru h1 node
  let h2 ← writeLru h1 n1.next (fun x => { x with prev := n1.prev })
  pure { s with heap := h2 }

/-- Source `insertNode`. -/
def insertNode (s : LruCache K V) (node : NodePtr) : Option (LruCache K V) := do
  -- node->next = tail;
  let h1 ← writeLru s.heap node (fun x => { x with next := s.tail })
  -- node->prev = tail->prev;
  let t1 ← readLru h1 s.tail
  let h2 ← writeLru h1 node (fun x => { x with prev := t1.prev })
  -- tail->prev->next = node;
  let t2 ← readLru h2 s.tail
  let h3 ← writeLru h2 t2.prev (fun x => { x with next := node })
  -- tail->prev = node;
  let h4 ← writeLru h3 s.tail (fun x => { x with prev := node })
  pure { s with heap := h4 }

/-- Source `kickOut`. -/
def kickOut (s : LruCache K V) : Option (LruCache K V) := do
  -- LruNodePtr leastRecentNode = head->next;
  let hd ← readLru s.heap s.head
  let leastRecentNode := hd.next
  let s1 ← removeNode s leastRecentNode
  -- nodeMap.erase(leastRecentNode->getKey());
  let n ← readLru s1.heap leastRecentNode
  pure { s1 with nodeMap := umErase s1.nodeMap n.key }

/-- Source `addNewNode`. -/
def addNewNode (s : LruCache K V) (key : K) (value : V) : Option (LruCache K V) := do
  let s1 ← if s.nodeMap.length ≥ s.capacity then kickOut s else pure s
  let (h, newNode) := allocLru s1.heap key value
  let s2 ← insertNode { s1 with heap := h } newNode
  pure { s2 with nodeMap := umSet s2.nodeMap key newNode }

/-- Source `moveNodeToRecent`. -/
def moveNodeToRecent (s : LruCache K V) (node : NodePtr) : Option (LruCache K V) := do
  let s1 ← removeNode s node
  insertNode s1 node

/-- Source `updateNode`. -/
def updateNode (s : LruCache K V) (node : NodePtr) (value : V) : Option (LruCache K V) := do
  let h ← writeLru s.heap node (fun x => x.setValue value)
  moveNodeToRecent { s with heap := h } node

/-- Source `put`. -/
def put (s : LruCache K V) (key : K) (value : V) : Option (LruCache K V) :=
  if s.capacity = 0 then some s
  else
    match umFind s.nodeMap key with
    | some node => updateNode s node value
    | none => addNewNode s key value

/-- Source `get(key, value)`: the new state, the returned flag and the content of the
reference parameter `value` on return. -/
def get (s : LruCache K V) (key : K) (value : V) : Option (LruCache K V × Bool × V) :=
  if s.capacity = 0 then some (s, false, value)
  else
    match umFind s.nodeMap key with
    | some node => do
      let s1 ← moveNodeToRecent s node
      let n ← readLru s1.heap node
      pure (s1, true, n.value)
    | none => some (s, false, value)

/-- Source `get(key)`: `V value{}; get(key, value); return value;`. -/
def getValue [Inhabited V] (s : LruCache K V) (key : K) : Option (LruCache K V × V) := do
  let (s1, _, value) ← get s key default
  pure (s1, value)

/-- Source `remove`: the node is unlinked, `nodeMap` is not touched. -/
def remove (s : LruCache K V) (key : K) : Option (LruCache K V) :=
  if s.capacity = 0 then some s
  else
    match umFind s.nodeMap key with
    | some node => removeNode s node
    | none => some s

/-- Source `purge`. -/
def purge (s : LruCache K V) : Option (LruCache K V) := do
  let h1 ← writeLru s.heap s.head (fun x => { x with next := s.tail })
  let h2 ← writeLru h1 s.tail (fun x => { x with prev := s.head })
  pure { s with nodeMap := [], heap := h2 }

end LruCache

/-- One call of `put` or `get(key, value)` on an `LruCache`, or on an `LruKCache`. -/
inductive CacheCall (K V : Type) where
  | put (key : K) (value : V)
  | get (key : K) (value : V)
deriving DecidableEq, Repr

/-- The key a call is about. -/
def CacheCall.key {K V : Type} : CacheCall K V → K
  | .put key _ => key
  | .get key _ => key

/-- What a call hands back: nothing for `put`, the flag and the content of `value` for
`get`. -/
abbrev CallResult (V : Type) := Option (Bool × V)

/-- One call on an `LruCache`. -/
def LruCache.call {K V : Type} [DecidableEq K] (s : LruCache K V) :
    CacheCall K V → Option (LruCache K V × CallResult V)
  | .put key value => (s.put key value).map (fun s1 => (s1, none))
  | .get key value => (s.get key value).map (fun r => (r.1, some r.2))

/-- A list of calls in order, with the results of all of them. -/
def LruCache.run {K V : Type} [DecidableEq K] (s : LruCache K V) :
    List (CacheCall K V) → Option (LruCache K V × List (CallResult V))
  | [] => some (s, [])
  | a :: rest => do
    let (s1, r) ← s.call a
    let (s2, rs) ← LruCache.run s1 rest
    pure (s2, r :: rs)

/-! ### The reference recency model

The second definition of the recency cache, written from the words of the
specification: the keys put so far in the order of their last use, and the last value
put for each. -/

/-- The reference model: the capacity, and the distinct keys put so far, most recently
used first, each with the last value put for it. -/
structure RecencyModel (K V : Type) where
  capacity : Nat
  used : List (K × V)
deriving DecidableEq, Repr

namespace RecencyModel

variable {K V : Type} [DecidableEq K]

/-- No key has been put. -/
def create (c : Nat) : RecencyModel K V := { capacity := c, used := [] }

/-- The cached entries: the `min(c, d)` most recently used of the `d` distinct keys put so
far. -/
def cached (r : RecencyModel K V) : List (K × V) :=
  r.used.take (min r.capacity r.used.length)

/-- A use of `k` with value `v`: `k` becomes the most recently used key. -/
def touch (r : RecencyModel K V) (k : K) (v : V) : RecencyModel K V :=
  { r with used := (k, v) :: r.used.filter (fun e => decide (e.1 ≠ k)) }

/-- A `put` uses the key and records the value. -/
def put (r : RecencyModel K V) (k : K) (v : V) : RecencyModel K V := r.touch k v

/-- A `get` hits exactly when the key is cached and returns the last value put for it; a
hit uses the key, a miss changes nothing. -/
def get (r : RecencyModel K V) (k : K) (out : V) : RecencyModel K V × Bool × V :=
  match umFind r.cached k with
  | some v => (r.touch k v, true, v)
  | none => (r, false, out)

/-- One call on the reference model. -/
def call (r : RecencyModel K V) : CacheCall K V → RecencyModel K V × CallResult V
  | .put key value => (r.put key value, none)
  | .get key value => ((r.get key value).1, some (r.get key value).2)

/-- A list of calls in order, with the results of all of them. -/
def run (r : RecencyModel K V) : List (CacheCall K V) → RecencyModel K V × List (CallResult V)
  | [] => (r, [])
  | a :: rest => ((RecencyModel.run (r.call a).1 rest).1,
      (r.call a).2 :: (RecencyModel.run (r.call a).1 rest).2)

end RecencyModel

/-! ### `LruKCache` -/

/-- Largest value of `int`. -/
def INT_MAX : Int := 2 ^ 31 - 1

/-- Conversion of a `size_t` to `int` (`int historyCount = historyList->get(key)`): the low
32 bits in two's complement. -/
def toInt (v : Nat) : Int := ((v + 2 ^ 31) % 2 ^ 32 : Nat) - 2 ^ 31

/-- Conversion of an `int` to `size_t` (the argument `historyCount + 1` of
`historyList->put`). -/
def toSize (i : Int) : Nat := (i % 2 ^ 64).toNat

/-- The class `LruKCache`: the base class subobject `LruCache<K,V>`, `k` and the history
list. -/
structure LruKCache (K V : Type) where
  base : LruCache K V
  k : Int
  historyList : LruCache K Nat
deriving DecidableEq, Repr

namespace LruKCache

variable {K V : Type} [DecidableEq K]

/-- Constructor `LruKCache(size_t n, size_t historyCapacity, int k_)`. -/
def create [Inhabited K] [Inhabited V] (n historyCapacity : Nat) (k_ : Int) : LruKCache K V :=
  { base := LruCache.create n, k := k_, historyList := LruCache.create historyCapacity }

/-- The two statements `int historyCount = historyList->get(key);
historyList->put(key, historyCount + 1);`: the new history list and `historyCount`.
`historyCount + 1` overflows `int` when `historyCount` is `INT_MAX`, which is undefined
behaviour. -/
def count (hl : LruCache K Nat) (key : K) : Option (LruCache K Nat × Int) := do
  let (h1, v) ← hl.getValue key
  let historyCount := toInt v
  if historyCount = INT_MAX then none
  else
    let h2 ← h1.put key (toSize (historyCount + 1))
    pure (h2, historyCount)

/-- Source `put`. -/
def put [Inhabited V] (s : LruKCache K V) (key : K) (value : V) : Option (LruKCache K V) := do
  -- V tempValue{}; if(LruCache<K,V>::get(key,tempValue))
  let (b1, found, _) ← s.base.get key default
  if found then
    let b2 ← b1.put key value
    pure { s with base := b2 }
  else
    let (h2, historyCount) ← count s.historyList key
    if historyCount ≥ s.k then
      let h3 ← h2.remove key
      let b2 ← b1.put key value
      pure { s with base := b2, historyList := h3 }
    else
      pure { s with base := b1, historyList := h2 }

/-- Source `get(key, value)`. -/
def get (s : LruKCache K V) (key : K) (value : V) : Option (LruKCache K V × Bool × V) := do
  let (h2, _) ← count s.historyList key
  let (b1, found, out) ← s.base.get key value
  pure ({ s with base := b1, historyList := h2 }, found, out)

/-- One call on an `LruKCache`. -/
def call [Inhabited V] (s : LruKCache K V) :
    CacheCall K V → Option (LruKCache K V × CallResult V)
  | .put key value => (s.put key value).map (fun s1 => (s1, none))
  | .get key value => (s.get key value).map (fun r => (r.1, some r.2))

/-- A list of calls in order: the final state. -/
def run [Inhabited V] (s : LruKCache K V) : List (CacheCall K V) → Option (LruKCache K V)
  | [] => some s
  | a :: rest => do
    let (s1, _) ← s.call a
    LruKCache.run s1 rest

end LruKCache

/-- How often the key `k` was passed to `put` or `get` in a list of calls. -/
def CacheCall.uses {K V : Type} [DecidableEq K] (k : K) (calls : List (CacheCall K V)) : Nat :=
  (calls.filter (fun a => decide (a.key = k))).length

/-! ## The heap of an `LruCache` -/

/-- The list from the tail sentinel `b` back to the head sentinel `a`: the nodes `ys`,
most recently used first, each linked to its neighbours in both directions. -/
def LruSeg {K V : Type} (h : List (LruNode K V)) : Nat → List Nat → Nat → Prop
  | b, [], a => lPrev h b = some a ∧ lNext h a = some b
  | b, y :: ys, a => lPrev h b = some y ∧ lNext h y = some b ∧ LruSeg h y ys a

/-- The key and the value of cell `i`. -/
def lEntry {K V : Type} (h : List (LruNode K V)) (i : Nat) : Option (K × V) :=
  match lKey h i, lValue h i with
  | some k, some v => some (k, v)
  | _, _ => none

/-- The state of an `LruCache` that holds the nodes `ys`, most recently used first: the
list between the sentinels is `ys`, and `nodeMap` has one entry for the key of each
node of `ys`. -/
def LruCache.Listed {K V : Type} [DecidableEq K] (s : LruCache K V) (ys : List Nat) : Prop :=
  s.head = some 0 ∧ s.tail = some 1 ∧ LruSeg s.heap 1 ys 0 ∧ (1 :: ys ++ [0]).Nodup ∧
  (s.nodeMap.map Prod.fst).Nodup ∧ s.nodeMap.length = ys.length ∧
  (∀ k p, umFind s.nodeMap k = some p ↔ ∃ y ∈ ys, p = some y ∧ lKey s.heap y = some k)

/-- The state `s` of an `LruCache` of capacity `c` stands for the state `r` of the
reference model: the nodes of the list, most recently used first, carry the first
entries of `r.used`, and the list is shorter than `c` only when it carries all of them. -/
def LruCache.Sim {K V : Type} [DecidableEq K] (c : Nat) (s : LruCache K V)
    (r : RecencyModel K V) : Prop :=
  s.capacity = c ∧ r.capacity = c ∧ (r.used.map Prod.fst).Nodup ∧
  ∃ ys old, s.Listed ys ∧ r.used = ys.filterMap (lEntry s.heap) ++ old ∧
    ys.length ≤ c ∧ (ys.length < c → old = [])

/-- The last value put for the key `k` in a list of calls, `none` when `k` was not put. -/
def CacheCall.lastPut {K V : Type} [DecidableEq K] (k : K) : List (CacheCall K V) → Option V
  | [] => none
  | .put key value :: rest =>
    match CacheCall.lastPut k rest with
    | some v => some v
    | none => if key = k then some value else none
  | .get _ _ :: rest => CacheCall.lastPut k rest

/-- The state `s1` has the capacity, the index, and the keys and values of all cells of
`s`: only links differ. -/
def LruCache.SameData {K V : Type} (s s1 : LruCache K V) : Prop :=
  s1.capacity = s.capacity ∧ s1.nodeMap = s.nodeMap ∧ s1.head = s.head ∧ s1.tail = s.tail ∧
  s1.heap.length = s.heap.length ∧ (∀ j, lKey s1.heap j = lKey s.heap j) ∧
  (∀ j, lValue s1.heap j = lValue s.heap j)

/-- Every entry of `nodeMap` points to an allocated node that carries the key of the
entry and a value for which `P` holds. -/
def LruCache.Keyed {K V : Type} [DecidableEq K] (s : LruCache K V) (P : K → V → Prop) : Prop :=
  ∀ key p, umFind s.nodeMap key = some p →
    ∃ y v, p = some y ∧ lKey s.heap y = some key ∧ lValue s.heap y = some v ∧ P key v

/-- The state of an `LruKCache` after the calls `past`: every count in the history list
is at most the number of calls that passed its key and is below `2 ^ 31`, and every key of
the main cache was admitted by a `put` that came after at least `k` calls passing it. -/
def LruKCache.Inv {K V : Type} [DecidableEq K] (past : List (CacheCall K V))
    (s : LruKCache K V) : Prop :=
  s.historyList.Keyed (fun key v => v ≤ CacheCall.uses key past ∧ v < 2 ^ 31) ∧
  ∀ key, (umFind s.base.nodeMap key).isSome = true →
    ∃ pre v post, past = pre ++ CacheCall.put key v :: post ∧
      s.k ≤ ((CacheCall.uses key pre : Nat) : Int)

/-- The state after a list of calls on `LruKCache(n, historyCapacity, k)` over `Nat`; the
fresh cache when the calls do not return. -/
def LruKCache.after (n historyCapacity : Nat) (k : Int) (calls : List (CacheCall Nat Nat)) :
    LruKCache Nat Nat :=
  ((LruKCache.create n historyCapacity k).run calls).getD (LruKCache.create n historyCapacity k)

/-! ## The placement of the locks in the ARC partitions

The functional model runs every operation to completion on its own.  Where the source
takes the mutex is modelled apart: the body of every method as the list of its steps in
textual order (the statements of both branches of every `if`; a call of a private helper
contributes the steps of the helper), each step taking the mutex or reading or writing a
part of the state of the partition. -/

/-- The parts of the state of a partition: the data members, the links of the main list
(`ArcLruPart` only) and of the ghost list, and the value and access count of the nodes. -/
inductive PartField where
  | mainCapacity
  | ghostCapacity
  | transformThreshold
  | mainCache
  | ghostCache
  | mainList
  | ghostList
  | freqListMap
  | minFreq
  | nodeData
deriving DecidableEq, Repr

/-- One step of a method: `std::lock_guard<std::mutex> lock(mtx)`, which holds the mutex
until the method returns, or a statement that reads, or writes, a part of the state. -/
inductive LockStep where
  | lock
  | read (f : PartField)
  | write (f : PartField)
deriving DecidableEq, Repr

/-- The reads and writes a method makes while it does not hold the mutex. -/
def unguarded : List LockStep → List LockStep
  | [] => []
  | .lock :: _ => []
  | e :: rest => e :: unguarded rest

/-- The reads and writes a method makes while it holds the mutex. -/
def guarded : List LockStep → List LockStep
  | [] => []
  | .lock :: rest => rest
  | _ :: rest => guarded rest

/-- Two steps conflict: they are on the same part of the state and one of them writes. -/
def LockStep.conflicts : LockStep → LockStep → Bool
  | .write f, .write g => decide (f = g)
  | .write f, .read g => decide (f = g)
  | .read f, .write g => decide (f = g)
  | _, _ => false

/-- A data race between two methods running in two threads: a step of the first made
without the mutex conflicts with a step of the second, whether or not the second holds
the mutex. -/
def races (m1 m2 : List LockStep) : Bool :=
  (unguarded m1).any (fun a => (unguarded m2 ++ guarded m2).any (fun b => a.conflicts b))

namespace ArcLruPart

/-- Steps of `removeNode` on the list `l`. -/
def removeNodeSteps (l : PartField) : List LockStep := [.write l, .write l]

/-- Steps of `addToMainTail`. -/
def addToMainTailSteps : List LockStep :=
  [.write .mainList, .write .mainList, .write .mainList, .write .mainList]

/-- Steps of `moveToMainTail`. -/
def moveToMainTailSteps : List LockStep := removeNodeSteps .mainList ++ addToMainTailSteps

/-- Steps of `evictOldestGhost`. -/
def evictOldestGhostSteps : List LockStep :=
  [.read .ghostCache, .read .ghostList, .read .ghostList] ++ removeNodeSteps .ghostList
    ++ [.read .nodeData, .write .ghostCache]

/-- Steps of `addToGhost`. -/
def addToGhostSteps : List LockStep :=
  [.write .nodeData, .write .ghostList, .write .ghostList, .write .ghostList,
    .write .ghostList, .read .nodeData, .write .ghostCache]

/-- Steps of `evictLeastRecent`. -/
def evictLeastRecentSteps : List LockStep :=
  [.read .mainCache, .read .mainList, .read .mainList, .read .ghostCache,
      .read .ghostCapacity]
    ++ evictOldestGhostSteps ++ addToGhostSteps ++ removeNodeSteps .mainList
    ++ [.read .nodeData, .write .mainCache]

/-- Steps of `addNewNode`. -/
def addNewNodeSteps : List LockStep :=
  [.read .mainCache, .read .mainCapacity] ++ evictLeastRecentSteps ++ addToMainTailSteps
    ++ [.write .mainCache]

/-- Steps of `updateMainNode`. -/
def updateMainNodeSteps : List LockStep := [.write .nodeData] ++ moveToMainTailSteps

/-- Steps of `updateAccessCount`. -/
def updateAccessCountSteps : List LockStep :=
  moveToMainTailSteps ++ [.write .nodeData, .read .nodeData, .read .transformThreshold]

/-- Steps of `put`: `mainCapacity` is tested before the `lock_guard`. -/
def putSteps : List LockStep :=
  [.read .mainCapacity, .lock, .read .mainCache] ++ updateMainNodeSteps ++ addNewNodeSteps

/-- Steps of `get(key, value, shouldTransform)`. -/
def getSteps : List LockStep :=
  [.read .mainCapacity, .lock, .read .mainCache] ++ updateAccessCountSteps
    ++ [.read .nodeData]

/-- Steps of `checkGhost`: the `lock_guard` is the first statement. -/
def checkGhostSteps : List LockStep :=
  [.lock, .read .ghostCache] ++ removeNodeSteps .ghostList ++ [.read .nodeData]
    ++ addNewNodeSteps

/-- Steps of `increaseCapacity`: no `lock_guard`. -/
def increaseCapacitySteps : List LockStep := [.write .mainCapacity]

/-- Steps of `decreaseCapacity`: no `lock_guard`. -/
def decreaseCapacitySteps : List LockStep :=
  [.read .mainCapacity, .write .mainCapacity, .read .mainCapacity, .read .mainCache]
    ++ evictLeastRecentSteps ++ [.write .mainCapacity]

end ArcLruPart

namespace ArcLfuPart

/-- Steps of `removeGhostNode`. -/
def removeGhostNodeSteps : List LockStep := [.write .ghostList, .write .ghostList]

/-- Steps of `evictOldestGhost`. -/
def evictOldestGhostSteps : List LockStep :=
  [.read .ghostCache, .read .ghostList, .read .ghostList] ++ removeGhostNodeSteps
    ++ [.read .nodeData, .write .ghostCache]

/-- Steps of `addToGhost`. -/
def addToGhostSteps : List LockStep :=
  [.write .nodeData, .write .ghostList, .write .ghostList, .write .ghostList,
    .write .ghostList, .read .nodeData, .write .ghostCache]

/-- Steps of `evictLeastFrequent`. -/
def evictLeastFrequentSteps : List LockStep :=
  [.read .minFreq, .write .freqListMap, .read .freqListMap, .read .freqListMap,
      .read .freqListMap, .write .freqListMap, .read .freqListMap, .read .minFreq,
      .write .freqListMap, .read .freqListMap, .write .minFreq, .read .ghostCache,
      .read .ghostCapacity]
    ++ evictOldestGhostSteps ++ addToGhostSteps ++ [.read .nodeData, .write .mainCache]

/-- Steps of `addNewNode`. -/
def addNewNodeSteps : List LockStep :=
  [.read .mainCache, .read .mainCapacity] ++ evictLeastFrequentSteps
    ++ [.read .freqListMap, .write .freqListMap, .write .freqListMap, .write .minFreq,
      .write .mainCache]

/-- Steps of `updateNodeFrequency`. -/
def updateNodeFrequencySteps : List LockStep :=
  [.read .nodeData, .write .nodeData, .read .nodeData, .write .freqListMap,
    .write .freqListMap, .read .freqListMap, .write .freqListMap, .read .minFreq,
    .write .minFreq, .read .freqListMap, .write .freqListMap, .write .freqListMap]

/-- Steps of `updateMainNode`. -/
def updateMainNodeSteps : List LockStep := [.write .nodeData] ++ updateNodeFrequencySteps

/-- Steps of `put`: `mainCapacity` is tested before the `lock_guard`. -/
def putSteps : List LockStep :=
  [.read .mainCapacity, .lock, .read .mainCache] ++ updateMainNodeSteps ++ addNewNodeSteps

/-- Steps of `get(key, value)`. -/
def getSteps : List LockStep :=
  [.read .mainCapacity, .lock, .read .mainCache, .read .nodeData] ++ updateNodeFrequencySteps

/-- Steps of `checkGhost`: no `lock_guard`. -/
def checkGhostSteps : List LockStep :=
  [.read .ghostCache] ++ removeGhostNodeSteps ++ [.write .ghostCache]

/-- Steps of `increaseCapacity`: no `lock_guard`. -/
def increaseCapacitySteps : List LockStep := [.write .mainCapacity]

/-- Steps of `decreaseCapacity`: no `lock_guard`. -/
def decreaseCapacitySteps : List LockStep :=
  [.read .mainCapacity, .read .mainCapacity, .read .mainCache] ++ evictLeastFrequentSteps
    ++ [.write .mainCapacity]

end ArcLfuPart

/-! ## The pairs of the `put` calls, and the loop of `ClockCache` -/

/-- Every node from cell `n` on carries a key and a value that are a pair of `P`. -/
def NodePairs {K V : Type} (h : List (ArcNode K V)) (n : Nat) (P : List (K × V)) : Prop :=
  ∀ i, n ≤ i → i < h.length → ∃ k v, hKey h i = some k ∧ hValue h i = some v ∧ (k, v) ∈ P

/-- The pairs `(k, v)` of the calls `put(k, v)` in a list of calls. -/
def ArcCall.putPairs {K V : Type} : List (ArcCall K V) → List (K × V)
  | [] => []
  | .put _ k v :: rest => (k, v) :: ArcCall.putPairs rest
  | .get _ _ _ :: rest => ArcCall.putPairs rest

/-- The state after a list of calls on `LruCache(c)` over `Nat`; the fresh cache when the
calls do not return. -/
def LruCache.after (c : Nat) (calls : List (CacheCall Nat Nat)) : LruCache Nat Nat :=
  (((LruCache.create c).run calls).map Prod.fst).getD (LruCache.create c)

namespace ClockCache

variable {K V : Type} [DecidableEq K]

/-- One call on a `ClockCache`; `fuel` bounds the iterations of the loop of `put`. -/
def call (fuel : Nat) (s : ClockCache K V) : CacheCall K V → Except ClockFault (ClockCache K V)
  | .put key value => s.put fuel key value
  | .get key value => do
    let r ← s.get key value
    pure r.1

/-- A list of calls in order. -/
def run (fuel : Nat) (s : ClockCache K V) :
    List (CacheCall K V) → Except ClockFault (ClockCache K V)
  | [] => pure s
  | a :: rest => do
    let s1 ← s.call fuel a
    run fuel s1 rest

/-- State `s` is reached from the cache built by `ClockCache(c)` by the calls `calls`,
the loop of every `put` having come to its end. -/
def ReachedBy (c : Nat) (calls : List (CacheCall K V)) (s : ClockCache K V) : Prop :=
  ∃ fuel, run fuel (create c) calls = Except.ok s

/-- One iteration of the loop of `put` on a slot whose reference bit is set: the bit is
cleared and the hand moves on. -/
def pass (s : ClockCache K V) : ClockCache K V :=
  match s.clockList[s.clockHand]? with
  | some n =>
    { s with clockList := s.clockList.set s.clockHand { n with reference := false }
             clockHand := ((s.clockHand + 1) % SIZE_MOD) % s.capacity }
  | none => s

/-- The first `j` iterations of the loop of `put`, all on slots whose bit is set. -/
def passes : Nat → ClockCache K V → ClockCache K V
  | 0, s => s
  | j + 1, s => pass (passes j s)

/-- The last iteration of the loop of `put`: the node under the hand is replaced. -/
def replace (s : ClockCache K V) (old : K) (key : K) (value : V) : ClockCache K V :=
  { s with nodeMap := umSet (umErase s.nodeMap old) key s.clockHand
           clockList := s.clockList.set s.clockHand
             { ClockNode.create key value with reference := true } }

/-- The invariant of the states of `ClockCache(c)` reached by `put` and `get`: the vector
has `size` slots, at most `c`, the hand is below `c`, and `nodeMap` maps the key of every
slot to its index and holds nothing else. -/
def Inv (c : Nat) (s : ClockCache K V) : Prop :=
  s.capacity = c ∧ s.size = s.clockList.length ∧ s.size ≤ c ∧ s.clockHand < c ∧
  (s.nodeMap.map Prod.fst).Nodup ∧ s.nodeMap.length = s.size ∧
  (∀ k i, umFind s.nodeMap k = some i ↔ ∃ n, s.clockList[i]? = some n ∧ n.key = k)

end ClockCache

/-- The state after a list of calls on `ClockCache(c)` over `Nat`, every loop having
`c + 1` iterations at most; the fresh cache when the calls do not return. -/
def ClockCache.after (c : Nat) (calls : List (CacheCall Nat Nat)) : ClockCache Nat Nat :=
  match ClockCache.run (c + 1) (ClockCache.create c) calls with
  | Except.ok s => s
  | Except.error _ => ClockCache.create c

/-! ## Keys of the frequency partition and the indexes of the recency partition -/

set_option linter.unusedSectionVars false

section HeapLemmas

variable {K V : Type}

theorem getElem?_hUpd (h : List (ArcNode K V)) (i j : Nat) (f : ArcNode K V → ArcNode K V) :
    (hUpd h i f)[j]? = if j = i then (h[i]?).map f else h[j]? := by
  unfold hUpd
  cases hi : h[i]? with
  | none =>
    by_cases hji : j = i
    · subst hji; simp [hi]
    · simp [hji]
  | some n =>
    have hlt : i < h.length := by
      rcases List.getElem?_eq_some.mp hi with ⟨hl, _⟩
      exact hl
    by_cases hji : j = i
    · subst hji; simp [List.getElem?_set, hlt]
    · have hne : i ≠ j := fun e => hji e.symm
      simp [List.getElem?_set, hji, hne]

@[simp] theorem length_hUpd (h : List (ArcNode K V)) (i : Nat) (f : ArcNode K V → ArcNode K V) :
    (hUpd h i f).length = h.length := by
  unfold hUpd
  cases h[i]? <;> simp

@[simp] theorem length_setNext (h : List (ArcNode K V)) (i : Nat) (v : NodePtr) :
    (setNext h i v).length = h.length := length_hUpd _ _ _

@[simp] theorem length_setPrev (h : List (ArcNode K V)) (i : Nat) (v : NodePtr) :
    (setPrev h i v).length = h.length := length_hUpd _ _ _

@[simp] theorem length_setCount (h : List (ArcNode K V)) (i : Nat) (c : Nat) :
    (setCount h i c).length = h.length := length_hUpd _ _ _

@[simp] theorem length_setValue (h : List (ArcNode K V)) (i : Nat) (v : V) :
    (setValue h i v).length = h.length := length_hUpd _ _ _

@[simp] theorem length_incCount (h : List (ArcNode K V)) (i : Nat) :
    (incCount h i).length = h.length := length_hUpd _ _ _

theorem getElem?_of_lt (h : List (ArcNode K V)) {i : Nat} (hi : i < h.length) :
    ∃ n, h[i]? = some n := ⟨h[i], List.getElem?_eq_getElem hi⟩

theorem readNode_some (h : List (ArcNode K V)) (i : Nat) : readNode h (some i) = h[i]? := rfl

theorem writeNode_some (h : List (ArcNode K V)) {i : Nat} (hi : i < h.length)
    (f : ArcNode K V → ArcNode K V) : writeNode h (some i) f = some (hUpd h i f) := by
  rcases getElem?_of_lt h hi with ⟨n, hn⟩
  simp [writeNode, hUpd, hn]

theorem writeNode_eq_some {h h1 : List (ArcNode K V)} {p : NodePtr}
    {f : ArcNode K V → ArcNode K V} (hw : writeNode h p f = some h1) :
    ∃ i, p = some i ∧ i < h.length ∧ h1 = hUpd h i f := by
  cases p with
  | none => simp [writeNode] at hw
  | some i =>
    cases hi : h[i]? with
    | none => simp [writeNode, hi] at hw
    | some n =>
      have hlt : i < h.length := by
        rcases List.getElem?_eq_some.mp hi with ⟨hl, _⟩
        exact hl
      refine ⟨i, rfl, hlt, ?_⟩
      rw [writeNode_some h hlt] at hw
      exact (Option.some.inj hw).symm

theorem readNode_eq_some {h : List (ArcNode K V)} {p : NodePtr} {n : ArcNode K V}
    (hr : readNode h p = some n) : ∃ i, p = some i ∧ i < h.length ∧ h[i]? = some n := by
  cases p with
  | none => simp [readNode] at hr
  | some i =>
    have hr1 : h[i]? = some n := hr
    rcases List.getElem?_eq_some.mp hr1 with ⟨hl, _⟩
    exact ⟨i, rfl, hl, hr1⟩

@[simp] theorem hPrev_setNext (h : List (ArcNode K V)) (i j : Nat) (v : NodePtr) :
    hPrev (setNext h i v) j = hPrev h j := by
  unfold hPrev setNext
  rw [getElem?_hUpd]
  by_cases hji : j = i
  · subst hji
    cases hj : h[j]? <;> simp [ArcNode.setValue, ArcNode.increaseAccessCount]
  · simp [hji]

theorem hNext_setNext (h : List (ArcNode K V)) (i j : Nat) (v : NodePtr) :
    hNext (setNext h i v) j = if j = i ∧ i < h.length then v else hNext h j := by
  unfold hNext setNext
  rw [getElem?_hUpd]
  by_cases hji : j = i
  · subst hji
    cases hj : h[j]? with
    | none =>
      have hl : ¬ j < h.length := by
        have := List.getElem?_eq_none_iff.mp hj
        omega
      simp [hl]
    | some n =>
      have hl : j < h.length := by
        rcases List.getElem?_eq_some.mp hj with ⟨hl, _⟩
        exact hl
      simp [hl, ArcNode.setValue]
  · simp [hji]

@[simp] theorem hKey_setNext (h : List (ArcNode K V)) (i j : Nat) (v : NodePtr) :
    hKey (setNext h i v) j = hKey h j := by
  unfold hKey setNext
  rw [getElem?_hUpd]
  by_cases hji : j = i
  · subst hji
    cases hj : h[j]? <;> simp [ArcNode.setValue, ArcNode.increaseAccessCount]
  · simp [hji]

@[simp] theorem hValue_setNext (h : List (ArcNode K V)) (i j : Nat) (v : NodePtr) :
    hValue (setNext h i v) j = hValue h j := by
  unfold hValue setNext
  rw [getElem?_hUpd]
  by_cases hji : j = i
  · subst hji
    cases hj : h[j]? <;> simp [ArcNode.setValue, ArcNode.increaseAccessCount]
  · simp [hji]

@[simp] theorem hCount_setNext (h : List (ArcNode K V)) (i j : Nat) (v : NodePtr) :
    hCount (setNext h i v) j = hCount h j := by
  unfold hCount setNext
  rw [getElem?_hUpd]
  by_cases hji : j = i
  · subst hji
    cases hj : h[j]? <;> simp [ArcNode.setValue, ArcNode.increaseAccessCount]
  · simp [hji]

theorem hPrev_setPrev (h : List (ArcNode K V)) (i j : Nat) (v : NodePtr) :
    hPrev (setPrev h i v) j = if j = i ∧ i < h.length then v else hPrev h j := by
  unfold hPrev setPrev
  rw [getElem?_hUpd]
  by_cases hji : j = i
  · subst hji
    cases hj : h[j]? with
    | none =>
      have hl : ¬ j < h.length := by
        have := List.getElem?_eq_none_iff.mp hj
        omega
      simp [hl]
    | some n =>
      have hl : j < h.length := by
        rcases List.getElem?_eq_some.mp hj with ⟨hl, _⟩
        exact hl
      simp [hl, ArcNode.setValue]
  · simp [hji]

@[simp] theorem hNext_setPrev (h : List (ArcNode K V)) (i j : Nat) (v : NodePtr) :
    hNext (setPrev h i v) j = hNext h j := by
  unfold hNext setPrev
  rw [getElem?_hUpd]
  by_cases hji : j = i
  · subst hji
    cases hj : h[j]? <;> simp [ArcNode.setValue, ArcNode.increaseAccessCount]
  · simp [hji]

@[simp] theorem hKey_setPrev (h : List (ArcNode K V)) (i j : Nat) (v : NodePtr) :
    hKey (setPrev h i v) j = hKey h j := by
  unfold hKey setPrev
  rw [getElem?_hUpd]
  by_cases hji : j = i
  · subst hji
    cases hj : h[j]? <;> simp [ArcNode.setValue, ArcNode.increaseAccessCount]
  · simp [hji]

@[simp] theorem hValue_setPrev (h : List (ArcNode K V)) (i j : Nat) (v : NodePtr) :
    hValue (setPrev h i v) j = hValue h j := by
  unfold hValue setPrev
  rw [getElem?_hUpd]
  by_cases hji : j = i
  · subst hji
    cases hj : h[j]? <;> simp [ArcNode.setValue, ArcNode.increaseAccessCount]
  · simp [hji]

@[simp] theorem hCount_setPrev (h : List (ArcNode K V)) (i j : Nat) (v : NodePtr) :
    hCount (setPrev h i v) j = hCount h j := by
  unfold hCount setPrev
  rw [getElem?_hUpd]
  by_cases hji : j = i
  · subst hji
    cases hj : h[j]? <;> simp [ArcNode.setValue, ArcNode.increaseAccessCount]
  · simp [hji]

@[simp] theorem hPrev_setCount (h : List (ArcNode K V)) (i j : Nat) (c : Nat) :
    hPrev (setCount h i c) j = hPrev h j := by
  unfold hPrev setCount
  rw [getElem?_hUpd]
  by_cases hji : j = i
  · subst hji
    cases hj : h[j]? <;> simp [ArcNode.setValue, ArcNode.increaseAccessCount]
  · simp [hji]

@[simp] theorem hNext_setCount (h : List (ArcNode K V)) (i j : Nat) (c : Nat) :
    hNext (setCount h i c) j = hNext h j := by
  unfold hNext setCount
  rw [getElem?_hUpd]
  by_cases hji : j = i
  · subst hji
    cases hj : h[j]? <;> simp [ArcNode.setValue, ArcNode.increaseAccessCount]
  · simp [hji]

@[simp] theorem hKey_setCount (h : List (ArcNode K V)) (i j : Nat) (c : Nat) :
    hKey (setCount h i c) j = hKey h j := by
  unfold hKey setCount
  rw [getElem?_hUpd]
  by_cases hji : j = i
  · subst hji
    cases hj : h[j]? <;> simp [ArcNode.setValue, ArcNode.increaseAccessCount]
  · simp [hji]

@[simp] theorem hValue_setCount (h : List (ArcNode K V)) (i j : Nat) (c : Nat) :
    hValue (setCount h i c) j = hValue h j := by
  unfold hValue setCount
  rw [getElem?_hUpd]
  by_cases hji : j = i
  · subst hji
    cases hj : h[j]? <;> simp [ArcNode.setValue, ArcNode.increaseAccessCount]
  · simp [hji]

theorem hCount_setCount (h : List (ArcNode K V)) (i j : Nat) (c : Nat) :
    hCount (setCount h i c) j = if j = i ∧ i < h.length then some c else hCount h j := by
  unfold hCount setCount
  rw [getElem?_hUpd]
  by_cases hji : j = i
  · subst hji
    cases hj : h[j]? with
    | none =>
      have hl : ¬ j < h.length := by
        have := List.getElem?_eq_none_iff.mp hj
        omega
      simp [hl]
    | some n =>
      have hl : j < h.length := by
        rcases List.getElem?_eq_some.mp hj with ⟨hl, _⟩
        exact hl
      simp [hl, ArcNode.setValue]
  · simp [hji]

@[simp] theorem hPrev_setValue (h : List (ArcNode K V)) (i j : Nat) (v : V) :
    hPrev (setValue h i v) j = hPrev h j := by
  unfold hPrev setValue
  rw [getElem?_hUpd]
  by_cases hji : j = i
  · subst hji
    cases hj : h[j]? <;> simp [ArcNode.setValue, ArcNode.increaseAccessCount]
  · simp [hji]

@[simp] theorem hNext_setValue (h : List (ArcNode K V)) (i j : Nat) (v : V) :
    hNext (setValue h i v) j = hNext h j := by
  unfold hNext setValue
  rw [getElem?_hUpd]
  by_cases hji : j = i
  · subst hji
    cases hj : h[j]? <;> simp [ArcNode.setValue, ArcNode.increaseAccessCount]
  · simp [hji]

@[simp] theorem hKey_setValue (h : List (ArcNode K V)) (i j : Nat) (v : V) :
    hKey (setValue h i v) j = hKey h j := by
  unfold hKey setValue
  rw [getElem?_hUpd]
  by_cases hji : j = i
  · subst hji
    cases hj : h[j]? <;> simp [ArcNode.setValue, ArcNode.increaseAccessCount]
  · simp [hji]

theorem hValue_setValue (h : List (ArcNode K V)) (i j : Nat) (v : V) :
    hValue (setValue h i v) j = if j = i ∧ i < h.length then some v else hValue h j := by
  unfold hValue setValue
  rw [getElem?_hUpd]
  by_cases hji : j = i
  · subst hji
    cases hj : h[j]? with
    | none =>
      have hl : ¬ j < h.length := by
        have := List.getElem?_eq_none_iff.mp hj
        omega
      simp [hl]
    | some n =>
      have hl : j < h.length := by
        rcases List.getElem?_eq_some.mp hj with ⟨hl, _⟩
        exact hl
      simp [hl, ArcNode.setValue]
  · simp [hji]

@[simp] theorem hCount_setValue (h : List (ArcNode K V)) (i j : Nat) (v : V) :
    hCount (setValue h i v) j = hCount h j := by
  unfold hCount setValue
  rw [getElem?_hUpd]
  by_cases hji : j = i
  · subst hji
    cases hj : h[j]? <;> simp [ArcNode.setValue, ArcNode.increaseAccessCount]
  · simp [hji]

@[simp] theorem hPrev_incCount (h : List (ArcNode K V)) (i j : Nat) :
    hPrev (incCount h i) j = hPrev h j := by
  unfold hPrev incCount
  rw [getElem?_hUpd]
  by_cases hji : j = i
  · subst hji
    cases hj : h[j]? <;> simp [ArcNode.setValue, ArcNode.increaseAccessCount]
  · simp [hji]

@[simp] theorem hNext_incCount (h : List (ArcNode K V)) (i j : Nat) :
    hNext (incCount h i) j = hNext h j := by
  unfold hNext incCount
  rw [getElem?_hUpd]
  by_cases hji : j = i
  · subst hji
    cases hj : h[j]? <;> simp [ArcNode.setValue, ArcNode.increaseAccessCount]
  · simp [hji]

@[simp] theorem hKey_incCount (h : List (ArcNode K V)) (i j : Nat) :
    hKey (incCount h i) j = hKey h j := by
  unfold hKey incCount
  rw [getElem?_hUpd]
  by_cases hji : j = i
  · subst hji
    cases hj : h[j]? <;> simp [ArcNode.setValue, ArcNode.increaseAccessCount]
  · simp [hji]

@[simp] theorem hValue_incCount (h : List (ArcNode K V)) (i j : Nat) :
    hValue (incCount h i) j = hValue h j := by
  unfold hValue incCount
  rw [getElem?_hUpd]
  by_cases hji : j = i
  · subst hji
    cases hj : h[j]? <;> simp [ArcNode.setValue, ArcNode.increaseAccessCount]
  · simp [hji]

theorem hCount_incCount (h : List (ArcNode K V)) (i j : Nat) :
    hCount (incCount h i) j =
      if j = i then (hCount h i).map (fun c => (c + 1) % SIZE_MOD) else hCount h j := by
  unfold hCount incCount
  rw [getElem?_hUpd]
  by_cases hji : j = i
  · subst hji
    cases hj : h[j]? <;> simp [ArcNode.increaseAccessCount]
  · simp [hji]

theorem hNext_isSome_lt {h : List (ArcNode K V)} {i : Nat} {q : Nat}
    (hq : hNext h i = some q) : i < h.length := by
  unfold hNext at hq
  cases hi : h[i]? with
  | none => simp [hi] at hq
  | some n =>
    rcases List.getElem?_eq_some.mp hi with ⟨hl, _⟩
    exact hl

theorem hPrev_isSome_lt {h : List (ArcNode K V)} {i : Nat} {q : Nat}
    (hq : hPrev h i = some q) : i < h.length := by
  unfold hPrev at hq
  cases hi : h[i]? with
  | none => simp [hi] at hq
  | some n =>
    rcases List.getElem?_eq_some.mp hi with ⟨hl, _⟩
    exact hl

theorem getElem?_fields {h : List (ArcNode K V)} {i : Nat} {n : ArcNode K V}
    (hn : h[i]? = some n) :
    hPrev h i = n.prev ∧ hNext h i = n.next ∧ hKey h i = some n.key ∧
      hValue h i = some n.value ∧ hCount h i = some n.accessCount := by
  simp [hPrev, hNext, hKey, hValue, hCount, hn]

end HeapLemmas

/-! ## Association lists -/

section MapLemmas

variable {A B : Type} [DecidableEq A]

theorem umFind_mem {m : List (A × B)} {k : A} {v : B} (h : umFind m k = some v) :
    (k, v) ∈ m := by
  induction m with
  | nil => simp [umFind] at h
  | cons x rest ih =>
    obtain ⟨a, b⟩ := x
    unfold umFind at h
    by_cases hak : a = k
    · simp [hak] at h
      subst h
      simp [hak]
    · simp [hak] at h
      exact List.mem_cons_of_mem _ (ih h)

theorem umFind_isSome_of_mem {m : List (A × B)} {k : A} {v : B} (h : (k, v) ∈ m) :
    ∃ w, umFind m k = some w := by
  induction m with
  | nil => simp at h
  | cons x rest ih =>
    obtain ⟨a, b⟩ := x
    unfold umFind
    by_cases hak : a = k
    · exact ⟨b, by simp [hak]⟩
    · have hm : (k, v) ∈ rest := by
        rcases List.mem_cons.mp h with h1 | h1
        · exact absurd (congrArg Prod.fst h1).symm hak
        · exact h1
      simpa [hak] using ih hm

theorem mem_umSet {m : List (A × B)} {k : A} {v : B} {x : A × B} (h : x ∈ umSet m k v) :
    x = (k, v) ∨ x ∈ m := by
  induction m with
  | nil =>
    simp [umSet] at h
    exact Or.inl h
  | cons y rest ih =>
    obtain ⟨a, b⟩ := y
    unfold umSet at h
    by_cases hak : a = k
    · simp [hak] at h
      rcases h with h1 | h1
      · exact Or.inl h1
      · exact Or.inr (List.mem_cons_of_mem _ h1)
    · simp [hak] at h
      rcases h with h1 | h1
      · exact Or.inr (by rw [h1]; exact List.mem_cons_self _ _)
      · rcases ih h1 with h2 | h2
        · exact Or.inl h2
        · exact Or.inr (List.mem_cons_of_mem _ h2)

theorem mem_umErase {m : List (A × B)} {k : A} {x : A × B} (h : x ∈ umErase m k) :
    x ∈ m ∧ x.1 ≠ k := by
  induction m with
  | nil => simp [umErase] at h
  | cons y rest ih =>
    obtain ⟨a, b⟩ := y
    unfold umErase at h
    by_cases hak : a = k
    · simp [hak] at h
      exact ⟨List.mem_cons_of_mem _ (ih h).1, (ih h).2⟩
    · simp [hak] at h
      rcases h with h1 | h1
      · rw [h1]
        exact ⟨List.mem_cons_self _ _, hak⟩
      · exact ⟨List.mem_cons_of_mem _ (ih h1).1, (ih h1).2⟩

theorem umFind_umSet (m : List (A × B)) (k k1 : A) (v : B) :
    umFind (umSet m k v) k1 = if k1 = k then some v else umFind m k1 := by
  induction m with
  | nil =>
    by_cases h : k1 = k
    · simp [umSet, umFind, h]
    · have h1 : ¬ k = k1 := fun e => h e.symm
      simp [umSet, umFind, h, h1]
  | cons y rest ih =>
    obtain ⟨a, b⟩ := y
    unfold umSet
    by_cases hak : a = k
    · by_cases h : k1 = k
      · simp [hak, umFind, h]
      · have h1 : ¬ k = k1 := fun e => h e.symm
        simp [hak, umFind, h, h1]
    · by_cases h : k1 = k
      · subst h
        simp at ih
        simp [hak, umFind, ih]
      · by_cases h3 : a = k1
        · simp [hak, umFind, h, h3]
        · simp [hak, umFind, h, h3, ih]

theorem umFind_umErase (m : List (A × B)) (k k1 : A) :
    umFind (umErase m k) k1 = if k1 = k then none else umFind m k1 := by
  induction m with
  | nil => simp [umErase, umFind]
  | cons y rest ih =>
    obtain ⟨a, b⟩ := y
    unfold umErase
    by_cases hak : a = k
    · by_cases h : k1 = k
      · subst h
        simp at ih
        simp [hak, ih]
      · have h1 : ¬ k = k1 := fun e => h e.symm
        simp [hak, ih, h, umFind, h1]
    · by_cases h : k1 = k
      · subst h
        simp at ih
        simp [hak, umFind, ih]
      · by_cases h3 : a = k1
        · simp [hak, umFind, h, h3]
        · simp [hak, umFind, h, h3, ih]

end MapLemmas

/-! ## The list primitives as field assignments -/

section LruPrimitives

variable {K V : Type}

theorem readNode_lt (h : List (ArcNode K V)) {i : Nat} (hi : i < h.length) :
    readNode h (some i) = some (h[i]) := by
  simp [readNode, List.getElem?_eq_getElem hi]

theorem getElem_prev (h : List (ArcNode K V)) {i : Nat} (hi : i < h.length) :
    (h[i]).prev = hPrev h i := by
  simp [hPrev, List.getElem?_eq_getElem hi]

theorem getElem_next (h : List (ArcNode K V)) {i : Nat} (hi : i < h.length) :
    (h[i]).next = hNext h i := by
  simp [hNext, List.getElem?_eq_getElem hi]

theorem getElem_key (h : List (ArcNode K V)) {i : Nat} (hi : i < h.length) :
    hKey h i = some (h[i]).key := by
  simp [hKey, List.getElem?_eq_getElem hi]

theorem getElem_value (h : List (ArcNode K V)) {i : Nat} (hi : i < h.length) :
    hValue h i = some (h[i]).value := by
  simp [hValue, List.getElem?_eq_getElem hi]

theorem getElem_count (h : List (ArcNode K V)) {i : Nat} (hi : i < h.length) :
    hCount h i = some (h[i]).accessCount := by
  simp [hCount, List.getElem?_eq_getElem hi]

/-- Source `removeNode` on a linked node `y`: `next[prev[y]] = next[y]` and then
`prev[next[y]] = prev[y]`. -/
theorem ArcLruPart.removeNode_eq (s : ArcLruPart K V) {y p q : Nat}
    (hp : hPrev s.heap y = some p) (hq : hNext s.heap y = some q)
    (hpl : p < s.heap.length) (hql : q < s.heap.length) :
    s.removeNode (some y) =
      some { s with heap := unlink s.heap p q } := by
  have hyl : y < s.heap.length := hNext_isSome_lt hq
  rcases getElem?_of_lt s.heap hyl with ⟨n, hn⟩
  rcases getElem?_fields hn with ⟨f1, f2, -, -, -⟩
  rw [hp] at f1
  rw [hq] at f2
  have h1l : (setNext s.heap p (some q)).length = s.heap.length := length_setNext _ _ _
  have hyl1 : y < (setNext s.heap p (some q)).length := by omega
  rcases getElem?_of_lt _ hyl1 with ⟨n1, hn1⟩
  rcases getElem?_fields hn1 with ⟨g1, g2, -, -, -⟩
  rw [hPrev_setNext, hp] at g1
  rw [hNext_setNext] at g2
  have g2q : n1.next = some q := by
    rw [← g2]
    split
    · rfl
    · exact hq
  unfold ArcLruPart.removeNode
  simp only [readNode_some, hn, Option.bind_eq_bind, Option.some_bind, ← f1, ← f2]
  rw [writeNode_some _ hpl]
  simp only [Option.some_bind]
  change (do
    let n1 ← (setNext s.heap p (some q))[y]?
    let h2 ← writeNode (setNext s.heap p (some q)) n1.next (fun x => { x with prev := n1.prev })
    pure { s with heap := h2 }) = _
  simp only [hn1, Option.bind_eq_bind, Option.some_bind, g2q, ← g1]
  rw [writeNode_some _ (by omega)]
  rfl

theorem getElem_key_eq (h : List (ArcNode K V)) {i : Nat} (hi : i < h.length) {k : K}
    (hk : hKey h i = some k) : (h[i]).key = k := by
  rw [getElem_key h hi] at hk
  exact Option.some.inj hk

theorem getElem_value_eq (h : List (ArcNode K V)) {i : Nat} (hi : i < h.length) {v : V}
    (hv : hValue h i = some v) : (h[i]).value = v := by
  rw [getElem_value h hi] at hv
  exact Option.some.inj hv

theorem getElem_count_eq (h : List (ArcNode K V)) {i : Nat} (hi : i < h.length) {c : Nat}
    (hc : hCount h i = some c) : (h[i]).accessCount = c := by
  rw [getElem_count h hi] at hc
  exact Option.some.inj hc

theorem writeNode_next (h : List (ArcNode K V)) {i : Nat} (hi : i < h.length) (v : NodePtr) :
    writeNode h (some i) (fun x => { x with next := v }) = some (setNext h i v) :=
  writeNode_some h hi _

theorem writeNode_prev (h : List (ArcNode K V)) {i : Nat} (hi : i < h.length) (v : NodePtr) :
    writeNode h (some i) (fun x => { x with prev := v }) = some (setPrev h i v) :=
  writeNode_some h hi _

theorem writeNode_count (h : List (ArcNode K V)) {i : Nat} (hi : i < h.length) (c : Nat) :
    writeNode h (some i) (fun x => { x with accessCount := c }) = some (setCount h i c) :=
  writeNode_some h hi _

theorem writeNode_value (h : List (ArcNode K V)) {i : Nat} (hi : i < h.length) (v : V) :
    writeNode h (some i) (fun x => x.setValue v) = some (setValue h i v) :=
  writeNode_some h hi _

theorem writeNode_inc (h : List (ArcNode K V)) {i : Nat} (hi : i < h.length) :
    writeNode h (some i) (fun x => x.increaseAccessCount) = some (incCount h i) :=
  writeNode_some h hi _

/-- Source `addToMainTail` as field assignments. -/
theorem ArcLruPart.addToMainTail_eq (s : ArcLruPart K V) {y t b : Nat}
    (ht : s.mainTail = some t) (hb : hPrev s.heap t = some b)
    (hyl : y < s.heap.length) (hbl : b < s.heap.length) :
    s.addToMainTail (some y) = some { s with heap := linkTail s.heap y t b } := by
  have htl : t < s.heap.length := hPrev_isSome_lt hb
  unfold ArcLruPart.addToMainTail linkTail
  simp only [ht, Option.bind_eq_bind, Option.some_bind, Option.pure_def]
  simp [writeNode_next, writeNode_prev, readNode_lt, getElem_prev, hyl, hbl, htl, hb,
    hPrev_setPrev]

end LruPrimitives

/-! ## Link lemmas -/

section Links

variable {K V : Type}

theorem hNext_unlink (h : List (ArcNode K V)) (p q i : Nat) (hpl : p < h.length) :
    hNext (unlink h p q) i = if i = p then some q else hNext h i := by
  simp [unlink, hNext_setNext, hpl]

theorem hPrev_unlink (h : List (ArcNode K V)) (p q i : Nat) (hql : q < h.length) :
    hPrev (unlink h p q) i = if i = q then some p else hPrev h i := by
  simp [unlink, hPrev_setPrev, hql]

@[simp] theorem length_unlink (h : List (ArcNode K V)) (p q : Nat) :
    (unlink h p q).length = h.length := by
  simp [unlink]

theorem hNext_fun {h : List (ArcNode K V)} {x x' u u' : Nat}
    (hA : hNext h x = some u) (hB : hNext h x' = some u') (e : x = x') : u = u' := by
  subst e; rw [hA] at hB; exact Option.some.inj hB

theorem hPrev_fun {h : List (ArcNode K V)} {x x' u u' : Nat}
    (hA : hPrev h x = some u) (hB : hPrev h x' = some u') (e : x = x') : u = u' := by
  subst e; rw [hA] at hB; exact Option.some.inj hB

theorem dllEx_unlink {h : List (ArcNode K V)} {y p q : Nat}
    (hd : DllEx h h.length) (hy4 : 4 ≤ y) (hyl : y < h.length)
    (hp : hPrev h y = some p) (hq : hNext h y = some q) :
    DllEx (unlink h p q) y := by
  obtain ⟨⟨a, ha1, ha2, ha3, ha4⟩, ⟨b, hb1, hb2, hb3, hb4⟩, hall, hg1, hg2⟩ := hd
  obtain ⟨⟨p', hp1, hp2, hp3, hp4⟩, ⟨q', hq1, hq2, hq3, hq4⟩⟩ := hall y hy4 hyl (by omega)
  rw [hp] at hp1; cases hp1
  rw [hq] at hq1; cases hq1
  have hpl : p < h.length := hNext_isSome_lt hp4
  have hql : q < h.length := hPrev_isSome_lt hq4
  simp only [DllEx, hNext_unlink _ _ _ _ hpl, hPrev_unlink _ _ _ _ hql, length_unlink]
  refine ⟨?_, ?_, ?_, ?_, ?_⟩
  · by_cases hp0 : p = 0
    · refine ⟨q, by simp [hp0], hq2, ?_, by simp [hp0]⟩
      intro e; have := hPrev_fun hq4 hp e; omega
    · refine ⟨a, by simp [Ne.symm hp0, ha1], ha2, ?_, ?_⟩
      · intro e; have := hPrev_fun ha4 hp e; omega
      · have : a ≠ q := by intro e; have := hPrev_fun ha4 hq4 e; omega
        simp [this, ha4]
  · by_cases hq1 : q = 1
    · refine ⟨p, by simp [hq1], hp2, ?_, by simp [hq1]⟩
      intro e; have := hNext_fun hp4 hq e; omega
    · refine ⟨b, by simp [Ne.symm hq1, hb1], hb2, ?_, ?_⟩
      · intro e; have := hNext_fun hb4 hq e; omega
      · have : b ≠ p := by intro e; have := hNext_fun hb4 hp4 e; omega
        simp [this, hb4]
  · intro i hi4 hil hiy
    obtain ⟨⟨pi, hpi1, hpi2, hpi3, hpi4⟩, ⟨qi, hqi1, hqi2, hqi3, hqi4⟩⟩ :=
      hall i hi4 hil (by omega)
    constructor
    · by_cases hiq : i = q
      · refine ⟨p, by simp [hiq], hp2, ?_, by simp [hiq]⟩
        intro e; have := hNext_fun hp4 hq e; omega
      · refine ⟨pi, by simp [hiq, hpi1], hpi2, ?_, ?_⟩
        · intro e; have := hNext_fun hpi4 hq e; omega
        · have : pi ≠ p := by intro e; have := hNext_fun hpi4 hp4 e; omega
          simp [this, hpi4]
    · by_cases hip : i = p
      · refine ⟨q, by simp [hip], hq2, ?_, by simp [hip]⟩
        intro e; have := hPrev_fun hq4 hp e; omega
      · refine ⟨qi, by simp [hip, hqi1], hqi2, ?_, ?_⟩
        · intro e; have := hPrev_fun hqi4 hp e; omega
        · have : qi ≠ q := by intro e; have := hPrev_fun hqi4 hq4 e; omega
          simp [this, hqi4]
  · have : (2 : Nat) ≠ p := by omega
    simp [this, hg1]
  · have : (3 : Nat) ≠ q := by omega
    simp [this, hg2]

@[simp] theorem hKey_unlink (h : List (ArcNode K V)) (p q i : Nat) :
    hKey (unlink h p q) i = hKey h i := by
  simp [unlink]

@[simp] theorem hValue_unlink (h : List (ArcNode K V)) (p q i : Nat) :
    hValue (unlink h p q) i = hValue h i := by
  simp [unlink]

@[simp] theorem hCount_unlink (h : List (ArcNode K V)) (p q i : Nat) :
    hCount (unlink h p q) i = hCount h i := by
  simp [unlink]

@[simp] theorem length_linkTail (h : List (ArcNode K V)) (y t b : Nat) :
    (linkTail h y t b).length = h.length := by
  simp [linkTail]

@[simp] theorem hKey_linkTail (h : List (ArcNode K V)) (y t b i : Nat) :
    hKey (linkTail h y t b) i = hKey h i := by
  simp [linkTail]

@[simp] theorem hValue_linkTail (h : List (ArcNode K V)) (y t b i : Nat) :
    hValue (linkTail h y t b) i = hValue h i := by
  simp [linkTail]

@[simp] theorem hCount_linkTail (h : List (ArcNode K V)) (y t b i : Nat) :
    hCount (linkTail h y t b) i = hCount h i := by
  simp [linkTail]

theorem hNext_linkTail (h : List (ArcNode K V)) (y t b i : Nat) (hyl : y < h.length)
    (hbl : b < h.length) :
    hNext (linkTail h y t b) i =
      if i = b then some y else if i = y then some t else hNext h i := by
  simp [linkTail, hNext_setNext, hyl, hbl]

theorem hPrev_linkTail (h : List (ArcNode K V)) (y t b i : Nat) (hyl : y < h.length)
    (htl : t < h.length) :
    hPrev (linkTail h y t b) i =
      if i = t then some y else if i = y then some b else hPrev h i := by
  simp [linkTail, hPrev_setPrev, hyl, htl]

theorem dllEx_linkTail {h : List (ArcNode K V)} {y b : Nat}
    (hd : DllEx h y) (hy4 : 4 ≤ y) (hyl : y < h.length) (hb : hPrev h 1 = some b) :
    DllEx (linkTail h y 1 b) h.length := by
  obtain ⟨⟨a, ha1, ha2, ha3, ha4⟩, ⟨b', hb1, hb2, hb3, hb4⟩, hall, hg1, hg2⟩ := hd
  rw [hb] at hb1; cases hb1
  have hbl : b < h.length := hNext_isSome_lt hb4
  have h1l : 1 < h.length := by omega
  simp only [DllEx, hNext_linkTail _ _ _ _ _ hyl hbl, hPrev_linkTail _ _ _ _ _ hyl h1l,
    length_linkTail]
  refine ⟨?_, ?_, ?_, ?_, ?_⟩
  · by_cases hb0 : b = 0
    · refine ⟨y, by simp [hb0], Or.inr hy4, by omega, ?_⟩
      have : y ≠ 1 := by omega
      simp [this, hb0]
    · have h0y : (0 : Nat) ≠ y := by omega
      have ha1' : a ≠ 1 := by intro e; have := hPrev_fun ha4 hb e; omega
      have hal : a < h.length := hPrev_isSome_lt ha4
      refine ⟨a, by simp [Ne.symm hb0, h0y, ha1], ha2, by omega, ?_⟩
      simp [ha1', ha3, ha4]
  · have hyb : y ≠ b := fun e => hb3 e.symm
    exact ⟨y, by simp, Or.inr hy4, by omega, by simp [hyb]⟩
  · intro i hi4 hil _
    by_cases hiy : i = y
    · subst hiy
      have hi1 : i ≠ 1 := by omega
      have hib : i ≠ b := fun e => hb3 e.symm
      exact ⟨⟨b, by simp [hi1], hb2, by omega, by simp⟩, ⟨1, by simp [hib], Or.inl rfl, by omega, by simp⟩⟩
    · obtain ⟨⟨pi, hpi1, hpi2, hpi3, hpi4⟩, ⟨qi, hqi1, hqi2, hqi3, hqi4⟩⟩ :=
        hall i hi4 hil hiy
      have hi1 : i ≠ 1 := by omega
      constructor
      · have hpib : pi ≠ b := by intro e; have := hNext_fun hpi4 hb4 e; omega
        have hpil : pi < h.length := hNext_isSome_lt hpi4
        exact ⟨pi, by simp [hi1, hiy, hpi1], hpi2, by omega, by simp [hpib, hpi3, hpi4]⟩
      · by_cases hib : i = b
        · refine ⟨y, by simp [hib], Or.inr hy4, by omega, ?_⟩
          have : y ≠ 1 := by omega
          simp [this, hib]
        · have hqi1' : qi ≠ 1 := by intro e; have := hPrev_fun hqi4 hb e; omega
          have hqil : qi < h.length := hPrev_isSome_lt hqi4
          exact ⟨qi, by simp [hib, hiy, hqi1], hqi2, by omega, by simp [hqi1', hqi3, hqi4]⟩
  · have h2b : (2 : Nat) ≠ b := by omega
    have h2y : (2 : Nat) ≠ y := by omega
    simp [h2b, h2y, hg1]
  · have h3y : (3 : Nat) ≠ y := by omega
    simp [h3y, hg2]

end Links

section Links2Lemmas

variable {K V : Type}

/-- Unlinking a node other than `n1` keeps the phase-2 links, up to the `next` fields of
`n1` and `ghostHead`, which may now be `mainTail`; in that case `mainTail->prev` is the
cell in question. -/
theorem links2_unlink {h : List (ArcNode K V)} {n1 y p q : Nat}
    (hl : Links2 h n1 true h.length) (hy4 : 4 ≤ y) (hyl : y < h.length) (hyn : y ≠ n1)
    (hp : hPrev h y = some p) (hq : hNext h y = some q) :
    Links2 (unlink h p q) n1 false h.length ∧
      (hNext (unlink h p q) n1 = some 1 → hPrev (unlink h p q) 1 = some n1) ∧
      (hNext (unlink h p q) 2 = some 1 → hPrev (unlink h p q) 1 = some 2) ∧
      (p = 2 ∨ 4 ≤ p) ∧ p < h.length ∧ (q = 1 ∨ 4 ≤ q) ∧ q < h.length ∧ q ≠ n1 := by
  obtain ⟨h0, hn4, hnl, hne, hpn, ⟨qn, hqn1, hqn2, hqn3⟩, hp3, ⟨c, hc1, hc2, hc3, hc4⟩,
    ⟨b, hb1, hb2, hb3⟩, hall⟩ := hl
  obtain ⟨⟨p', hp1, hp2, hp3'⟩, ⟨q', hq1, hq2, hq3, hq4, hq5⟩⟩ := hall y hy4 hyl (by omega)
  rw [hp] at hp1; cases hp1
  rw [hq] at hq1; cases hq1
  have hq3ne : q ≠ 3 := fun e => hyn (hq5 e)
  have hpl : p < h.length := hp3'
  have hql : q < h.length := hq3
  simp only [Links2, hNext_unlink _ _ _ _ hpl, hPrev_unlink _ _ _ _ hql, length_unlink]
  refine ⟨⟨?_, hn4, hnl, hne, ?_, ?_, ?_, ?_, ?_, ?_⟩, ?_, ?_, hp2, hpl, by omega, hql, hq4⟩
  · have : (0 : Nat) ≠ p := by omega
    simp [this, h0]
  · simp [Ne.symm hq4, hpn]
  · by_cases hnp : n1 = p
    · refine ⟨q, by simp [hnp], ?_, hql⟩
      rcases hq2 with h1 | h1 | h1
      · exact Or.inl ⟨h1, trivial⟩
      · exact Or.inr (Or.inl h1)
      · exact Or.inr (Or.inr h1)
    · refine ⟨qn, by simp [hnp, hqn1], ?_, hqn3⟩
      rcases hqn2 with h1 | h1 | h1
      · simp at h1
      · exact Or.inr (Or.inl h1)
      · exact Or.inr (Or.inr h1)
  · simp [Ne.symm hq3ne, hp3]
  · by_cases h2p : 2 = p
    · refine ⟨q, by simp [h2p], ?_, hql, hq4⟩
      rcases hq2 with h1 | h1 | h1
      · exact Or.inl ⟨h1, trivial⟩
      · exact Or.inr (Or.inl h1)
      · exact Or.inr (Or.inr h1)
    · refine ⟨c, by simp [h2p, hc1], ?_, hc3, hc4⟩
      rcases hc2 with h1 | h1 | h1
      · simp at h1
      · exact Or.inr (Or.inl h1)
      · exact Or.inr (Or.inr h1)
  · by_cases h1q : 1 = q
    · exact ⟨p, by simp [h1q], hp2, hpl⟩
    · exact ⟨b, by simp [h1q, hb1], hb2, hb3⟩
  · intro i hi4 hil hie
    obtain ⟨⟨pi, hpi1, hpi2, hpi3⟩, ⟨qi, hqi1, hqi2, hqi3, hqi4, hqi5⟩⟩ := hall i hi4 hil hie
    constructor
    · by_cases hiq : i = q
      · exact ⟨p, by simp [hiq], hp2, hpl⟩
      · exact ⟨pi, by simp [hiq, hpi1], hpi2, hpi3⟩
    · by_cases hip : i = p
      · exact ⟨q, by simp [hip], hq2, hql, hq4, fun e => absurd e hq3ne⟩
      · exact ⟨qi, by simp [hip, hqi1], hqi2, hqi3, hqi4, hqi5⟩
  · intro hx
    by_cases hnp : n1 = p
    · simp [hnp] at hx
      subst hx
      simp [hnp]
    · simp [hnp, hqn1] at hx
      subst hx
      simp at hqn2
  · intro hx
    by_cases h2p : 2 = p
    · simp [h2p] at hx
      subst hx
      simp [← h2p]
    · simp [h2p, hc1] at hx
      subst hx
      simp at hc2

/-- Linking a node other than `n1` in front of `mainTail` restores the strict phase-2
links. -/
theorem links2_linkTail {h : List (ArcNode K V)} {n1 y b : Nat}
    (hl : Links2 h n1 false y) (hy4 : 4 ≤ y) (hyl : y < h.length) (hyn : y ≠ n1)
    (hb : hPrev h 1 = some b)
    (hn1 : hNext h n1 = some 1 → hPrev h 1 = some n1)
    (h21 : hNext h 2 = some 1 → hPrev h 1 = some 2) :
    Links2 (linkTail h y 1 b) n1 true h.length := by
  obtain ⟨h0, hn4, hnl, hne, hpn, ⟨qn, hqn1, hqn2, hqn3⟩, hp3, ⟨c, hc1, hc2, hc3, hc4⟩,
    ⟨b', hb1, hb2, hb3⟩, hall⟩ := hl
  rw [hb] at hb1; cases hb1
  have hbl : b < h.length := hb3
  have h1l : 1 < h.length := by omega
  simp only [Links2, hNext_linkTail _ _ _ _ _ hyl hbl, hPrev_linkTail _ _ _ _ _ hyl h1l,
    length_linkTail]
  have h0b : (0 : Nat) ≠ b := by omega
  have h0y : (0 : Nat) ≠ y := by omega
  refine ⟨by simp [h0b, h0y, h0], hn4, hnl, by omega, ?_, ?_, ?_, ?_, ?_, ?_⟩
  · have : n1 ≠ 1 := by omega
    simp [this, Ne.symm hyn, hpn]
  · by_cases hnb : n1 = b
    · exact ⟨y, by simp [hnb], by omega, hyl⟩
    · refine ⟨qn, by simp [hnb, Ne.symm hyn, hqn1], ?_, hqn3⟩
      rcases hqn2 with h1 | h1 | h1
      · exfalso
        rw [h1.1] at hqn1
        have := hn1 hqn1
        rw [hb] at this
        exact hnb (Option.some.inj this).symm
      · exact Or.inr (Or.inl h1)
      · exact Or.inr (Or.inr h1)
  · have : (3 : Nat) ≠ y := by omega
    simp [this, hp3]
  · by_cases h2b : 2 = b
    · exact ⟨y, by simp [h2b], by omega, hyl, hyn⟩
    · have h2y : (2 : Nat) ≠ y := by omega
      refine ⟨c, by simp [h2b, h2y, hc1], ?_, hc3, hc4⟩
      rcases hc2 with h1 | h1 | h1
      · exfalso
        rw [h1.1] at hc1
        have := h21 hc1
        rw [hb] at this
        exact h2b (Option.some.inj this).symm
      · exact Or.inr (Or.inl h1)
      · exact Or.inr (Or.inr h1)
  · exact ⟨y, by simp, Or.inr hy4, hyl⟩
  · intro i hi4 hil _
    have hi1 : i ≠ 1 := by omega
    by_cases hiy : i = y
    · subst hiy
      refine ⟨⟨b, by simp [hi1], hb2, hbl⟩, ?_⟩
      by_cases hib : i = b
      · exact ⟨i, by simp [hib], Or.inr (Or.inr hi4), hil, hyn, by omega⟩
      · exact ⟨1, by simp [hib], Or.inl rfl, h1l, by omega, by omega⟩
    · obtain ⟨⟨pi, hpi1, hpi2, hpi3⟩, ⟨qi, hqi1, hqi2, hqi3, hqi4, hqi5⟩⟩ := hall i hi4 hil hiy
      constructor
      · exact ⟨pi, by simp [hi1, hiy, hpi1], hpi2, hpi3⟩
      · by_cases hib : i = b
        · exact ⟨y, by simp [hib], Or.inr (Or.inr hy4), hyl, hyn, by omega⟩
        · exact ⟨qi, by simp [hib, hiy, hqi1], hqi2, hqi3, hqi4, hqi5⟩

end Links2Lemmas

section AllocLemmas

variable {K V : Type}

theorem hPrev_append (h : List (ArcNode K V)) (n : ArcNode K V) (i : Nat) :
    hPrev (h ++ [n]) i =
      if i < h.length then hPrev h i else if i = h.length then n.prev else none := by
  unfold hPrev
  by_cases h1 : i < h.length
  · simp [h1, List.getElem?_append_left h1]
  · by_cases h2 : i = h.length
    · subst h2
      simp
    · have h3 : h.length ≤ i := by omega
      have h4 : (h ++ [n])[i]? = none := by
        apply List.getElem?_eq_none
        simp
        omega
      simp [h1, h2, h4]

theorem hNext_append (h : List (ArcNode K V)) (n : ArcNode K V) (i : Nat) :
    hNext (h ++ [n]) i =
      if i < h.length then hNext h i else if i = h.length then n.next else none := by
  unfold hNext
  by_cases h1 : i < h.length
  · simp [h1, List.getElem?_append_left h1]
  · by_cases h2 : i = h.length
    · subst h2
      simp
    · have h3 : h.length ≤ i := by omega
      have h4 : (h ++ [n])[i]? = none := by
        apply List.getElem?_eq_none
        simp
        omega
      simp [h1, h2, h4]

theorem hKey_append (h : List (ArcNode K V)) (n : ArcNode K V) (i : Nat) :
    hKey (h ++ [n]) i =
      if i < h.length then hKey h i else if i = h.length then some n.key else none := by
  unfold hKey
  by_cases h1 : i < h.length
  · simp [h1, List.getElem?_append_left h1]
  · by_cases h2 : i = h.length
    · subst h2
      simp
    · have h3 : h.length ≤ i := by omega
      have h4 : (h ++ [n])[i]? = none := by
        apply List.getElem?_eq_none
        simp
        omega
      simp [h1, h2, h4]

theorem hValue_append (h : List (ArcNode K V)) (n : ArcNode K V) (i : Nat) :
    hValue (h ++ [n]) i =
      if i < h.length then hValue h i else if i = h.length then some n.value else none := by
  unfold hValue
  by_cases h1 : i < h.length
  · simp [h1, List.getElem?_append_left h1]
  · by_cases h2 : i = h.length
    · subst h2
      simp
    · have h3 : h.length ≤ i := by omega
      have h4 : (h ++ [n])[i]? = none := by
        apply List.getElem?_eq_none
        simp
        omega
      simp [h1, h2, h4]

theorem hCount_append (h : List (ArcNode K V)) (n : ArcNode K V) (i : Nat) :
    hCount (h ++ [n]) i =
      if i < h.length then hCount h i else if i = h.length then some n.accessCount else none := by
  unfold hCount
  by_cases h1 : i < h.length
  · simp [h1, List.getElem?_append_left h1]
  · by_cases h2 : i = h.length
    · subst h2
      simp
    · have h3 : h.length ≤ i := by omega
      have h4 : (h ++ [n])[i]? = none := by
        apply List.getElem?_eq_none
        simp
        omega
      simp [h1, h2, h4]

theorem hNext_append_lt (h : List (ArcNode K V)) (n : ArcNode K V) {i : Nat}
    (hi : i < h.length) : hNext (h ++ [n]) i = hNext h i := by
  simp [hNext_append, hi]

theorem hPrev_append_lt (h : List (ArcNode K V)) (n : ArcNode K V) {i : Nat}
    (hi : i < h.length) : hPrev (h ++ [n]) i = hPrev h i := by
  simp [hPrev_append, hi]

theorem hKey_append_lt (h : List (ArcNode K V)) (n : ArcNode K V) {i : Nat}
    (hi : i < h.length) : hKey (h ++ [n]) i = hKey h i := by
  simp [hKey_append, hi]

theorem dllEx_alloc {h : List (ArcNode K V)} (n : ArcNode K V) (h4 : 4 ≤ h.length)
    (hd : DllEx h h.length) : DllEx (h ++ [n]) h.length := by
  obtain ⟨⟨a, ha1, ha2, ha3, ha4⟩, ⟨b, hb1, hb2, hb3, hb4⟩, hall, hg1, hg2⟩ := hd
  have hal : a < h.length := hPrev_isSome_lt ha4
  have hbl : b < h.length := hNext_isSome_lt hb4
  refine ⟨⟨a, ?_, ha2, ha3, ?_⟩, ⟨b, ?_, hb2, hb3, ?_⟩, ?_, ?_, ?_⟩
  · rw [hNext_append_lt _ _ (by omega)]; exact ha1
  · rw [hPrev_append_lt _ _ hal]; exact ha4
  · rw [hPrev_append_lt _ _ (by omega)]; exact hb1
  · rw [hNext_append_lt _ _ hbl]; exact hb4
  · intro i hi4 hil hie
    have hil' : i < h.length := by
      simp at hil
      omega
    obtain ⟨⟨pi, hpi1, hpi2, hpi3, hpi4⟩, ⟨qi, hqi1, hqi2, hqi3, hqi4⟩⟩ := hall i hi4 hil' hie
    have hpl : pi < h.length := hNext_isSome_lt hpi4
    have hql : qi < h.length := hPrev_isSome_lt hqi4
    refine ⟨⟨pi, ?_, hpi2, hpi3, ?_⟩, ⟨qi, ?_, hqi2, hqi3, ?_⟩⟩
    · rw [hPrev_append_lt _ _ hil']; exact hpi1
    · rw [hNext_append_lt _ _ hpl]; exact hpi4
    · rw [hNext_append_lt _ _ hil']; exact hqi1
    · rw [hPrev_append_lt _ _ hql]; exact hqi4
  · rw [hNext_append_lt _ _ (by omega)]; exact hg1
  · rw [hPrev_append_lt _ _ (by omega)]; exact hg2

theorem links2_alloc {h : List (ArcNode K V)} {n1 : Nat} {st : Bool} (n : ArcNode K V)
    (hl : Links2 h n1 st h.length) : Links2 (h ++ [n]) n1 st h.length := by
  obtain ⟨h0, hn4, hnl, hne, hpn, ⟨qn, hqn1, hqn2, hqn3⟩, hp3, ⟨c, hc1, hc2, hc3, hc4⟩,
    ⟨b, hb1, hb2, hb3⟩, hall⟩ := hl
  have hlen : (h ++ [n]).length = h.length + 1 := by simp
  refine ⟨?_, hn4, by omega, hne, ?_, ⟨qn, ?_, hqn2, by omega⟩, ?_,
    ⟨c, ?_, hc2, by omega, hc4⟩, ⟨b, ?_, hb2, by omega⟩, ?_⟩
  · rw [hNext_append_lt _ _ (by omega)]; exact h0
  · rw [hPrev_append_lt _ _ hnl]; exact hpn
  · rw [hNext_append_lt _ _ hnl]; exact hqn1
  · rw [hPrev_append_lt _ _ (by omega)]; exact hp3
  · rw [hNext_append_lt _ _ (by omega)]; exact hc1
  · rw [hPrev_append_lt _ _ (by omega)]; exact hb1
  · intro i hi4 hil hie
    have hil' : i < h.length := by omega
    obtain ⟨⟨pi, hpi1, hpi2, hpi3⟩, ⟨qi, hqi1, hqi2, hqi3, hqi4, hqi5⟩⟩ := hall i hi4 hil' hie
    refine ⟨⟨pi, ?_, hpi2, by omega⟩, ⟨qi, ?_, hqi2, by omega, hqi4, hqi5⟩⟩
    · rw [hPrev_append_lt _ _ hil']; exact hpi1
    · rw [hNext_append_lt _ _ hil']; exact hqi1

/-- Weakening: the strict links are links, and a node may be left out. -/
theorem links2_weaken {h : List (ArcNode K V)} {n1 ex : Nat} {st : Bool}
    (hl : Links2 h n1 st h.length) (hex : ex ≠ n1) : Links2 h n1 false ex := by
  obtain ⟨h0, hn4, hnl, hne, hpn, ⟨qn, hqn1, hqn2, hqn3⟩, hp3, ⟨c, hc1, hc2, hc3, hc4⟩,
    ⟨b, hb1, hb2, hb3⟩, hall⟩ := hl
  refine ⟨h0, hn4, hnl, fun e => hex e.symm, hpn, ⟨qn, hqn1, ?_, hqn3⟩, hp3,
    ⟨c, hc1, ?_, hc3, hc4⟩, ⟨b, hb1, hb2, hb3⟩, ?_⟩
  · rcases hqn2 with h1 | h1 | h1
    · exact Or.inl ⟨h1.1, rfl⟩
    · exact Or.inr (Or.inl h1)
    · exact Or.inr (Or.inr h1)
  · rcases hc2 with h1 | h1 | h1
    · exact Or.inl ⟨h1.1, rfl⟩
    · exact Or.inr (Or.inl h1)
    · exact Or.inr (Or.inr h1)
  · intro i hi4 hil _
    exact hall i hi4 hil (by omega)

end AllocLemmas

section ReghostLemmas

variable {K V : Type}

@[simp] theorem length_reghost (h : List (ArcNode K V)) (n1 : Nat) :
    (reghost h n1).length = h.length := by
  simp [reghost]

@[simp] theorem hKey_reghost (h : List (ArcNode K V)) (n1 i : Nat) :
    hKey (reghost h n1) i = hKey h i := by
  simp [reghost]

@[simp] theorem hValue_reghost (h : List (ArcNode K V)) (n1 i : Nat) :
    hValue (reghost h n1) i = hValue h i := by
  simp [reghost]

theorem hNext_reghost (h : List (ArcNode K V)) (n1 i : Nat) (hn4 : 4 ≤ n1)
    (hnl : n1 < h.length) :
    hNext (reghost h n1) i =
      if i = 2 then some 3 else if i = n1 then some 3 else hNext h i := by
  unfold reghost
  rw [hNext_unlink _ _ _ _ (by simp; omega), hNext_linkTail _ _ _ _ _ (by simp; omega)
    (by simp; omega)]
  by_cases h2 : i = 2
  · simp [h2]
  · by_cases hn : i = n1
    · have : n1 ≠ 2 := by omega
      simp [hn, this]
    · simp [h2, hn]

theorem hPrev_reghost (h : List (ArcNode K V)) (n1 i : Nat) (hn4 : 4 ≤ n1)
    (hnl : n1 < h.length) :
    hPrev (reghost h n1) i =
      if i = 3 then some 2 else if i = n1 then some 2 else hPrev h i := by
  unfold reghost
  rw [hPrev_unlink _ _ _ _ (by simp; omega), hPrev_linkTail _ _ _ _ _ (by simp; omega)
    (by simp; omega)]
  by_cases h3 : i = 3
  · simp [h3]
  · by_cases hn : i = n1
    · have : n1 ≠ 3 := by omega
      simp [hn, this]
    · simp [h3, hn]

theorem hCount_reghost (h : List (ArcNode K V)) (n1 i : Nat) (hnl : n1 < h.length) :
    hCount (reghost h n1) i = if i = n1 then some 1 else hCount h i := by
  simp [reghost, hCount_setCount, hnl]

/-- The second half of `evictLeastRecent` restores the strict phase-2 links. -/
theorem links2_reghost {h : List (ArcNode K V)} {n1 : Nat}
    (hl : Links2 h n1 false h.length) : Links2 (reghost h n1) n1 true h.length := by
  obtain ⟨h0, hn4, hnl, hne, hpn, ⟨qn, hqn1, hqn2, hqn3⟩, hp3, ⟨c, hc1, hc2, hc3, hc4⟩,
    ⟨b, hb1, hb2, hb3⟩, hall⟩ := hl
  simp only [Links2, hNext_reghost _ _ _ hn4 hnl, hPrev_reghost _ _ _ hn4 hnl, length_reghost]
  have e0 : (0 : Nat) ≠ n1 := by omega
  have e1 : (1 : Nat) ≠ n1 := by omega
  refine ⟨by simp [e0, h0], hn4, hnl, hne, by simp, ⟨3, by simp, by simp, by omega⟩, by simp,
    ⟨3, by simp, by simp, by omega, by omega⟩, ⟨b, by simp [e1, hb1], hb2, hb3⟩, ?_⟩
  intro i hi4 hil hie
  obtain ⟨⟨pi, hpi1, hpi2, hpi3⟩, ⟨qi, hqi1, hqi2, hqi3, hqi4, hqi5⟩⟩ := hall i hi4 hil hie
  have e3 : i ≠ 3 := by omega
  have e2 : i ≠ 2 := by omega
  by_cases hin : i = n1
  · exact ⟨⟨2, by simp [hin], Or.inl rfl, by omega⟩,
      ⟨3, by simp [hin], Or.inr (Or.inl rfl), by omega, by omega, fun _ => hin⟩⟩
  · exact ⟨⟨pi, by simp [e3, hin, hpi1], hpi2, hpi3⟩,
      ⟨qi, by simp [e2, hin, hqi1], hqi2, hqi3, hqi4, hqi5⟩⟩

/-- The first eviction turns the consistent main list into the phase-2 links. -/
theorem links2_first {h : List (ArcNode K V)} {n1 : Nat} (h4 : 4 ≤ h.length)
    (hd : DllEx h h.length) (h0 : hNext h 0 = some n1) (hn1 : n1 ≠ 1) :
    Links2 (reghost h n1) n1 true h.length := by
  obtain ⟨⟨a, ha1, ha2, ha3, ha4⟩, ⟨b, hb1, hb2, hb3, hb4⟩, hall, hg1, hg2⟩ := hd
  rw [h0] at ha1; cases ha1
  have hn4 : 4 ≤ n1 := by omega
  have hnl : n1 < h.length := hPrev_isSome_lt ha4
  have hbl : b < h.length := hNext_isSome_lt hb4
  simp only [Links2, hNext_reghost _ _ _ hn4 hnl, hPrev_reghost _ _ _ hn4 hnl, length_reghost]
  have e0 : (0 : Nat) ≠ n1 := by omega
  have e1 : (1 : Nat) ≠ n1 := by omega
  have hb0 : b ≠ 0 := by intro e; have := hNext_fun hb4 h0 e; omega
  refine ⟨by simp [e0, h0], hn4, hnl, by omega, by simp, ⟨3, by simp, by simp, by omega⟩,
    by simp, ⟨3, by simp, by simp, by omega, by omega⟩,
    ⟨b, by simp [e1, hb1], by omega, hbl⟩, ?_⟩
  intro i hi4 hil hie
  obtain ⟨⟨pi, hpi1, hpi2, hpi3, hpi4⟩, ⟨qi, hqi1, hqi2, hqi3, hqi4⟩⟩ := hall i hi4 hil hie
  have e3 : i ≠ 3 := by omega
  have e2 : i ≠ 2 := by omega
  by_cases hin : i = n1
  · exact ⟨⟨2, by simp [hin], Or.inl rfl, by omega⟩,
      ⟨3, by simp [hin], Or.inr (Or.inl rfl), by omega, by omega, fun _ => hin⟩⟩
  · have hp0 : pi ≠ 0 := by intro e; have := hNext_fun hpi4 h0 e; omega
    have hqn : qi ≠ n1 := by intro e; have := hPrev_fun hqi4 ha4 e; omega
    have hpl : pi < h.length := hNext_isSome_lt hpi4
    have hql : qi < h.length := hPrev_isSome_lt hqi4
    exact ⟨⟨pi, by simp [e3, hin, hpi1], by omega, hpl⟩,
      ⟨qi, by simp [e2, hin, hqi1], by omega, hql, hqn, by omega⟩⟩

/-- Source `removeGhostNode(n1)` in `checkGhost` keeps the strict phase-2 links. -/
theorem links2_unghost {h : List (ArcNode K V)} {n1 q : Nat}
    (hl : Links2 h n1 true h.length) (hq : hNext h n1 = some q) :
    Links2 (unlink h 2 q) n1 true h.length := by
  obtain ⟨h0, hn4, hnl, hne, hpn, ⟨qn, hqn1, hqn2, hqn3⟩, hp3, ⟨c, hc1, hc2, hc3, hc4⟩,
    ⟨b, hb1, hb2, hb3⟩, hall⟩ := hl
  rw [hq] at hqn1; cases hqn1
  obtain ⟨-, ⟨q', hq1, hq2, hq3, hq4, hq5⟩⟩ := hall n1 hn4 hnl hne
  rw [hq] at hq1; cases hq1
  have hq13 : q = 3 ∨ 4 ≤ q := by
    rcases hqn2 with h1 | h1 | h1
    · simp at h1
    · exact Or.inl h1
    · exact Or.inr h1
  have h2l : 2 < h.length := by omega
  simp only [Links2, hNext_unlink _ _ _ _ h2l, hPrev_unlink _ _ _ _ hqn3, length_unlink]
  refine ⟨by simp [h0], hn4, hnl, hne, by simp [Ne.symm hq4, hpn], ?_, ?_,
    ⟨q, by simp, by simp; omega, hqn3, hq4⟩, ?_, ?_⟩
  · have : n1 ≠ 2 := by omega
    exact ⟨q, by simp [this, hq], by simp; omega, hqn3⟩
  · by_cases h3 : 3 = q
    · simp [h3]
    · simp [h3, hp3]
  · have : (1 : Nat) ≠ q := by omega
    exact ⟨b, by simp [this, hb1], hb2, hb3⟩
  · intro i hi4 hil hie
    obtain ⟨⟨pi, hpi1, hpi2, hpi3⟩, ⟨qi, hqi1, hqi2, hqi3, hqi4, hqi5⟩⟩ := hall i hi4 hil hie
    have e2 : i ≠ 2 := by omega
    constructor
    · by_cases hiq : i = q
      · exact ⟨2, by simp [hiq], Or.inl rfl, by omega⟩
      · exact ⟨pi, by simp [hiq, hpi1], hpi2, hpi3⟩
    · exact ⟨qi, by simp [e2, hqi1], hqi2, hqi3, hqi4, hqi5⟩

end ReghostLemmas

/-! ## The operations of the recency partition -/

attribute [irreducible] hUpd setNext setPrev setCount setValue incCount unlink linkTail reghost

section LruOps

variable {K V : Type} [DecidableEq K]

/-- Source `addToGhost` as field assignments. -/
theorem ArcLruPart.addToGhost_eq (s : ArcLruPart K V) {y t b : Nat} {k : K}
    (ht : s.ghostTail = some t) (hb : hPrev s.heap t = some b)
    (hyl : y < s.heap.length) (hbl : b < s.heap.length) (hk : hKey s.heap y = some k) :
    s.addToGhost (some y) =
      some { s with heap := linkTail (setCount s.heap y 1) y t b,
                    ghostCache := umSet s.ghostCache k (some y) } := by
  have htl : t < s.heap.length := hPrev_isSome_lt hb
  have hk4 : hKey (linkTail (setCount s.heap y 1) y t b) y = some k := by simpa using hk
  have hl4 : y < (linkTail (setCount s.heap y 1) y t b).length := by simpa using hyl
  have hkk := getElem_key_eq _ hl4 hk4
  unfold ArcLruPart.addToGhost
  simp only [ht, Option.bind_eq_bind, Option.some_bind, Option.pure_def]
  simp only [linkTail] at hkk hl4 ⊢
  simp [writeNode_next, writeNode_prev, writeNode_count, readNode_lt, getElem_prev, hyl, hbl,
    htl, hb, hPrev_setPrev, hkk]

/-- Source `moveToMainTail` as field assignments. -/
theorem ArcLruPart.moveToMainTail_eq (s : ArcLruPart K V) {y p q b : Nat}
    (ht : s.mainTail = some 1)
    (hp : hPrev s.heap y = some p) (hq : hNext s.heap y = some q)
    (hpl : p < s.heap.length) (hql : q < s.heap.length)
    (hb : hPrev (unlink s.heap p q) 1 = some b) (hbl : b < s.heap.length) :
    s.moveToMainTail (some y) =
      some { s with heap := linkTail (unlink s.heap p q) y 1 b } := by
  have hyl : y < s.heap.length := hNext_isSome_lt hq
  unfold ArcLruPart.moveToMainTail
  rw [s.removeNode_eq hp hq hpl hql]
  simp only [Option.bind_eq_bind, Option.some_bind]
  exact ArcLruPart.addToMainTail_eq { s with heap := unlink s.heap p q } ht hb
    (by simpa using hyl) (by simpa using hbl)

theorem dllEx_congr {h h1 : List (ArcNode K V)} {ex : Nat} (hs : SameLinks h h1)
    (hd : DllEx h ex) : DllEx h1 ex := by
  obtain ⟨hlen, hf⟩ := hs
  have e1 : ∀ i, hPrev h1 i = hPrev h i := fun i => (hf i).1
  have e2 : ∀ i, hNext h1 i = hNext h i := fun i => (hf i).2
  simpa only [DllEx, e1, e2, hlen] using hd

theorem links2_congr {h h1 : List (ArcNode K V)} {n1 ex : Nat} {st : Bool}
    (hs : SameLinks h h1) (hl : Links2 h n1 st ex) : Links2 h1 n1 st ex := by
  obtain ⟨hlen, hf⟩ := hs
  have e1 : ∀ i, hPrev h1 i = hPrev h i := fun i => (hf i).1
  have e2 : ∀ i, hNext h1 i = hNext h i := fun i => (hf i).2
  simpa only [Links2, e1, e2, hlen] using hl

theorem mapOk_congr {h h1 : List (ArcNode K V)} {m : List (K × NodePtr)} {P : Nat → Prop}
    (hlen : h1.length = h.length) (hk : ∀ i, hKey h1 i = hKey h i) (hm : MapOk h m P) :
    MapOk h1 m P := by
  intro k p hmem
  obtain ⟨i, hi1, hi2, hi3, hi4⟩ := hm k p hmem
  exact ⟨i, hi1, by omega, hi3, by rw [hk]; exact hi4⟩

theorem mapOk_mono {h : List (ArcNode K V)} {m : List (K × NodePtr)} {P Q : Nat → Prop}
    (hpq : ∀ i, i < h.length → P i → Q i) (hm : MapOk h m P) : MapOk h m Q := by
  intro k p hmem
  obtain ⟨i, hi1, hi2, hi3, hi4⟩ := hm k p hmem
  exact ⟨i, hi1, hi2, hpq i hi2 hi3, hi4⟩

theorem sameData_unlink (h : List (ArcNode K V)) (p q : Nat) : SameData h (unlink h p q) :=
  ⟨by simp, fun i => ⟨by simp, by simp, by simp⟩⟩

theorem sameData_linkTail (h : List (ArcNode K V)) (y t b : Nat) :
    SameData h (linkTail h y t b) :=
  ⟨by simp, fun i => ⟨by simp, by simp, by simp⟩⟩

theorem sameData_trans {h h1 h2 : List (ArcNode K V)} (a : SameData h h1)
    (b : SameData h1 h2) : SameData h h2 :=
  ⟨by rw [b.1, a.1], fun i =>
    ⟨by rw [(b.2 i).1, (a.2 i).1], by rw [(b.2 i).2.1, (a.2 i).2.1],
      by rw [(b.2 i).2.2, (a.2 i).2.2]⟩⟩

/-- Source `moveToMainTail` on a node of the main index: it returns, keeps the invariant
and the data of every cell, and makes the node the last one before `mainTail`. -/
theorem ArcLruPart.moveToMainTail_inv (s : ArcLruPart K V) (hinv : s.Inv) {k : K} {y : Nat}
    (hmem : (k, some y) ∈ s.mainCache) :
    ∃ h1, s.moveToMainTail (some y) = some { s with heap := h1 } ∧ SameData s.heap h1 ∧
      ({ s with heap := h1 } : ArcLruPart K V).Inv ∧ hPrev h1 1 = some y := by
  obtain ⟨⟨b0, b1, b2, b3, b4⟩, hph⟩ := hinv
  rcases hph with ⟨hg, hd, hm⟩ | ⟨n1, hl, hg, hm⟩
  · obtain ⟨i, hi1, hi2, hi3, hi4⟩ := hm k _ hmem
    cases hi1
    have hall := hd.2.2.1 y hi3 hi2 (by omega)
    obtain ⟨⟨p, hp1, hp2, hp3, hp4⟩, ⟨q, hq1, hq2, hq3, hq4⟩⟩ := hall
    have hpl : p < s.heap.length := hNext_isSome_lt hp4
    have hql : q < s.heap.length := hPrev_isSome_lt hq4
    have hd1 := dllEx_unlink hd hi3 hi2 hp1 hq1
    obtain ⟨b, hb1, hb2, hb3, hb4⟩ := hd1.2.1
    have hbl : b < s.heap.length := by
      have := hNext_isSome_lt hb4
      simpa using this
    have hd2 := dllEx_linkTail hd1 hi3 (by simpa using hi2) hb1
    have hsd : SameData s.heap (linkTail (unlink s.heap p q) y 1 b) :=
      sameData_trans (sameData_unlink _ _ _) (sameData_linkTail _ _ _ _)
    have heq := s.moveToMainTail_eq b1 hp1 hq1 hpl hql hb1 hbl
    have hm2 : MapOk (linkTail (unlink s.heap p q) y 1 b) s.mainCache (fun i => 4 ≤ i) :=
      mapOk_congr hsd.1 (fun i => (hsd.2 i).1) hm
    refine ⟨linkTail (unlink s.heap p q) y 1 b, heq, hsd, ⟨⟨b0, b1, b2, b3, ?_⟩, ?_⟩, ?_⟩
    · simpa using b4
    · refine Or.inl ⟨hg, ?_, ?_⟩
      · simpa using hd2
      · simpa using hm2
    · rw [hPrev_linkTail _ _ _ _ _ (by simpa using hi2) (by simp; omega)]
      simp
  · obtain ⟨i, hi1, hi2, ⟨hi3, hi5⟩, hi4⟩ := hm k _ hmem
    cases hi1
    have hall := hl.2.2.2.2.2.2.2.2.2 y hi3 hi2 (by omega)
    obtain ⟨⟨p, hp1, hp2, hp3⟩, ⟨q, hq1, hq2, hq3, hq4, hq5⟩⟩ := hall
    obtain ⟨hl1, hx1, hx2, -⟩ := links2_unlink hl hi3 hi2 hi5 hp1 hq1
    obtain ⟨b, hb1, hb2, hb3⟩ := hl1.2.2.2.2.2.2.2.2.1
    have hbl : b < s.heap.length := by simpa using hb3
    have hl1' : Links2 (unlink s.heap p q) n1 false y :=
      links2_weaken (by simpa using hl1) hi5
    have hl2 := links2_linkTail hl1' hi3 (by simpa using hi2) hi5 hb1 hx1 hx2
    have hsd : SameData s.heap (linkTail (unlink s.heap p q) y 1 b) :=
      sameData_trans (sameData_unlink _ _ _) (sameData_linkTail _ _ _ _)
    have hm2 : MapOk (linkTail (unlink s.heap p q) y 1 b) s.mainCache
        (fun i => 4 ≤ i ∧ i ≠ n1) := mapOk_congr hsd.1 (fun i => (hsd.2 i).1) hm
    have hl3 : Links2 (linkTail (unlink s.heap p q) y 1 b) n1 true
        (linkTail (unlink s.heap p q) y 1 b).length := by
      rw [length_linkTail]
      exact hl2
    have hg2 : ∀ k1 p1, (k1, p1) ∈ s.ghostCache →
        p1 = some n1 ∧ hKey (linkTail (unlink s.heap p q) y 1 b) n1 = some k1 := by
      intro k1 p1 hmem1
      obtain ⟨e1, e2⟩ := hg k1 p1 hmem1
      exact ⟨e1, by rw [(hsd.2 n1).1]; exact e2⟩
    have heq := s.moveToMainTail_eq b1 hp1 hq1 hp3 hq3 hb1 hbl
    refine ⟨linkTail (unlink s.heap p q) y 1 b, heq, hsd, ⟨⟨b0, b1, b2, b3, ?_⟩, ?_⟩, ?_⟩
    · simpa using b4
    · refine Or.inr ⟨n1, ?_, ?_, ?_⟩
      · simpa using hl2
      · simpa using hg2
      · simpa using hm2
    · rw [hPrev_linkTail _ _ _ _ _ (by simpa using hi2) (by simp; omega)]
      simp


/-- The second half of `evictLeastRecent` (`addToGhost`, `removeMainNode`, `erase`) on a
state whose `ghostTail->prev` is `ghostHead`. -/
theorem ArcLruPart.evictLeastRecent_eq (s s1 : ArcLruPart K V) {n1 : Nat} {k1 : K}
    (hne : s.mainCache.isEmpty = false) (hmh : s.mainHead = some 0)
    (hmt : s.mainTail = some 1) (h0 : hNext s.heap 0 = some n1) (hn1 : n1 ≠ 1)
    (hs1 : (if s.ghostCache.length ≥ s.ghostCapacity then s.evictOldestGhost else pure s)
      = some s1)
    (hgt : s1.ghostTail = some 3) (h3 : hPrev s1.heap 3 = some 2)
    (hn4 : 4 ≤ n1) (hnl : n1 < s1.heap.length) (hk : hKey s1.heap n1 = some k1) :
    s.evictLeastRecent =
      some { s1 with heap := reghost s1.heap n1,
                     ghostCache := umSet s1.ghostCache k1 (some n1),
                     mainCache := umErase s1.mainCache k1 } := by
  have h0l : 0 < s.heap.length := hNext_isSome_lt h0
  have hmhn : (s.heap[0]).next = some n1 := by rw [getElem_next _ h0l]; exact h0
  have hne1 : ¬ (some n1 : NodePtr) = some 1 := by
    intro e; exact hn1 (Option.some.inj e)
  have h2l : 2 < s1.heap.length := by omega
  have hadd := ArcLruPart.addToGhost_eq s1 hgt h3 hnl h2l hk
  have hp2 : hPrev (linkTail (setCount s1.heap n1 1) n1 3 2) n1 = some 2 := by
    rw [hPrev_linkTail _ _ _ _ _ (by simpa using hnl) (by simp; omega)]
    have : n1 ≠ 3 := by omega
    simp [this]
  have hq2 : hNext (linkTail (setCount s1.heap n1 1) n1 3 2) n1 = some 3 := by
    rw [hNext_linkTail _ _ _ _ _ (by simpa using hnl) (by simp; omega)]
    have : n1 ≠ 2 := by omega
    simp [this]
  have hrem := ArcLruPart.removeNode_eq
    ({ s1 with heap := linkTail (setCount s1.heap n1 1) n1 3 2,
               ghostCache := umSet s1.ghostCache k1 (some n1) }) hp2 hq2
    (by simp; omega) (by simp; omega)
  dsimp only at hrem
  rw [← reghost] at hrem
  have hkr : hKey (reghost s1.heap n1) n1 = some k1 := by simpa using hk
  have hlr : n1 < (reghost s1.heap n1).length := by simpa using hnl
  rcases getElem?_of_lt (reghost s1.heap n1) hlr with ⟨n, hn⟩
  have hnk : n.key = k1 := by
    have := (getElem?_fields hn).2.2.1
    rw [hkr] at this
    exact (Option.some.inj this).symm
  have hfin : ∀ (a : ArcLruPart K V), a = s1 →
      ((a.addToGhost (some n1)).bind fun a =>
        (a.removeMainNode (some n1)).bind fun a =>
          (readNode a.heap (some n1)).bind fun n =>
            some { a with mainCache := umErase a.mainCache n.key }) =
      some { s1 with heap := reghost s1.heap n1,
                     ghostCache := umSet s1.ghostCache k1 (some n1),
                     mainCache := umErase s1.mainCache k1 } := by
    intro a ha
    subst ha
    simp only [Option.some_bind, hadd, ArcLruPart.removeMainNode, hrem, readNode_some, hn, hnk]
  unfold ArcLruPart.evictLeastRecent
  simp only [hne, hmh, hmt, readNode_lt _ h0l, hmhn, hne1, Bool.false_eq_true, if_false,
    Option.bind_eq_bind, Option.some_bind, Option.pure_def, ge_iff_le]
  simp only [Option.pure_def, ge_iff_le] at hs1
  by_cases hc : s.ghostCapacity ≤ s.ghostCache.length
  · simp only [hc, if_true] at hs1 ⊢
    rw [hs1]
    exact hfin s1 rfl
  · simp only [hc, if_false] at hs1 ⊢
    exact hfin s (Option.some.inj hs1)

theorem hKey_of_lt (h : List (ArcNode K V)) {i : Nat} (hi : i < h.length) :
    ∃ k, hKey h i = some k := by
  rcases getElem?_of_lt h hi with ⟨n, hn⟩
  exact ⟨n.key, (getElem?_fields hn).2.2.1⟩

theorem hValue_of_lt (h : List (ArcNode K V)) {i : Nat} (hi : i < h.length) :
    ∃ v, hValue h i = some v := by
  rcases getElem?_of_lt h hi with ⟨n, hn⟩
  exact ⟨n.value, (getElem?_fields hn).2.2.2.1⟩

theorem hCount_of_lt (h : List (ArcNode K V)) {i : Nat} (hi : i < h.length) :
    ∃ c, hCount h i = some c := by
  rcases getElem?_of_lt h hi with ⟨n, hn⟩
  exact ⟨n.accessCount, (getElem?_fields hn).2.2.2.2⟩

theorem sameData_refl (h : List (ArcNode K V)) : SameData h h :=
  ⟨rfl, fun _ => ⟨rfl, rfl, rfl⟩⟩

/-- Source `evictOldestGhost` after the first eviction: it returns, and only the links
and the ghost index change. -/
theorem ArcLruPart.evictOldestGhost_phase2 (s : ArcLruPart K V) (hb : s.Base) {n1 : Nat}
    (hl : Links2 s.heap n1 true s.heap.length) :
    ∃ h1 g1, s.evictOldestGhost = some { s with heap := h1, ghostCache := g1 } ∧
      SameData s.heap h1 ∧ Links2 h1 n1 false h1.length ∧ (∀ x ∈ g1, x ∈ s.ghostCache) := by
  obtain ⟨b0, b1, b2, b3, b4⟩ := hb
  have hnl : n1 < s.heap.length := hl.2.2.1
  have hweak : Links2 s.heap n1 false s.heap.length :=
    links2_weaken hl (by omega)
  by_cases hemp : s.ghostCache.isEmpty = true
  · refine ⟨s.heap, s.ghostCache, ?_, sameData_refl _, hweak, fun x hx => hx⟩
    unfold ArcLruPart.evictOldestGhost
    simp [hemp]
  · obtain ⟨c, hc1, hc2, hc3, hc4⟩ := hl.2.2.2.2.2.2.2.1
    have h2l : 2 < s.heap.length := by omega
    have hgn : (s.heap[2]).next = some c := by rw [getElem_next _ h2l]; exact hc1
    by_cases hc3' : c = 3
    · refine ⟨s.heap, s.ghostCache, ?_, sameData_refl _, hweak, fun x hx => hx⟩
      have e1 : readNode s.heap s.ghostHead = some (s.heap[2]) := by
        rw [b2]; exact readNode_lt _ h2l
      have e2 : (s.heap[2]).next = s.ghostTail := by rw [hgn, b3, hc3']
      unfold ArcLruPart.evictOldestGhost
      simp [hemp, e1, e2]
    · have hc4' : 4 ≤ c := by
        rcases hc2 with h | h | h
        · simp at h
        · exact absurd h hc3'
        · exact h
      obtain ⟨⟨p, hp1, hp2, hp3⟩, ⟨q, hq1, hq2, hq3, hq4, hq5⟩⟩ :=
        hl.2.2.2.2.2.2.2.2.2 c hc4' hc3 (by omega)
      obtain ⟨hl1, -, -, -⟩ := links2_unlink hl hc4' hc3 hc4 hp1 hq1
      obtain ⟨kc, hkc⟩ := hKey_of_lt s.heap hc3
      have hrem := s.removeNode_eq hp1 hq1 hp3 hq3
      have hcl : c < (unlink s.heap p q).length := by simpa using hc3
      rcases getElem?_of_lt (unlink s.heap p q) hcl with ⟨n, hn⟩
      have hnk : n.key = kc := by
        have := (getElem?_fields hn).2.2.1
        rw [hKey_unlink, hkc] at this
        exact (Option.some.inj this).symm
      have hne3 : ¬ (some c : NodePtr) = some 3 := fun e => hc3' (Option.some.inj e)
      refine ⟨unlink s.heap p q, umErase s.ghostCache kc, ?_, sameData_unlink _ _ _, ?_,
        fun x hx => (mem_umErase hx).1⟩
      · have e1 : readNode s.heap s.ghostHead = some (s.heap[2]) := by
          rw [b2]; exact readNode_lt _ h2l
        have e2 : ¬ (some c : NodePtr) = s.ghostTail := by rw [b3]; exact hne3
        unfold ArcLruPart.evictOldestGhost
        simp only [hemp, e1, e2, hgn, Bool.false_eq_true, if_false,
          Option.bind_eq_bind, Option.some_bind, Option.pure_def, ArcLruPart.removeGhostNode,
          hrem, readNode_some, hn, hnk]
      · simpa using hl1

/-- The state left by the second half of `evictLeastRecent` is a phase-2 state. -/
theorem ArcLruPart.inv_reghost (s1 : ArcLruPart K V) (hb : s1.Base) {n1 : Nat} {k1 : K}
    (hl : Links2 (reghost s1.heap n1) n1 true s1.heap.length)
    (hk : hKey s1.heap n1 = some k1)
    (hg : ∀ k p, (k, p) ∈ s1.ghostCache → p = some n1 ∧ hKey s1.heap n1 = some k)
    (hm : MapOk s1.heap s1.mainCache (fun i => 4 ≤ i)) :
    ({ s1 with heap := reghost s1.heap n1,
               ghostCache := umSet s1.ghostCache k1 (some n1),
               mainCache := umErase s1.mainCache k1 } : ArcLruPart K V).Inv := by
  obtain ⟨b0, b1, b2, b3, b4⟩ := hb
  refine ⟨⟨b0, b1, b2, b3, ?_⟩, Or.inr ⟨n1, ?_, ?_, ?_⟩⟩
  · simpa using b4
  · simpa using hl
  · intro k p hmem
    have hmem' : (k, p) ∈ umSet s1.ghostCache k1 (some n1) := hmem
    rcases mem_umSet hmem' with h1 | h1
    · cases h1
      exact ⟨rfl, by simpa using hk⟩
    · obtain ⟨e1, e2⟩ := hg k p h1
      exact ⟨e1, by simpa using e2⟩
  · intro k p hmem
    have hmem' : (k, p) ∈ umErase s1.mainCache k1 := hmem
    obtain ⟨h1, h2⟩ := mem_umErase hmem'
    obtain ⟨i, hi1, hi2, hi3, hi4⟩ := hm k p h1
    refine ⟨i, hi1, by simpa using hi2, ⟨hi3, ?_⟩, by simpa using hi4⟩
    intro e
    subst e
    rw [hk] at hi4
    exact h2 (Option.some.inj hi4).symm

/-- Source `evictLeastRecent` returns and keeps the invariant; it changes no key and no
value, and the main index only loses entries. -/
theorem ArcLruPart.evictLeastRecent_inv (s : ArcLruPart K V) (hinv : s.Inv) :
    ∃ h1 g1 m1, s.evictLeastRecent =
        some { s with heap := h1, ghostCache := g1, mainCache := m1 } ∧
      ({ s with heap := h1, ghostCache := g1, mainCache := m1 } : ArcLruPart K V).Inv ∧
      h1.length = s.heap.length ∧ (∀ i, hKey h1 i = hKey s.heap i) ∧
      (∀ i, hValue h1 i = hValue s.heap i) ∧ (∀ x ∈ m1, x ∈ s.mainCache) := by
  have hinv0 := hinv
  obtain ⟨hb, hph⟩ := hinv
  have hb' := hb
  obtain ⟨b0, b1, b2, b3, b4⟩ := hb
  by_cases hemp : s.mainCache.isEmpty = true
  · refine ⟨s.heap, s.ghostCache, s.mainCache, ?_, hinv0, rfl, fun _ => rfl, fun _ => rfl,
      fun x hx => hx⟩
    unfold ArcLruPart.evictLeastRecent
    simp [hemp]
  · have hne : s.mainCache.isEmpty = false := by simpa using hemp
    rcases hph with ⟨hg, hd, hm⟩ | ⟨n1, hl, hg, hm⟩
    · obtain ⟨a, ha1, ha2, ha3, ha4⟩ := hd.1
      have h0l : 0 < s.heap.length := by omega
      by_cases ha : a = 1
      · refine ⟨s.heap, s.ghostCache, s.mainCache, ?_, hinv0, rfl, fun _ => rfl, fun _ => rfl,
          fun x hx => hx⟩
        have e1 : readNode s.heap s.mainHead = some (s.heap[0]) := by
          rw [b0]; exact readNode_lt _ h0l
        have e2 : (s.heap[0]).next = s.mainTail := by
          rw [getElem_next _ h0l, ha1, b1, ha]
        unfold ArcLruPart.evictLeastRecent
        simp [hne, e1, e2]
      · have ha4' : 4 ≤ a := by omega
        have hal : a < s.heap.length := hPrev_isSome_lt ha4
        obtain ⟨k1, hk1⟩ := hKey_of_lt s.heap hal
        have hs1 : (if s.ghostCache.length ≥ s.ghostCapacity then s.evictOldestGhost
            else pure s) = some s := by
          have : s.evictOldestGhost = some s := by
            unfold ArcLruPart.evictOldestGhost
            simp [hg]
          split
          · exact this
          · rfl
        have heq := ArcLruPart.evictLeastRecent_eq s s hne b0 b1 ha1 ha hs1 b3 hd.2.2.2.2
          ha4' hal hk1
        have hl2 := links2_first b4 hd ha1 ha
        have hinv2 := ArcLruPart.inv_reghost s hb' hl2 hk1
          (by intro k p hmem; rw [hg] at hmem; simp at hmem) hm
        exact ⟨reghost s.heap a, umSet s.ghostCache k1 (some a), umErase s.mainCache k1, heq,
          hinv2, by simp, fun i => by simp, fun i => by simp, fun x hx => (mem_umErase hx).1⟩
    · have hnl : n1 < s.heap.length := hl.2.2.1
      have hn4 : 4 ≤ n1 := hl.2.1
      obtain ⟨k1, hk1⟩ := hKey_of_lt s.heap hnl
      have hm' : MapOk s.heap s.mainCache (fun i => 4 ≤ i) :=
        mapOk_mono (fun i _ h => h.1) hm
      by_cases hc : s.ghostCache.length ≥ s.ghostCapacity
      · obtain ⟨h1, g1, he, hsd, hl1, hsub⟩ := s.evictOldestGhost_phase2 hb' hl
        have hs1 : (if s.ghostCache.length ≥ s.ghostCapacity then s.evictOldestGhost
            else pure s) = some { s with heap := h1, ghostCache := g1 } := by
          simp only [hc, if_true]
          exact he
        have hk1' : hKey h1 n1 = some k1 := by rw [(hsd.2 n1).1]; exact hk1
        have heq := ArcLruPart.evictLeastRecent_eq s { s with heap := h1, ghostCache := g1 }
          hne b0 b1 hl.1 (by omega) hs1 b3 hl1.2.2.2.2.2.2.1 hn4 (by rw [hsd.1]; exact hnl) hk1'
        have hl2 := links2_reghost hl1
        have hinv2 := ArcLruPart.inv_reghost { s with heap := h1, ghostCache := g1 }
          ⟨b0, b1, b2, b3, by rw [hsd.1]; exact b4⟩ hl2 hk1'
          (by
            intro k p hmem
            obtain ⟨e1, e2⟩ := hg k p (hsub _ hmem)
            exact ⟨e1, by rw [(hsd.2 n1).1]; exact e2⟩)
          (mapOk_congr hsd.1 (fun i => (hsd.2 i).1) hm')
        exact ⟨reghost h1 n1, umSet g1 k1 (some n1), umErase s.mainCache k1, heq, hinv2,
          by simp [hsd.1], fun i => by simp [(hsd.2 i).1], fun i => by simp [(hsd.2 i).2.1],
          fun x hx => (mem_umErase hx).1⟩
      · have hs1 : (if s.ghostCache.length ≥ s.ghostCapacity then s.evictOldestGhost
            else pure s) = some s := by
          simp only [hc, if_false]
          rfl
        have heq := ArcLruPart.evictLeastRecent_eq s s hne b0 b1 hl.1 (by omega) hs1 b3
          hl.2.2.2.2.2.2.1 hn4 hnl hk1
        have hl2 := links2_reghost (links2_weaken hl (show s.heap.length ≠ n1 by omega))
        have hinv2 := ArcLruPart.inv_reghost s hb' hl2 hk1 hg hm'
        exact ⟨reghost s.heap n1, umSet s.ghostCache k1 (some n1), umErase s.mainCache k1, heq,
          hinv2, by simp, fun i => by simp, fun i => by simp, fun x hx => (mem_umErase hx).1⟩

/-- The strict links never have `mainTail` as `next` of `n1` or of `ghostHead`. -/
theorem links2_strict {h : List (ArcNode K V)} {n1 ex : Nat} (hl : Links2 h n1 true ex) :
    Links2 h n1 false ex ∧ (hNext h n1 = some 1 → hPrev h 1 = some n1) ∧
      (hNext h 2 = some 1 → hPrev h 1 = some 2) := by
  obtain ⟨h0, hn4, hnl, hne, hpn, ⟨qn, hqn1, hqn2, hqn3⟩, hp3, ⟨c, hc1, hc2, hc3, hc4⟩,
    hb, hall⟩ := hl
  have hq : qn = 3 ∨ 4 ≤ qn := by
    rcases hqn2 with h1 | h1 | h1
    · simp at h1
    · exact Or.inl h1
    · exact Or.inr h1
  have hc : c = 3 ∨ 4 ≤ c := by
    rcases hc2 with h1 | h1 | h1
    · simp at h1
    · exact Or.inl h1
    · exact Or.inr h1
  refine ⟨⟨h0, hn4, hnl, hne, hpn, ⟨qn, hqn1, Or.inr hq, hqn3⟩, hp3,
    ⟨c, hc1, Or.inr hc, hc3, hc4⟩, hb, hall⟩, ?_, ?_⟩
  · intro e
    rw [hqn1] at e
    have := Option.some.inj e
    omega
  · intro e
    rw [hc1] at e
    have := Option.some.inj e
    omega

/-- Allocation of the new node and `addToMainTail` in `addNewNode`. -/
theorem ArcLruPart.addNewNode_tail (s : ArcLruPart K V) (hinv : s.Inv) (k : K) (v : V) :
    ∃ h2, ArcLruPart.addToMainTail { s with heap := s.heap ++ [ArcNode.create k v] }
        (some s.heap.length) = some { s with heap := h2 } ∧
      ({ s with heap := h2, mainCache := umSet s.mainCache k (some s.heap.length) } :
        ArcLruPart K V).Inv ∧
      h2.length = s.heap.length + 1 ∧
      (∀ i, i < s.heap.length → hKey h2 i = hKey s.heap i ∧ hValue h2 i = hValue s.heap i ∧
        hCount h2 i = hCount s.heap i) ∧
      hKey h2 s.heap.length = some k ∧ hValue h2 s.heap.length = some v ∧
      hCount h2 s.heap.length = some 1 ∧ hPrev h2 1 = some s.heap.length := by
  obtain ⟨hb, hph⟩ := hinv
  obtain ⟨b0, b1, b2, b3, b4⟩ := hb
  have hlen : (s.heap ++ [ArcNode.create k v]).length = s.heap.length + 1 := by simp
  have hb1 : ∃ b, hPrev s.heap 1 = some b ∧ b < s.heap.length := by
    rcases hph with ⟨hg, hd, hm⟩ | ⟨n1, hl, hg, hm⟩
    · obtain ⟨b, e1, e2, e3, e4⟩ := hd.2.1
      exact ⟨b, e1, hNext_isSome_lt e4⟩
    · obtain ⟨b, e1, e2, e3⟩ := hl.2.2.2.2.2.2.2.2.1
      exact ⟨b, e1, e3⟩
  obtain ⟨b, hb1, hbl⟩ := hb1
  have hb1' : hPrev (s.heap ++ [ArcNode.create k v]) 1 = some b := by
    rw [hPrev_append_lt _ _ (by omega)]; exact hb1
  have heq := ArcLruPart.addToMainTail_eq
    ({ s with heap := s.heap ++ [ArcNode.create k v] }) (y := s.heap.length) b1 hb1'
    (by simp) (by simp; omega)
  have hdata : ∀ i, i < s.heap.length →
      hKey (linkTail (s.heap ++ [ArcNode.create k v]) s.heap.length 1 b) i = hKey s.heap i ∧
      hValue (linkTail (s.heap ++ [ArcNode.create k v]) s.heap.length 1 b) i = hValue s.heap i ∧
      hCount (linkTail (s.heap ++ [ArcNode.create k v]) s.heap.length 1 b) i
        = hCount s.heap i := by
    intro i hi
    simp [hKey_append, hValue_append, hCount_append, hi]
  have hknew : hKey (linkTail (s.heap ++ [ArcNode.create k v]) s.heap.length 1 b)
      s.heap.length = some k := by
    simp [hKey_append, ArcNode.create]
  have hmap : ∀ (P : Nat → Prop), P s.heap.length → MapOk s.heap s.mainCache P →
      MapOk (linkTail (s.heap ++ [ArcNode.create k v]) s.heap.length 1 b)
        (umSet s.mainCache k (some s.heap.length)) P := by
    intro P hP hm k1 p1 hmem
    rcases mem_umSet hmem with h1 | h1
    · cases h1
      exact ⟨s.heap.length, rfl, by simp, hP, hknew⟩
    · obtain ⟨i, hi1, hi2, hi3, hi4⟩ := hm k1 p1 h1
      exact ⟨i, hi1, by simp; omega, hi3, by rw [(hdata i hi2).1]; exact hi4⟩
  refine ⟨linkTail (s.heap ++ [ArcNode.create k v]) s.heap.length 1 b, heq, ?_, by simp,
    hdata, hknew, by simp [hValue_append, ArcNode.create],
    by simp [hCount_append, ArcNode.create], ?_⟩
  · refine ⟨⟨b0, b1, b2, b3, by simp; omega⟩, ?_⟩
    rcases hph with ⟨hg, hd, hm⟩ | ⟨n1, hl, hg, hm⟩
    · have hd1 := dllEx_alloc (ArcNode.create k v) b4 hd
      have hd2 := dllEx_linkTail hd1 (by omega) (by simp) hb1'
      refine Or.inl ⟨hg, ?_, hmap _ (by omega) hm⟩
      simpa using hd2
    · have hnl : n1 < s.heap.length := hl.2.2.1
      have hl1 := links2_alloc (ArcNode.create k v) hl
      obtain ⟨hl2, hx1, hx2⟩ := links2_strict hl1
      have hl3 := links2_linkTail hl2 (by omega) (by simp) (by omega) hb1' hx1 hx2
      refine Or.inr ⟨n1, ?_, ?_, hmap _ ⟨by omega, by omega⟩ hm⟩
      · simpa using hl3
      · intro k1 p1 hmem
        obtain ⟨e1, e2⟩ := hg k1 p1 hmem
        exact ⟨e1, by rw [(hdata n1 hnl).1]; exact e2⟩
  · rw [hPrev_linkTail _ _ _ _ _ (by simp) (by simp; omega)]
    simp

/-- Source `addNewNode` returns and keeps the invariant; the new node is the cell
`heap.length`, it carries `key` and `value` with access count 1 and is the entry of
`key` in the main index. -/
theorem ArcLruPart.addNewNode_inv (s : ArcLruPart K V) (hinv : s.Inv) (k : K) (v : V) :
    ∃ s1, s.addNewNode k v = some s1 ∧ s1.Inv ∧ s.Frame s1 ∧
      s1.heap.length = s.heap.length + 1 ∧
      hKey s1.heap s.heap.length = some k ∧ hValue s1.heap s.heap.length = some v ∧
      hCount s1.heap s.heap.length = some 1 ∧
      umFind s1.mainCache k = some (some s.heap.length) ∧
      (∀ i, i < s.heap.length → hValue s1.heap i = hValue s.heap i) ∧
      (∀ x ∈ s1.mainCache, x = (k, some s.heap.length) ∨ x ∈ s.mainCache) ∧
      hPrev s1.heap 1 = some s.heap.length ∧
      (s.mainCache.length < s.mainCapacity → s1.ghostCache = s.ghostCache) := by
  have key : ∀ (s0 : ArcLruPart K V), s0.Inv → s0.heap.length = s.heap.length →
      s0.mainCapacity = s.mainCapacity → s0.ghostCapacity = s.ghostCapacity →
      s0.transformThreshold = s.transformThreshold →
      (∀ i, hKey s0.heap i = hKey s.heap i) → (∀ i, hValue s0.heap i = hValue s.heap i) →
      (∀ x ∈ s0.mainCache, x ∈ s.mainCache) →
      ∃ s1, (ArcLruPart.addToMainTail { s0 with heap := s0.heap ++ [ArcNode.create k v] }
          (some s0.heap.length)).bind
          (fun s2 => some { s2 with mainCache := umSet s2.mainCache k (some s0.heap.length) })
          = some s1 ∧ s1.Inv ∧ s.Frame s1 ∧
        s1.heap.length = s.heap.length + 1 ∧
        hKey s1.heap s.heap.length = some k ∧ hValue s1.heap s.heap.length = some v ∧
        hCount s1.heap s.heap.length = some 1 ∧
        umFind s1.mainCache k = some (some s.heap.length) ∧
        (∀ i, i < s.heap.length → hValue s1.heap i = hValue s.heap i) ∧
        (∀ x ∈ s1.mainCache, x = (k, some s.heap.length) ∨ x ∈ s.mainCache) ∧
        hPrev s1.heap 1 = some s.heap.length ∧ s1.ghostCache = s0.ghostCache := by
    intro s0 hinv0 hlen hc1 hc2 hc3 hk hv hsub
    obtain ⟨h2, heq, hinv2, hl2, hdata, hkn, hvn, hcn, hpn⟩ := s0.addNewNode_tail hinv0 k v
    refine ⟨{ s0 with heap := h2, mainCache := umSet s0.mainCache k (some s0.heap.length) },
      ?_, hinv2, ⟨hc1, hc2, hc3, ?_, ?_⟩, ?_, ?_, ?_, ?_, ?_, ?_, ?_, ?_, rfl⟩
    · rw [heq]
      rfl
    · show s.heap.length ≤ h2.length
      omega
    · intro i hi
      show hKey h2 i = hKey s.heap i
      rw [(hdata i (by omega)).1, hk]
    · show h2.length = s.heap.length + 1
      omega
    · show hKey h2 s.heap.length = some k
      rw [← hlen]; exact hkn
    · show hValue h2 s.heap.length = some v
      rw [← hlen]; exact hvn
    · show hCount h2 s.heap.length = some 1
      rw [← hlen]; exact hcn
    · show umFind (umSet s0.mainCache k (some s0.heap.length)) k = some (some s.heap.length)
      rw [umFind_umSet, hlen]
      simp
    · intro i hi
      show hValue h2 i = hValue s.heap i
      rw [(hdata i (by omega)).2.1, hv]
    · intro x hx
      have hx' : x ∈ umSet s0.mainCache k (some s0.heap.length) := hx
      rcases mem_umSet hx' with h1 | h1
      · left; rw [h1, hlen]
      · right; exact hsub x h1
    · show hPrev h2 1 = some s.heap.length
      rw [← hlen]; exact hpn
  unfold ArcLruPart.addNewNode
  simp only [allocNode, Option.bind_eq_bind, Option.pure_def, ge_iff_le]
  by_cases hc : s.mainCapacity ≤ s.mainCache.length
  · obtain ⟨h1, g1, m1, he, hinv1, hl1, hk1, hv1, hsub1⟩ := s.evictLeastRecent_inv hinv
    simp only [hc, if_true, he, Option.some_bind]
    obtain ⟨s1, a1, a2, a3, a4, a5, a6, a7, a8, a9, a10, a11, -⟩ :=
      key _ hinv1 hl1 rfl rfl rfl hk1 hv1 hsub1
    exact ⟨s1, a1, a2, a3, a4, a5, a6, a7, a8, a9, a10, a11, fun h => absurd hc (by omega)⟩
  · simp only [hc, if_false, Option.some_bind]
    obtain ⟨s1, a1, a2, a3, a4, a5, a6, a7, a8, a9, a10, a11, a12⟩ :=
      key s hinv rfl rfl rfl rfl (fun _ => rfl) (fun _ => rfl) (fun x hx => hx)
    exact ⟨s1, a1, a2, a3, a4, a5, a6, a7, a8, a9, a10, a11, fun _ => a12⟩

/-- The invariant does not depend on values, access counts or the main capacity. -/
theorem ArcLruPart.inv_of_heap (s : ArcLruPart K V) (hinv : s.Inv) (h1 : List (ArcNode K V))
    (hsl : SameLinks s.heap h1) (hk : ∀ i, hKey h1 i = hKey s.heap i) (c : Nat) :
    ({ s with heap := h1, mainCapacity := c } : ArcLruPart K V).Inv := by
  obtain ⟨⟨b0, b1, b2, b3, b4⟩, hph⟩ := hinv
  refine ⟨⟨b0, b1, b2, b3, ?_⟩, ?_⟩
  · show 4 ≤ h1.length
    rw [hsl.1]; exact b4
  · rcases hph with ⟨hg, hd, hm⟩ | ⟨n1, hl, hg, hm⟩
    · refine Or.inl ⟨hg, ?_, mapOk_congr hsl.1 hk hm⟩
      show DllEx h1 h1.length
      rw [hsl.1]
      exact dllEx_congr hsl hd
    · refine Or.inr ⟨n1, ?_, ?_, mapOk_congr hsl.1 hk hm⟩
      · show Links2 h1 n1 true h1.length
        rw [hsl.1]
        exact links2_congr hsl hl
      · intro k1 p1 hmem
        obtain ⟨e1, e2⟩ := hg k1 p1 hmem
        exact ⟨e1, by show hKey h1 n1 = some k1; rw [hk]; exact e2⟩

theorem sameLinks_setValue (h : List (ArcNode K V)) (y : Nat) (v : V) :
    SameLinks h (setValue h y v) :=
  ⟨by simp, fun i => ⟨by simp, by simp⟩⟩

theorem sameLinks_incCount (h : List (ArcNode K V)) (y : Nat) :
    SameLinks h (incCount h y) :=
  ⟨by simp, fun i => ⟨by simp, by simp⟩⟩

theorem ArcLruPart.put_zero (s : ArcLruPart K V) (k : K) (v : V) (hcap : s.mainCapacity = 0) :
    s.put k v = some (s, false) := by
  simp [ArcLruPart.put, hcap]

/-- Source `put` with a positive capacity: it returns `true`, keeps the invariant, and
afterwards the main index maps `key` to a node that holds `value`. -/
theorem ArcLruPart.put_inv (s : ArcLruPart K V) (hinv : s.Inv) (k : K) (v : V)
    (hcap : s.mainCapacity ≠ 0) :
    ∃ s1 y, s.put k v = some (s1, true) ∧ s1.Inv ∧ s.Frame s1 ∧
      umFind s1.mainCache k = some (some y) ∧ hValue s1.heap y = some v ∧
      hKey s1.heap y = some k ∧
      (∀ i, s.heap.length ≤ i → i < s1.heap.length → hKey s1.heap i = some k) ∧
      (s.mainCache.length < s.mainCapacity ∨ (umFind s.mainCache k).isSome = true →
        s1.ghostCache = s.ghostCache) ∧
      (∀ y0, umFind s.mainCache k = some (some y0) →
        y = y0 ∧ hCount s1.heap y = hCount s.heap y0) ∧
      (umFind s.mainCache k = none → hCount s1.heap y = some 1) := by
  cases hf : umFind s.mainCache k with
  | none =>
    obtain ⟨s1, he, hinv1, hfr, hl1, hkn, hvn, hcn, hfn, hvo, hsub, hpn, hgh⟩ :=
      s.addNewNode_inv hinv k v
    refine ⟨s1, s.heap.length, ?_, hinv1, hfr, hfn, hvn, hkn, ?_, ?_,
      fun y0 h0 => Option.noConfusion h0, fun _ => hcn⟩
    · simp [ArcLruPart.put, hcap, hf, he]
    · intro i hi1 hi2
      have : i = s.heap.length := by omega
      rw [this]; exact hkn
    · intro h
      rcases h with h | h
      · exact hgh h
      · exact Bool.noConfusion h
  | some p =>
    have hmem := umFind_mem hf
    have hmap : ∃ y, p = some y ∧ y < s.heap.length ∧ hKey s.heap y = some k := by
      rcases hinv.2 with ⟨hg, hd, hm⟩ | ⟨n1, hl, hg, hm⟩
      · obtain ⟨i, hi1, hi2, hi3, hi4⟩ := hm k p hmem
        exact ⟨i, hi1, hi2, hi4⟩
      · obtain ⟨i, hi1, hi2, hi3, hi4⟩ := hm k p hmem
        exact ⟨i, hi1, hi2, hi4⟩
    obtain ⟨y, hp, hyl, hky⟩ := hmap
    subst hp
    have hinv1 : ({ s with heap := setValue s.heap y v } : ArcLruPart K V).Inv := by
      have := s.inv_of_heap hinv (setValue s.heap y v) (sameLinks_setValue _ _ _)
        (fun i => by simp) s.mainCapacity
      exact this
    obtain ⟨h1, he, hsd, hinv2, hpn⟩ :=
      ArcLruPart.moveToMainTail_inv { s with heap := setValue s.heap y v } hinv1 (k := k)
        (y := y) hmem
    have hw : writeNode s.heap (some y) (fun x => x.setValue v) = some (setValue s.heap y v) :=
      writeNode_value _ hyl _
    refine ⟨{ s with heap := h1 }, y, ?_, hinv2, ⟨rfl, rfl, rfl, ?_, ?_⟩, hf, ?_, ?_, ?_,
      fun _ => rfl, ?_, fun h0 => Option.noConfusion h0⟩
    rotate_right
    · intro y0 h0
      have e0 := Option.some.inj (Option.some.inj h0)
      subst e0
      refine ⟨rfl, ?_⟩
      show hCount h1 y = hCount s.heap y
      rw [(hsd.2 y).2.2]
      simp
    · simp only [ArcLruPart.put, hcap, if_false, hf, ArcLruPart.updateMainNode,
        Option.bind_eq_bind, hw, Option.some_bind, he, Option.pure_def]
    · show s.heap.length ≤ h1.length
      have := hsd.1
      simp at this
      omega
    · intro i _
      show hKey h1 i = hKey s.heap i
      rw [(hsd.2 i).1]
      simp
    · show hValue h1 y = some v
      rw [(hsd.2 y).2.1]
      show hValue (setValue s.heap y v) y = some v
      rw [hValue_setValue]
      simp [hyl]
    · show hKey h1 y = some k
      rw [(hsd.2 y).1]
      simpa using hky
    · intro i hi1 hi2
      have : h1.length = s.heap.length := by
        have := hsd.1
        simpa using this
      have hi2' : i < h1.length := hi2
      omega

theorem ArcLruPart.get_miss (s : ArcLruPart K V) (k : K) (v : V) (st : Bool)
    (h : s.mainCapacity = 0 ∨ umFind s.mainCache k = none) :
    s.get k v st = some (s, false, v, st) := by
  unfold ArcLruPart.get
  by_cases hc : s.mainCapacity = 0
  · simp [hc]
  · rcases h with h | h
    · exact absurd h hc
    · simp [hc, h]

/-- Source `get` on a key of the main index: it returns the value of the node, one more
access and `accessCount >= transformThreshold`; only links and the node's access count
change. -/
theorem ArcLruPart.get_hit (s : ArcLruPart K V) (hinv : s.Inv) (k : K) (v : V) (st : Bool)
    (hcap : s.mainCapacity ≠ 0) {p : NodePtr} (hf : umFind s.mainCache k = some p) :
    ∃ y val c h1, p = some y ∧ hValue s.heap y = some val ∧ hCount s.heap y = some c ∧
      s.get k v st = some ({ s with heap := h1 }, true, val,
        decide ((c + 1) % SIZE_MOD ≥ s.transformThreshold)) ∧
      ({ s with heap := h1 } : ArcLruPart K V).Inv ∧ h1.length = s.heap.length ∧
      (∀ i, hKey h1 i = hKey s.heap i) ∧ (∀ i, hValue h1 i = hValue s.heap i) ∧
      hCount h1 y = some ((c + 1) % SIZE_MOD) ∧ (∀ i, i ≠ y → hCount h1 i = hCount s.heap i) ∧
      hPrev h1 1 = some y := by
  have hmem := umFind_mem hf
  have hmap : ∃ y, p = some y ∧ y < s.heap.length := by
    rcases hinv.2 with ⟨hg, hd, hm⟩ | ⟨n1, hl, hg, hm⟩
    · obtain ⟨i, hi1, hi2, hi3, hi4⟩ := hm k p hmem
      exact ⟨i, hi1, hi2⟩
    · obtain ⟨i, hi1, hi2, hi3, hi4⟩ := hm k p hmem
      exact ⟨i, hi1, hi2⟩
  obtain ⟨y, hp, hyl⟩ := hmap
  subst hp
  obtain ⟨val, hval⟩ := hValue_of_lt s.heap hyl
  obtain ⟨c, hc⟩ := hCount_of_lt s.heap hyl
  obtain ⟨h1, he, hsd, hinv1, hpn⟩ := s.moveToMainTail_inv hinv hmem
  have hyl1 : y < h1.length := by rw [hsd.1]; exact hyl
  have hw : writeNode h1 (some y) (fun x => x.increaseAccessCount) = some (incCount h1 y) :=
    writeNode_inc _ hyl1
  have hyl2 : y < (incCount h1 y).length := by simpa using hyl1
  rcases getElem?_of_lt (incCount h1 y) hyl2 with ⟨n, hn⟩
  have hnc : n.accessCount = (c + 1) % SIZE_MOD := by
    have := (getElem?_fields hn).2.2.2.2
    rw [hCount_incCount, (hsd.2 y).2.2, hc] at this
    simp at this
    exact this.symm
  have hnv : n.value = val := by
    have := (getElem?_fields hn).2.2.2.1
    rw [hValue_incCount, (hsd.2 y).2.1, hval] at this
    exact (Option.some.inj this).symm
  have hinv2 : ({ s with heap := incCount h1 y } : ArcLruPart K V).Inv := by
    have := ArcLruPart.inv_of_heap { s with heap := h1 } hinv1 (incCount h1 y)
      (sameLinks_incCount _ _) (fun i => by simp) s.mainCapacity
    exact this
  refine ⟨y, val, c, incCount h1 y, rfl, hval, hc, ?_, hinv2, by simp [hsd.1],
    fun i => by simp [(hsd.2 i).1], fun i => by simp [(hsd.2 i).2.1], ?_, ?_, by simpa using hpn⟩
  · simp only [ArcLruPart.get, hcap, if_false, hf, ArcLruPart.updateAccessCount,
      Option.bind_eq_bind, he, Option.some_bind, hw, readNode_some, hn, Option.pure_def, hnc,
      hnv]
  · rw [hCount_incCount, (hsd.2 y).2.2, hc]
    simp
  · intro i hi
    rw [hCount_incCount, (hsd.2 i).2.2]
    simp [hi]

theorem ArcLruPart.checkGhost_miss (s : ArcLruPart K V) (k : K)
    (h : umFind s.ghostCache k = none) : s.checkGhost k = some (s, false) := by
  simp [ArcLruPart.checkGhost, h]

/-- Source `checkGhost` on a key of the ghost index: it returns `true`, keeps the
invariant, and puts a new node for the key, with access count 1 and the value of the
ghost node, into the main index. -/
theorem ArcLruPart.checkGhost_hit (s : ArcLruPart K V) (hinv : s.Inv) (k : K) {p : NodePtr}
    (hf : umFind s.ghostCache k = some p) :
    ∃ s1 g val, s.checkGhost k = some (s1, true) ∧ s1.Inv ∧ s.Frame s1 ∧
      p = some g ∧ hValue s.heap g = some val ∧
      s1.heap.length = s.heap.length + 1 ∧
      umFind s1.mainCache k = some (some s.heap.length) ∧
      hKey s1.heap s.heap.length = some k ∧ hValue s1.heap s.heap.length = some val ∧
      hCount s1.heap s.heap.length = some 1 := by
  have hmem := umFind_mem hf
  obtain ⟨hb, hph⟩ := hinv
  rcases hph with ⟨hg, hd, hm⟩ | ⟨n1, hl, hg, hm⟩
  · rw [hg] at hmem
    simp at hmem
  · obtain ⟨e1, e2⟩ := hg k p hmem
    subst e1
    have hnl : n1 < s.heap.length := hl.2.2.1
    have hn4 : 4 ≤ n1 := hl.2.1
    obtain ⟨q, hq1, hq2, hq3⟩ := hl.2.2.2.2.2.1
    have hp1 : hPrev s.heap n1 = some 2 := hl.2.2.2.2.1
    have hrem := s.removeNode_eq hp1 hq1 (by omega) hq3
    have hl1 := links2_unghost hl hq1
    obtain ⟨val, hval⟩ := hValue_of_lt s.heap hnl
    have hinv1 : ({ s with heap := unlink s.heap 2 q } : ArcLruPart K V).Inv := by
      obtain ⟨b0, b1, b2, b3, b4⟩ := hb
      refine ⟨⟨b0, b1, b2, b3, by simpa using b4⟩, Or.inr ⟨n1, by simpa using hl1, ?_, ?_⟩⟩
      · intro k1 p1 hmem1
        obtain ⟨a1, a2⟩ := hg k1 p1 hmem1
        exact ⟨a1, by simpa using a2⟩
      · exact mapOk_congr (by simp) (fun i => by simp) hm
    obtain ⟨s1, he, hinv2, hfr, hl2, hkn, hvn, hcn, hfn, hvo, hsub, hpn⟩ :=
      ArcLruPart.addNewNode_inv { s with heap := unlink s.heap 2 q } hinv1 k val
    have hnl1 : n1 < (unlink s.heap 2 q).length := by simpa using hnl
    rcases getElem?_of_lt (unlink s.heap 2 q) hnl1 with ⟨n, hn⟩
    have hnv : n.value = val := by
      have := (getElem?_fields hn).2.2.2.1
      rw [hValue_unlink, hval] at this
      exact (Option.some.inj this).symm
    have hlen : (unlink s.heap 2 q).length = s.heap.length := by simp
    obtain ⟨f1, f2, f3, f4, f5⟩ := hfr
    refine ⟨s1, n1, val, ?_, hinv2, ⟨f1, f2, f3, ?_, ?_⟩, rfl, hval, ?_, ?_, ?_, ?_, ?_⟩
    · simp only [ArcLruPart.checkGhost, hf, ArcLruPart.removeGhostNode, hrem,
        Option.bind_eq_bind, Option.some_bind, readNode_some, hn, hnv, he, Option.pure_def]
    · have : (unlink s.heap 2 q).length ≤ s1.heap.length := f4
      omega
    · intro i hi
      have := f5 i (by show i < (unlink s.heap 2 q).length; omega)
      rw [this]
      show hKey (unlink s.heap 2 q) i = hKey s.heap i
      simp
    · have : s1.heap.length = (unlink s.heap 2 q).length + 1 := hl2
      omega
    · have : umFind s1.mainCache k = some (some (unlink s.heap 2 q).length) := hfn
      rw [this, hlen]
    · have : hKey s1.heap (unlink s.heap 2 q).length = some k := hkn
      rw [← hlen]; exact this
    · have : hValue s1.heap (unlink s.heap 2 q).length = some val := hvn
      rw [← hlen]; exact this
    · have : hCount s1.heap (unlink s.heap 2 q).length = some 1 := hcn
      rw [← hlen]; exact this

/-- Source `increaseCapacity` keeps the invariant. -/
theorem ArcLruPart.increaseCapacity_inv (s : ArcLruPart K V) (hinv : s.Inv) :
    s.increaseCapacity.Inv := by
  have := s.inv_of_heap hinv s.heap ⟨rfl, fun _ => ⟨rfl, rfl⟩⟩ (fun _ => rfl)
    ((s.mainCapacity + 1) % SIZE_MOD)
  exact this

theorem ArcLruPart.decreaseCapacity_zero (s : ArcLruPart K V) (hcap : s.mainCapacity = 0) :
    s.decreaseCapacity = some (s, false) := by
  unfold ArcLruPart.decreaseCapacity
  simp only [hcap, if_true]
  cases s
  simp only at hcap
  subst hcap
  rfl

/-- Source `decreaseCapacity` with a positive capacity: it returns `true`, lowers the
capacity by one and keeps the invariant and every key. -/
theorem ArcLruPart.decreaseCapacity_inv (s : ArcLruPart K V) (hinv : s.Inv)
    (hcap : s.mainCapacity ≠ 0) :
    ∃ s1, s.decreaseCapacity = some (s1, true) ∧ s1.Inv ∧
      s1.mainCapacity + 1 = s.mainCapacity ∧ s1.ghostCapacity = s.ghostCapacity ∧
      s1.transformThreshold = s.transformThreshold ∧ s1.heap.length = s.heap.length ∧
      (∀ i, hKey s1.heap i = hKey s.heap i) ∧ (∀ x ∈ s1.mainCache, x ∈ s.mainCache) := by
  unfold ArcLruPart.decreaseCapacity
  simp only [hcap, if_false, Option.bind_eq_bind, Option.pure_def, ge_iff_le]
  by_cases hc : s.mainCache.length ≤ s.mainCapacity
  · obtain ⟨h1, g1, m1, he, hinv1, hl1, hk1, hv1, hsub1⟩ := s.evictLeastRecent_inv hinv
    simp only [hc, if_true, he, Option.some_bind]
    refine ⟨_, rfl, ?_, ?_, rfl, rfl, hl1, hk1, hsub1⟩
    · have := ArcLruPart.inv_of_heap { s with heap := h1, ghostCache := g1, mainCache := m1 }
        hinv1 h1 ⟨rfl, fun _ => ⟨rfl, rfl⟩⟩ (fun _ => rfl) (s.mainCapacity - 1)
      exact this
    · show s.mainCapacity - 1 + 1 = s.mainCapacity
      omega
  · simp only [hc, if_false, Option.some_bind]
    refine ⟨_, rfl, ?_, ?_, rfl, rfl, rfl, fun _ => rfl, fun _ hx => hx⟩
    · have := s.inv_of_heap hinv s.heap ⟨rfl, fun _ => ⟨rfl, rfl⟩⟩ (fun _ => rfl)
        (s.mainCapacity - 1)
      exact this
    · show s.mainCapacity - 1 + 1 = s.mainCapacity
      omega


/-- The freshly constructed recency partition satisfies the invariant. -/
theorem ArcLruPart.create_inv [Inhabited K] [Inhabited V] (capacity T : Nat) :
    (ArcLruPart.create capacity T : ArcLruPart K V).Inv := by
  refine ⟨⟨rfl, rfl, rfl, rfl, by simp [ArcLruPart.create]⟩, Or.inl ⟨rfl, ?_, ?_⟩⟩
  · refine ⟨⟨1, ?_, Or.inl rfl, ?_, ?_⟩, ⟨0, ?_, Or.inl rfl, ?_, ?_⟩, ?_, ?_, ?_⟩
    · simp [hNext, ArcLruPart.create, ArcNode.create]
    · simp [ArcLruPart.create]
    · simp [hPrev, ArcLruPart.create, ArcNode.create]
    · simp [hPrev, ArcLruPart.create, ArcNode.create]
    · simp [ArcLruPart.create]
    · simp [hNext, ArcLruPart.create, ArcNode.create]
    · intro i hi4 hil
      simp [ArcLruPart.create] at hil
      omega
    · simp [hNext, ArcLruPart.create, ArcNode.create]
    · simp [hPrev, ArcLruPart.create, ArcNode.create]
  · intro k p hmem
    simp [ArcLruPart.create] at hmem

end LruOps

/-! ## The operations of the frequency partition -/

section LfuOps
variable {K V : Type} [DecidableEq K]

/-- Source `removeGhostNode` on a linked node, as field assignments. -/
theorem ArcLfuPart.removeGhostNode_eq (s : ArcLfuPart K V) {y p q : Nat}
    (hp : hPrev s.heap y = some p) (hq : hNext s.heap y = some q)
    (hpl : p < s.heap.length) (hql : q < s.heap.length) :
    s.removeGhostNode (some y) = some { s with heap := unlink s.heap p q } := by
  have hyl : y < s.heap.length := hNext_isSome_lt hq
  rcases getElem?_of_lt s.heap hyl with ⟨n, hn⟩
  rcases getElem?_fields hn with ⟨f1, f2, -, -, -⟩
  rw [hp] at f1
  rw [hq] at f2
  have hyl1 : y < (setNext s.heap p (some q)).length := by simpa using hyl
  rcases getElem?_of_lt _ hyl1 with ⟨n1, hn1⟩
  rcases getElem?_fields hn1 with ⟨g1, g2, -, -, -⟩
  rw [hPrev_setNext, hp] at g1
  rw [hNext_setNext] at g2
  have g2q : n1.next = some q := by
    rw [← g2]
    split
    · rfl
    · exact hq
  unfold ArcLfuPart.removeGhostNode
  simp only [readNode_some, hn, Option.bind_eq_bind, Option.some_bind, ← f1, ← f2,
    writeNode_next _ hpl, hn1, g2q, ← g1, writeNode_prev _ (show q < (setNext s.heap p
      (some q)).length by simpa using hql), Option.pure_def, unlink]

/-- Source `addToGhost` as field assignments. -/
theorem ArcLfuPart.lfu_addToGhost_eq (s : ArcLfuPart K V) {y t b : Nat} {k : K}
    (ht : s.ghostTail = some t) (hb : hPrev s.heap t = some b)
    (hyl : y < s.heap.length) (hbl : b < s.heap.length) (hk : hKey s.heap y = some k) :
    s.addToGhost (some y) =
      some { s with heap := linkTail (setCount s.heap y 1) y t b,
                    ghostCache := umSet s.ghostCache k (some y) } := by
  have htl : t < s.heap.length := hPrev_isSome_lt hb
  have hk4 : hKey (linkTail (setCount s.heap y 1) y t b) y = some k := by simpa using hk
  have hl4 : y < (linkTail (setCount s.heap y 1) y t b).length := by simpa using hyl
  have hkk := getElem_key_eq _ hl4 hk4
  unfold ArcLfuPart.addToGhost
  simp only [ht, Option.bind_eq_bind, Option.some_bind, Option.pure_def]
  simp only [linkTail] at hkk hl4 ⊢
  simp [writeNode_next, writeNode_prev, writeNode_count, readNode_lt, getElem_prev, hyl, hbl,
    htl, hb, hPrev_setPrev, hkk]

theorem gptr_mono {h h1 : List (ArcNode K V)} {z p : Nat} (hlen : h.length ≤ h1.length)
    (hm : ∀ i, (hPrev h i).isSome = true → (hPrev h1 i).isSome = true) (hp : GPtr h z p) :
    GPtr h1 z p := by
  obtain ⟨h1', h2⟩ := hp
  refine ⟨by omega, ?_⟩
  rcases h2 with h2 | ⟨h2, h3⟩
  · exact Or.inl h2
  · exact Or.inr ⟨h2, hm p h3⟩

theorem glinks_congr {h h1 : List (ArcNode K V)} (hs : SameLinks h h1) (hg : GLinks h) :
    GLinks h1 := by
  obtain ⟨hlen, hf⟩ := hs
  have e1 : ∀ i, hPrev h1 i = hPrev h i := fun i => (hf i).1
  have e2 : ∀ i, hNext h1 i = hNext h i := fun i => (hf i).2
  simpa only [GLinks, GPtr, e1, e2, hlen] using hg

/-- Unlinking a linked node keeps the ghost links; linked nodes stay linked. -/
theorem glinks_unlink {h : List (ArcNode K V)} {y p q : Nat} (hg : GLinks h) (hy2 : 2 ≤ y)
    (hyl : y < h.length) (hp : hPrev h y = some p) (hq : hNext h y = some q) :
    GLinks (unlink h p q) ∧
      (∀ i, (hPrev h i).isSome = true → (hPrev (unlink h p q) i).isSome = true) ∧
      p < h.length ∧ q < h.length := by
  obtain ⟨⟨c, hc1, hc2⟩, ⟨b, hb1, hb2⟩, hall⟩ := hg
  obtain ⟨hgp, q', hq', hgq⟩ := hall y hy2 hyl p hp
  rw [hq] at hq'; cases hq'
  have hpl : p < h.length := hgp.1
  have hql : q < h.length := hgq.1
  have hm : ∀ i, (hPrev h i).isSome = true → (hPrev (unlink h p q) i).isSome = true := by
    intro i hi
    rw [hPrev_unlink _ _ _ _ hql]
    split
    · rfl
    · exact hi
  have hmono : ∀ z x, GPtr h z x → GPtr (unlink h p q) z x :=
    fun z x hx => gptr_mono (by simp) hm hx
  refine ⟨⟨?_, ?_, ?_⟩, hm, hpl, hql⟩
  · rw [hNext_unlink _ _ _ _ hpl]
    by_cases h0 : 0 = p
    · exact ⟨q, by simp [h0], hmono _ _ hgq⟩
    · exact ⟨c, by simp [h0, hc1], hmono _ _ hc2⟩
  · rw [hPrev_unlink _ _ _ _ hql]
    by_cases h1 : 1 = q
    · exact ⟨p, by simp [h1], hmono _ _ hgp⟩
    · exact ⟨b, by simp [h1, hb1], hmono _ _ hb2⟩
  · intro i hi2 hil p1 hp1
    have hil' : i < h.length := by simpa using hil
    rw [hPrev_unlink _ _ _ _ hql] at hp1
    have hnext : ∀ q1, hNext h i = some q1 → GPtr h 1 q1 →
        ∃ q2, hNext (unlink h p q) i = some q2 ∧ GPtr (unlink h p q) 1 q2 := by
      intro q1 e1 e2
      rw [hNext_unlink _ _ _ _ hpl]
      by_cases hip : i = p
      · exact ⟨q, by simp [hip], hmono _ _ hgq⟩
      · exact ⟨q1, by simp [hip, e1], hmono _ _ e2⟩
    by_cases hiq : i = q
    · simp [hiq] at hp1
      subst hp1
      refine ⟨hmono _ _ hgp, ?_⟩
      have hlk : (hPrev h i).isSome = true := by
        rcases hgq.2 with h1 | ⟨_, h3⟩
        · omega
        · rw [hiq]; exact h3
      obtain ⟨pi, hpi⟩ := Option.isSome_iff_exists.mp hlk
      obtain ⟨-, q1, e1, e2⟩ := hall i hi2 hil' pi hpi
      exact hnext q1 e1 e2
    · simp [hiq] at hp1
      obtain ⟨g1, q1, e1, e2⟩ := hall i hi2 hil' p1 hp1
      exact ⟨hmono _ _ g1, hnext q1 e1 e2⟩

/-- Linking a node in front of `ghostTail` keeps the ghost links; linked nodes stay
linked and the node is linked. -/
theorem glinks_linkTail {h : List (ArcNode K V)} {y b : Nat} (hg : GLinks h) (hy2 : 2 ≤ y)
    (hyl : y < h.length) (hb : hPrev h 1 = some b) :
    GLinks (linkTail h y 1 b) ∧
      (∀ i, (hPrev h i).isSome = true → (hPrev (linkTail h y 1 b) i).isSome = true) ∧
      (hPrev (linkTail h y 1 b) y).isSome = true := by
  obtain ⟨⟨c, hc1, hc2⟩, ⟨b', hb1, hb2⟩, hall⟩ := hg
  rw [hb] at hb1; cases hb1
  have hbl : b < h.length := hb2.1
  have h1l : 1 < h.length := by omega
  have hy1 : y ≠ 1 := by omega
  have hpy : hPrev (linkTail h y 1 b) y = some b := by
    rw [hPrev_linkTail _ _ _ _ _ hyl h1l]
    simp [hy1]
  have hm : ∀ i, (hPrev h i).isSome = true → (hPrev (linkTail h y 1 b) i).isSome = true := by
    intro i hi
    rw [hPrev_linkTail _ _ _ _ _ hyl h1l]
    split
    · rfl
    · split
      · rfl
      · exact hi
  have hmono : ∀ z x, GPtr h z x → GPtr (linkTail h y 1 b) z x :=
    fun z x hx => gptr_mono (by simp) hm hx
  have hgy : ∀ z, GPtr (linkTail h y 1 b) z y :=
    fun z => ⟨by simpa using hyl, Or.inr ⟨hy2, by rw [hpy]; rfl⟩⟩
  refine ⟨⟨?_, ?_, ?_⟩, hm, by rw [hpy]; rfl⟩
  · rw [hNext_linkTail _ _ _ _ _ hyl hbl]
    by_cases h0 : 0 = b
    · exact ⟨y, by simp [h0], hgy 1⟩
    · have h0y : (0 : Nat) ≠ y := by omega
      exact ⟨c, by simp [h0, h0y, hc1], hmono _ _ hc2⟩
  · rw [hPrev_linkTail _ _ _ _ _ hyl h1l]
    exact ⟨y, by simp, hgy 0⟩
  · intro i hi2 hil p1 hp1
    have hil' : i < h.length := by simpa using hil
    have hi1 : i ≠ 1 := by omega
    rw [hPrev_linkTail _ _ _ _ _ hyl h1l] at hp1
    rw [hNext_linkTail _ _ _ _ _ hyl hbl]
    by_cases hiy : i = y
    · subst hiy
      simp [hi1] at hp1
      subst hp1
      refine ⟨hmono _ _ hb2, ?_⟩
      by_cases hib : i = b
      · exact ⟨i, by simp [hib], hgy 1⟩
      · exact ⟨1, by simp [hib], ⟨by simpa using h1l, Or.inl rfl⟩⟩
    · simp [hi1, hiy] at hp1
      obtain ⟨g1, q1, e1, e2⟩ := hall i hi2 hil' p1 hp1
      refine ⟨hmono _ _ g1, ?_⟩
      by_cases hib : i = b
      · exact ⟨y, by simp [hib], hgy 1⟩
      · exact ⟨q1, by simp [hib, hiy, e1], hmono _ _ e2⟩

/-- Allocation of an unlinked node keeps the ghost links. -/
theorem glinks_alloc {h : List (ArcNode K V)} (k : K) (v : V) (h2 : 2 ≤ h.length)
    (hg : GLinks h) : GLinks (h ++ [ArcNode.create k v]) := by
  obtain ⟨⟨c, hc1, hc2⟩, ⟨b, hb1, hb2⟩, hall⟩ := hg
  have hm : ∀ i, (hPrev h i).isSome = true →
      (hPrev (h ++ [ArcNode.create k v]) i).isSome = true := by
    intro i hi
    obtain ⟨pi, hpi⟩ := Option.isSome_iff_exists.mp hi
    have := hPrev_isSome_lt hpi
    rw [hPrev_append_lt _ _ this]
    exact hi
  have hmono : ∀ z x, GPtr h z x → GPtr (h ++ [ArcNode.create k v]) z x :=
    fun z x hx => gptr_mono (by simp) hm hx
  refine ⟨⟨c, ?_, hmono _ _ hc2⟩, ⟨b, ?_, hmono _ _ hb2⟩, ?_⟩
  · rw [hNext_append_lt _ _ (by omega)]; exact hc1
  · rw [hPrev_append_lt _ _ (by omega)]; exact hb1
  · intro i hi2 hil p1 hp1
    rw [hPrev_append] at hp1
    by_cases hi : i < h.length
    · simp [hi] at hp1
      obtain ⟨g1, q1, e1, e2⟩ := hall i hi2 hi p1 hp1
      exact ⟨hmono _ _ g1, q1, by rw [hNext_append_lt _ _ hi]; exact e1, hmono _ _ e2⟩
    · by_cases hi' : i = h.length
      · simp [hi', ArcNode.create] at hp1
      · simp [hi, hi'] at hp1

theorem umFind_append {A B : Type} [DecidableEq A] (m m1 : List (A × B)) (k : A) :
    umFind (m ++ m1) k = match umFind m k with
      | some v => some v
      | none => umFind m1 k := by
  induction m with
  | nil => simp [umFind]
  | cons x rest ih =>
    obtain ⟨a, b⟩ := x
    by_cases hak : a = k
    · simp [umFind, hak]
    · simp [umFind, hak, ih]

theorem umFind_fmTouch (m : FreqMap) (f f1 : Nat) :
    umFind (fmTouch m f) f1 = if f1 = f then some ((umFind m f).getD []) else umFind m f1 := by
  unfold fmTouch
  cases hf : umFind m f with
  | some l =>
    by_cases h : f1 = f
    · simp [h, hf]
    · simp [h]
  | none =>
    rw [umFind_append]
    by_cases h : f1 = f
    · subst h
      simp [hf, umFind]
    · have h' : ¬ f = f1 := fun e => h e.symm
      cases hf1 : umFind m f1 <;> simp [umFind, h, h']

/-- The statement `if (m.find(f) == m.end()) m[f] = list()`. -/
theorem umFind_ensure (m : FreqMap) (f f1 : Nat) :
    umFind (match umFind m f with
      | some _ => m
      | none => umSet m f []) f1
      = if f1 = f then some ((umFind m f).getD []) else umFind m f1 := by
  cases hf : umFind m f with
  | some l =>
    by_cases h : f1 = f
    · simp [h, hf]
    · simp [h]
  | none =>
    simp only [umFind_umSet]
    by_cases h : f1 = f
    · simp [h]
    · simp [h]

theorem succ_mod_ne (c : Nat) : (c + 1) % SIZE_MOD ≠ c := by
  unfold SIZE_MOD
  omega

theorem umFind_freqPush (fm0 : FreqMap) (g : Nat) (node : NodePtr) (f : Nat) :
    umFind (freqPush fm0 g node) f =
      if f = g then some ((umFind fm0 g).getD [] ++ [node]) else umFind fm0 f := by
  unfold freqPush
  simp only [umFind_umSet, umFind_ensure]
  by_cases h1 : f = g
  · simp [h1]
  · simp [h1]

theorem umFind_freqBump (fm0 : FreqMap) (mf c nw : Nat) (node : NodePtr) (hne : nw ≠ c)
    (f : Nat) :
    umFind (freqBump fm0 mf c nw node).1 f =
      if f = nw then some ((umFind fm0 nw).getD [] ++ [node])
      else if f = c then
        (if (((umFind fm0 c).getD []).filter (fun p => p ≠ node)).isEmpty then none
         else some (((umFind fm0 c).getD []).filter (fun p => p ≠ node)))
      else umFind fm0 f := by
  have hne' : ¬ c = nw := fun e => hne e.symm
  unfold freqBump
  simp only [umFind_freqPush]
  by_cases hemp : (List.filter (fun p => decide (p ≠ node))
      ((umFind (fmTouch fm0 c) c).getD [])).isEmpty = true
  · have hemp' := hemp
    simp only [umFind_fmTouch, if_true, Option.getD_some] at hemp'
    rw [if_pos hemp]
    simp only [umFind_umSet, umFind_umErase, umFind_fmTouch,
      hne, if_false, if_true, Option.getD_some, hemp']
    by_cases h1 : f = nw
    · simp [h1]
    · by_cases h2 : f = c
      · simp [h1, h2]
      · simp [h1, h2]
  · have hemp' := hemp
    simp only [umFind_fmTouch, if_true, Option.getD_some] at hemp'
    rw [if_neg hemp]
    simp only [umFind_umSet, umFind_fmTouch, hne, if_false, if_true,
      Option.getD_some, hemp']
    by_cases h1 : f = nw
    · simp [h1]
    · by_cases h2 : f = c
      · simp [h1, h2]
      · simp [h1, h2]

/-- Source `updateNodeFrequency` on an allocated node. -/
theorem ArcLfuPart.updateNodeFrequency_eq (s : ArcLfuPart K V) {y c : Nat}
    (hyl : y < s.heap.length) (hc : hCount s.heap y = some c) :
    s.updateNodeFrequency (some y) =
      some { s with heap := incCount s.heap y,
                    freqListMap :=
                      (freqBump s.freqListMap s.minFreq c ((c + 1) % SIZE_MOD) (some y)).1,
                    minFreq :=
                      (freqBump s.freqListMap s.minFreq c ((c + 1) % SIZE_MOD) (some y)).2 } := by
  rcases getElem?_of_lt s.heap hyl with ⟨n, hn⟩
  have hnc : n.accessCount = c := by
    have := (getElem?_fields hn).2.2.2.2
    rw [hc] at this
    exact (Option.some.inj this).symm
  have hyl2 : y < (incCount s.heap y).length := by simpa using hyl
  rcases getElem?_of_lt (incCount s.heap y) hyl2 with ⟨n1, hn1⟩
  have hn1c : n1.accessCount = (c + 1) % SIZE_MOD := by
    have := (getElem?_fields hn1).2.2.2.2
    rw [hCount_incCount, hc] at this
    simp at this
    exact this.symm
  unfold ArcLfuPart.updateNodeFrequency freqBump freqPush
  simp only [readNode_some, hn, Option.bind_eq_bind, Option.some_bind, writeNode_inc _ hyl,
    hn1, hnc, hn1c, Option.pure_def]
  split <;> rfl

theorem freqOk_congr {h h1 : List (ArcNode K V)} {main : List (K × NodePtr)} {fm : FreqMap}
    (hlen : h1.length = h.length) (hc : ∀ i, hCount h1 i = hCount h i)
    (hk : ∀ i, hKey h1 i = hKey h i) (hf : FreqOk h main fm) : FreqOk h1 main fm := by
  intro f l hl
  obtain ⟨hnd, hall⟩ := hf f l hl
  refine ⟨hnd, ?_⟩
  intro p hp
  obtain ⟨i, k, e1, e2, e3, e4, e5, e6⟩ := hall p hp
  exact ⟨i, k, e1, e2, by omega, by rw [hc]; exact e4, by rw [hk]; exact e5, e6⟩

/-- The bucket bookkeeping of `updateNodeFrequency` keeps the buckets consistent. -/
theorem freqOk_bump {h : List (ArcNode K V)} {main : List (K × NodePtr)} {fm : FreqMap}
    {y c : Nat} {k : K} (mf : Nat) (hf : FreqOk h main fm) (hy2 : 2 ≤ y) (hyl : y < h.length)
    (hc : hCount h y = some c) (hk : hKey h y = some k)
    (hm : umFind main k = some (some y)) :
    FreqOk (incCount h y) main (freqBump fm mf c ((c + 1) % SIZE_MOD) (some y)).1 := by
  have hne := succ_mod_ne c
  have hcnt : ∀ i, i ≠ y → hCount (incCount h y) i = hCount h i := by
    intro i hi
    rw [hCount_incCount]
    simp [hi]
  have hcy : hCount (incCount h y) y = some ((c + 1) % SIZE_MOD) := by
    rw [hCount_incCount, hc]
    simp
  have keep : ∀ f l, umFind fm f = some l → ∀ p ∈ l, p ≠ some y →
      ∃ i k, p = some i ∧ 2 ≤ i ∧ i < (incCount h y).length ∧
        hCount (incCount h y) i = some f ∧ hKey (incCount h y) i = some k ∧
        umFind main k = some (some i) := by
    intro f l hl p hp hpy
    obtain ⟨i, k1, e1, e2, e3, e4, e5, e6⟩ := (hf f l hl).2 p hp
    have hiy : i ≠ y := by
      intro e
      apply hpy
      rw [e1, e]
    exact ⟨i, k1, e1, e2, by simpa using e3, by rw [hcnt i hiy]; exact e4, by simpa using e5, e6⟩
  intro f l hl
  rw [umFind_freqBump _ _ _ _ _ hne] at hl
  by_cases h1 : f = (c + 1) % SIZE_MOD
  · simp only [h1, if_true] at hl
    have hl' := Option.some.inj hl
    subst hl'
    have hnotin : some y ∉ (umFind fm ((c + 1) % SIZE_MOD)).getD [] := by
      intro hin
      cases hfo : umFind fm ((c + 1) % SIZE_MOD) with
      | none => simp [hfo] at hin
      | some l0 =>
        simp [hfo] at hin
        obtain ⟨i, k1, e1, e2, e3, e4, e5, e6⟩ := (hf _ l0 hfo).2 _ hin
        have e1' := Option.some.inj e1
        subst e1'
        rw [hc] at e4
        exact hne (Option.some.inj e4).symm
    have hnd0 : ((umFind fm ((c + 1) % SIZE_MOD)).getD []).Nodup := by
      cases hfo : umFind fm ((c + 1) % SIZE_MOD) with
      | none => simp
      | some l0 => simpa using (hf _ l0 hfo).1
    refine ⟨?_, ?_⟩
    · rw [List.nodup_append]
      refine ⟨hnd0, by simp, ?_⟩
      intro a ha hb
      simp at hb
      subst hb
      exact hnotin ha
    · intro p hp
      rcases List.mem_append.mp hp with hp1 | hp1
      · cases hfo : umFind fm ((c + 1) % SIZE_MOD) with
        | none => simp [hfo] at hp1
        | some l0 =>
          simp [hfo] at hp1
          have hpy : p ≠ some y := by
            intro e
            apply hnotin
            rw [hfo]
            simpa [e] using hp1
          simpa [h1] using keep _ l0 hfo p hp1 hpy
      · simp at hp1
        subst hp1
        exact ⟨y, k, rfl, hy2, by simpa using hyl, by rw [h1]; exact hcy, by simpa using hk, hm⟩
  · by_cases h2 : f = c
    · subst h2
      simp only [h1, if_false, if_true] at hl
      split at hl
      · exact absurd hl (by simp)
      · have hl' := Option.some.inj hl
        subst hl'
        cases hfo : umFind fm f with
        | none => simp
        | some l0 =>
          simp only [Option.getD_some]
          refine ⟨(hf _ l0 hfo).1.filter _, ?_⟩
          intro p hp
          obtain ⟨hp1, hp2⟩ := List.mem_filter.mp hp
          have hpy : p ≠ some y := by simpa using hp2
          exact keep _ l0 hfo p hp1 hpy
    · simp only [h1, if_false, h2] at hl
      refine ⟨(hf f l hl).1, ?_⟩
      intro p hp
      have hpy : p ≠ some y := by
        intro e
        subst e
        obtain ⟨i, k1, e1, e2, e3, e4, e5, e6⟩ := (hf f l hl).2 _ hp
        have e1' := Option.some.inj e1
        subst e1'
        rw [hc] at e4
        exact h2 (Option.some.inj e4).symm
      exact keep f l hl p hp hpy

/-- The bucket bookkeeping of `addNewNode` keeps the buckets consistent. -/
theorem freqOk_add {h : List (ArcNode K V)} {main : List (K × NodePtr)} {fm : FreqMap}
    (k : K) (v : V) (hf : FreqOk h main fm) (h2 : 2 ≤ h.length) (hm : umFind main k = none) :
    FreqOk (h ++ [ArcNode.create k v]) (umSet main k (some h.length))
      (freqPush fm 1 (some h.length)) := by
  have keep : ∀ f l, umFind fm f = some l → ∀ p ∈ l,
      ∃ i k1, p = some i ∧ 2 ≤ i ∧ i < (h ++ [ArcNode.create k v]).length ∧
        hCount (h ++ [ArcNode.create k v]) i = some f ∧
        hKey (h ++ [ArcNode.create k v]) i = some k1 ∧
        umFind (umSet main k (some h.length)) k1 = some (some i) := by
    intro f l hl p hp
    obtain ⟨i, k1, e1, e2, e3, e4, e5, e6⟩ := (hf f l hl).2 p hp
    have hk1 : k1 ≠ k := by
      intro e
      rw [e, hm] at e6
      exact absurd e6 (by simp)
    refine ⟨i, k1, e1, e2, by simp; omega, ?_, ?_, ?_⟩
    · rw [hCount_append]; simp [e3, e4]
    · rw [hKey_append]; simp [e3, e5]
    · rw [umFind_umSet]; simp [hk1, e6]
  intro f l hl
  rw [umFind_freqPush] at hl
  by_cases h1 : f = 1
  · simp only [h1, if_true] at hl
    have hl' := Option.some.inj hl
    subst hl'
    have hnotin : some h.length ∉ (umFind fm 1).getD [] := by
      intro hin
      cases hfo : umFind fm 1 with
      | none => simp [hfo] at hin
      | some l0 =>
        simp [hfo] at hin
        obtain ⟨i, k1, e1, e2, e3, e4, e5, e6⟩ := (hf _ l0 hfo).2 _ hin
        have e1' := Option.some.inj e1
        omega
    have hnd0 : ((umFind fm 1).getD []).Nodup := by
      cases hfo : umFind fm 1 with
      | none => simp
      | some l0 => simpa using (hf _ l0 hfo).1
    refine ⟨?_, ?_⟩
    · rw [List.nodup_append]
      refine ⟨hnd0, by simp, ?_⟩
      intro a ha hb
      simp at hb
      subst hb
      exact hnotin ha
    · intro p hp
      rcases List.mem_append.mp hp with hp1 | hp1
      · cases hfo : umFind fm 1 with
        | none => simp [hfo] at hp1
        | some l0 =>
          simp [hfo] at hp1
          simpa [h1] using keep _ l0 hfo p hp1
      · simp at hp1
        subst hp1
        refine ⟨h.length, k, rfl, h2, by simp, ?_, ?_, ?_⟩
        · rw [hCount_append]; simp [h1, ArcNode.create]
        · rw [hKey_append]; simp [ArcNode.create]
        · rw [umFind_umSet]; simp
  · simp only [h1, if_false] at hl
    exact ⟨(hf f l hl).1, keep f l hl⟩

/-- Taking a node out of the buckets and its key out of the main index keeps the
buckets consistent, whatever happens to the links and to the node's access count. -/
theorem freqOk_evict {h h1 : List (ArcNode K V)} {main : List (K × NodePtr)}
    {fm fm1 : FreqMap} {y : Nat} {ky : K} (hf : FreqOk h main fm)
    (hlen : h1.length = h.length)
    (hc : ∀ i, i ≠ y → hCount h1 i = hCount h i) (hk : ∀ i, hKey h1 i = hKey h i)
    (hmy : umFind main ky = some (some y))
    (hsub : ∀ f l1, umFind fm1 f = some l1 →
      l1.Nodup ∧ some y ∉ l1 ∧ ∀ p ∈ l1, ∃ l, umFind fm f = some l ∧ p ∈ l) :
    FreqOk h1 (umErase main ky) fm1 := by
  intro f l1 hl1
  obtain ⟨hnd, hny, hin⟩ := hsub f l1 hl1
  refine ⟨hnd, ?_⟩
  intro p hp
  obtain ⟨l, hl, hpl⟩ := hin p hp
  obtain ⟨i, k1, e1, e2, e3, e4, e5, e6⟩ := (hf f l hl).2 p hpl
  have hiy : i ≠ y := by
    intro e
    apply hny
    rw [← e, ← e1]
    exact hp
  have hk1 : k1 ≠ ky := by
    intro e
    rw [e, hmy] at e6
    exact hiy (Option.some.inj (Option.some.inj e6)).symm
  refine ⟨i, k1, e1, e2, by omega, by rw [hc i hiy]; exact e4, by rw [hk]; exact e5, ?_⟩
  rw [umFind_umErase]
  simp [hk1, e6]

/-- Source `evictOldestGhost` of the frequency partition returns; only links and the
ghost index change, and the ghost index only loses entries. -/
theorem ArcLfuPart.evictOldestGhost_inv (s : ArcLfuPart K V) (hb : s.Base)
    (hg : GLinks s.heap) :
    ∃ h1 g1, s.evictOldestGhost = some { s with heap := h1, ghostCache := g1 } ∧
      SameData s.heap h1 ∧ GLinks h1 ∧
      (∀ i, (hPrev s.heap i).isSome = true → (hPrev h1 i).isSome = true) ∧
      (∀ x ∈ g1, x ∈ s.ghostCache) ∧
      (∀ k, umFind s.ghostCache k = none → umFind g1 k = none) := by
  obtain ⟨b0, b1, b2⟩ := hb
  by_cases hemp : s.ghostCache.isEmpty = true
  · refine ⟨s.heap, s.ghostCache, ?_, sameData_refl _, hg, fun _ h => h, fun x hx => hx,
      fun _ h => h⟩
    unfold ArcLfuPart.evictOldestGhost
    simp [hemp]
  · obtain ⟨c, hc1, hc2⟩ := hg.1
    have h0l : 0 < s.heap.length := by omega
    have hgn : (s.heap[0]).next = some c := by rw [getElem_next _ h0l]; exact hc1
    have e1 : readNode s.heap s.ghostHead = some (s.heap[0]) := by
      rw [b0]; exact readNode_lt _ h0l
    by_cases hc1' : c = 1
    · refine ⟨s.heap, s.ghostCache, ?_, sameData_refl _, hg, fun _ h => h, fun x hx => hx,
        fun _ h => h⟩
      have e2 : (s.heap[0]).next = s.ghostTail := by rw [hgn, b1, hc1']
      unfold ArcLfuPart.evictOldestGhost
      simp [hemp, e1, e2]
    · obtain ⟨hcl, hc3⟩ := hc2
      have hc2' : 2 ≤ c ∧ (hPrev s.heap c).isSome = true := by
        rcases hc3 with h | h
        · exact absurd h hc1'
        · exact h
      obtain ⟨p, hp⟩ := Option.isSome_iff_exists.mp hc2'.2
      obtain ⟨-, q, hq, -⟩ := hg.2.2 c hc2'.1 hcl p hp
      obtain ⟨hg1, hm, hpl, hql⟩ := glinks_unlink hg hc2'.1 hcl hp hq
      obtain ⟨kc, hkc⟩ := hKey_of_lt s.heap hcl
      have hrem := s.removeGhostNode_eq hp hq hpl hql
      have hcl' : c < (unlink s.heap p q).length := by simpa using hcl
      rcases getElem?_of_lt (unlink s.heap p q) hcl' with ⟨n, hn⟩
      have hnk : n.key = kc := by
        have := (getElem?_fields hn).2.2.1
        rw [hKey_unlink, hkc] at this
        exact (Option.some.inj this).symm
      have e2 : ¬ (some c : NodePtr) = s.ghostTail := by
        rw [b1]
        intro e
        exact hc1' (Option.some.inj e)
      refine ⟨unlink s.heap p q, umErase s.ghostCache kc, ?_, sameData_unlink _ _ _, hg1, hm,
        fun x hx => (mem_umErase hx).1, ?_⟩
      · unfold ArcLfuPart.evictOldestGhost
        simp only [hemp, e1, e2, hgn, Bool.false_eq_true, if_false,
          Option.bind_eq_bind, Option.some_bind, Option.pure_def,
          hrem, readNode_some, hn, hnk]
      · intro k hk
        rw [umFind_umErase]
        split
        · rfl
        · exact hk

theorem getD_eq_cons {l : Option (List NodePtr)} {a : NodePtr} {r : List NodePtr}
    (h : l.getD [] = a :: r) : l = some (a :: r) := by
  cases l with
  | none => simp at h
  | some x => simp at h; rw [h]

/-- The state `evictLeastFrequent` goes on with after `pop_front`. -/
theorem ArcLfuPart.evictLeastFrequent_eq (order : FreqMap → Nat) (s s2 : ArcLfuPart K V)
    {y b : Nat} {ky : K} {rest : List NodePtr} (fmE : FreqMap) (mfE : Nat)
    (hl : (umFind s.freqListMap s.minFreq).getD [] = some y :: rest)
    (hE : (if rest.isEmpty = true then
        ({ s with freqListMap := umErase (umSet (fmTouch s.freqListMap s.minFreq) s.minFreq rest)
                    s.minFreq,
                  minFreq := if (umErase (umSet (fmTouch s.freqListMap s.minFreq) s.minFreq rest)
                    s.minFreq).isEmpty = true then 0
                    else order (umErase (umSet (fmTouch s.freqListMap s.minFreq) s.minFreq rest)
                      s.minFreq) } : ArcLfuPart K V)
        else { s with freqListMap := umSet (fmTouch s.freqListMap s.minFreq) s.minFreq rest })
      = { s with freqListMap := fmE, minFreq := mfE })
    (hs2 : (if s.ghostCache.length ≥ s.ghostCapacity then
        ArcLfuPart.evictOldestGhost { s with freqListMap := fmE, minFreq := mfE }
        else pure { s with freqListMap := fmE, minFreq := mfE }) = some s2)
    (ht : s2.ghostTail = some 1) (hb : hPrev s2.heap 1 = some b)
    (hyl : y < s2.heap.length) (hbl : b < s2.heap.length) (hk : hKey s2.heap y = some ky) :
    s.evictLeastFrequent order =
      some { s2 with heap := linkTail (setCount s2.heap y 1) y 1 b,
                     ghostCache := umSet s2.ghostCache ky (some y),
                     mainCache := umErase s2.mainCache ky } := by
  have hyl' : y < (linkTail (setCount s2.heap y 1) y 1 b).length := by simpa using hyl
  rcases getElem?_of_lt _ hyl' with ⟨n, hn⟩
  have hnk : n.key = ky := by
    have := (getElem?_fields hn).2.2.1
    simp only [hKey_linkTail, hKey_setCount, hk] at this
    exact (Option.some.inj this).symm
  have hadd := s2.lfu_addToGhost_eq ht hb hyl hbl hk
  have hfin : ∀ (a : ArcLfuPart K V), a = s2 →
      ((a.addToGhost (some y)).bind fun a =>
          (readNode a.heap (some y)).bind fun n =>
            some { a with mainCache := umErase a.mainCache n.key }) =
      some { s2 with heap := linkTail (setCount s2.heap y 1) y 1 b,
                     ghostCache := umSet s2.ghostCache ky (some y),
                     mainCache := umErase s2.mainCache ky } := by
    intro a ha
    subst ha
    simp only [Option.some_bind, hadd, readNode_some, hn, hnk]
  unfold ArcLfuPart.evictLeastFrequent
  simp only [umFind_fmTouch, if_true, hl, Option.getD_some]
  simp only [hE]
  simp only [Option.bind_eq_bind, Option.pure_def, ge_iff_le]
  simp only [Option.pure_def, ge_iff_le] at hs2
  by_cases hc : s.ghostCapacity ≤ s.ghostCache.length
  · simp only [hc, if_true] at hs2 ⊢
    rw [hs2]
    exact hfin s2 rfl
  · simp only [hc, if_false] at hs2 ⊢
    exact hfin _ (Option.some.inj hs2)

/-- Source `evictLeastFrequent` returns and keeps the invariant.  When the bucket of
`minFreq` is not empty its first node leaves the main index and enters the ghost index;
otherwise neither index changes. -/
theorem ArcLfuPart.evictLeastFrequent_inv (order : FreqMap → Nat) (s : ArcLfuPart K V)
    (hinv : s.Inv) :
    ∃ s1, s.evictLeastFrequent order = some s1 ∧ s1.Inv ∧ s.Frame s1 ∧
      s1.heap.length = s.heap.length ∧ (∀ i, hKey s1.heap i = hKey s.heap i) ∧
      (∀ i, hValue s1.heap i = hValue s.heap i) ∧
      (((umFind s.freqListMap s.minFreq).getD [] = [] ∧ s1.mainCache = s.mainCache ∧
          s1.ghostCache = s.ghostCache) ∨
        ∃ y ky rest, (umFind s.freqListMap s.minFreq).getD [] = some y :: rest ∧
          hKey s.heap y = some ky ∧ umFind s.mainCache ky = some (some y) ∧
          s1.mainCache = umErase s.mainCache ky ∧
          umFind s1.ghostCache ky = some (some y) ∧
          (∀ k, k ≠ ky → umFind s.ghostCache k = none → umFind s1.ghostCache k = none) ∧
          (∀ f, umFind s1.freqListMap f =
            if f = s.minFreq then (if rest.isEmpty = true then none else some rest)
            else umFind s.freqListMap f) ∧
          (rest.isEmpty = false → s1.minFreq = s.minFreq) ∧
          (rest.isEmpty = true →
            s1.minFreq = if s1.freqListMap.isEmpty = true then 0 else order s1.freqListMap) ∧
          (∀ i, i ≠ y → hCount s1.heap i = hCount s.heap i)) := by
  obtain ⟨hb, hg, hmg, hmm, hf⟩ := hinv
  cases hl : (umFind s.freqListMap s.minFreq).getD [] with
  | nil =>
    refine ⟨{ s with freqListMap := fmTouch s.freqListMap s.minFreq }, ?_,
      ⟨hb, hg, hmg, hmm, ?_⟩, ⟨rfl, rfl, rfl, le_refl _, fun _ _ => rfl⟩, rfl, fun _ => rfl,
      fun _ => rfl, Or.inl ⟨rfl, rfl, rfl⟩⟩
    · unfold ArcLfuPart.evictLeastFrequent
      simp only [umFind_fmTouch, if_true, hl, Option.getD_some]
    · intro f l hfl
      simp only [umFind_fmTouch] at hfl
      split at hfl
      · have h1 := Option.some.inj hfl
        rw [hl] at h1
        subst h1
        exact ⟨List.nodup_nil, by simp⟩
      · exact hf f l hfl
  | cons node rest =>
    have hbk := getD_eq_cons hl
    obtain ⟨hnd, hall⟩ := hf _ _ hbk
    obtain ⟨y, ky, hy, hy2, hyl, hyc, hyk, hym⟩ := hall node (List.mem_cons_self _ _)
    subst hy
    have hnd1 := List.nodup_cons.mp hnd
    have hother : ∀ f l1, f ≠ s.minFreq → umFind s.freqListMap f = some l1 →
        l1.Nodup ∧ some y ∉ l1 ∧ ∀ p ∈ l1, ∃ l, umFind s.freqListMap f = some l ∧ p ∈ l := by
      intro f l1 hne h1
      obtain ⟨hn1, ha1⟩ := hf f l1 h1
      refine ⟨hn1, ?_, fun p hp => ⟨l1, h1, hp⟩⟩
      intro hmem
      obtain ⟨i, k, hi, -, -, hic, -, -⟩ := ha1 _ hmem
      have hiy := Option.some.inj hi
      subst hiy
      rw [hyc] at hic
      exact hne (Option.some.inj hic).symm
    obtain ⟨fmE, mfE, hE, hsub, hfmE, hmfE1, hmfE2⟩ : ∃ fmE mfE,
        ((if rest.isEmpty = true then
          ({ s with freqListMap := umErase (umSet (fmTouch s.freqListMap s.minFreq)
                        s.minFreq rest) s.minFreq,
                    minFreq := if (umErase (umSet (fmTouch s.freqListMap s.minFreq)
                        s.minFreq rest) s.minFreq).isEmpty = true then 0
                      else order (umErase (umSet (fmTouch s.freqListMap s.minFreq)
                        s.minFreq rest) s.minFreq) } : ArcLfuPart K V)
          else { s with freqListMap := (umSet (fmTouch s.freqListMap s.minFreq)
                        s.minFreq rest) })
          = { s with freqListMap := fmE, minFreq := mfE }) ∧
        (∀ f l1, umFind fmE f = some l1 →
          l1.Nodup ∧ some y ∉ l1 ∧ ∀ p ∈ l1, ∃ l, umFind s.freqListMap f = some l ∧ p ∈ l) ∧
        (∀ f, umFind fmE f =
          if f = s.minFreq then (if rest.isEmpty = true then none else some rest)
          else umFind s.freqListMap f) ∧
        (rest.isEmpty = false → mfE = s.minFreq) ∧
        (rest.isEmpty = true → mfE = if fmE.isEmpty = true then 0 else order fmE) := by
      by_cases hr : rest.isEmpty = true
      · refine ⟨_, _, by simp only [hr, if_true]; rfl, ?_, ?_,
          fun h => absurd hr (by simp [h]), fun _ => rfl⟩
        rotate_left
        · intro f
          simp only [umFind_umErase, umFind_umSet, umFind_fmTouch, hr, if_true]
          by_cases hfm : f = s.minFreq
          · simp [hfm]
          · simp [hfm]
        intro f l1 h1
        simp only [umFind_umErase, umFind_umSet, umFind_fmTouch] at h1
        by_cases hfm : f = s.minFreq
        · simp [hfm] at h1
        · simp only [hfm, if_false] at h1
          exact hother f l1 hfm h1
      · refine ⟨_, _, by simp only [hr, if_false]; rfl, ?_, ?_, fun _ => rfl,
          fun h => absurd h hr⟩
        rotate_left
        · intro f
          simp only [umFind_umSet, umFind_fmTouch, hr, if_false]
          by_cases hfm : f = s.minFreq
          · simp [hfm]
          · simp [hfm]
        intro f l1 h1
        simp only [umFind_umSet, umFind_fmTouch] at h1
        by_cases hfm : f = s.minFreq
        · simp only [hfm, if_true] at h1
          have h2 := Option.some.inj h1
          subst h2
          subst hfm
          exact ⟨hnd1.2, hnd1.1, fun p hp => ⟨_, hbk, List.mem_cons_of_mem _ hp⟩⟩
        · simp only [hfm, if_false] at h1
          exact hother f l1 hfm h1
    have hbE : ({ s with freqListMap := fmE, minFreq := mfE } : ArcLfuPart K V).Base := hb
    obtain ⟨s2, h1, g1, hs2, hs2e, hsd, hg1, hm1, hsubg, hnone, hmg1⟩ :
        ∃ s2 h1 g1, (if s.ghostCache.length ≥ s.ghostCapacity then
            ArcLfuPart.evictOldestGhost { s with freqListMap := fmE, minFreq := mfE }
            else pure { s with freqListMap := fmE, minFreq := mfE }) = some s2 ∧
          s2 = { s with freqListMap := fmE, minFreq := mfE, heap := h1, ghostCache := g1 } ∧
          SameData s.heap h1 ∧ GLinks h1 ∧
          (∀ i, (hPrev s.heap i).isSome = true → (hPrev h1 i).isSome = true) ∧
          (∀ x ∈ g1, x ∈ s.ghostCache) ∧
          (∀ k, umFind s.ghostCache k = none → umFind g1 k = none) ∧
          MapOk h1 g1 (fun i => 2 ≤ i ∧ (hPrev h1 i).isSome = true) := by
      have hmono : ∀ h1 g1, SameData s.heap h1 →
          (∀ i, (hPrev s.heap i).isSome = true → (hPrev h1 i).isSome = true) →
          (∀ x ∈ g1, x ∈ s.ghostCache) →
          MapOk h1 g1 (fun i => 2 ≤ i ∧ (hPrev h1 i).isSome = true) := by
        intro h1 g1 hsd hm hsub k p hkp
        obtain ⟨i, hi, hil, ⟨hi2, hip⟩, hik⟩ := hmg k p (hsub _ hkp)
        exact ⟨i, hi, by rw [hsd.1]; exact hil, ⟨hi2, hm i hip⟩, by rw [(hsd.2 i).1]; exact hik⟩
      by_cases hc : s.ghostCache.length ≥ s.ghostCapacity
      · obtain ⟨h1, g1, he, hsd, hg1, hm1, hsubg, hnone⟩ :=
          ArcLfuPart.evictOldestGhost_inv { s with freqListMap := fmE, minFreq := mfE } hbE hg
        refine ⟨_, h1, g1, ?_, rfl, hsd, hg1, hm1, hsubg, hnone, hmono h1 g1 hsd hm1 hsubg⟩
        simp only [hc, if_true]
        exact he
      · refine ⟨_, s.heap, s.ghostCache, ?_, rfl, sameData_refl _, hg, fun _ h => h,
          fun _ h => h, fun _ h => h, hmg⟩
        simp only [hc, if_false]
        rfl
    obtain ⟨b, hb1, hbp⟩ := hg1.2.1
    have hyl1 : y < h1.length := by rw [hsd.1]; exact hyl
    have hyk1 : hKey h1 y = some ky := by rw [(hsd.2 y).1]; exact hyk
    have heq := ArcLfuPart.evictLeastFrequent_eq order s s2 fmE mfE hl hE hs2
      (by rw [hs2e]; exact hb.2.1) (by rw [hs2e]; exact hb1) (by rw [hs2e]; exact hyl1)
      (by rw [hs2e]; exact hbp.1) (by rw [hs2e]; exact hyk1)
    subst hs2e
    have hgc : GLinks (setCount h1 y 1) :=
      glinks_congr ⟨by simp, fun i => ⟨by simp, by simp⟩⟩ hg1
    obtain ⟨hgl, hml, hyp⟩ := glinks_linkTail hgc hy2 (by simpa using hyl1)
      (by simpa using hb1 : hPrev (setCount h1 y 1) 1 = some b)
    refine ⟨_, heq, ⟨?_, ?_, ?_, ?_, ?_⟩, ⟨rfl, rfl, rfl, ?_, ?_⟩, ?_, ?_, ?_, Or.inr
      ⟨y, ky, rest, rfl, hyk, hym, rfl, ?_, ?_, hfmE, hmfE1, hmfE2, ?_⟩⟩
    · exact ⟨hb.1, hb.2.1, by simpa [hsd.1] using hb.2.2⟩
    · simpa using hgl
    · intro k p hkp
      rcases mem_umSet hkp with h | h
      · have hk1 := (Prod.mk.inj h).1
        have hp1 := (Prod.mk.inj h).2
        subst hk1
        subst hp1
        exact ⟨y, rfl, by simpa using hyl1, ⟨hy2, by simpa using hyp⟩, by simpa using hyk1⟩
      · obtain ⟨i, hi, hil, ⟨hi2, hip⟩, hik⟩ := hmg1 k p h
        refine ⟨i, hi, by simpa using hil, ⟨hi2, ?_⟩, by simpa using hik⟩
        have := hml i (by simpa using hip)
        simpa using this
    · intro k p hkp
      obtain ⟨i, hi, hil, hi2, hik⟩ := hmm k p (mem_umErase hkp).1
      exact ⟨i, hi, by simpa [hsd.1] using hil, hi2, by simpa [(hsd.2 i).1] using hik⟩
    · refine freqOk_evict hf (by simp [hsd.1]) ?_ (by intro i; simp [(hsd.2 i).1]) hym hsub
      intro i hiy
      simp [hCount_setCount, hiy, (hsd.2 i).2.2]
    · simp [hsd.1]
    · intro i _
      simp [(hsd.2 i).1]
    · simp [hsd.1]
    · intro i
      simp [(hsd.2 i).1]
    · intro i
      simp [(hsd.2 i).2.1]
    · simp [umFind_umSet]
    · intro k hk hkn
      simp only [umFind_umSet, hk, if_false]
      exact hnone k hkn
    · intro i hiy
      simp [hCount_setCount, hiy, (hsd.2 i).2.2]

/-- The tail of `addNewNode` keeps the invariant when the key is not in the main index. -/
theorem ArcLfuPart.pushNew_inv (s : ArcLfuPart K V) (hinv : s.Inv) (k : K) (v : V)
    (hk : umFind s.mainCache k = none) : (s.pushNew k v).Inv := by
  obtain ⟨hb, hg, hmg, hmm, hf⟩ := hinv
  refine ⟨⟨hb.1, hb.2.1, ?_⟩, glinks_alloc k v hb.2.2 hg, ?_, ?_, freqOk_add k v hf hb.2.2 hk⟩
  · have := hb.2.2
    simp only [ArcLfuPart.pushNew, List.length_append, List.length_singleton]
    omega
  · intro k1 p hkp
    obtain ⟨i, hi, hil, ⟨hi2, hip⟩, hik⟩ := hmg k1 p hkp
    refine ⟨i, hi, ?_, ⟨hi2, ?_⟩, ?_⟩
    · simp only [ArcLfuPart.pushNew, List.length_append, List.length_singleton]
      omega
    · simp only [ArcLfuPart.pushNew]
      rw [hPrev_append_lt _ _ hil]
      exact hip
    · simp only [ArcLfuPart.pushNew]
      rw [hKey_append_lt _ _ hil]
      exact hik
  · intro k1 p hkp
    rcases mem_umSet hkp with h | h
    · have hk1 := (Prod.mk.inj h).1
      have hp1 := (Prod.mk.inj h).2
      subst hk1
      subst hp1
      refine ⟨s.heap.length, rfl, ?_, hb.2.2, ?_⟩
      · simp [ArcLfuPart.pushNew]
      · simp [ArcLfuPart.pushNew, hKey_append, ArcNode.create]
    · obtain ⟨i, hi, hil, hi2, hik⟩ := hmm k1 p h
      refine ⟨i, hi, ?_, hi2, ?_⟩
      · simp only [ArcLfuPart.pushNew, List.length_append, List.length_singleton]
        omega
      · simp only [ArcLfuPart.pushNew]
        rw [hKey_append_lt _ _ hil]
        exact hik

/-- Source `addNewNode` is the eviction test followed by `pushNew`. -/
theorem ArcLfuPart.addNewNode_eq (order : FreqMap → Nat) (s s0 : ArcLfuPart K V) (k : K)
    (v : V)
    (h0 : (if s.mainCache.length ≥ s.mainCapacity then s.evictLeastFrequent order else pure s)
      = some s0) :
    s.addNewNode order k v = some (s0.pushNew k v) := by
  unfold ArcLfuPart.addNewNode
  simp only [Option.bind_eq_bind, Option.pure_def, ge_iff_le] at h0 ⊢
  by_cases hc : s.mainCapacity ≤ s.mainCache.length
  · simp only [hc, if_true] at h0 ⊢
    rw [h0]
    rfl
  · simp only [hc, if_false] at h0 ⊢
    rw [← Option.some.inj h0]
    rfl

/-- Source `addNewNode` of the frequency partition on a key that is not in the main
index: it returns and keeps the invariant. -/
theorem ArcLfuPart.lfu_addNewNode_inv (order : FreqMap → Nat) (s : ArcLfuPart K V) (hinv : s.Inv)
    (k : K) (v : V) (hk : umFind s.mainCache k = none) :
    ∃ s0, (if s.mainCache.length ≥ s.mainCapacity then s.evictLeastFrequent order else pure s)
        = some s0 ∧
      s.addNewNode order k v = some (s0.pushNew k v) ∧ (s0.pushNew k v).Inv ∧ s0.Inv ∧
      s.Frame s0 ∧ s0.heap.length = s.heap.length ∧ (∀ i, hKey s0.heap i = hKey s.heap i) ∧
      (∀ i, hValue s0.heap i = hValue s.heap i) ∧ umFind s0.mainCache k = none ∧
      (umFind s.ghostCache k = none → umFind s0.ghostCache k = none) ∧
      (s.Disj → s0.Disj) := by
  have key : ∃ s0, (if s.mainCache.length ≥ s.mainCapacity then s.evictLeastFrequent order
        else pure s) = some s0 ∧ s0.Inv ∧
      s.Frame s0 ∧ s0.heap.length = s.heap.length ∧ (∀ i, hKey s0.heap i = hKey s.heap i) ∧
      (∀ i, hValue s0.heap i = hValue s.heap i) ∧ umFind s0.mainCache k = none ∧
      (umFind s.ghostCache k = none → umFind s0.ghostCache k = none) ∧
      (s.Disj → s0.Disj) := by
    by_cases hc : s.mainCache.length ≥ s.mainCapacity
    · obtain ⟨s1, he, hi1, hfr, hlen, hkeys, hvals, hcase⟩ :=
        ArcLfuPart.evictLeastFrequent_inv order s hinv
      refine ⟨s1, by simp only [hc, if_true]; exact he, hi1, hfr, hlen, hkeys, hvals, ?_, ?_, ?_⟩
      · rcases hcase with ⟨-, hm, -⟩ | ⟨y, ky, rest, -, -, -, hm, -, -⟩
        · rw [hm]; exact hk
        · rw [hm, umFind_umErase, hk]; simp
      · intro hgk
        rcases hcase with ⟨-, -, hgh⟩ | ⟨y, ky, rest, -, -, hym, -, -, hgo, -⟩
        · rw [hgh]; exact hgk
        · refine hgo k ?_ hgk
          intro e
          rw [e, hym] at hk
          exact Option.noConfusion hk
      · intro hd k1 hk1
        rcases hcase with ⟨-, hm, hgh⟩ | ⟨y, ky, rest, -, -, hym, hm, -, hgo, -⟩
        · rw [hgh]; rw [hm] at hk1; exact hd k1 hk1
        · rw [hm, umFind_umErase] at hk1
          by_cases e : k1 = ky
          · simp [e] at hk1
          · simp only [e, if_false] at hk1
            exact hgo k1 e (hd k1 hk1)
    · exact ⟨s, by simp only [hc, if_false]; rfl, hinv, ⟨rfl, rfl, rfl, le_refl _,
        fun _ _ => rfl⟩, rfl, fun _ => rfl, fun _ => rfl, hk, fun h => h, fun h => h⟩
  obtain ⟨s0, h0, hi0, hfr, hlen, hkeys, hvals, hk0, hg0, hd0⟩ := key
  exact ⟨s0, h0, ArcLfuPart.addNewNode_eq order s s0 k v h0,
    ArcLfuPart.pushNew_inv s0 hi0 k v hk0, hi0, hfr, hlen, hkeys, hvals, hk0, hg0, hd0⟩

/-- The invariant after a frequency bump of a node of the main index; the value fields
may have changed as well. -/
theorem ArcLfuPart.inv_bump (s : ArcLfuPart K V) (hinv : s.Inv) {y c : Nat} {k : K}
    (h0 : List (ArcNode K V)) (hsl : SameLinks s.heap h0)
    (hkeys : ∀ i, hKey h0 i = hKey s.heap i) (hcounts : ∀ i, hCount h0 i = hCount s.heap i)
    (hy2 : 2 ≤ y) (hyl : y < s.heap.length) (hc : hCount s.heap y = some c)
    (hk : hKey s.heap y = some k) (hm : umFind s.mainCache k = some (some y)) :
    ({ s with heap := incCount h0 y,
              freqListMap :=
                (freqBump s.freqListMap s.minFreq c ((c + 1) % SIZE_MOD) (some y)).1,
              minFreq :=
                (freqBump s.freqListMap s.minFreq c ((c + 1) % SIZE_MOD) (some y)).2 } :
      ArcLfuPart K V).Inv := by
  obtain ⟨hb, hg, hmg, hmm, hf⟩ := hinv
  have hsl2 : SameLinks s.heap (incCount h0 y) :=
    ⟨by simp [hsl.1], fun i => ⟨by simp [(hsl.2 i).1], by simp [(hsl.2 i).2]⟩⟩
  refine ⟨⟨hb.1, hb.2.1, by simpa [hsl.1] using hb.2.2⟩, glinks_congr hsl2 hg, ?_, ?_, ?_⟩
  · intro k1 p hkp
    obtain ⟨i, hi, hil, ⟨hi2, hip⟩, hik⟩ := hmg k1 p hkp
    exact ⟨i, hi, by simpa [hsl.1] using hil, ⟨hi2, by simpa [(hsl.2 i).1] using hip⟩,
      by simpa [hkeys i] using hik⟩
  · intro k1 p hkp
    obtain ⟨i, hi, hil, hi2, hik⟩ := hmm k1 p hkp
    exact ⟨i, hi, by simpa [hsl.1] using hil, hi2, by simpa [hkeys i] using hik⟩
  · have hf0 : FreqOk h0 s.mainCache s.freqListMap := freqOk_congr hsl.1 hcounts hkeys hf
    exact freqOk_bump s.minFreq hf0 hy2 (by rw [hsl.1]; exact hyl) (by rw [hcounts]; exact hc)
      (by rw [hkeys]; exact hk) hm

/-- Source `put` of the frequency partition with capacity 0. -/
theorem ArcLfuPart.lfu_put_zero (order : FreqMap → Nat) (s : ArcLfuPart K V) (k : K) (v : V)
    (hcap : s.mainCapacity = 0) : s.put order k v = some (s, false) := by
  unfold ArcLfuPart.put
  simp [hcap]

/-- Source `put` of the frequency partition with capacity not 0: it returns `true`, keeps
the invariant, and afterwards the key is in the main index with the value put. -/
theorem ArcLfuPart.lfu_put_inv (order : FreqMap → Nat) (s : ArcLfuPart K V) (hinv : s.Inv)
    (k : K) (v : V) (hcap : s.mainCapacity ≠ 0) :
    ∃ s1 y, s.put order k v = some (s1, true) ∧ s1.Inv ∧ s.Frame s1 ∧
      umFind s1.mainCache k = some (some y) ∧ hValue s1.heap y = some v ∧
      hKey s1.heap y = some k ∧
      (∀ i, s.heap.length ≤ i → i < s1.heap.length → hKey s1.heap i = some k) ∧
      (umFind s.ghostCache k = none → umFind s1.ghostCache k = none) ∧
      (s.Disj → umFind s.ghostCache k = none → s1.Disj) := by
  cases hfk : umFind s.mainCache k with
  | some p =>
    obtain ⟨y, hp, hyl, hy2, hyk⟩ := hinv.2.2.2.1 k p (umFind_mem hfk)
    subst hp
    obtain ⟨c, hc⟩ := hCount_of_lt s.heap hyl
    have hupd := ArcLfuPart.updateNodeFrequency_eq { s with heap := setValue s.heap y v }
      (by simpa using hyl : y < (setValue s.heap y v).length)
      (by simpa using hc : hCount (setValue s.heap y v) y = some c)
    have hi1 := ArcLfuPart.inv_bump s hinv (setValue s.heap y v) (sameLinks_setValue _ _ _)
      (by intro i; simp) (by intro i; simp) hy2 hyl hc hyk hfk
    refine ⟨_, y, ?_, hi1, ⟨rfl, rfl, rfl, by simp, by intro i _; simp⟩, hfk, ?_, ?_, ?_,
      fun h => h, fun hd _ => hd⟩
    · unfold ArcLfuPart.put ArcLfuPart.updateMainNode
      simp only [hcap, if_false, hfk, Option.bind_eq_bind, writeNode_value _ hyl,
        Option.some_bind, Option.pure_def]
      rw [hupd]
      rfl
    · simp [hValue_setValue, hyl]
    · simpa using hyk
    · intro i h1 h2
      simp at h2
      omega
  | none =>
    obtain ⟨s0, -, hadd, hi1, hi0, hfr, hlen, hkeys, hvals, hk0, hg0, hd0⟩ :=
      ArcLfuPart.lfu_addNewNode_inv order s hinv k v hfk
    refine ⟨_, s0.heap.length, ?_, hi1, ⟨hfr.1, hfr.2.1, hfr.2.2.1, ?_, ?_⟩, ?_, ?_, ?_, ?_,
      hg0, ?_⟩
    · unfold ArcLfuPart.put
      simp only [hcap, if_false, hfk, Option.bind_eq_bind, hadd, Option.some_bind,
        Option.pure_def]
    · simp only [ArcLfuPart.pushNew, List.length_append, List.length_singleton]
      omega
    · intro i hi
      simp only [ArcLfuPart.pushNew]
      rw [hKey_append_lt _ _ (by omega), hkeys]
    · simp [ArcLfuPart.pushNew, umFind_umSet]
    · simp [ArcLfuPart.pushNew, hValue_append, ArcNode.create]
    · simp [ArcLfuPart.pushNew, hKey_append, ArcNode.create]
    · intro i h1 h2
      simp only [ArcLfuPart.pushNew, List.length_append, List.length_singleton] at h2
      have : i = s0.heap.length := by omega
      subst this
      simp [ArcLfuPart.pushNew, hKey_append, ArcNode.create]
    · intro hd hgk k1 hk1
      simp only [ArcLfuPart.pushNew, umFind_umSet] at hk1 ⊢
      by_cases e : k1 = k
      · rw [e]; exact hg0 hgk
      · simp only [e, if_false] at hk1
        exact hd0 hd k1 hk1

/-- Source `get` of the frequency partition on a miss: nothing changes. -/
theorem ArcLfuPart.lfu_get_miss (s : ArcLfuPart K V) (k : K) (v : V)
    (h : s.mainCapacity = 0 ∨ umFind s.mainCache k = none) :
    s.get k v = some (s, false, v) := by
  unfold ArcLfuPart.get
  rcases h with h | h
  · simp [h]
  · by_cases hc : s.mainCapacity = 0
    · simp [hc]
    · simp [hc, h]

/-- Source `get` of the frequency partition on a hit: it returns the stored value, keeps
the invariant and changes neither index. -/
theorem ArcLfuPart.lfu_get_hit (s : ArcLfuPart K V) (hinv : s.Inv) (k : K) (v : V)
    (hcap : s.mainCapacity ≠ 0) {p : NodePtr} (hf : umFind s.mainCache k = some p) :
    ∃ y val s1, p = some y ∧ hValue s.heap y = some val ∧
      s.get k v = some (s1, true, val) ∧ s1.Inv ∧ s.Frame s1 ∧
      s1.heap.length = s.heap.length ∧ (∀ i, hKey s1.heap i = hKey s.heap i) ∧
      (∀ i, hValue s1.heap i = hValue s.heap i) ∧ s1.mainCache = s.mainCache ∧
      s1.ghostCache = s.ghostCache := by
  obtain ⟨y, hp, hyl, hy2, hyk⟩ := hinv.2.2.2.1 k p (umFind_mem hf)
  subst hp
  obtain ⟨c, hc⟩ := hCount_of_lt s.heap hyl
  obtain ⟨val, hval⟩ := hValue_of_lt s.heap hyl
  have hupd := ArcLfuPart.updateNodeFrequency_eq s hyl hc
  have hi1 := ArcLfuPart.inv_bump s hinv s.heap ⟨rfl, fun _ => ⟨rfl, rfl⟩⟩
      (fun _ => rfl) (fun _ => rfl) hy2 hyl hc hyk hf
  rcases getElem?_of_lt s.heap hyl with ⟨n, hn⟩
  have hnv : n.value = val := by
    have := (getElem?_fields hn).2.2.2.1
    rw [hval] at this
    exact (Option.some.inj this).symm
  refine ⟨y, val, _, rfl, hval, ?_, hi1, ⟨rfl, rfl, rfl, by simp, by intro i _; simp⟩,
    by simp, by intro i; simp, by intro i; simp, rfl, rfl⟩
  unfold ArcLfuPart.get
  simp only [hcap, if_false, hf, Option.bind_eq_bind, readNode_some, hn, Option.some_bind,
    hupd, Option.pure_def, hnv]

/-- Source `checkGhost` of the frequency partition on a miss. -/
theorem ArcLfuPart.lfu_checkGhost_miss (s : ArcLfuPart K V) (k : K)
    (h : umFind s.ghostCache k = none) : s.checkGhost k = some (s, false) := by
  unfold ArcLfuPart.checkGhost
  simp [h]

/-- Source `checkGhost` of the frequency partition on a hit: the entry leaves the ghost
index. -/
theorem ArcLfuPart.lfu_checkGhost_hit (s : ArcLfuPart K V) (hinv : s.Inv) (k : K) {p : NodePtr}
    (hf : umFind s.ghostCache k = some p) :
    ∃ s1, s.checkGhost k = some (s1, true) ∧ s1.Inv ∧ s.Frame s1 ∧
      s1.heap.length = s.heap.length ∧ (∀ i, hKey s1.heap i = hKey s.heap i) ∧
      (∀ i, hValue s1.heap i = hValue s.heap i) ∧ s1.mainCache = s.mainCache ∧
      s1.ghostCache = umErase s.ghostCache k ∧ s1.freqListMap = s.freqListMap ∧
      s1.minFreq = s.minFreq ∧ (∀ i, hCount s1.heap i = hCount s.heap i) := by
  obtain ⟨hb, hg, hmg, hmm, hfq⟩ := hinv
  obtain ⟨y, hp, hyl, ⟨hy2, hyp⟩, hyk⟩ := hmg k p (umFind_mem hf)
  subst hp
  obtain ⟨a, ha⟩ := Option.isSome_iff_exists.mp hyp
  obtain ⟨-, q, hq, -⟩ := hg.2.2 y hy2 hyl a ha
  obtain ⟨hg1, hm, hal, hql⟩ := glinks_unlink hg hy2 hyl ha hq
  have hrem := s.removeGhostNode_eq ha hq hal hql
  refine ⟨{ s with heap := unlink s.heap a q, ghostCache := umErase s.ghostCache k }, ?_,
    ⟨⟨hb.1, hb.2.1, by simpa using hb.2.2⟩, hg1, ?_, ?_, ?_⟩,
    ⟨rfl, rfl, rfl, by simp, by intro i _; simp⟩, by simp, by intro i; simp,
    by intro i; simp, rfl, rfl, rfl, rfl, by intro i; simp⟩
  · unfold ArcLfuPart.checkGhost
    simp only [hf, Option.bind_eq_bind, hrem, Option.some_bind, Option.pure_def]
  · intro k1 p1 hkp
    obtain ⟨i, hi, hil, ⟨hi2, hip⟩, hik⟩ := hmg k1 p1 (mem_umErase hkp).1
    exact ⟨i, hi, by simpa using hil, ⟨hi2, hm i hip⟩, by simpa using hik⟩
  · intro k1 p1 hkp
    obtain ⟨i, hi, hil, hi2, hik⟩ := hmm k1 p1 hkp
    exact ⟨i, hi, by simpa using hil, hi2, by simpa using hik⟩
  · exact freqOk_congr (by simp) (by intro i; simp) (by intro i; simp) hfq

/-- Source `decreaseCapacity` of the frequency partition with capacity 0. -/
theorem ArcLfuPart.lfu_decreaseCapacity_zero (order : FreqMap → Nat) (s : ArcLfuPart K V)
    (hcap : s.mainCapacity = 0) : s.decreaseCapacity order = some (s, false) := by
  unfold ArcLfuPart.decreaseCapacity
  simp [hcap]

/-- Source `decreaseCapacity` of the frequency partition with capacity not 0: it returns
`true` and the capacity is one less. -/
theorem ArcLfuPart.lfu_decreaseCapacity_inv (order : FreqMap → Nat) (s : ArcLfuPart K V)
    (hinv : s.Inv) (hcap : s.mainCapacity ≠ 0) :
    ∃ s1, s.decreaseCapacity order = some (s1, true) ∧ s1.Inv ∧
      s1.mainCapacity + 1 = s.mainCapacity ∧ s1.ghostCapacity = s.ghostCapacity ∧
      s1.transformThreshold = s.transformThreshold ∧ s1.heap.length = s.heap.length ∧
      (∀ i, hKey s1.heap i = hKey s.heap i) ∧ (s.Disj → s1.Disj) ∧
      (∀ x ∈ s1.mainCache, x ∈ s.mainCache) := by
  have key : ∃ s0, (if s.mainCapacity = s.mainCache.length then s.evictLeastFrequent order
        else pure s) = some s0 ∧ s0.Inv ∧
      s.Frame s0 ∧ s0.heap.length = s.heap.length ∧ (∀ i, hKey s0.heap i = hKey s.heap i) ∧
      (s.Disj → s0.Disj) ∧ (∀ x ∈ s0.mainCache, x ∈ s.mainCache) := by
    by_cases hc : s.mainCapacity = s.mainCache.length
    · obtain ⟨s1, he, hi1, hfr, hlen, hkeys, -, hcase⟩ :=
        ArcLfuPart.evictLeastFrequent_inv order s hinv
      refine ⟨s1, by simp only [hc, if_true]; exact he, hi1, hfr, hlen, hkeys, ?_, ?_⟩
      rotate_left
      · intro x hx
        rcases hcase with ⟨-, hm, -⟩ | ⟨y, ky, rest, -, -, -, hm, -⟩
        · rw [hm] at hx; exact hx
        · rw [hm] at hx; exact (mem_umErase hx).1
      intro hd k1 hk1
      rcases hcase with ⟨-, hm, hgh⟩ | ⟨y, ky, rest, -, -, hym, hm, -, hgo, -⟩
      · rw [hgh]; rw [hm] at hk1; exact hd k1 hk1
      · rw [hm, umFind_umErase] at hk1
        by_cases e : k1 = ky
        · simp [e] at hk1
        · simp only [e, if_false] at hk1
          exact hgo k1 e (hd k1 hk1)
    · exact ⟨s, by simp only [hc, if_false]; rfl, hinv, ⟨rfl, rfl, rfl, le_refl _,
        fun _ _ => rfl⟩, rfl, fun _ => rfl, fun h => h, fun _ hx => hx⟩
  obtain ⟨s0, h0, hi0, hfr, hlen, hkeys, hd0, hsub0⟩ := key
  refine ⟨{ s0 with mainCapacity := s0.mainCapacity - 1 }, ?_, hi0, ?_, hfr.2.1, hfr.2.2.1,
    hlen, hkeys, hd0, hsub0⟩
  · unfold ArcLfuPart.decreaseCapacity
    simp only [hcap, if_false, Option.bind_eq_bind, Option.pure_def] at h0 ⊢
    by_cases hc : s.mainCapacity = s.mainCache.length
    · simp only [hc, if_true] at h0 ⊢
      rw [h0]
      rfl
    · simp only [hc, if_false] at h0 ⊢
      rw [← Option.some.inj h0]
      rfl
  · have := hfr.1
    simp only
    omega

/-- Source `increaseCapacity` keeps the invariant of the frequency partition. -/
theorem ArcLfuPart.lfu_increaseCapacity_inv (s : ArcLfuPart K V) (hinv : s.Inv) :
    s.increaseCapacity.Inv := hinv

/-- The fresh frequency partition satisfies the invariant. -/
theorem ArcLfuPart.lfu_create_inv [Inhabited K] [Inhabited V] (capacity T : Nat) :
    (ArcLfuPart.create capacity T : ArcLfuPart K V).Inv := by
  refine ⟨⟨rfl, rfl, by simp [ArcLfuPart.create]⟩, ⟨⟨1, rfl, by simp [GPtr, ArcLfuPart.create]⟩,
    ⟨0, rfl, by simp [GPtr, ArcLfuPart.create]⟩, ?_⟩, ?_, ?_, ?_⟩
  · intro i h2 hl
    simp [ArcLfuPart.create] at hl
    omega
  · intro k p h
    simp [ArcLfuPart.create] at h
  · intro k p h
    simp [ArcLfuPart.create] at h
  · intro f l h
    simp [ArcLfuPart.create, umFind] at h

end LfuOps

/-! ## The operations of `ArcCache` -/

section CacheOps

variable {K V : Type} [DecidableEq K]

/-- An entry of the main index of the recency partition points to a node with its key. -/
theorem ArcLruPart.main_key (s : ArcLruPart K V) (hinv : s.Inv) {k : K} {p : NodePtr}
    (hf : umFind s.mainCache k = some p) :
    ∃ y, p = some y ∧ 4 ≤ y ∧ y < s.heap.length ∧ hKey s.heap y = some k := by
  rcases hinv.2 with h1 | ⟨n1, -, -, hm⟩
  · obtain ⟨y, hy, hyl, hy4, hyk⟩ := h1.2.2 k p (umFind_mem hf)
    exact ⟨y, hy, hy4, hyl, hyk⟩
  · obtain ⟨y, hy, hyl, hy4, hyk⟩ := hm k p (umFind_mem hf)
    exact ⟨y, hy, hy4.1, hyl, hyk⟩

/-- An entry of the ghost index of the recency partition points to a node with its key. -/
theorem ArcLruPart.ghost_key (s : ArcLruPart K V) (hinv : s.Inv) {k : K} {p : NodePtr}
    (hf : umFind s.ghostCache k = some p) :
    ∃ g, p = some g ∧ 4 ≤ g ∧ g < s.heap.length ∧ hKey s.heap g = some k := by
  have hmem := umFind_mem hf
  rcases hinv.2 with h1 | ⟨n1, hl, hg, -⟩
  · rw [h1.1] at hmem
    simp at hmem
  · obtain ⟨hp, hk⟩ := hg k p hmem
    exact ⟨n1, hp, hl.2.1, hl.2.2.1, hk⟩

theorem nodeKeys_frame {h h1 : List (ArcNode K V)} {n : Nat} {S : List K}
    (hn : NodeKeys h n S) (hold : ∀ i, i < h.length → hKey h1 i = hKey h i)
    (hnew : ∀ i, h.length ≤ i → i < h1.length → ∃ k, hKey h1 i = some k ∧ k ∈ S) :
    NodeKeys h1 n S := by
  intro i hi hl
  by_cases hil : i < h.length
  · rw [hold i hil]
    exact hn i hi hil
  · exact hnew i (by omega) hl

theorem nodeKeys_mono {h : List (ArcNode K V)} {n : Nat} {S S1 : List K}
    (hn : NodeKeys h n S) (hs : ∀ k, k ∈ S → k ∈ S1) : NodeKeys h n S1 := by
  intro i hi hl
  obtain ⟨k, hk, hkS⟩ := hn i hi hl
  exact ⟨k, hk, hs k hkS⟩

/-- A key that is on no node of the recency partition is in neither of its indexes. -/
theorem ArcLruPart.not_mem_of_nodeKeys (s : ArcLruPart K V) (hinv : s.Inv) {S : List K}
    (hn : NodeKeys s.heap 4 S) {k : K} (hk : k ∉ S) :
    umFind s.mainCache k = none ∧ umFind s.ghostCache k = none := by
  constructor
  · cases hf : umFind s.mainCache k with
    | none => rfl
    | some p =>
      obtain ⟨y, -, hy4, hyl, hyk⟩ := s.main_key hinv hf
      obtain ⟨k1, hk1, hkS⟩ := hn y hy4 hyl
      rw [hyk] at hk1
      exact absurd (Option.some.inj hk1 ▸ hkS) hk
  · cases hf : umFind s.ghostCache k with
    | none => rfl
    | some p =>
      obtain ⟨y, -, hy4, hyl, hyk⟩ := s.ghost_key hinv hf
      obtain ⟨k1, hk1, hkS⟩ := hn y hy4 hyl
      rw [hyk] at hk1
      exact absurd (Option.some.inj hk1 ▸ hkS) hk

/-- A key that is on no node of the frequency partition is in neither of its indexes. -/
theorem ArcLfuPart.lfu_not_mem_of_nodeKeys (s : ArcLfuPart K V) (hinv : s.Inv) {S : List K}
    (hn : NodeKeys s.heap 2 S) {k : K} (hk : k ∉ S) :
    umFind s.mainCache k = none ∧ umFind s.ghostCache k = none := by
  constructor
  · cases hf : umFind s.mainCache k with
    | none => rfl
    | some p =>
      obtain ⟨y, -, hyl, hy2, hyk⟩ := hinv.2.2.2.1 k p (umFind_mem hf)
      obtain ⟨k1, hk1, hkS⟩ := hn y hy2 hyl
      rw [hyk] at hk1
      exact absurd (Option.some.inj hk1 ▸ hkS) hk
  · cases hf : umFind s.ghostCache k with
    | none => rfl
    | some p =>
      obtain ⟨y, -, hyl, hy2, hyk⟩ := hinv.2.2.1 k p (umFind_mem hf)
      obtain ⟨k1, hk1, hkS⟩ := hn y hy2.1 hyl
      rw [hyk] at hk1
      exact absurd (Option.some.inj hk1 ▸ hkS) hk

/-- Source `checkGhostCache` on a key that is in neither ghost index: nothing changes. -/
theorem ArcCache.checkGhostCache_miss (order : FreqMap → Nat) (c : ArcCache K V) (k : K)
    (h1 : umFind c.lruPart.ghostCache k = none) (h2 : umFind c.lfuPart.ghostCache k = none) :
    c.checkGhostCache order k = some (c, false) := by
  unfold ArcCache.checkGhostCache
  simp [ArcLruPart.checkGhost_miss _ _ h1, ArcLfuPart.lfu_checkGhost_miss _ _ h2]

/-- Source `checkGhostCache` returns and keeps the invariant; the three cases are: the
key is in no ghost index, in the ghost index of the recency partition, or only in the
ghost index of the frequency partition. -/
theorem ArcCache.checkGhostCache_spec (order : FreqMap → Nat) (c : ArcCache K V)
    {C T : Nat} {S : List K} (hinv : c.Inv C T S) (hC : C < SIZE_MOD) (k : K) :
    ∃ c1 b, c.checkGhostCache order k = some (c1, b) ∧ c1.Inv C T S ∧
      ((umFind c.lruPart.ghostCache k = none ∧ umFind c.lfuPart.ghostCache k = none ∧
          c1 = c ∧ b = false) ∨
        ((umFind c.lruPart.ghostCache k).isSome = true ∧ b = true ∧
          (∃ y, umFind c1.lruPart.mainCache k = some (some y) ∧
            hCount c1.lruPart.heap y = some 1) ∧
          ((c.lfuPart.mainCapacity = 0 ∧ ArcCache.SameCaps c c1) ∨
            (c.lfuPart.mainCapacity ≠ 0 ∧ ArcCache.LfuToLru c c1 ∧
              ∃ l, c.lfuPart.decreaseCapacity order = some (l, true) ∧
                l.mainCapacity + 1 = c.lfuPart.mainCapacity))) ∨
        (umFind c.lruPart.ghostCache k = none ∧
          (umFind c.lfuPart.ghostCache k).isSome = true ∧ b = true ∧
          umFind c1.lfuPart.ghostCache k = none ∧
          ((c.lruPart.mainCapacity = 0 ∧ ArcCache.SameCaps c c1) ∨
            (c.lruPart.mainCapacity ≠ 0 ∧ ArcCache.LruToLfu c c1 ∧
              ∃ l, c.lruPart.decreaseCapacity = some (l, true) ∧
                l.mainCapacity + 1 = c.lruPart.mainCapacity)))) ∧
      c.lruPart.GhostStep k c1.lruPart ∧ c.lfuPart.GhostStep order k c1.lfuPart ∧
      c1.capacity = c.capacity ∧ c1.transformThreshold = c.transformThreshold := by
  obtain ⟨hlru, hlfu, hsum, hT, hnk1, hnk2, hdj⟩ := hinv
  have hle : 2 * (C / 2) ≤ C := by omega
  cases hg1 : umFind c.lruPart.ghostCache k with
  | some p =>
    obtain ⟨s1, g, val, hcg, hi1, hfr, -, -, hlen, hmk, hkk, -, hcnt⟩ :=
      c.lruPart.checkGhost_hit hlru k hg1
    obtain ⟨g1, -, hg4, hgl, hgk⟩ := c.lruPart.ghost_key hlru hg1
    have hkS : k ∈ S := by
      obtain ⟨k1, hk1, hS⟩ := hnk1 g1 hg4 hgl
      rw [hgk] at hk1
      exact Option.some.inj hk1 ▸ hS
    have hnk1' : NodeKeys s1.heap 4 S := by
      refine nodeKeys_frame hnk1 hfr.2.2.2.2 ?_
      intro i h1 h2
      have : i = c.lruPart.heap.length := by omega
      subst this
      exact ⟨k, hkk, hkS⟩
    by_cases hcap : c.lfuPart.mainCapacity = 0
    · have hdec := c.lfuPart.lfu_decreaseCapacity_zero order hcap
      refine ⟨{ c with lruPart := s1, lfuPart := c.lfuPart }, true, ?_,
        ⟨hi1, hlfu, ?_, ?_, hnk1', hnk2, hdj⟩, Or.inr (Or.inl ⟨rfl, rfl,
          ⟨_, hmk, hcnt⟩, Or.inl ⟨hcap, hfr.1, rfl⟩⟩),
        Or.inr (Or.inl ⟨s1, hcg, Or.inl rfl⟩), Or.inl rfl, rfl, rfl⟩
      · unfold ArcCache.checkGhostCache
        simp [hcg, hdec]
      · simp only [hfr.1]
        exact hsum
      · simp only [hfr.2.2.1]
        exact hT
    · obtain ⟨l, hdec, hli, hlc, -, -, hllen, hlk, hld, -⟩ :=
        c.lfuPart.lfu_decreaseCapacity_inv order hlfu hcap
      have hmod : (s1.mainCapacity + 1) % SIZE_MOD = c.lruPart.mainCapacity + 1 := by
        rw [hfr.1]
        apply Nat.mod_eq_of_lt
        omega
      have hnk2' : NodeKeys l.heap 2 S := by
        refine nodeKeys_frame hnk2 (fun i _ => hlk i) ?_
        intro i h1 h2
        omega
      refine ⟨{ c with lruPart := s1.increaseCapacity, lfuPart := l }, true, ?_,
        ⟨s1.increaseCapacity_inv hi1, hli, ?_, ?_, hnk1', hnk2', fun h => hld (hdj h)⟩,
        Or.inr (Or.inl ⟨rfl, rfl, ⟨_, hmk, hcnt⟩, Or.inr ⟨hcap, ⟨hmod, hlc⟩, l, hdec, hlc⟩⟩),
        Or.inr (Or.inl ⟨s1, hcg, Or.inr ⟨rfl, by
          show (s1.mainCapacity + 1) % SIZE_MOD = s1.mainCapacity + 1
          rw [hmod, hfr.1]⟩⟩), Or.inr (Or.inl ⟨true, hdec⟩), rfl, rfl⟩
      · unfold ArcCache.checkGhostCache
        simp [hcg, hdec]
      · simp only [ArcLruPart.increaseCapacity, hmod]
        omega
      · simp only [ArcLruPart.increaseCapacity, hfr.2.2.1]
        exact hT
  | none =>
    have hcg := c.lruPart.checkGhost_miss k hg1
    cases hg2 : umFind c.lfuPart.ghostCache k with
    | none =>
      exact ⟨c, false, ArcCache.checkGhostCache_miss order c k hg1 hg2, ⟨hlru, hlfu, hsum, hT,
        hnk1, hnk2, hdj⟩, Or.inl ⟨rfl, rfl, rfl, rfl⟩, Or.inl rfl, Or.inl rfl, rfl, rfl⟩
    | some p =>
      obtain ⟨lf, hcg2, hi2, hfr2, hlen2, hkeys2, -, hmain2, hghost2, -⟩ :=
        c.lfuPart.lfu_checkGhost_hit hlfu k hg2
      have hnk2' : NodeKeys lf.heap 2 S := by
        refine nodeKeys_frame hnk2 (fun i _ => hkeys2 i) ?_
        intro i h1 h2
        omega
      have hdj' : 3 ≤ T → lf.Disj := by
        intro h3 k1 hk1
        rw [hmain2] at hk1
        have := hdj h3 k1 hk1
        rw [hghost2, umFind_umErase]
        split
        · rfl
        · exact this
      have hgn : umFind lf.ghostCache k = none := by
        simp [hghost2, umFind_umErase]
      by_cases hcap : c.lruPart.mainCapacity = 0
      · have hdec := c.lruPart.decreaseCapacity_zero hcap
        refine ⟨{ c with lruPart := c.lruPart, lfuPart := lf }, true, ?_,
          ⟨hlru, hi2, ?_, hT, hnk1, hnk2', hdj'⟩, Or.inr (Or.inr ⟨rfl, rfl, rfl, hgn,
          Or.inl ⟨hcap, rfl, hfr2.1⟩⟩), Or.inl rfl, Or.inr (Or.inr ⟨lf, hcg2, Or.inl rfl⟩),
          rfl, rfl⟩
        · unfold ArcCache.checkGhostCache
          simp [hcg, hcg2, hdec]
        · simp only [hfr2.1]
          exact hsum
      · obtain ⟨l, hdec, hli, hlc, -, hlt, hllen, hlk, hlsub⟩ :=
          c.lruPart.decreaseCapacity_inv hlru hcap
        have hmod : (lf.mainCapacity + 1) % SIZE_MOD = c.lfuPart.mainCapacity + 1 := by
          rw [hfr2.1]
          apply Nat.mod_eq_of_lt
          omega
        have hnk1' : NodeKeys l.heap 4 S := by
          refine nodeKeys_frame hnk1 (fun i _ => hlk i) ?_
          intro i h1 h2
          omega
        refine ⟨{ c with lruPart := l, lfuPart := lf.increaseCapacity }, true, ?_,
          ⟨hli, hi2, ?_, ?_, hnk1', hnk2', hdj'⟩, Or.inr (Or.inr ⟨rfl, rfl, rfl, hgn,
          Or.inr ⟨hcap, ⟨hmod, hlc⟩, l, hdec, hlc⟩⟩), Or.inr (Or.inr ⟨true, hdec⟩),
          Or.inr (Or.inr ⟨lf, hcg2, Or.inr ⟨rfl, by
            show (lf.mainCapacity + 1) % SIZE_MOD = lf.mainCapacity + 1
            rw [hmod, hfr2.1]⟩⟩), rfl, rfl⟩
        · unfold ArcCache.checkGhostCache
          simp [hcg, hcg2, hdec]
        · simp only [ArcLfuPart.increaseCapacity, hmod]
          omega
        · rw [hlt]
          exact hT

/-- The rest of source `put` after `checkGhostCache` returned `(c0, b)`: it returns,
keeps the invariant and both capacities, and stores the value in the recency partition
unless that partition has capacity 0. -/
theorem ArcCache.put_of_ghost (order : FreqMap → Nat) (c c0 : ArcCache K V) {b : Bool}
    {C T : Nat} {S : List K} (k : K) (v : V)
    (hcg : c.checkGhostCache order k = some (c0, b)) (hinv : c0.Inv C T S)
    (hD : b = false → umFind c0.lfuPart.ghostCache k = none) :
    ∃ c1, c.put order k v = some c1 ∧ c1.Inv C T (k :: S) ∧ ArcCache.SameCaps c0 c1 ∧
      (c1.lruPart.mainCapacity ≠ 0 → ∃ y, umFind c1.lruPart.mainCache k = some (some y) ∧
        hValue c1.lruPart.heap y = some v) ∧
      (c0.lruPart.mainCapacity = 0 → c1 = c0) ∧
      (b = false → c0.lruPart.mainCapacity ≠ 0 → c0.lfuPart.mainCapacity ≠ 0 →
        ∃ z, umFind c1.lfuPart.mainCache k = some (some z) ∧
          hValue c1.lfuPart.heap z = some v) ∧
      (umFind c0.lfuPart.ghostCache k = none → umFind c1.lfuPart.ghostCache k = none) ∧
      (c0.lruPart.mainCache.length < c0.lruPart.mainCapacity ∨
          (umFind c0.lruPart.mainCache k).isSome = true →
        c1.lruPart.ghostCache = c0.lruPart.ghostCache) := by
  obtain ⟨hlru, hlfu, hsum, hT, hnk1, hnk2, hdj⟩ := hinv
  have hS : ∀ x, x ∈ S → x ∈ k :: S := fun x hx => List.mem_cons_of_mem _ hx
  have hnk1S := nodeKeys_mono hnk1 hS
  have hnk2S := nodeKeys_mono hnk2 hS
  by_cases hcap : c0.lruPart.mainCapacity = 0
  · have hput := c0.lruPart.put_zero k v hcap
    refine ⟨c0, ?_, ⟨hlru, hlfu, hsum, hT, hnk1S, hnk2S, hdj⟩, ⟨rfl, rfl⟩,
      fun h => absurd hcap h, fun _ => rfl, fun _ h => absurd hcap h, fun h => h,
      fun _ => rfl⟩
    unfold ArcCache.put
    cases b <;> simp [hcg, hput]
  · obtain ⟨s1, y, hput, hi1, hfr, hmk, hvk, -, hnew, hgh1, hcnt1, hcnt2⟩ :=
      c0.lruPart.put_inv hlru k v hcap
    have hnk1' : NodeKeys s1.heap 4 (k :: S) :=
      nodeKeys_frame hnk1S hfr.2.2.2.2 (fun i h1 h2 => ⟨k, hnew i h1 h2, List.mem_cons_self _ _⟩)
    cases b with
    | true =>
      refine ⟨{ c0 with lruPart := s1 }, ?_, ⟨hi1, hlfu, ?_, ?_, hnk1', hnk2S, hdj⟩,
        ⟨hfr.1, rfl⟩, fun _ => ⟨y, hmk, hvk⟩, fun h => absurd h hcap,
        fun h => Bool.noConfusion h, fun h => h, hgh1⟩
      · unfold ArcCache.put
        simp [hcg, hput]
      · simp only [hfr.1]
        exact hsum
      · simp only [hfr.2.2.1]
        exact hT
    | false =>
      by_cases hcap2 : c0.lfuPart.mainCapacity = 0
      · have hput2 := c0.lfuPart.lfu_put_zero order k v hcap2
        refine ⟨{ c0 with lruPart := s1, lfuPart := c0.lfuPart }, ?_,
          ⟨hi1, hlfu, ?_, ?_, hnk1', hnk2S, hdj⟩, ⟨hfr.1, rfl⟩, fun _ => ⟨y, hmk, hvk⟩,
          fun h => absurd h hcap, fun _ _ h => absurd hcap2 h, fun h => h, hgh1⟩
        · unfold ArcCache.put
          simp [hcg, hput, hput2]
        · simp only [hfr.1]
          exact hsum
        · simp only [hfr.2.2.1]
          exact hT
      · obtain ⟨l1, z, hput2, hi2, hfr2, hmz, hvz, -, hnew2, hgh2, hd2⟩ :=
          c0.lfuPart.lfu_put_inv order hlfu k v hcap2
        have hnk2' : NodeKeys l1.heap 2 (k :: S) :=
          nodeKeys_frame hnk2S hfr2.2.2.2.2
            (fun i h1 h2 => ⟨k, hnew2 i h1 h2, List.mem_cons_self _ _⟩)
        refine ⟨{ c0 with lruPart := s1, lfuPart := l1 }, ?_,
          ⟨hi1, hi2, ?_, ?_, hnk1', hnk2', fun h3 => hd2 (hdj h3) (hD rfl)⟩,
          ⟨hfr.1, hfr2.1⟩, fun _ => ⟨y, hmk, hvk⟩, fun h => absurd h hcap,
          fun _ _ _ => ⟨z, hmz, hvz⟩, hgh2, hgh1⟩
        · unfold ArcCache.put
          simp [hcg, hput, hput2]
        · simp only [hfr.1, hfr2.1]
          exact hsum
        · simp only [hfr.2.2.1]
          exact hT

/-- Source `put` returns in every state that satisfies the invariant, and keeps it. -/
theorem ArcCache.put_spec (order : FreqMap → Nat) (c : ArcCache K V) {C T : Nat}
    {S : List K} (hinv : c.Inv C T S) (hC : C < SIZE_MOD) (k : K) (v : V) :
    ∃ c0 b c1, c.checkGhostCache order k = some (c0, b) ∧ c.put order k v = some c1 ∧
      c1.Inv C T (k :: S) ∧ ArcCache.SameCaps c0 c1 ∧
      (c1.lruPart.mainCapacity ≠ 0 → ∃ y, umFind c1.lruPart.mainCache k = some (some y) ∧
        hValue c1.lruPart.heap y = some v) := by
  obtain ⟨c0, b, hcg, hinv0, hcase, -⟩ := ArcCache.checkGhostCache_spec order c hinv hC k
  have hD : b = false → umFind c0.lfuPart.ghostCache k = none := by
    intro hb
    rcases hcase with ⟨-, h2, h3, -⟩ | ⟨-, h2, -⟩ | ⟨-, -, h2, -⟩
    · rw [h3]; exact h2
    · rw [hb] at h2; exact Bool.noConfusion h2
    · rw [hb] at h2; exact Bool.noConfusion h2
  obtain ⟨c1, hput, hi1, hsc, hval, -⟩ := ArcCache.put_of_ghost order c c0 k v hcg hinv0 hD
  exact ⟨c0, b, c1, hcg, hput, hi1, hsc, hval⟩

/-- The rest of source `get` after `checkGhostCache` returned `(c0, b)`. -/
theorem ArcCache.get_of_ghost (order : FreqMap → Nat) (c c0 : ArcCache K V) {b : Bool}
    {C T : Nat} {S : List K} (k : K) (out : V)
    (hcg : c.checkGhostCache order k = some (c0, b)) (hinv : c0.Inv C T S)
    (hD : 3 ≤ T → umFind c0.lfuPart.ghostCache k = none ∨
      ∃ y, umFind c0.lruPart.mainCache k = some (some y) ∧
        hCount c0.lruPart.heap y = some 1) :
    ∃ c1 r val, c.get order k out = some (c1, r, val) ∧ c1.Inv C T S ∧
      ArcCache.SameCaps c0 c1 ∧
      c1.lruPart.mainCache = c0.lruPart.mainCache ∧
      c1.lruPart.ghostCache = c0.lruPart.ghostCache ∧
      (∀ i, hValue c1.lruPart.heap i = hValue c0.lruPart.heap i) ∧
      (c0.lruPart.mainCapacity ≠ 0 → ∀ y v, umFind c0.lruPart.mainCache k = some (some y) →
        hValue c0.lruPart.heap y = some v → r = true ∧ val = v) ∧
      (umFind c0.lfuPart.ghostCache k = none → umFind c1.lfuPart.ghostCache k = none) ∧
      ((∃ z, umFind c0.lfuPart.mainCache k = some (some z) ∧
          hValue c0.lfuPart.heap z = some val) →
        ∃ z, umFind c1.lfuPart.mainCache k = some (some z) ∧
          hValue c1.lfuPart.heap z = some val) := by
  obtain ⟨hlru, hlfu, hsum, hT, hnk1, hnk2, hdj⟩ := hinv
  by_cases hhit : c0.lruPart.mainCapacity ≠ 0 ∧ (umFind c0.lruPart.mainCache k).isSome = true
  · obtain ⟨hcap, hsome⟩ := hhit
    obtain ⟨p, hp⟩ := Option.isSome_iff_exists.mp hsome
    obtain ⟨y, val, cnt, h1, hpy, hval, hcnt, hget, hi1, hlen1, hkeys1, hvals1, -, -, -⟩ :=
      c0.lruPart.get_hit hlru k out false hcap hp
    subst hpy
    obtain ⟨y1, hy1, hy4, hyl, hyk⟩ := c0.lruPart.main_key hlru hp
    have hy1' := Option.some.inj hy1
    subst hy1'
    have hkS : k ∈ S := by
      obtain ⟨k1, hk1, hS⟩ := hnk1 y hy4 hyl
      rw [hyk] at hk1
      exact Option.some.inj hk1 ▸ hS
    have hnk1' : NodeKeys h1 4 S :=
      nodeKeys_frame hnk1 (fun i _ => hkeys1 i) (fun i a b => by omega)
    have hvy : ∀ y1 v, umFind c0.lruPart.mainCache k = some (some y1) →
        hValue c0.lruPart.heap y1 = some v → true = true ∧ val = v := by
      intro y1 v hm hv
      rw [hp] at hm
      have := Option.some.inj (Option.some.inj hm)
      subst this
      rw [hval] at hv
      exact ⟨rfl, Option.some.inj hv⟩
    by_cases hst : (cnt + 1) % SIZE_MOD ≥ c0.lruPart.transformThreshold
    · have hgn : 3 ≤ T → umFind c0.lfuPart.ghostCache k = none := by
        intro h3
        rcases hD h3 with h | ⟨y1, hm, hc1⟩
        · exact h
        · rw [hp] at hm
          have := Option.some.inj (Option.some.inj hm)
          subst this
          rw [hcnt] at hc1
          have hc1' := Option.some.inj hc1
          subst hc1'
          rw [hT] at hst
          have : (1 + 1) % SIZE_MOD = 2 := by decide
          omega
      by_cases hcap2 : c0.lfuPart.mainCapacity = 0
      · have hput2 := c0.lfuPart.lfu_put_zero order k val hcap2
        refine ⟨{ c0 with lruPart := { c0.lruPart with heap := h1 }, lfuPart := c0.lfuPart },
          true, val, ?_, ⟨hi1, hlfu, hsum, hT, hnk1', hnk2, hdj⟩, ⟨rfl, rfl⟩, rfl, rfl,
          hvals1, fun _ => hvy, fun h => h, fun h => h⟩
        unfold ArcCache.get
        simp [hcg, hget, hst, hput2]
      · obtain ⟨l1, z, hput2, hi2, hfr2, hmz, hvz, -, hnew2, hgh2, hd2⟩ :=
          c0.lfuPart.lfu_put_inv order hlfu k val hcap2
        have hnk2' : NodeKeys l1.heap 2 S :=
          nodeKeys_frame hnk2 hfr2.2.2.2.2 (fun i a b => ⟨k, hnew2 i a b, hkS⟩)
        refine ⟨{ c0 with lruPart := { c0.lruPart with heap := h1 }, lfuPart := l1 },
          true, val, ?_, ⟨hi1, hi2, ?_, hT, hnk1', hnk2', fun h3 => hd2 (hdj h3) (hgn h3)⟩,
          ⟨rfl, hfr2.1⟩, rfl, rfl, hvals1, fun _ => hvy, hgh2, fun _ => ⟨z, hmz, hvz⟩⟩
        · unfold ArcCache.get
          simp [hcg, hget, hst, hput2]
        · simp only [hfr2.1]
          exact hsum
    · refine ⟨{ c0 with lruPart := { c0.lruPart with heap := h1 } },
        true, val, ?_, ⟨hi1, hlfu, hsum, hT, hnk1', hnk2, hdj⟩, ⟨rfl, rfl⟩, rfl, rfl,
        hvals1, fun _ => hvy, fun h => h, fun h => h⟩
      unfold ArcCache.get
      simp [hcg, hget, hst]
  · have hmiss : c0.lruPart.mainCapacity = 0 ∨ umFind c0.lruPart.mainCache k = none := by
      by_cases h0 : c0.lruPart.mainCapacity = 0
      · exact Or.inl h0
      · right
        cases hf : umFind c0.lruPart.mainCache k with
        | none => rfl
        | some p => exact absurd ⟨h0, by simp [hf]⟩ hhit
    have hget := c0.lruPart.get_miss k out false hmiss
    have hvy : c0.lruPart.mainCapacity ≠ 0 → ∀ y1 v,
        umFind c0.lruPart.mainCache k = some (some y1) →
        hValue c0.lruPart.heap y1 = some v → False := by
      intro h0 y1 v hm hv
      rcases hmiss with h | h
      · exact h0 h
      · rw [h] at hm
        exact Option.noConfusion hm
    by_cases hhit2 : c0.lfuPart.mainCapacity ≠ 0 ∧
        (umFind c0.lfuPart.mainCache k).isSome = true
    · obtain ⟨hcap2, hsome2⟩ := hhit2
      obtain ⟨p, hp⟩ := Option.isSome_iff_exists.mp hsome2
      obtain ⟨z, val, l1, hpz, hval, hget2, hi2, hfr2, hlen2, hkeys2, hvals2, hmain2,
        hghost2⟩ := c0.lfuPart.lfu_get_hit hlfu k out hcap2 hp
      have hnk2' : NodeKeys l1.heap 2 S :=
        nodeKeys_frame hnk2 (fun i _ => hkeys2 i) (fun i a b => by omega)
      refine ⟨{ c0 with lruPart := c0.lruPart, lfuPart := l1 }, true, val, ?_,
        ⟨hlru, hi2, ?_, hT, hnk1, hnk2', ?_⟩, ⟨rfl, hfr2.1⟩, rfl, rfl, fun _ => rfl,
        fun h0 y1 v hm hv => (hvy h0 y1 v hm hv).elim, ?_, ?_⟩
      · unfold ArcCache.get
        simp [hcg, hget, hget2]
      · simp only [hfr2.1]
        exact hsum
      · intro h3 k1 hk1
        rw [hmain2] at hk1
        rw [hghost2]
        exact hdj h3 k1 hk1
      · intro h
        rw [hghost2]
        exact h
      · rintro ⟨z1, hz1, hz2⟩
        exact ⟨z1, by rw [hmain2]; exact hz1, by rw [hvals2]; exact hz2⟩
    · have hmiss2 : c0.lfuPart.mainCapacity = 0 ∨ umFind c0.lfuPart.mainCache k = none := by
        by_cases h0 : c0.lfuPart.mainCapacity = 0
        · exact Or.inl h0
        · right
          cases hf : umFind c0.lfuPart.mainCache k with
          | none => rfl
          | some p => exact absurd ⟨h0, by simp [hf]⟩ hhit2
      have hget2 := c0.lfuPart.lfu_get_miss k out hmiss2
      refine ⟨{ c0 with lruPart := c0.lruPart, lfuPart := c0.lfuPart }, false, out, ?_,
        ⟨hlru, hlfu, hsum, hT, hnk1, hnk2, hdj⟩, ⟨rfl, rfl⟩, rfl, rfl, fun _ => rfl,
        fun h0 y1 v hm hv => (hvy h0 y1 v hm hv).elim, fun h => h, fun h => h⟩
      unfold ArcCache.get
      simp [hcg, hget, hget2]

/-- Source `get` returns in every state that satisfies the invariant, and keeps it. -/
theorem ArcCache.get_spec (order : FreqMap → Nat) (c : ArcCache K V) {C T : Nat}
    {S : List K} (hinv : c.Inv C T S) (hC : C < SIZE_MOD) (k : K) (out : V) :
    ∃ c0 b c1 r val, c.checkGhostCache order k = some (c0, b) ∧
      c.get order k out = some (c1, r, val) ∧ c1.Inv C T S ∧ ArcCache.SameCaps c0 c1 := by
  obtain ⟨c0, b, hcg, hinv0, hcase, -⟩ := ArcCache.checkGhostCache_spec order c hinv hC k
  have hD : 3 ≤ T → umFind c0.lfuPart.ghostCache k = none ∨
      ∃ y, umFind c0.lruPart.mainCache k = some (some y) ∧
        hCount c0.lruPart.heap y = some 1 := by
    intro _
    rcases hcase with ⟨-, h2, h3, -⟩ | ⟨-, -, h2, -⟩ | ⟨-, -, -, h2, -⟩
    · left; rw [h3]; exact h2
    · right; exact h2
    · left; exact h2
  obtain ⟨c1, r, val, hget, hi1, hsc, -⟩ :=
    ArcCache.get_of_ghost order c c0 k out hcg hinv0 hD
  exact ⟨c0, b, c1, r, val, hcg, hget, hi1, hsc⟩

/-- Source `get` on a key that is on no node: nothing changes and the result is a
miss. -/
theorem ArcCache.get_absent (order : FreqMap → Nat) (c : ArcCache K V) {C T : Nat}
    {S : List K} (hinv : c.Inv C T S) (k : K) (out : V) (hk : k ∉ S) :
    c.get order k out = some (c, false, out) := by
  obtain ⟨hlru, hlfu, -, -, hnk1, hnk2, -⟩ := hinv
  obtain ⟨hm1, hg1⟩ := c.lruPart.not_mem_of_nodeKeys hlru hnk1 hk
  obtain ⟨hm2, hg2⟩ := c.lfuPart.lfu_not_mem_of_nodeKeys hlfu hnk2 hk
  have hcg := ArcCache.checkGhostCache_miss order c k hg1 hg2
  have hget := c.lruPart.get_miss k out false (Or.inr hm1)
  have hget2 := c.lfuPart.lfu_get_miss k out (Or.inr hm2)
  unfold ArcCache.get
  simp [hcg, hget, hget2]

end CacheOps

/-! ## Sequences of calls -/

section RunLemmas

variable {K V : Type} [DecidableEq K]

theorem ArcCache.inv_mono {C T : Nat} {S S1 : List K} {c : ArcCache K V}
    (hinv : c.Inv C T S) (hs : ∀ k, k ∈ S → k ∈ S1) : c.Inv C T S1 :=
  ⟨hinv.1, hinv.2.1, hinv.2.2.1, hinv.2.2.2.1, nodeKeys_mono hinv.2.2.2.2.1 hs,
    nodeKeys_mono hinv.2.2.2.2.2.1 hs, hinv.2.2.2.2.2.2⟩

/-- The cache built by the constructor satisfies the invariant. -/
theorem ArcCache.cache_create_inv [Inhabited K] [Inhabited V] (C T : Nat) :
    (ArcCache.create C T : ArcCache K V).Inv C T [] := by
  refine ⟨ArcLruPart.create_inv _ _, ArcLfuPart.lfu_create_inv _ _, ?_, rfl, ?_, ?_, ?_⟩
  · simp only [ArcCache.create, ArcLruPart.create, ArcLfuPart.create]
    omega
  · intro i h4 hl
    simp [ArcCache.create, ArcLruPart.create] at hl
    omega
  · intro i h2 hl
    simp [ArcCache.create, ArcLfuPart.create] at hl
    omega
  · intro _ k hk
    simp [ArcCache.create, ArcLfuPart.create, umFind] at hk

/-- Every call returns in a state that satisfies the invariant, and keeps it; the
capacities after the call are those `checkGhostCache` left. -/
theorem ArcCache.call_spec (c : ArcCache K V) {C T : Nat} {S : List K}
    (hinv : c.Inv C T S) (hC : C < SIZE_MOD) (a : ArcCall K V) :
    ∃ c0 b c1, c.checkGhostCache a.order a.key = some (c0, b) ∧ c.call a = some c1 ∧
      c1.Inv C T (ArcCall.putKeys [a] ++ S) ∧ ArcCache.SameCaps c0 c1 := by
  cases a with
  | put order k v =>
    obtain ⟨c0, b, c1, hcg, hput, hi1, hsc, -⟩ := ArcCache.put_spec order c hinv hC k v
    exact ⟨c0, b, c1, hcg, hput, hi1, hsc⟩
  | get order k out =>
    obtain ⟨c0, b, c1, r, val, hcg, hget, hi1, hsc⟩ :=
      ArcCache.get_spec order c hinv hC k out
    refine ⟨c0, b, c1, hcg, ?_, hi1, hsc⟩
    simp [ArcCache.call, hget]

theorem ArcCall.mem_putKeys_cons (a : ArcCall K V) (rest : List (ArcCall K V)) (S : List K)
    (k : K) :
    k ∈ ArcCall.putKeys rest ++ (ArcCall.putKeys [a] ++ S) ↔
      k ∈ ArcCall.putKeys (a :: rest) ++ S := by
  cases a with
  | put order k1 v =>
    simp only [ArcCall.putKeys, List.mem_append, List.mem_cons, List.mem_singleton,
      List.not_mem_nil, or_false]
    tauto
  | get order k1 out =>
    simp only [ArcCall.putKeys, List.mem_append, List.not_mem_nil, false_or]

/-- Every list of calls returns, and the invariant holds afterwards. -/
theorem ArcCache.run_spec {C T : Nat} (hC : C < SIZE_MOD) (calls : List (ArcCall K V)) :
    ∀ (c : ArcCache K V) (S : List K), c.Inv C T S →
      ∃ c1, c.run calls = some c1 ∧ c1.Inv C T (ArcCall.putKeys calls ++ S) := by
  induction calls with
  | nil =>
    intro c S hinv
    exact ⟨c, rfl, hinv⟩
  | cons a rest ih =>
    intro c S hinv
    obtain ⟨c0, b, c1, -, hcall, hi1, -⟩ := ArcCache.call_spec c hinv hC a
    obtain ⟨c2, hrun, hi2⟩ := ih c1 _ hi1
    refine ⟨c2, ?_, ArcCache.inv_mono hi2 (fun k hk => (ArcCall.mem_putKeys_cons a rest S k).mp hk)⟩
    simp [ArcCache.run, hcall, hrun]

/-- The invariant holds in every state reached from the constructor. -/
theorem ArcCache.reachedBy_inv [Inhabited K] [Inhabited V] {C T : Nat} (hC : C < SIZE_MOD)
    {calls : List (ArcCall K V)} {c : ArcCache K V} (hr : ArcCache.ReachedBy C T calls c) :
    c.Inv C T (ArcCall.putKeys calls) := by
  obtain ⟨c1, hrun, hi1⟩ := ArcCache.run_spec hC calls (ArcCache.create C T : ArcCache K V) []
    (ArcCache.cache_create_inv C T)
  unfold ArcCache.ReachedBy at hr
  rw [hr] at hrun
  rw [Option.some.inj hrun]
  simpa using hi1

theorem ArcCache.run_append (c : ArcCache K V) (l1 l2 : List (ArcCall K V)) :
    c.run (l1 ++ l2) = (c.run l1).bind (fun c1 => c1.run l2) := by
  induction l1 generalizing c with
  | nil => rfl
  | cons a rest ih =>
    simp only [List.cons_append, ArcCache.run]
    cases c.call a with
    | none => rfl
    | some c1 => simp [ih]

end RunLemmas

/-! ## The claims about `ArcCache` -/

section Claims

variable {K V : Type} [DecidableEq K] [Inhabited K] [Inhabited V]

theorem size_lt (n : Nat) (h : n < 1000) : n < SIZE_MOD := by
  unfold SIZE_MOD
  omega

/-- Every call made in a reached state returns a reached state. -/
theorem ArcCache.reachable_call {C T : Nat} {c : ArcCache K V} (hC : C < SIZE_MOD)
    (hr : ArcCache.Reachable C T c) (a : ArcCall K V) :
    ∃ c1, c.call a = some c1 ∧ ArcCache.Reachable C T c1 := by
  obtain ⟨calls, hrun⟩ := hr
  obtain ⟨c0, b, c1, -, hcall, -, -⟩ := ArcCache.call_spec c (ArcCache.reachedBy_inv hC hrun) hC a
  refine ⟨c1, hcall, calls ++ [a], ?_⟩
  unfold ArcCache.ReachedBy at hrun ⊢
  rw [ArcCache.run_append, hrun]
  simp [ArcCache.run, hcall]

/-- The state `ArcCache.after C T calls` is reached by the calls `calls`. -/
theorem ArcCache.after_reached {C T : Nat} (hC : C < SIZE_MOD) (calls : List (ArcCall Nat Nat)) :
    ArcCache.ReachedBy C T calls (ArcCache.after C T calls) := by
  obtain ⟨c1, hrun, -⟩ := ArcCache.run_spec hC calls (ArcCache.create C T : ArcCache Nat Nat) []
    (ArcCache.cache_create_inv C T)
  unfold ArcCache.ReachedBy ArcCache.after
  rw [hrun]
  rfl

/-- C1 (amended): in every state reached from `ArcCache(C, T)`, `put(k, v)` returns, and
if after it the recency partition has a capacity other than 0 and `k` is in neither
ghost index, then the `get(k, out)` that follows returns `true` with `out = v`. -/
theorem ArcCache.get_after_put (C T : Nat) (c : ArcCache K V) (hC : C < SIZE_MOD)
    (hr : ArcCache.Reachable C T c) (order order1 : FreqMap → Nat) (k : K) (v out : V) :
    ∃ c1, c.put order k v = some c1 ∧
      (c1.lruPart.mainCapacity ≠ 0 → umFind c1.lruPart.ghostCache k = none →
        umFind c1.lfuPart.ghostCache k = none →
        ∃ c2, c1.get order1 k out = some (c2, true, v)) := by
  obtain ⟨calls, hrun⟩ := hr
  obtain ⟨c0, b, c1, -, hput, hi1, -, hval⟩ :=
    ArcCache.put_spec order c (ArcCache.reachedBy_inv hC hrun) hC k v
  refine ⟨c1, hput, ?_⟩
  intro hcap hg1 hg2
  obtain ⟨y, hm, hv⟩ := hval hcap
  have hcg := ArcCache.checkGhostCache_miss order1 c1 k hg1 hg2
  obtain ⟨c2, r, val, hget, -, -, -, -, -, hhit, -⟩ :=
    ArcCache.get_of_ghost order1 c1 c1 k out hcg hi1 (fun _ => Or.inl hg2)
  obtain ⟨h1, h2⟩ := hhit hcap y v hm hv
  subst h1
  subst h2
  exact ⟨c2, hget⟩

/-- C1 (witness): the fresh cache of capacity 4, key 1 and value 10; the three
conditions hold after the `put` and the `get` returns `(true, 10)`. -/
theorem ArcCache.get_after_put_witness :
    (4 < SIZE_MOD ∧ ArcCache.Reachable 4 3 (ArcCache.after 4 3 [])) ∧
      ∃ c1 c2, (ArcCache.after 4 3 []).put firstKey 1 10 = some c1 ∧
        c1.lruPart.mainCapacity ≠ 0 ∧ umFind c1.lruPart.ghostCache 1 = none ∧
        umFind c1.lfuPart.ghostCache 1 = none ∧ c1.get firstKey 1 0 = some (c2, true, 10) := by
  obtain ⟨c1, hput, h⟩ := ArcCache.get_after_put 4 3 (ArcCache.after 4 3 [])
    (size_lt 4 (by decide)) ⟨_, ArcCache.after_reached (size_lt 4 (by decide)) []⟩
    firstKey firstKey 1 10 0
  have e : (ArcCache.after 4 3 []).put firstKey 1 10 =
      some (ArcCache.after 4 3 [.put firstKey 1 10]) := by decide!
  rw [e] at hput
  have e1 := Option.some.inj hput
  subst e1
  obtain ⟨c2, hget⟩ := h (by decide!) (by decide!) (by decide!)
  exact ⟨⟨size_lt 4 (by decide), _, ArcCache.after_reached (size_lt 4 (by decide)) []⟩,
    _, c2, e, by decide!, by decide!, by decide!, hget⟩

/-- C1 (counterexample): in the cache of capacity 2, after `put` of the keys 1, 2, 3 the
key 2 is only in the ghost index of the frequency partition; `put(2, 99)` takes the last
unit of capacity from the recency partition and stores nothing, and the `get(2, out)`
that follows returns `false`. -/
theorem ArcCache.get_after_put_counterexample :
    ∃ c c1 : ArcCache Nat Nat, ArcCache.Reachable 2 3 c ∧
      c.put firstKey 2 99 = some c1 ∧ c1.get firstKey 2 0 = some (c1, false, 0) :=
  ⟨ArcCache.after 2 3 [.put firstKey 1 10, .put firstKey 2 20, .put firstKey 3 30],
    ArcCache.after 2 3 [.put firstKey 1 10, .put firstKey 2 20, .put firstKey 3 30,
      .put firstKey 2 99],
    ⟨_, ArcCache.after_reached (size_lt 2 (by decide)) _⟩, by decide!, by decide!⟩

/-- C2 (amended): after construction with capacity `C` and after every call the two
capacities add up to `2 * (C / 2)`, which is `C` when `C` is even; every call returns,
so that this holds after each call. -/
theorem ArcCache.capacity_sum (C T : Nat) (c : ArcCache K V) (hC : C < SIZE_MOD)
    (hr : ArcCache.Reachable C T c) :
    c.lruPart.mainCapacity + c.lfuPart.mainCapacity = 2 * (C / 2) ∧
      (C % 2 = 0 → c.lruPart.mainCapacity + c.lfuPart.mainCapacity = C) ∧
      ∀ a, ∃ c1, c.call a = some c1 ∧ ArcCache.Reachable C T c1 := by
  obtain ⟨calls, hrun⟩ := hr
  have hinv := ArcCache.reachedBy_inv hC hrun
  refine ⟨hinv.2.2.1, ?_, fun a => ArcCache.reachable_call hC ⟨calls, hrun⟩ a⟩
  intro he
  rw [hinv.2.2.1]
  omega

/-- C2 (witness): capacity 10 after one `put`. -/
theorem ArcCache.capacity_sum_witness :
    (10 < SIZE_MOD ∧ ArcCache.Reachable 10 3 (ArcCache.after 10 3 [.put firstKey 1 10])) ∧
      (ArcCache.after 10 3 [.put firstKey 1 10]).lruPart.mainCapacity +
        (ArcCache.after 10 3 [.put firstKey 1 10]).lfuPart.mainCapacity = 2 * (10 / 2) ∧
      (10 % 2 = 0 → (ArcCache.after 10 3 [.put firstKey 1 10]).lruPart.mainCapacity +
        (ArcCache.after 10 3 [.put firstKey 1 10]).lfuPart.mainCapacity = 10) ∧
      ∀ a, ∃ c1, (ArcCache.after 10 3 [.put firstKey 1 10]).call a = some c1 ∧
        ArcCache.Reachable 10 3 c1 :=
  ⟨⟨size_lt 10 (by decide), _, ArcCache.after_reached (size_lt 10 (by decide)) _⟩,
    ArcCache.capacity_sum 10 3 _ (size_lt 10 (by decide))
      ⟨_, ArcCache.after_reached (size_lt 10 (by decide)) _⟩⟩

/-- C2 (counterexample): built with capacity 3, both partitions get capacity 1, so the
sum is 2. -/
theorem ArcCache.capacity_sum_counterexample :
    ∃ c : ArcCache Nat Nat, ArcCache.Reachable 3 3 c ∧
      c.lruPart.mainCapacity + c.lfuPart.mainCapacity ≠ 3 :=
  ⟨ArcCache.create 3 3, ⟨[], rfl⟩, by decide⟩

/-- C3: every `put` or `get` made in a reached state returns and leaves the sum of the
two capacities unchanged.  Either both capacities are unchanged, or one went up by 1 and
then `decreaseCapacity` of the other partition returned `true` and took 1 off that one.
When `decreaseCapacity` of the donor returns `false` (its capacity is 0), neither
capacity changes. -/
theorem ArcCache.capacity_transfer (C T : Nat) (c : ArcCache K V) (hC : C < SIZE_MOD)
    (hr : ArcCache.Reachable C T c) (a : ArcCall K V) :
    ∃ c1, c.call a = some c1 ∧
      c1.lruPart.mainCapacity + c1.lfuPart.mainCapacity =
        c.lruPart.mainCapacity + c.lfuPart.mainCapacity ∧
      (ArcCache.SameCaps c c1 ∨
        (ArcCache.LfuToLru c c1 ∧ ∃ l, c.lfuPart.decreaseCapacity a.order = some (l, true) ∧
          l.mainCapacity + 1 = c.lfuPart.mainCapacity) ∨
        (ArcCache.LruToLfu c c1 ∧ ∃ l, c.lruPart.decreaseCapacity = some (l, true) ∧
          l.mainCapacity + 1 = c.lruPart.mainCapacity)) ∧
      ((umFind c.lruPart.ghostCache a.key).isSome = true →
        c.lfuPart.decreaseCapacity a.order = some (c.lfuPart, false) →
        ArcCache.SameCaps c c1) ∧
      (umFind c.lruPart.ghostCache a.key = none →
        (umFind c.lfuPart.ghostCache a.key).isSome = true →
        c.lruPart.decreaseCapacity = some (c.lruPart, false) → ArcCache.SameCaps c c1) := by
  obtain ⟨calls, hrun⟩ := hr
  have hinv := ArcCache.reachedBy_inv hC hrun
  obtain ⟨c0, b, c1, hcg, hcall, hi1, hsc⟩ := ArcCache.call_spec c hinv hC a
  obtain ⟨c0', b', hcg', -, hcase, -⟩ := ArcCache.checkGhostCache_spec a.order c hinv hC a.key
  rw [hcg] at hcg'
  have e1 := (Prod.mk.inj (Option.some.inj hcg')).1
  subst e1
  refine ⟨c1, hcall, ?_, ?_, ?_, ?_⟩
  · rw [hi1.2.2.1, hinv.2.2.1]
  · rcases hcase with ⟨-, -, h, -⟩ | ⟨-, -, -, h⟩ | ⟨-, -, -, -, h⟩
    · left
      rw [← h]
      exact hsc
    · rcases h with ⟨-, h⟩ | ⟨-, h, l, hl⟩
      · left
        exact ⟨hsc.1.trans h.1, hsc.2.trans h.2⟩
      · right; left
        exact ⟨⟨hsc.1.trans h.1, by rw [hsc.2]; exact h.2⟩, l, hl⟩
    · rcases h with ⟨-, h⟩ | ⟨-, h, l, hl⟩
      · left
        exact ⟨hsc.1.trans h.1, hsc.2.trans h.2⟩
      · right; right
        exact ⟨⟨hsc.2.trans h.1, by rw [hsc.1]; exact h.2⟩, l, hl⟩
  · intro hg hdec
    rcases hcase with ⟨h, -⟩ | ⟨-, -, -, h⟩ | ⟨h, -⟩
    · rw [h] at hg
      exact Bool.noConfusion hg
    · rcases h with ⟨-, h⟩ | ⟨-, -, l, hl, -⟩
      · exact ⟨hsc.1.trans h.1, hsc.2.trans h.2⟩
      · rw [hdec] at hl
        exact Bool.noConfusion (Prod.mk.inj (Option.some.inj hl)).2
    · rw [h] at hg
      exact Bool.noConfusion hg
  · intro hg1 hg hdec
    rcases hcase with ⟨-, h, -⟩ | ⟨h, -⟩ | ⟨-, -, -, -, h⟩
    · rw [h] at hg
      exact Bool.noConfusion hg
    · rw [hg1] at h
      exact Bool.noConfusion h
    · rcases h with ⟨-, h⟩ | ⟨-, -, l, hl, -⟩
      · exact ⟨hsc.1.trans h.1, hsc.2.trans h.2⟩
      · rw [hdec] at hl
        exact Bool.noConfusion (Prod.mk.inj (Option.some.inj hl)).2

/-- C3 (witness): capacity 2 after `put` of the keys 1, 2, 3, and a `put` of key 2, which
is in the ghost index of the frequency partition only. -/
theorem ArcCache.capacity_transfer_witness :
    ∃ c : ArcCache Nat Nat, (2 < SIZE_MOD ∧ ArcCache.Reachable 2 3 c) ∧
      ∃ c1, c.call (.put firstKey 2 99) = some c1 ∧
        c1.lruPart.mainCapacity + c1.lfuPart.mainCapacity =
          c.lruPart.mainCapacity + c.lfuPart.mainCapacity ∧
        (ArcCache.SameCaps c c1 ∨
          (ArcCache.LfuToLru c c1 ∧ ∃ l, c.lfuPart.decreaseCapacity firstKey = some (l, true) ∧
            l.mainCapacity + 1 = c.lfuPart.mainCapacity) ∨
          (ArcCache.LruToLfu c c1 ∧ ∃ l, c.lruPart.decreaseCapacity = some (l, true) ∧
            l.mainCapacity + 1 = c.lruPart.mainCapacity)) ∧
        ((umFind c.lruPart.ghostCache 2).isSome = true →
          c.lfuPart.decreaseCapacity firstKey = some (c.lfuPart, false) →
          ArcCache.SameCaps c c1) ∧
        (umFind c.lruPart.ghostCache 2 = none →
          (umFind c.lfuPart.ghostCache 2).isSome = true →
          c.lruPart.decreaseCapacity = some (c.lruPart, false) → ArcCache.SameCaps c c1) :=
  ⟨ArcCache.after 2 3 [.put firstKey 1 10, .put firstKey 2 20, .put firstKey 3 30],
    ⟨size_lt 2 (by decide), _, ArcCache.after_reached (size_lt 2 (by decide)) _⟩,
    ArcCache.capacity_transfer 2 3 _ (size_lt 2 (by decide))
      ⟨_, ArcCache.after_reached (size_lt 2 (by decide)) _⟩ (.put firstKey 2 99)⟩

/-- C4: in a reached state, a `put` or `get` whose key is in the ghost index of the
recency partition, made while the frequency partition has capacity above 0, returns,
takes exactly 1 off the capacity of the frequency partition and adds exactly 1 to that of
the recency partition.  With capacity 10, after `put` of the keys 1 to 6 and `put` of
key 1 again the capacities are 6 and 4. -/
theorem ArcCache.ghost_hit_shifts_capacity :
    (∀ (C T : Nat) (c : ArcCache K V) (a : ArcCall K V), C < SIZE_MOD →
      ArcCache.Reachable C T c → (umFind c.lruPart.ghostCache a.key).isSome = true →
      0 < c.lfuPart.mainCapacity →
      ∃ c1, c.call a = some c1 ∧ c1.lfuPart.mainCapacity + 1 = c.lfuPart.mainCapacity ∧
        c1.lruPart.mainCapacity = c.lruPart.mainCapacity + 1) ∧
    ((((ArcCache.create 10 3 : ArcCache Nat Nat).run [.put firstKey 1 10, .put firstKey 2 20,
          .put firstKey 3 30, .put firstKey 4 40, .put firstKey 5 50, .put firstKey 6 60]).map
        (fun c => (c.lruPart.mainCapacity, c.lfuPart.mainCapacity,
          (umFind c.lruPart.ghostCache 1).isSome)) = some (5, 5, true)) ∧
      (((ArcCache.create 10 3 : ArcCache Nat Nat).run [.put firstKey 1 10, .put firstKey 2 20,
          .put firstKey 3 30, .put firstKey 4 40, .put firstKey 5 50, .put firstKey 6 60,
          .put firstKey 1 70]).map
        (fun c => (c.lruPart.mainCapacity, c.lfuPart.mainCapacity)) = some (6, 4))) := by
  constructor
  · intro C T c a hC hr hg hcap
    obtain ⟨calls, hrun⟩ := hr
    have hinv := ArcCache.reachedBy_inv hC hrun
    obtain ⟨c0, b, c1, hcg, hcall, hi1, hsc⟩ := ArcCache.call_spec c hinv hC a
    obtain ⟨c0', b', hcg', -, hcase, -⟩ := ArcCache.checkGhostCache_spec a.order c hinv hC a.key
    rw [hcg] at hcg'
    have e1 := (Prod.mk.inj (Option.some.inj hcg')).1
    subst e1
    refine ⟨c1, hcall, ?_⟩
    rcases hcase with ⟨h, -⟩ | ⟨-, -, -, h⟩ | ⟨h, -⟩
    · rw [h] at hg
      exact Bool.noConfusion hg
    · rcases h with ⟨h, -⟩ | ⟨-, h, -⟩
      · omega
      · exact ⟨by rw [hsc.2]; exact h.2, hsc.1.trans h.1⟩
    · rw [h] at hg
      exact Bool.noConfusion hg
  · exact ⟨by decide!, by decide!⟩

/-- C4 (witness): capacity 2 after `put` of the keys 1 and 2, and a `get` of key 1. -/
theorem ArcCache.ghost_hit_shifts_capacity_witness :
    ∃ c : ArcCache Nat Nat, (2 < SIZE_MOD ∧ ArcCache.Reachable 2 3 c ∧
        (umFind c.lruPart.ghostCache 1).isSome = true ∧ 0 < c.lfuPart.mainCapacity) ∧
      ∃ c1, c.call (.get firstKey 1 0) = some c1 ∧
        c1.lfuPart.mainCapacity + 1 = c.lfuPart.mainCapacity ∧
        c1.lruPart.mainCapacity = c.lruPart.mainCapacity + 1 :=
  ⟨ArcCache.after 2 3 [.put firstKey 1 10, .put firstKey 2 20],
    ⟨size_lt 2 (by decide), ⟨_, ArcCache.after_reached (size_lt 2 (by decide)) _⟩,
      by decide!, by decide!⟩,
    (ArcCache.ghost_hit_shifts_capacity (K := Nat) (V := Nat)).1 2 3 _ (.get firstKey 1 0)
      (size_lt 2 (by decide)) ⟨_, ArcCache.after_reached (size_lt 2 (by decide)) _⟩
      (by decide!) (by decide!)⟩

/-- C5 (failing input): in the cache of capacity 2, after `put(1, 1)`, `put(2, 2)` and
`put(1, 5)` the key 1 is in the main index and in the ghost index of the recency
partition. -/
theorem ArcCache.lru_key_in_main_and_ghost :
    ∃ c : ArcCache Nat Nat, ArcCache.Reachable 2 3 c ∧
      (umFind c.lruPart.mainCache 1).isSome = true ∧
      (umFind c.lruPart.ghostCache 1).isSome = true :=
  ⟨ArcCache.after 2 3 [.put firstKey 1 1, .put firstKey 2 2, .put firstKey 1 5],
    ⟨_, ArcCache.after_reached (size_lt 2 (by decide)) _⟩, by decide!, by decide!⟩

/-- C6 (amended): with a promotion threshold of at least 3, in every reached state no key
is in the main index and in the ghost index of the frequency partition. -/
theorem ArcCache.lfu_main_ghost_disjoint (C T : Nat) (c : ArcCache K V) (hC : C < SIZE_MOD)
    (hT : 3 ≤ T) (hr : ArcCache.Reachable C T c) (k : K) :
    ¬ ((umFind c.lfuPart.mainCache k).isSome = true ∧
      (umFind c.lfuPart.ghostCache k).isSome = true) := by
  obtain ⟨calls, hrun⟩ := hr
  have hinv := ArcCache.reachedBy_inv hC hrun
  rintro ⟨h1, h2⟩
  rw [hinv.2.2.2.2.2.2 hT k h1] at h2
  exact Bool.noConfusion h2

/-- C6 (witness): capacity 6 and threshold 3 after `put` of the keys 1 to 4 and a `get`
of key 1. -/
theorem ArcCache.lfu_main_ghost_disjoint_witness :
    (6 < SIZE_MOD ∧ 3 ≤ 3 ∧ ArcCache.Reachable 6 3 (ArcCache.after 6 3
        [.put firstKey 1 10, .put firstKey 2 20, .put firstKey 3 30, .put firstKey 4 40,
          .get firstKey 1 0])) ∧
      ¬ ((umFind (ArcCache.after 6 3
          [.put firstKey 1 10, .put firstKey 2 20, .put firstKey 3 30, .put firstKey 4 40,
            .get firstKey 1 0]).lfuPart.mainCache 1).isSome = true ∧
        (umFind (ArcCache.after 6 3
          [.put firstKey 1 10, .put firstKey 2 20, .put firstKey 3 30, .put firstKey 4 40,
            .get firstKey 1 0]).lfuPart.ghostCache 1).isSome = true) :=
  ⟨⟨size_lt 6 (by decide), le_refl 3, _, ArcCache.after_reached (size_lt 6 (by decide)) _⟩,
    ArcCache.lfu_main_ghost_disjoint 6 3 _ (size_lt 6 (by decide)) (le_refl 3)
      ⟨_, ArcCache.after_reached (size_lt 6 (by decide)) _⟩ 1⟩

/-- C6 (counterexample): with capacity 6 and promotion threshold 2, after `put` of the
keys 1 to 4 and a `get` of key 1 the key 1 is in the main index and in the ghost index of
the frequency partition. -/
theorem ArcCache.lfu_main_ghost_disjoint_counterexample :
    ∃ c : ArcCache Nat Nat, ArcCache.Reachable 6 2 c ∧
      (umFind c.lfuPart.mainCache 1).isSome = true ∧
      (umFind c.lfuPart.ghostCache 1).isSome = true :=
  ⟨ArcCache.after 6 2 [.put firstKey 1 10, .put firstKey 2 20, .put firstKey 3 30,
      .put firstKey 4 40, .get firstKey 1 0],
    ⟨_, ArcCache.after_reached (size_lt 6 (by decide)) _⟩, by decide!, by decide!⟩

/-- C7 (failing input): a recency partition of capacity 1 after `put` of the keys 1, 2, 3
has the keys 2 and 3 in its main index, not only the key 3. -/
theorem ArcLruPart.putAll_keeps_two_keys :
    ((ArcLruPart.create 1 3 : ArcLruPart Nat Nat).putAll [(1, 10), (2, 20), (3, 30)]).map
      (fun s => (s.mainCapacity, s.mainCache.map Prod.fst)) = some (1, [2, 3]) := by
  decide!

/-- C10: in the state reached by the calls `calls`, `get(k, out)` for a key `k` that is
the argument of no `put` of `calls` returns `false`, leaves `out` and the cache as they
are, and the one-argument `get(k)` returns the default value. -/
theorem ArcCache.get_never_put (C T : Nat) (calls : List (ArcCall K V)) (c : ArcCache K V)
    (hC : C < SIZE_MOD) (hr : ArcCache.ReachedBy C T calls c) (order : FreqMap → Nat) (k : K)
    (out : V) (hk : k ∉ ArcCall.putKeys calls) :
    c.get order k out = some (c, false, out) ∧ c.getValue order k = some (c, default) := by
  have hinv := ArcCache.reachedBy_inv hC hr
  refine ⟨ArcCache.get_absent order c hinv k out hk, ?_⟩
  unfold ArcCache.getValue
  simp [ArcCache.get_absent order c hinv k default hk]

/-- C10 (witness): capacity 4 after `put(1, 10)` and `get(1)`, and the key 2. -/
theorem ArcCache.get_never_put_witness :
    (4 < SIZE_MOD ∧
      ArcCache.ReachedBy 4 3 [.put firstKey 1 10, .get firstKey 1 0]
        (ArcCache.after 4 3 [.put firstKey 1 10, .get firstKey 1 0]) ∧
      2 ∉ ArcCall.putKeys [ArcCall.put firstKey 1 10, ArcCall.get firstKey 1 0]) ∧
      ((ArcCache.after 4 3 [.put firstKey 1 10, .get firstKey 1 0]).get firstKey 2 7 =
          some (ArcCache.after 4 3 [.put firstKey 1 10, .get firstKey 1 0], false, 7) ∧
        (ArcCache.after 4 3 [.put firstKey 1 10, .get firstKey 1 0]).getValue firstKey 2 =
          some (ArcCache.after 4 3 [.put firstKey 1 10, .get firstKey 1 0], default)) :=
  ⟨⟨size_lt 4 (by decide), ArcCache.after_reached (size_lt 4 (by decide)) _, by decide⟩,
    ArcCache.get_never_put 4 3 _ _ (size_lt 4 (by decide))
      (ArcCache.after_reached (size_lt 4 (by decide)) _) firstKey 2 7 (by decide)⟩

theorem ArcCache.put_fresh (C T : Nat) (hC2 : 2 ≤ C) (order : FreqMap → Nat) (k : K) (v : V) :
    ∃ c1, (ArcCache.create C T : ArcCache K V).put order k v = some c1 ∧
      ArcCache.Holds C T k v c1 := by
  have hinv := ArcCache.cache_create_inv (K := K) (V := V) C T
  have hcap : (ArcCache.create C T : ArcCache K V).lruPart.mainCapacity ≠ 0 := by
    simp only [ArcCache.create, ArcLruPart.create]
    omega
  have hcap2 : (ArcCache.create C T : ArcCache K V).lfuPart.mainCapacity ≠ 0 := by
    simp only [ArcCache.create, ArcLfuPart.create]
    omega
  have hcg := ArcCache.checkGhostCache_miss order (ArcCache.create C T : ArcCache K V) k rfl rfl
  obtain ⟨c1, hput, hi1, hsc, hval, -, hlfu, hg2, hg1⟩ :=
    ArcCache.put_of_ghost order _ _ k v hcg hinv (fun _ => rfl)
  have hc1 : c1.lruPart.mainCapacity ≠ 0 := by rw [hsc.1]; exact hcap
  refine ⟨c1, hput, by simpa using hi1, hc1, by rw [hsc.2]; exact hcap2, ?_, hg2 rfl,
    hval hc1, hlfu rfl hcap hcap2⟩
  rw [hg1 (Or.inl ?_)]
  · rfl
  · simp only [ArcCache.create, ArcLruPart.create, List.length_nil]
    omega

theorem ArcCache.get_holds (C T : Nat) (order : FreqMap → Nat) (k : K) (v out : V)
    (c : ArcCache K V) (h : ArcCache.Holds C T k v c) :
    ∃ c1, c.get order k out = some (c1, true, v) ∧ ArcCache.Holds C T k v c1 := by
  obtain ⟨hinv, hcap, hcap2, hg1, hg2, ⟨y, hy, hyv⟩, hz⟩ := h
  have hcg := ArcCache.checkGhostCache_miss order c k hg1 hg2
  obtain ⟨c1, r, val, hget, hi1, hsc, hm, hg, hvals, hhit, hgl, hzl⟩ :=
    ArcCache.get_of_ghost order c c k out hcg hinv (fun _ => Or.inl hg2)
  obtain ⟨hr, hv⟩ := hhit hcap y v hy hyv
  subst hr
  subst hv
  exact ⟨c1, hget, hi1, by rw [hsc.1]; exact hcap, by rw [hsc.2]; exact hcap2,
    by rw [hg]; exact hg1, hgl hg2, ⟨y, by rw [hm]; exact hy, by rw [hvals]; exact hyv⟩,
    hzl hz⟩

theorem ArcCache.run_gets (C T : Nat) (order : FreqMap → Nat) (k : K) (v out : V) (n : Nat) :
    ∀ c : ArcCache K V, ArcCache.Holds C T k v c →
      ∃ c1, c.run (List.replicate n (.get order k out)) = some c1 ∧
        ArcCache.Holds C T k v c1 := by
  induction n with
  | zero =>
    intro c h
    exact ⟨c, rfl, h⟩
  | succ n ih =>
    intro c h
    obtain ⟨c1, hget, h1⟩ := ArcCache.get_holds C T order k v out c h
    obtain ⟨c2, hrun, h2⟩ := ih c1 h1
    refine ⟨c2, ?_, h2⟩
    simp [List.replicate, ArcCache.run, ArcCache.call, hget, hrun]

theorem ArcCache.run_put_gets (C T : Nat) (hC2 : 2 ≤ C) (order : FreqMap → Nat) (k : K)
    (v out : V) (n : Nat) :
    ∃ c : ArcCache K V, (ArcCache.create C T).run
        (.put order k v :: List.replicate n (.get order k out)) = some c ∧
      ArcCache.Holds C T k v c := by
  obtain ⟨c1, hput, h1⟩ := ArcCache.put_fresh (K := K) (V := V) C T hC2 order k v
  obtain ⟨c2, hrun, h2⟩ := ArcCache.run_gets C T order k v out n c1 h1
  refine ⟨c2, ?_, h2⟩
  simp [ArcCache.run, ArcCache.call, hput, hrun]

/-- C9: on the fresh cache of capacity at least 2 and any promotion threshold `T`, after
`put(k, v)` each of the `T` calls `get(k)` that follow returns `(true, v)`; after them
`k` is in the main index of the frequency partition with the value `v`, and `get(k)` of
the frequency partition returns `(true, v)`. -/
theorem ArcCache.promoted_after_gets (C T : Nat) (hC2 : 2 ≤ C) (order : FreqMap → Nat)
    (k : K) (v out : V) :
    (∀ j, j < T → ∃ c c1 : ArcCache K V,
      (ArcCache.create C T).run (.put order k v :: List.replicate j (.get order k out))
        = some c ∧ c.get order k out = some (c1, true, v)) ∧
    ∃ (c : ArcCache K V) (z : Nat) (l : ArcLfuPart K V),
      (ArcCache.create C T).run (.put order k v :: List.replicate T (.get order k out))
        = some c ∧
      umFind c.lfuPart.mainCache k = some (some z) ∧ hValue c.lfuPart.heap z = some v ∧
      c.lfuPart.get k out = some (l, true, v) := by
  constructor
  · intro j _
    obtain ⟨c, hrun, h⟩ := ArcCache.run_put_gets (K := K) (V := V) C T hC2 order k v out j
    obtain ⟨c1, hget, -⟩ := ArcCache.get_holds C T order k v out c h
    exact ⟨c, c1, hrun, hget⟩
  · obtain ⟨c, hrun, h⟩ := ArcCache.run_put_gets (K := K) (V := V) C T hC2 order k v out T
    obtain ⟨hinv, -, hcap2, -, -, -, ⟨z, hz, hzv⟩⟩ := h
    obtain ⟨y, val, l, hy, hval, hget, -⟩ := c.lfuPart.lfu_get_hit hinv.2.1 k out hcap2 hz
    have hy' := Option.some.inj hy
    subst hy'
    rw [hzv] at hval
    have hv := Option.some.inj hval
    subst hv
    exact ⟨c, z, l, hrun, hz, hzv, hget⟩

/-- C9 (witness): capacity 4, threshold 3, key 1 and value 10. -/
theorem ArcCache.promoted_after_gets_witness :
    2 ≤ 4 ∧
    (∀ j, j < 3 → ∃ c c1 : ArcCache Nat Nat,
      (ArcCache.create 4 3).run (.put firstKey 1 10 :: List.replicate j (.get firstKey 1 0))
        = some c ∧ c.get firstKey 1 0 = some (c1, true, 10)) ∧
    ∃ (c : ArcCache Nat Nat) (z : Nat) (l : ArcLfuPart Nat Nat),
      (ArcCache.create 4 3).run (.put firstKey 1 10 :: List.replicate 3 (.get firstKey 1 0))
        = some c ∧
      umFind c.lfuPart.mainCache 1 = some (some z) ∧ hValue c.lfuPart.heap z = some 10 ∧
      c.lfuPart.get 1 0 = some (l, true, 10) :=
  ⟨by decide, ArcCache.promoted_after_gets 4 3 (by decide) firstKey 1 10 0⟩

end Claims

/-! ## The eviction scenario of the frequency partition -/

section LfuScenario

variable {K V : Type} [DecidableEq K] [Inhabited K] [Inhabited V]

theorem length_umSet_of_none {A B : Type} [DecidableEq A] (m : List (A × B)) (k : A) (v : B)
    (h : umFind m k = none) : (umSet m k v).length = m.length + 1 := by
  induction m with
  | nil => rfl
  | cons x rest ih =>
    obtain ⟨a, b⟩ := x
    unfold umFind at h
    unfold umSet
    by_cases hak : a = k
    · simp [hak] at h
    · simp only [hak, if_false] at h ⊢
      simp [ih h]

/-- Source `get` of the frequency partition on a hit, as an equation. -/
theorem ArcLfuPart.get_eq (s : ArcLfuPart K V) (k : K) (out : V) (hcap : s.mainCapacity ≠ 0)
    {y c : Nat} {val : V} (hf : umFind s.mainCache k = some (some y))
    (hyl : y < s.heap.length) (hc : hCount s.heap y = some c)
    (hval : hValue s.heap y = some val) :
    s.get k out = some ({ s with
      heap := incCount s.heap y,
      freqListMap := (freqBump s.freqListMap s.minFreq c ((c + 1) % SIZE_MOD) (some y)).1,
      minFreq := (freqBump s.freqListMap s.minFreq c ((c + 1) % SIZE_MOD) (some y)).2 },
      true, val) := by
  have hupd := ArcLfuPart.updateNodeFrequency_eq s hyl hc
  rcases getElem?_of_lt s.heap hyl with ⟨n, hn⟩
  have hnv : n.value = val := by
    have := (getElem?_fields hn).2.2.2.1
    rw [hval] at this
    exact (Option.some.inj this).symm
  unfold ArcLfuPart.get
  simp only [hcap, if_false, hf, Option.bind_eq_bind, readNode_some, hn, Option.some_bind,
    hupd, Option.pure_def, hnv]

/-- The empty frequency partition is a state of the scenario. -/
theorem ArcLfuPart.scene_create (c T : Nat) :
    ArcLfuPart.Scene c [] [] (ArcLfuPart.create c T : ArcLfuPart K V) := by
  refine ⟨ArcLfuPart.lfu_create_inv c T, rfl, rfl, rfl, rfl, ?_, ?_, ?_, ?_⟩
  · intro k
    simp [ArcLfuPart.create, umFind]
  · rintro ⟨k, hk, -⟩
    simp at hk
  · intro k hk
    simp at hk
  · intro k hk
    simp at hk

/-- One `put` of a new key while the partition is not full. -/
theorem ArcLfuPart.scene_put (order : FreqMap → Nat) (c : Nat) (ks : List K)
    (s : ArcLfuPart K V) (k : K) (v : V) (h : ArcLfuPart.Scene c ks [] s) (hk : k ∉ ks)
    (hlen : ks.length < c) :
    ∃ s1, s.put order k v = some (s1, true) ∧ ArcLfuPart.Scene c (ks ++ [k]) [] s1 := by
  obtain ⟨hinv, hc1, hc2, hg, hml, hiff, hmf, hb, -⟩ := h
  have hmk : umFind s.mainCache k = none := by
    cases hf : umFind s.mainCache k with
    | none => rfl
    | some p => exact absurd ((hiff k).mp (by simp [hf])) hk
  have hcap : s.mainCapacity ≠ 0 := by omega
  have h0 : (if s.mainCache.length ≥ s.mainCapacity then s.evictLeastFrequent order
      else pure s) = some s := by
    have : ¬ s.mainCache.length ≥ s.mainCapacity := by omega
    simp only [this, if_false]
    rfl
  have hadd := ArcLfuPart.addNewNode_eq order s s k v h0
  refine ⟨s.pushNew k v, ?_, ArcLfuPart.pushNew_inv s hinv k v hmk, hc1, hc2, hg, ?_, ?_,
    fun _ => rfl, ?_, ?_⟩
  · unfold ArcLfuPart.put
    simp only [hcap, if_false, hmk, Option.bind_eq_bind, hadd, Option.some_bind,
      Option.pure_def]
  · simp only [ArcLfuPart.pushNew, List.length_append, List.length_singleton]
    rw [length_umSet_of_none _ _ _ hmk, hml]
  · intro k1
    simp only [ArcLfuPart.pushNew, umFind_umSet, List.mem_append, List.mem_singleton]
    by_cases e : k1 = k
    · simp [e]
    · simp only [e, if_false, or_false]
      exact hiff k1
  · intro k1 hk1 _
    simp only [ArcLfuPart.pushNew, umFind_umSet, umFind_freqPush, if_true]
    by_cases e : k1 = k
    · exact ⟨s.heap.length, _, by simp [e], rfl, by simp⟩
    · have hk1' : k1 ∈ ks := by
        rcases List.mem_append.mp hk1 with h1 | h1
        · exact h1
        · exact absurd (List.mem_singleton.mp h1) e
      obtain ⟨i, l, hi, hl, hil⟩ := hb k1 hk1' (by simp)
      refine ⟨i, _, by simp [e, hi], rfl, ?_⟩
      rw [hl]
      simp [hil]
  · intro k1 hk1
    simp at hk1

/-- The `put` calls of the scenario. -/
theorem ArcLfuPart.scene_putAll (order : FreqMap → Nat) (c : Nat) (kvs : List (K × V)) :
    ∀ (ks : List K) (s : ArcLfuPart K V), ArcLfuPart.Scene c ks [] s →
      ks.length + kvs.length ≤ c → (ks ++ kvs.map Prod.fst).Nodup →
      ∃ s1, s.putAll order kvs = some s1 ∧
        ArcLfuPart.Scene c (ks ++ kvs.map Prod.fst) [] s1 := by
  induction kvs with
  | nil =>
    intro ks s h _ _
    exact ⟨s, rfl, by simpa using h⟩
  | cons kv rest ih =>
    intro ks s h hlen hnd
    obtain ⟨k, v⟩ := kv
    simp only [List.map_cons, List.length_cons] at hlen hnd
    have hk : k ∉ ks := by
      intro hmem
      have := (List.nodup_append.mp hnd).2.2
      exact this hmem (List.mem_cons_self _ _)
    obtain ⟨s1, hput, h1⟩ := ArcLfuPart.scene_put order c ks s k v h hk (by omega)
    have hnd' : ((ks ++ [k]) ++ rest.map Prod.fst).Nodup := by
      simpa [List.append_assoc] using hnd
    obtain ⟨s2, hrun, h2⟩ := ih (ks ++ [k]) s1 h1
      (by simp only [List.length_append, List.length_singleton]; omega) hnd'
    refine ⟨s2, ?_, by simpa [List.append_assoc] using h2⟩
    simp [ArcLfuPart.putAll, hput, hrun]

theorem two_mod : (1 + 1) % SIZE_MOD = 2 := by decide

/-- One `get` of a key that was not gotten yet, while another key stays ungotten. -/
theorem ArcLfuPart.scene_get (c : Nat) (ks G : List K) (s : ArcLfuPart K V) (k x : K)
    (out : V) (h : ArcLfuPart.Scene c ks G s) (hc0 : c ≠ 0) (hk : k ∈ ks) (hkG : k ∉ G)
    (hx : x ∈ ks) (hxG : x ∉ G) (hxk : x ≠ k) :
    ∃ s1 val, s.get k out = some (s1, true, val) ∧ ArcLfuPart.Scene c ks (k :: G) s1 := by
  obtain ⟨hinv, hc1, hc2, hg, hml, hiff, hmf, hb, hG⟩ := h
  obtain ⟨i, l, hi, hl, hil⟩ := hb k hk hkG
  obtain ⟨ix, lx, hix, hlx, hilx⟩ := hb x hx hxG
  rw [hl] at hlx
  have e := Option.some.inj hlx
  subst e
  obtain ⟨-, hall⟩ := hinv.2.2.2.2 1 l hl
  obtain ⟨i1, k1, e1, -, hil1, hcnt, -, -⟩ := hall _ hil
  have e1' := Option.some.inj e1
  subst e1'
  obtain ⟨i2, hi2, -, hi22, hkey⟩ := hinv.2.2.2.1 k _ (umFind_mem hi)
  have e2 := Option.some.inj hi2
  subst e2
  have hkeyOf : ∀ k1 j, umFind s.mainCache k1 = some (some j) → hKey s.heap j = some k1 := by
    intro k1 j hj
    obtain ⟨j2, hj2, -, -, hkj⟩ := hinv.2.2.2.1 k1 _ (umFind_mem hj)
    rw [Option.some.inj hj2]
    exact hkj
  have hixi : ix ≠ i := by
    intro e
    rw [e] at hix
    have := hkeyOf x i hix
    rw [hkey] at this
    exact hxk (Option.some.inj this).symm
  obtain ⟨val, hval⟩ := hValue_of_lt s.heap hil1
  have hcap : s.mainCapacity ≠ 0 := by rw [hc1]; exact hc0
  have hget := ArcLfuPart.get_eq s k out hcap hi hil1 hcnt hval
  rw [two_mod] at hget
  have hinv1 := ArcLfuPart.inv_bump s hinv s.heap ⟨rfl, fun _ => ⟨rfl, rfl⟩⟩
      (fun _ => rfl) (fun _ => rfl) hi22 hil1 hcnt hkey hi
  rw [two_mod] at hinv1
  have hfil : some ix ∈ l.filter (fun p => p ≠ some i) := by
    rw [List.mem_filter]
    refine ⟨hilx, ?_⟩
    simp only [ne_eq, decide_not, Bool.not_eq_eq_eq_not, Bool.not_true, decide_eq_false_iff_not]
    intro e
    exact hixi (Option.some.inj e)
  have hne : (l.filter (fun p => p ≠ some i)).isEmpty = false := by
    cases hl2 : l.filter (fun p => p ≠ some i) with
    | nil => rw [hl2] at hfil; simp at hfil
    | cons a r => rfl
  have hbucket : umFind (freqBump s.freqListMap s.minFreq 1 2 (some i)).1 1 =
      some (l.filter (fun p => p ≠ some i)) := by
    rw [umFind_freqBump _ _ _ _ _ (by decide)]
    simp only [show ¬ (1 = 2) by decide, if_false, if_true, hl, Option.getD_some, hne,
      Bool.false_eq_true]
  have hmin : (freqBump s.freqListMap s.minFreq 1 2 (some i)).2 = 1 := by
    unfold freqBump
    simp only [umFind_fmTouch, if_true, hl, Option.getD_some, hne, Bool.false_eq_true, if_false]
    exact hmf ⟨x, hx, hxG⟩
  refine ⟨_, val, hget, hinv1, hc1, hc2, hg, hml, hiff, fun _ => hmin, ?_, ?_⟩
  · intro k1 hk1 hk1G
    have hk1k : k1 ≠ k := fun e => hk1G (by rw [e]; exact List.mem_cons_self _ _)
    have hk1G' : k1 ∉ G := fun e => hk1G (List.mem_cons_of_mem _ e)
    obtain ⟨j, l1, hj, hl1, hjl⟩ := hb k1 hk1 hk1G'
    rw [hl] at hl1
    have e := Option.some.inj hl1
    subst e
    refine ⟨j, _, hj, hbucket, ?_⟩
    rw [List.mem_filter]
    refine ⟨hjl, ?_⟩
    simp only [ne_eq, decide_not, Bool.not_eq_eq_eq_not, Bool.not_true,
      decide_eq_false_iff_not]
    intro e
    have e' := Option.some.inj e
    subst e'
    have := hkeyOf k1 j hj
    rw [hkey] at this
    exact hk1k (Option.some.inj this).symm
  · intro k1 hk1
    rcases List.mem_cons.mp hk1 with e | hk1'
    · subst e
      refine ⟨i, hi, ?_⟩
      show hCount (incCount s.heap i) i = some 2
      rw [hCount_incCount, hcnt]
      simp [two_mod]
    · obtain ⟨j, hj, hjc⟩ := hG k1 hk1'
      refine ⟨j, hj, ?_⟩
      show hCount (incCount s.heap i) j = some 2
      rw [hCount_incCount]
      have : j ≠ i := by
        intro e
        rw [e, hcnt] at hjc
        exact absurd (Option.some.inj hjc) (by decide)
      simp [this, hjc]

/-- The `get` calls of the scenario. -/
theorem ArcLfuPart.scene_getAll (c : Nat) (ks : List K) (x : K) (hc0 : c ≠ 0) (hx : x ∈ ks)
    (gs : List (K × V)) :
    ∀ (G : List K) (s : ArcLfuPart K V), ArcLfuPart.Scene c ks G s → x ∉ G →
      (∀ k, k ∈ gs.map Prod.fst → k ∈ ks ∧ k ≠ x ∧ k ∉ G) → (gs.map Prod.fst).Nodup →
      ∃ s1 G1, s.getAll gs = some s1 ∧ ArcLfuPart.Scene c ks G1 s1 ∧
        ∀ k, k ∈ G1 ↔ k ∈ G ∨ k ∈ gs.map Prod.fst := by
  induction gs with
  | nil =>
    intro G s h _ _ _
    exact ⟨s, G, rfl, h, by simp⟩
  | cons g rest ih =>
    intro G s h hxG hall hnd
    obtain ⟨k, out⟩ := g
    simp only [List.map_cons] at hall hnd
    obtain ⟨hk1, hk2, hk3⟩ := hall k (List.mem_cons_self _ _)
    obtain ⟨s1, val, hget, h1⟩ := ArcLfuPart.scene_get c ks G s k x out h hc0 hk1 hk3 hx hxG
      (fun e => hk2 e.symm)
    have hnd1 := List.nodup_cons.mp hnd
    obtain ⟨s2, G2, hrun, h2, hG2⟩ := ih (k :: G) s1 h1
      (by
        intro e
        rcases List.mem_cons.mp e with e1 | e1
        · exact hk2 e1.symm
        · exact hxG e1)
      (by
        intro k1 hk1m
        obtain ⟨a, b, d⟩ := hall k1 (List.mem_cons_of_mem _ hk1m)
        refine ⟨a, b, ?_⟩
        intro e
        rcases List.mem_cons.mp e with e1 | e1
        · rw [e1] at hk1m
          exact hnd1.1 hk1m
        · exact d e1)
      hnd1.2
    refine ⟨s2, G2, ?_, h2, ?_⟩
    · simp [ArcLfuPart.getAll, hget, hrun]
    · intro k1
      rw [hG2 k1]
      simp only [List.map_cons, List.mem_cons]
      tauto

/-- C8: into the empty frequency partition of capacity `c` the `c` distinct keys of
`kvs` are put (so `c ≥ 1` when `x` is one of them), then every key except `x` is gotten
once; the `put` of a further new key then takes `x`, and only `x`, out of the main index
and enters it in the ghost index. -/
theorem ArcLfuPart.evicts_never_gotten (c T : Nat) (order order1 : FreqMap → Nat)
    (kvs gs : List (K × V)) (x k1 : K) (v1 : V) (hlen : kvs.length = c)
    (hnd : (kvs.map Prod.fst).Nodup) (hx : x ∈ kvs.map Prod.fst)
    (hgnd : (gs.map Prod.fst).Nodup)
    (hgs : ∀ k, k ∈ gs.map Prod.fst ↔ k ∈ kvs.map Prod.fst ∧ k ≠ x)
    (hk1 : k1 ∉ kvs.map Prod.fst) :
    ∃ s0 s1 s2 : ArcLfuPart K V,
      (ArcLfuPart.create c T).putAll order kvs = some s0 ∧ s0.getAll gs = some s1 ∧
      s1.put order1 k1 v1 = some (s2, true) ∧
      (∀ k, k ∈ kvs.map Prod.fst → (umFind s1.mainCache k).isSome = true) ∧
      umFind s1.ghostCache x = none ∧
      umFind s2.mainCache x = none ∧ (umFind s2.ghostCache x).isSome = true ∧
      (∀ k, k ∈ kvs.map Prod.fst → k ≠ x → (umFind s2.mainCache k).isSome = true) ∧
      (umFind s2.mainCache k1).isSome = true := by
  have hc0 : c ≠ 0 := by
    intro e
    rw [e] at hlen
    rw [List.length_eq_zero.mp hlen] at hx
    simp at hx
  obtain ⟨s0, hputs, h0⟩ := ArcLfuPart.scene_putAll (K := K) (V := V) order c kvs []
    (ArcLfuPart.create c T) (ArcLfuPart.scene_create c T) (by simp [hlen]) (by simpa using hnd)
  simp only [List.nil_append] at h0
  obtain ⟨s1, G, hgets, h1, hG⟩ := ArcLfuPart.scene_getAll c (kvs.map Prod.fst) x hc0 hx gs []
    s0 h0 (by simp) (fun k hk => ⟨((hgs k).mp hk).1, ((hgs k).mp hk).2, by simp⟩) hgnd
  have hG' : ∀ k, k ∈ G ↔ k ∈ kvs.map Prod.fst ∧ k ≠ x := by
    intro k
    rw [hG k, ← hgs k]
    simp
  obtain ⟨hinv, hc1, hc2, hg, hml, hiff, hmf, hb, hGc⟩ := h1
  have hxG : x ∉ G := fun e => ((hG' x).mp e).2 rfl
  have hmk : umFind s1.mainCache k1 = none := by
    cases hf : umFind s1.mainCache k1 with
    | none => rfl
    | some p => exact absurd ((hiff k1).mp (by simp [hf])) hk1
  have hcap : s1.mainCapacity ≠ 0 := by rw [hc1]; exact hc0
  obtain ⟨e0, hev, hi0, -, -, -, -, hcase⟩ := ArcLfuPart.evictLeastFrequent_inv order1 s1 hinv
  have hfull : s1.mainCache.length ≥ s1.mainCapacity := by
    rw [hml, hc1, List.length_map, hlen]
  have h00 : (if s1.mainCache.length ≥ s1.mainCapacity then s1.evictLeastFrequent order1
      else pure s1) = some e0 := by
    simp only [hfull, if_true]
    exact hev
  have hadd := ArcLfuPart.addNewNode_eq order1 s1 e0 k1 v1 h00
  have hput : s1.put order1 k1 v1 = some (e0.pushNew k1 v1, true) := by
    unfold ArcLfuPart.put
    simp only [hcap, if_false, hmk, Option.bind_eq_bind, hadd, Option.some_bind,
      Option.pure_def]
  obtain ⟨ix, lx, hix, hlx, hilx⟩ := hb x hx hxG
  have hmin : s1.minFreq = 1 := hmf ⟨x, hx, hxG⟩
  rw [hmin, hlx] at hcase
  simp only [Option.getD_some] at hcase
  rcases hcase with ⟨hnil, -, -⟩ | ⟨y, ky, rest, hcons, hyk, hym, hmain, hghost, -⟩
  · rw [hnil] at hilx
    simp at hilx
  · have hky : ky = x := by
      by_contra hne
      have hkyks : ky ∈ kvs.map Prod.fst := (hiff ky).mp (by simp [hym])
      obtain ⟨j, hj, hjc⟩ := hGc ky ((hG' ky).mpr ⟨hkyks, hne⟩)
      rw [hym] at hj
      have e := Option.some.inj (Option.some.inj hj)
      subst e
      obtain ⟨-, hall⟩ := hinv.2.2.2.2 1 lx hlx
      obtain ⟨i1, k2, e1, -, -, hcnt, -, -⟩ := hall (some y) (by rw [hcons]; simp)
      have e1' := Option.some.inj e1
      subst e1'
      rw [hcnt] at hjc
      exact absurd (Option.some.inj hjc) (by decide)
    subst hky
    have hxk1 : ky ≠ k1 := fun e => hk1 (e ▸ hx)
    refine ⟨s0, s1, e0.pushNew k1 v1, hputs, hgets, hput, fun k hk => (hiff k).mpr hk,
      by rw [hg]; rfl, ?_, ?_, ?_, ?_⟩
    · simp only [ArcLfuPart.pushNew, umFind_umSet, hxk1, if_false, hmain, umFind_umErase,
        if_true]
    · simp only [ArcLfuPart.pushNew, hghost, Option.isSome_some]
    · intro k hk hkx
      have hkk1 : k ≠ k1 := fun e => hk1 (e ▸ hk)
      simp only [ArcLfuPart.pushNew, umFind_umSet, hkk1, if_false, hmain, umFind_umErase, hkx]
      exact (hiff k).mpr hk
    · simp [ArcLfuPart.pushNew, umFind_umSet]

theorem scene_gets_example (k : Nat) :
    k ∈ [((3 : Nat), (0 : Nat)), (1, 0)].map Prod.fst ↔
      k ∈ [((1 : Nat), (10 : Nat)), (2, 20), (3, 30)].map Prod.fst ∧ k ≠ 2 := by
  simp only [List.map_cons, List.map_nil, List.mem_cons, List.mem_singleton, List.not_mem_nil,
    or_false]
  omega

/-- C8 (witness): capacity 3, keys 1, 2, 3, the gets of 3 and 1, and the new key 4. -/
theorem ArcLfuPart.evicts_never_gotten_witness :
    ([((1 : Nat), (10 : Nat)), (2, 20), (3, 30)].length = 3 ∧
      ([((1 : Nat), (10 : Nat)), (2, 20), (3, 30)].map Prod.fst).Nodup ∧
      2 ∈ [((1 : Nat), (10 : Nat)), (2, 20), (3, 30)].map Prod.fst ∧
      ([((3 : Nat), (0 : Nat)), (1, 0)].map Prod.fst).Nodup ∧
      (∀ k, k ∈ [((3 : Nat), (0 : Nat)), (1, 0)].map Prod.fst ↔
        k ∈ [((1 : Nat), (10 : Nat)), (2, 20), (3, 30)].map Prod.fst ∧ k ≠ 2) ∧
      4 ∉ [((1 : Nat), (10 : Nat)), (2, 20), (3, 30)].map Prod.fst) ∧
    ∃ s0 s1 s2 : ArcLfuPart Nat Nat,
      (ArcLfuPart.create 3 3).putAll firstKey [(1, 10), (2, 20), (3, 30)] = some s0 ∧
      s0.getAll [(3, 0), (1, 0)] = some s1 ∧
      s1.put firstKey 4 40 = some (s2, true) ∧
      (∀ k, k ∈ [((1 : Nat), (10 : Nat)), (2, 20), (3, 30)].map Prod.fst →
        (umFind s1.mainCache k).isSome = true) ∧
      umFind s1.ghostCache 2 = none ∧
      umFind s2.mainCache 2 = none ∧ (umFind s2.ghostCache 2).isSome = true ∧
      (∀ k, k ∈ [((1 : Nat), (10 : Nat)), (2, 20), (3, 30)].map Prod.fst → k ≠ 2 →
        (umFind s2.mainCache k).isSome = true) ∧
      (umFind s2.mainCache 4).isSome = true :=
  ⟨⟨rfl, by decide, by decide, by decide, scene_gets_example, by decide⟩,
    ArcLfuPart.evicts_never_gotten 3 3 firstKey firstKey [(1, 10), (2, 20), (3, 30)]
      [(3, 0), (1, 0)] 2 4 40 rfl (by decide) (by decide) (by decide) scene_gets_example
      (by decide)⟩

end LfuScenario

/-! ## What a call does to each partition -/

section GhostCases

variable {K V : Type} [DecidableEq K]

/-- Source `checkGhost` of the frequency partition returns `false` only on a miss. -/
theorem ArcLfuPart.lfu_checkGhost_false (s l : ArcLfuPart K V) (k : K)
    (h : s.checkGhost k = some (l, false)) : l = s ∧ umFind s.ghostCache k = none := by
  unfold ArcLfuPart.checkGhost at h
  cases hf : umFind s.ghostCache k with
  | none =>
    simp only [hf] at h
    exact ⟨((Prod.mk.inj (Option.some.inj h)).1).symm, rfl⟩
  | some p =>
    simp only [hf, Option.bind_eq_bind, Option.pure_def] at h
    cases hr : s.removeGhostNode p with
    | none => simp [hr] at h
    | some s1 => simp [hr] at h

/-- Source `checkGhost` of the frequency partition returns `true` only on a hit. -/
theorem ArcLfuPart.lfu_checkGhost_true (s l : ArcLfuPart K V) (k : K)
    (h : s.checkGhost k = some (l, true)) : (umFind s.ghostCache k).isSome = true := by
  cases hf : umFind s.ghostCache k with
  | none =>
    rw [ArcLfuPart.lfu_checkGhost_miss s k hf] at h
    simp at h
  | some p => rfl

/-- Source `checkGhost` of the recency partition returns `true` only on a hit. -/
theorem ArcLruPart.checkGhost_true (s l : ArcLruPart K V) (k : K)
    (h : s.checkGhost k = some (l, true)) : (umFind s.ghostCache k).isSome = true := by
  cases hf : umFind s.ghostCache k with
  | none =>
    rw [ArcLruPart.checkGhost_miss s k hf] at h
    simp at h
  | some p => rfl

/-- Source `checkGhostCache` on a key that is not in the ghost index of the recency
partition: what it may have done to each partition. -/
theorem ArcCache.checkGhostCache_of_lru_miss (order : FreqMap → Nat) (c c0 : ArcCache K V)
    {b : Bool} (k : K) (hg : umFind c.lruPart.ghostCache k = none)
    (hcg : c.checkGhostCache order k = some (c0, b)) :
    (c0.lruPart = c.lruPart ∨ ∃ ok, c.lruPart.decreaseCapacity = some (c0.lruPart, ok)) ∧
      ((c0.lfuPart = c.lfuPart ∧ umFind c.lfuPart.ghostCache k = none ∧
          c0.lruPart = c.lruPart ∧ b = false) ∨
        ∃ l, c.lfuPart.checkGhost k = some (l, true) ∧ b = true ∧
          (c0.lfuPart = l ∨ c0.lfuPart = l.increaseCapacity)) := by
  unfold ArcCache.checkGhostCache at hcg
  simp only [ArcLruPart.checkGhost_miss _ k hg, Option.bind_eq_bind, Option.some_bind] at hcg
  cases h2 : c.lfuPart.checkGhost k with
  | none => simp [h2] at hcg
  | some r =>
    obtain ⟨l, inLfu⟩ := r
    cases inLfu with
    | false =>
      obtain ⟨e, hn⟩ := ArcLfuPart.lfu_checkGhost_false _ _ _ h2
      simp [h2] at hcg
      obtain ⟨e1, e2⟩ := hcg
      subst e1
      subst e
      exact ⟨Or.inl rfl, Or.inl ⟨rfl, hn, rfl, e2⟩⟩
    | true =>
      cases h3 : c.lruPart.decreaseCapacity with
      | none => simp [h2, h3] at hcg
      | some r3 =>
        obtain ⟨lru2, ok⟩ := r3
        cases ok with
        | false =>
          simp [h2, h3] at hcg
          obtain ⟨e1, e2⟩ := hcg
          subst e1
          exact ⟨Or.inr ⟨false, rfl⟩, Or.inr ⟨l, rfl, e2, Or.inl rfl⟩⟩
        | true =>
          simp [h2, h3] at hcg
          obtain ⟨e1, e2⟩ := hcg
          subst e1
          exact ⟨Or.inr ⟨true, rfl⟩, Or.inr ⟨l, rfl, e2, Or.inr rfl⟩⟩

/-- The rest of source `put` after `checkGhostCache` returned `(c0, b)`: what it did to
each partition. -/
theorem ArcCache.put_steps (order : FreqMap → Nat) (c c0 c1 : ArcCache K V) {b : Bool}
    (k : K) (v : V) (hcg : c.checkGhostCache order k = some (c0, b))
    (hput : c.put order k v = some c1) :
    (∃ ok, c0.lruPart.put k v = some (c1.lruPart, ok)) ∧
      (b = true → c1.lfuPart = c0.lfuPart) ∧ c0.lfuPart.MainStep order k c1.lfuPart := by
  unfold ArcCache.put at hput
  simp only [hcg, Option.bind_eq_bind, Option.some_bind] at hput
  cases hp : c0.lruPart.put k v with
  | none => cases b <;> simp [hp] at hput
  | some r =>
    obtain ⟨l1, ok⟩ := r
    cases b with
    | true =>
      simp [hp] at hput
      subst hput
      exact ⟨⟨ok, rfl⟩, fun _ => rfl, Or.inl rfl⟩
    | false =>
      cases ok with
      | false =>
        simp [hp] at hput
        subst hput
        exact ⟨⟨false, rfl⟩, fun h => Bool.noConfusion h, Or.inl rfl⟩
      | true =>
        cases hq : c0.lfuPart.put order k v with
        | none => simp [hp, hq] at hput
        | some r2 =>
          obtain ⟨l2, ok2⟩ := r2
          simp [hp, hq] at hput
          subst hput
          exact ⟨⟨true, rfl⟩, fun h => Bool.noConfusion h, Or.inr (Or.inl ⟨v, ok2, hq⟩)⟩

/-- The rest of source `get` after `checkGhostCache` returned `(c0, b)`: what it did to
the frequency partition. -/
theorem ArcCache.get_steps (order : FreqMap → Nat) (c c0 c1 : ArcCache K V) {b r : Bool}
    (k : K) (out val : V) (hcg : c.checkGhostCache order k = some (c0, b))
    (hget : c.get order k out = some (c1, r, val)) :
    c0.lfuPart.MainStep order k c1.lfuPart := by
  unfold ArcCache.get at hget
  simp only [hcg, Option.bind_eq_bind, Option.some_bind] at hget
  cases hp : c0.lruPart.get k out false with
  | none => simp [hp] at hget
  | some r1 =>
    obtain ⟨l1, found, value1, st⟩ := r1
    cases found with
    | true =>
      cases st with
      | true =>
        cases hq : c0.lfuPart.put order k value1 with
        | none => simp [hp, hq] at hget
        | some r2 =>
          obtain ⟨l2, ok2⟩ := r2
          simp [hp, hq] at hget
          obtain ⟨e, -⟩ := hget
          subst e
          exact Or.inr (Or.inl ⟨value1, ok2, hq⟩)
      | false =>
        simp [hp] at hget
        obtain ⟨e, -⟩ := hget
        subst e
        exact Or.inl rfl
    | false =>
      cases hq : c0.lfuPart.get k value1 with
      | none => simp [hp, hq] at hget
      | some r2 =>
        obtain ⟨l2, r3, v3⟩ := r2
        simp [hp, hq] at hget
        obtain ⟨e, -⟩ := hget
        subst e
        exact Or.inr (Or.inr ⟨value1, r3, v3, hq⟩)

/-- What `checkGhostCache` does to the frequency partition adds nothing to its main
index. -/
theorem ArcLfuPart.ghostStep_main (order : FreqMap → Nat) (k : K) (s s1 : ArcLfuPart K V)
    (hinv : s.Inv) (h : s.GhostStep order k s1) : ∀ x ∈ s1.mainCache, x ∈ s.mainCache := by
  rcases h with h | ⟨ok, h⟩ | ⟨l, h, hl⟩
  · rw [h]
    exact fun _ hx => hx
  · by_cases hcap : s.mainCapacity = 0
    · rw [ArcLfuPart.lfu_decreaseCapacity_zero order s hcap] at h
      rw [← (Prod.mk.inj (Option.some.inj h)).1]
      exact fun _ hx => hx
    · obtain ⟨l, hdec, -, -, -, -, -, -, -, hsub⟩ :=
        s.lfu_decreaseCapacity_inv order hinv hcap
      rw [hdec] at h
      rw [← (Prod.mk.inj (Option.some.inj h)).1]
      exact hsub
  · obtain ⟨p, hp⟩ := Option.isSome_iff_exists.mp (ArcLfuPart.lfu_checkGhost_true s l k h)
    obtain ⟨l1, hcg, -, -, -, -, -, hmain, -⟩ := s.lfu_checkGhost_hit hinv k hp
    rw [hcg] at h
    have e := (Prod.mk.inj (Option.some.inj h)).1
    subst e
    rcases hl with hl | ⟨hl, -⟩
    · rw [hl, hmain]
      exact fun _ hx => hx
    · rw [hl]
      show ∀ x ∈ l1.mainCache, x ∈ s.mainCache
      rw [hmain]
      exact fun _ hx => hx

/-- A cache built with a capacity below 2 never changes: both partitions have capacity
0. -/
theorem ArcCache.call_small [Inhabited K] [Inhabited V] (C T : Nat) (hC : C < 2)
    (a : ArcCall K V) :
    (ArcCache.create C T : ArcCache K V).call a = some (ArcCache.create C T) := by
  have h0 : C / 2 = 0 := by omega
  have hcg := ArcCache.checkGhostCache_miss a.order (ArcCache.create C T : ArcCache K V) a.key
    rfl rfl
  have hc1 : (ArcCache.create C T : ArcCache K V).lruPart.mainCapacity = 0 := h0
  have hc2 : (ArcCache.create C T : ArcCache K V).lfuPart.mainCapacity = 0 := h0
  cases a with
  | put order k v =>
    have hput := ArcLruPart.put_zero (ArcCache.create C T : ArcCache K V).lruPart k v hc1
    simp only [ArcCall.order, ArcCall.key] at hcg
    unfold ArcCache.call ArcCache.put
    simp [hcg, hput]
  | get order k out =>
    have hget := ArcLruPart.get_miss (ArcCache.create C T : ArcCache K V).lruPart k out false
      (Or.inl hc1)
    have hget2 := ArcLfuPart.lfu_get_miss (ArcCache.create C T : ArcCache K V).lfuPart k out
      (Or.inl hc2)
    simp only [ArcCall.order, ArcCall.key] at hcg
    unfold ArcCache.call ArcCache.get
    simp [hcg, hget, hget2]

theorem ArcCache.run_small [Inhabited K] [Inhabited V] (C T : Nat) (hC : C < 2)
    (calls : List (ArcCall K V)) :
    (ArcCache.create C T : ArcCache K V).run calls = some (ArcCache.create C T) := by
  induction calls with
  | nil => rfl
  | cons a rest ih =>
    simp [ArcCache.run, ArcCache.call_small C T hC a, ih]

end GhostCases

/-! ## Buckets and size of the frequency partition -/

section TidyLemmas

variable {K V : Type} [DecidableEq K] [Inhabited K] [Inhabited V]

theorem firstKey_admissible : Admissible firstKey := by
  intro m hm
  cases m with
  | nil => exact absurd rfl hm
  | cons x rest =>
    obtain ⟨f, l⟩ := x
    simp [firstKey, umFind]

theorem umFind_head {A B : Type} [DecidableEq A] {m : List (A × B)} (h : m ≠ []) :
    ∃ k v, umFind m k = some v := by
  cases m with
  | nil => exact absurd rfl h
  | cons x rest =>
    obtain ⟨a, b⟩ := x
    exact ⟨a, b, by simp [umFind]⟩

theorem ne_nil_of_umFind {A B : Type} [DecidableEq A] {m : List (A × B)} {k : A} {v : B}
    (h : umFind m k = some v) : m ≠ [] := by
  intro e
  rw [e] at h
  simp [umFind] at h

theorem length_umErase_le {A B : Type} [DecidableEq A] (m : List (A × B)) (k : A) :
    (umErase m k).length ≤ m.length := by
  induction m with
  | nil => simp [umErase]
  | cons x rest ih =>
    obtain ⟨a, b⟩ := x
    by_cases h : a = k
    · simp only [umErase, h, if_true, List.length_cons]
      omega
    · simp only [umErase, h, if_false, List.length_cons]
      omega

theorem length_umErase_lt {A B : Type} [DecidableEq A] {m : List (A × B)} {k : A} {v : B}
    (hf : umFind m k = some v) : (umErase m k).length < m.length := by
  induction m with
  | nil => simp [umFind] at hf
  | cons x rest ih =>
    obtain ⟨a, b⟩ := x
    by_cases h : a = k
    · simp only [umErase, h, if_true, List.length_cons]
      have := length_umErase_le rest k
      omega
    · simp only [umFind, h, if_false] at hf
      simp only [umErase, h, if_false, List.length_cons]
      have := ih hf
      omega

theorem freqBump_snd (fm : FreqMap) (mf c nw : Nat) (node : NodePtr) :
    (freqBump fm mf c nw node).2 =
      if (((umFind fm c).getD []).filter (fun p => p ≠ node)).isEmpty = true then
        (if mf = c then nw else mf) else mf := by
  unfold freqBump
  simp only [umFind_fmTouch, if_true, Option.getD_some]

/-- The bucket bookkeeping of `updateNodeFrequency` keeps the buckets covering the main
index. -/
theorem buckets_bump {main : List (K × NodePtr)} {fm : FreqMap} {mf : Nat}
    (hb : Buckets main fm mf) (y c nw : Nat) (hne : nw ≠ c) :
    Buckets main (freqBump fm mf c nw (some y)).1 (freqBump fm mf c nw (some y)).2 := by
  obtain ⟨hfull, hnoe, hmin⟩ := hb
  have hfind := umFind_freqBump fm mf c nw (some y) hne
  have hsnd := freqBump_snd fm mf c nw (some y)
  have hcn : ¬ c = nw := fun e => hne e.symm
  obtain ⟨L, hL⟩ : ∃ L, L = ((umFind fm c).getD []).filter (fun p => p ≠ some y) := ⟨_, rfl⟩
  rw [← hL] at hsnd
  simp only [← hL] at hfind
  have hLmem : ∀ p, p ∈ L ↔ p ∈ (umFind fm c).getD [] ∧ p ≠ some y := by
    intro p
    rw [hL]
    simp [List.mem_filter]
  have hnw : umFind (freqBump fm mf c nw (some y)).1 nw
      = some ((umFind fm nw).getD [] ++ [some y]) := by
    rw [hfind, if_pos rfl]
  have hc1 : L ≠ [] → umFind (freqBump fm mf c nw (some y)).1 c = some L := by
    intro hl
    have : ¬ L.isEmpty = true := by
      intro e
      exact hl (List.isEmpty_iff.mp e)
    rw [hfind, if_neg hcn, if_pos rfl, if_neg this]
  have hother : ∀ f, f ≠ nw → f ≠ c →
      umFind (freqBump fm mf c nw (some y)).1 f = umFind fm f := by
    intro f h1 h2
    rw [hfind, if_neg h1, if_neg h2]
  refine ⟨?_, ?_, ?_⟩
  · intro k i hk
    obtain ⟨f, l, hl, hil⟩ := hfull k i hk
    by_cases hiy : i = y
    · exact ⟨nw, _, hnw, by simp [hiy]⟩
    · by_cases h1 : f = nw
      · refine ⟨nw, _, hnw, ?_⟩
        rw [← h1, hl]
        simp [hil]
      · by_cases h2 : f = c
        · have hmem : some i ∈ L := by
            rw [hLmem, ← h2, hl]
            exact ⟨hil, fun e => hiy (Option.some.inj e)⟩
          exact ⟨c, L, hc1 (List.ne_nil_of_mem hmem), hmem⟩
        · exact ⟨f, l, by rw [hother f h1 h2]; exact hl, hil⟩
  · intro f l hl
    by_cases h1 : f = nw
    · rw [h1, hnw] at hl
      rw [← Option.some.inj hl]
      simp
    · by_cases h2 : f = c
      · rw [hfind, if_neg h1, if_pos h2] at hl
        by_cases he : L.isEmpty = true
        · rw [if_pos he] at hl
          exact Option.noConfusion hl
        · rw [if_neg he] at hl
          rw [← Option.some.inj hl]
          intro e
          exact he (List.isEmpty_iff.mpr e)
      · rw [hother f h1 h2] at hl
        exact hnoe f l hl
  · intro hne0
    have hm := hmin hne0
    have hnw2 : (umFind (freqBump fm mf c nw (some y)).1 nw).isSome = true := by
      rw [hnw]; rfl
    rw [hsnd]
    by_cases he : L.isEmpty = true
    · rw [if_pos he]
      by_cases hmc : mf = c
      · rw [if_pos hmc]
        exact hnw2
      · rw [if_neg hmc]
        by_cases hmn : mf = nw
        · rw [hmn]; exact hnw2
        · rw [hother mf hmn hmc]
          exact hm
    · rw [if_neg he]
      by_cases hmn : mf = nw
      · rw [hmn]; exact hnw2
      · by_cases hmc : mf = c
        · subst hmc
          rw [hc1 (fun e => he (List.isEmpty_iff.mpr e))]
          rfl
        · rw [hother mf hmn hmc]
          exact hm

/-- The push of a new node on the bucket of frequency 1 keeps the buckets covering the
main index. -/
theorem buckets_push {main : List (K × NodePtr)} {fm : FreqMap} {mf : Nat}
    (hb : Buckets main fm mf) (k : K) (n : Nat) :
    Buckets (umSet main k (some n)) (freqPush fm 1 (some n)) 1 := by
  obtain ⟨hfull, hnoe, -⟩ := hb
  have h1b : umFind (freqPush fm 1 (some n)) 1 = some ((umFind fm 1).getD [] ++ [some n]) := by
    rw [umFind_freqPush, if_pos rfl]
  refine ⟨?_, ?_, ?_⟩
  · intro k1 i hk
    rw [umFind_umSet] at hk
    by_cases h1 : k1 = k
    · simp only [h1, if_true] at hk
      have e := Option.some.inj (Option.some.inj hk)
      subst e
      exact ⟨1, _, h1b, by simp⟩
    · simp only [h1, if_false] at hk
      obtain ⟨f, l, hl, hil⟩ := hfull k1 i hk
      by_cases hf : f = 1
      · refine ⟨1, _, h1b, ?_⟩
        rw [← hf, hl]
        simp [hil]
      · exact ⟨f, l, by rw [umFind_freqPush, if_neg hf]; exact hl, hil⟩
  · intro f l hl
    by_cases hf : f = 1
    · rw [hf, h1b] at hl
      rw [← Option.some.inj hl]
      simp
    · rw [umFind_freqPush, if_neg hf] at hl
      exact hnoe f l hl
  · intro _
    rw [h1b]
    rfl

/-- Source `evictLeastFrequent` on a main index that is not empty, met with an admissible
order: one key leaves the main index and the buckets keep covering it. -/
theorem ArcLfuPart.evict_tidy (order : FreqMap → Nat) (s s1 : ArcLfuPart K V) (hinv : s.Inv)
    (hb : Buckets s.mainCache s.freqListMap s.minFreq) (ha : Admissible order)
    (hne : s.mainCache ≠ []) (he : s.evictLeastFrequent order = some s1) :
    Buckets s1.mainCache s1.freqListMap s1.minFreq ∧
      s1.mainCache.length < s.mainCache.length := by
  obtain ⟨s2, he2, hi2, -, -, -, -, hcase⟩ := ArcLfuPart.evictLeastFrequent_inv order s hinv
  rw [he] at he2
  have e := Option.some.inj he2
  subst e
  obtain ⟨hfull, hnoe, hmin⟩ := hb
  rcases hcase with ⟨hemp, -, -⟩ | ⟨y, ky, rest, hbk, hyk, hym, hm1, -, -, hfm, hmf1, hmf2, -⟩
  · exfalso
    obtain ⟨l, hl⟩ := Option.isSome_iff_exists.mp (hmin hne)
    rw [hl] at hemp
    exact hnoe _ l hl hemp
  · have hbk1 : umFind s.freqListMap s.minFreq = some (some y :: rest) := by
      cases hx : umFind s.freqListMap s.minFreq with
      | none =>
        rw [hx] at hbk
        simp at hbk
      | some l =>
        rw [hx] at hbk
        simp only [Option.getD_some] at hbk
        rw [hbk]
    have hmapok := hinv.2.2.2.1
    have hfull1 : ∀ k i, umFind s1.mainCache k = some (some i) →
        ∃ f l, umFind s1.freqListMap f = some l ∧ some i ∈ l := by
      intro k i hk
      rw [hm1, umFind_umErase] at hk
      by_cases hky : k = ky
      · simp [hky] at hk
      · simp only [hky, if_false] at hk
        have hiy : i ≠ y := by
          intro e
          obtain ⟨i1, hi1, -, -, hik⟩ := hmapok k (some i) (umFind_mem hk)
          have e1 := Option.some.inj hi1
          subst e1
          rw [e, hyk] at hik
          exact hky (Option.some.inj hik).symm
        obtain ⟨f, l, hl, hil⟩ := hfull k i hk
        by_cases hf : f = s.minFreq
        · rw [hf, hbk1] at hl
          have e2 := Option.some.inj hl
          subst e2
          have hir : some i ∈ rest := by
            rcases List.mem_cons.mp hil with h | h
            · exact absurd (Option.some.inj h) hiy
            · exact h
          have hre : ¬ rest.isEmpty = true := by
            intro e
            rw [List.isEmpty_iff.mp e] at hir
            simp at hir
          exact ⟨s.minFreq, rest, by rw [hfm, if_pos rfl, if_neg hre], hir⟩
        · exact ⟨f, l, by rw [hfm, if_neg hf]; exact hl, hil⟩
    have hnoe1 : ∀ f l, umFind s1.freqListMap f = some l → l ≠ [] := by
      intro f l hl
      rw [hfm] at hl
      by_cases hf : f = s.minFreq
      · rw [if_pos hf] at hl
        by_cases hre : rest.isEmpty = true
        · rw [if_pos hre] at hl
          exact Option.noConfusion hl
        · rw [if_neg hre] at hl
          rw [← Option.some.inj hl]
          exact fun e => hre (List.isEmpty_iff.mpr e)
      · rw [if_neg hf] at hl
        exact hnoe f l hl
    refine ⟨⟨hfull1, hnoe1, ?_⟩, ?_⟩
    · intro hne1
      by_cases hre : rest.isEmpty = true
      · rw [hmf2 hre]
        obtain ⟨k, p, hkp⟩ := umFind_head hne1
        obtain ⟨i, hi, -⟩ := hi2.2.2.2.1 k p (umFind_mem hkp)
        subst hi
        obtain ⟨f, l, hl, -⟩ := hfull1 k i hkp
        have hfne : s1.freqListMap ≠ [] := ne_nil_of_umFind hl
        have hie : ¬ s1.freqListMap.isEmpty = true := fun e => hfne (List.isEmpty_iff.mp e)
        rw [if_neg hie]
        exact ha _ hfne
      · have hre1 : rest.isEmpty = false := by simpa using hre
        rw [hmf1 hre1, hfm, if_pos rfl, if_neg hre]
        rfl
    · rw [hm1]
      exact length_umErase_lt hym

/-- Source `put` of the frequency partition on a key of the main index, as an
equation. -/
theorem ArcLfuPart.put_eq (order : FreqMap → Nat) (s : ArcLfuPart K V) (k : K) (v : V)
    (hcap : s.mainCapacity ≠ 0) {y c : Nat} (hf : umFind s.mainCache k = some (some y))
    (hyl : y < s.heap.length) (hc : hCount s.heap y = some c) :
    s.put order k v = some ({ s with
      heap := incCount (setValue s.heap y v) y,
      freqListMap := (freqBump s.freqListMap s.minFreq c ((c + 1) % SIZE_MOD) (some y)).1,
      minFreq := (freqBump s.freqListMap s.minFreq c ((c + 1) % SIZE_MOD) (some y)).2 },
      true) := by
  have hupd := ArcLfuPart.updateNodeFrequency_eq { s with heap := setValue s.heap y v }
    (by simpa using hyl : y < (setValue s.heap y v).length)
    (by simpa using hc : hCount (setValue s.heap y v) y = some c)
  unfold ArcLfuPart.put ArcLfuPart.updateMainNode
  simp only [hcap, if_false, hf, Option.bind_eq_bind, writeNode_value _ hyl,
    Option.some_bind, Option.pure_def]
  rw [hupd]
  rfl

/-- Source `put` of the frequency partition, met with an admissible order, keeps the
buckets covering the main index and the main index within the capacity. -/
theorem ArcLfuPart.put_tidy (order : FreqMap → Nat) (s s1 : ArcLfuPart K V) (hinv : s.Inv)
    (ht : s.Tidy) (ha : Admissible order) (k : K) (v : V) {ok : Bool}
    (h : s.put order k v = some (s1, ok)) : s1.Tidy := by
  by_cases hcap : s.mainCapacity = 0
  · rw [ArcLfuPart.lfu_put_zero order s k v hcap] at h
    rw [← (Prod.mk.inj (Option.some.inj h)).1]
    exact ht
  · cases hfk : umFind s.mainCache k with
    | some p =>
      obtain ⟨y, hp, hyl, -, -⟩ := hinv.2.2.2.1 k p (umFind_mem hfk)
      subst hp
      obtain ⟨c, hc⟩ := hCount_of_lt s.heap hyl
      rw [ArcLfuPart.put_eq order s k v hcap hfk hyl hc] at h
      rw [← (Prod.mk.inj (Option.some.inj h)).1]
      exact ⟨buckets_bump ht.1 y c _ (succ_mod_ne c), ht.2⟩
    | none =>
      obtain ⟨s0, h0, hadd, -, hi0, hfr, -, -, -, hk0, -⟩ :=
        ArcLfuPart.lfu_addNewNode_inv order s hinv k v hfk
      have hput : s.put order k v = some (s0.pushNew k v, true) := by
        unfold ArcLfuPart.put
        simp only [hcap, if_false, hfk, Option.bind_eq_bind, hadd, Option.some_bind,
          Option.pure_def]
      rw [hput] at h
      rw [← (Prod.mk.inj (Option.some.inj h)).1]
      have h0t : Buckets s0.mainCache s0.freqListMap s0.minFreq ∧
          s0.mainCache.length < s0.mainCapacity := by
        by_cases hfull : s.mainCache.length ≥ s.mainCapacity
        · rw [if_pos hfull] at h0
          have hne : s.mainCache ≠ [] := by
            intro e
            rw [e] at hfull
            simp at hfull
            exact hcap hfull
          obtain ⟨hb0, hlt⟩ := ArcLfuPart.evict_tidy order s s0 hinv ht.1 ha hne h0
          refine ⟨hb0, ?_⟩
          rw [hfr.1]
          have := ht.2
          omega
        · rw [if_neg hfull] at h0
          have e := Option.some.inj h0
          subst e
          exact ⟨ht.1, by omega⟩
      refine ⟨buckets_push h0t.1 k s0.heap.length, ?_⟩
      show (umSet s0.mainCache k (some s0.heap.length)).length ≤ s0.mainCapacity
      rw [length_umSet_of_none _ _ _ hk0]
      exact h0t.2

/-- Source `get` of the frequency partition keeps the buckets covering the main index and
the main index within the capacity. -/
theorem ArcLfuPart.get_tidy (s s1 : ArcLfuPart K V) (hinv : s.Inv) (ht : s.Tidy) (k : K)
    (out : V) {r : Bool} {val : V} (h : s.get k out = some (s1, r, val)) : s1.Tidy := by
  by_cases hmiss : s.mainCapacity = 0 ∨ umFind s.mainCache k = none
  · rw [ArcLfuPart.lfu_get_miss s k out hmiss] at h
    rw [← (Prod.mk.inj (Option.some.inj h)).1]
    exact ht
  · have hcap : s.mainCapacity ≠ 0 := fun e => hmiss (Or.inl e)
    cases hfk : umFind s.mainCache k with
    | none => exact absurd (Or.inr hfk) hmiss
    | some p =>
      obtain ⟨y, hp, hyl, -, -⟩ := hinv.2.2.2.1 k p (umFind_mem hfk)
      subst hp
      obtain ⟨c, hc⟩ := hCount_of_lt s.heap hyl
      obtain ⟨w, hw⟩ := hValue_of_lt s.heap hyl
      rw [ArcLfuPart.get_eq s k out hcap hfk hyl hc hw] at h
      rw [← (Prod.mk.inj (Option.some.inj h)).1]
      exact ⟨buckets_bump ht.1 y c _ (succ_mod_ne c), ht.2⟩

/-- Source `checkGhost` of the frequency partition keeps the buckets covering the main
index and the main index within the capacity. -/
theorem ArcLfuPart.checkGhost_tidy (s s1 : ArcLfuPart K V) (hinv : s.Inv) (ht : s.Tidy)
    (k : K) {b : Bool} (h : s.checkGhost k = some (s1, b)) : s1.Tidy := by
  cases hf : umFind s.ghostCache k with
  | none =>
    rw [ArcLfuPart.lfu_checkGhost_miss s k hf] at h
    rw [← (Prod.mk.inj (Option.some.inj h)).1]
    exact ht
  | some p =>
    obtain ⟨l, hcg, -, hfr, -, -, -, hmain, -, hfm, hmf, -⟩ := s.lfu_checkGhost_hit hinv k hf
    rw [hcg] at h
    rw [← (Prod.mk.inj (Option.some.inj h)).1]
    unfold ArcLfuPart.Tidy
    rw [hmain, hfm, hmf, hfr.1]
    exact ht

/-- Source `decreaseCapacity` of the frequency partition, met with an admissible order,
keeps the buckets covering the main index and the main index within the capacity. -/
theorem ArcLfuPart.decreaseCapacity_tidy (order : FreqMap → Nat) (s s1 : ArcLfuPart K V)
    (hinv : s.Inv) (ht : s.Tidy) (ha : Admissible order) {ok : Bool}
    (h : s.decreaseCapacity order = some (s1, ok)) : s1.Tidy := by
  by_cases hcap : s.mainCapacity = 0
  · rw [ArcLfuPart.lfu_decreaseCapacity_zero order s hcap] at h
    rw [← (Prod.mk.inj (Option.some.inj h)).1]
    exact ht
  · unfold ArcLfuPart.decreaseCapacity at h
    simp only [hcap, if_false, Option.bind_eq_bind, Option.pure_def] at h
    by_cases hfull : s.mainCapacity = s.mainCache.length
    · simp only [hfull, if_true] at h
      obtain ⟨s0, he, -, hfr, -⟩ := ArcLfuPart.evictLeastFrequent_inv order s hinv
      have hne : s.mainCache ≠ [] := by
        intro e
        rw [e] at hfull
        exact hcap hfull
      obtain ⟨hb0, hlt⟩ := ArcLfuPart.evict_tidy order s s0 hinv ht.1 ha hne he
      rw [he] at h
      simp only [Option.some_bind] at h
      rw [← (Prod.mk.inj (Option.some.inj h)).1]
      refine ⟨hb0, ?_⟩
      show s0.mainCache.length ≤ s0.mainCapacity - 1
      rw [hfr.1]
      omega
    · simp only [hfull, if_false, Option.some_bind] at h
      rw [← (Prod.mk.inj (Option.some.inj h)).1]
      refine ⟨ht.1, ?_⟩
      show s.mainCache.length ≤ s.mainCapacity - 1
      have := ht.2
      omega

/-- What `checkGhostCache` does to the frequency partition keeps the buckets covering the
main index and the main index within the capacity. -/
theorem ArcLfuPart.ghostStep_tidy (order : FreqMap → Nat) (k : K) (s s1 : ArcLfuPart K V)
    (hinv : s.Inv) (ht : s.Tidy) (ha : Admissible order) (h : s.GhostStep order k s1) :
    s1.Tidy := by
  rcases h with h | ⟨ok, h⟩ | ⟨l, h, hl⟩
  · rw [h]
    exact ht
  · exact ArcLfuPart.decreaseCapacity_tidy order s s1 hinv ht ha h
  · have hlt := ArcLfuPart.checkGhost_tidy s l hinv ht k h
    rcases hl with hl | ⟨hl, hc⟩
    · rw [hl]
      exact hlt
    · refine ⟨?_, ?_⟩
      · rw [hl]
        exact hlt.1
      · rw [hc, hl]
        show l.mainCache.length ≤ l.mainCapacity + 1
        have := hlt.2
        omega

/-- What `put` and `get` of `ArcCache` do to the frequency partition keeps the buckets
covering the main index and the main index within the capacity. -/
theorem ArcLfuPart.mainStep_tidy (order : FreqMap → Nat) (k : K) (s s1 : ArcLfuPart K V)
    (hinv : s.Inv) (ht : s.Tidy) (ha : Admissible order) (h : s.MainStep order k s1) :
    s1.Tidy := by
  rcases h with h | ⟨v, ok, h⟩ | ⟨out, r, val, h⟩
  · rw [h]
    exact ht
  · exact ArcLfuPart.put_tidy order s s1 hinv ht ha k v h
  · exact ArcLfuPart.get_tidy s s1 hinv ht k out h

end TidyLemmas

/-! ## Claims on the ghost indexes and on single partitions -/

section PartitionClaims

variable {K V : Type} [DecidableEq K]

/-- C11: the recency partition built by `ArcLruPart(2, 3)` after `put` of the keys 1, 2, 3
and 4: the capacity is 2 and the main index holds the three keys 2, 3 and 4. -/
theorem ArcLruPart.main_exceeds_capacity :
    ArcLruPart.ReachedBy 2 3 [.put 1 10, .put 2 20, .put 3 30, .put 4 40]
        (ArcLruPart.after 2 3 [.put 1 10, .put 2 20, .put 3 30, .put 4 40]) ∧
      (ArcLruPart.after 2 3 [.put 1 10, .put 2 20, .put 3 30, .put 4 40]).mainCapacity = 2 ∧
      (ArcLruPart.after 2 3 [.put 1 10, .put 2 20, .put 3 30, .put 4 40]).mainCache.length = 3 ∧
      (ArcLruPart.after 2 3 [.put 1 10, .put 2 20, .put 3 30, .put 4 40]).mainCache.map Prod.fst
        = [2, 3, 4] :=
  ⟨by unfold ArcLruPart.ReachedBy; decide!, by decide!, by decide!, by decide!⟩

/-- C12: the recency partition built by `ArcLruPart(2, 3)` after `put` of the keys 1, 2, 3
and `increaseCapacity()`: the capacity is 3, the main index holds 2 keys, and the key 1
is in the ghost index.  `checkGhost(1)` returns `true` and evicts nothing; afterwards the
key 1 is in the main index and still in the ghost index, and a second `checkGhost(1)`
returns `true` again. -/
theorem ArcLruPart.checkGhost_twice :
    ArcLruPart.ReachedBy 2 3 [.put 1 10, .put 2 20, .put 3 30, .increaseCapacity]
        (ArcLruPart.after 2 3 [.put 1 10, .put 2 20, .put 3 30, .increaseCapacity]) ∧
      (ArcLruPart.after 2 3 [.put 1 10, .put 2 20, .put 3 30, .increaseCapacity]).mainCapacity
        = 3 ∧
      (ArcLruPart.after 2 3 [.put 1 10, .put 2 20, .put 3 30, .increaseCapacity]).mainCache.length
        = 2 ∧
      (umFind (ArcLruPart.after 2 3
        [.put 1 10, .put 2 20, .put 3 30, .increaseCapacity]).ghostCache 1).isSome = true ∧
      (ArcLruPart.after 2 3 [.put 1 10, .put 2 20, .put 3 30, .increaseCapacity]).checkGhost 1
        = some (ArcLruPart.after 2 3
          [.put 1 10, .put 2 20, .put 3 30, .increaseCapacity, .checkGhost 1], true) ∧
      (umFind (ArcLruPart.after 2 3 [.put 1 10, .put 2 20, .put 3 30, .increaseCapacity,
        .checkGhost 1]).mainCache 1).isSome = true ∧
      (umFind (ArcLruPart.after 2 3 [.put 1 10, .put 2 20, .put 3 30, .increaseCapacity,
        .checkGhost 1]).ghostCache 1).isSome = true ∧
      ((ArcLruPart.after 2 3 [.put 1 10, .put 2 20, .put 3 30, .increaseCapacity,
        .checkGhost 1]).checkGhost 1).map Prod.snd = some true :=
  ⟨by unfold ArcLruPart.ReachedBy; decide!, by decide!, by decide!, by decide!, by decide!,
    by decide!, by decide!, by decide!⟩

/-- C13: the recency partition built by `ArcLruPart(3, 3)` after `put(1, 10)` holds one
key with capacity 3; `decreaseCapacity()` returns `true`, lowers the capacity to 2 and
moves the key 1 from the main index to the ghost index. -/
theorem ArcLruPart.decreaseCapacity_evicts_below_capacity :
    ArcLruPart.ReachedBy 3 3 [.put 1 10] (ArcLruPart.after 3 3 [.put 1 10]) ∧
      (ArcLruPart.after 3 3 [.put 1 10]).mainCapacity = 3 ∧
      (ArcLruPart.after 3 3 [.put 1 10]).mainCache.map Prod.fst = [1] ∧
      (ArcLruPart.after 3 3 [.put 1 10]).ghostCache = [] ∧
      (ArcLruPart.after 3 3 [.put 1 10]).decreaseCapacity
        = some (ArcLruPart.after 3 3 [.put 1 10, .decreaseCapacity], true) ∧
      (ArcLruPart.after 3 3 [.put 1 10, .decreaseCapacity]).mainCapacity = 2 ∧
      (ArcLruPart.after 3 3 [.put 1 10, .decreaseCapacity]).mainCache = [] ∧
      (ArcLruPart.after 3 3 [.put 1 10, .decreaseCapacity]).ghostCache.map Prod.fst = [1] :=
  ⟨by unfold ArcLruPart.ReachedBy; decide!, by decide!, by decide!, by decide!, by decide!,
    by decide!, by decide!, by decide!⟩

/-- C15 (amended): in every state of a recency partition and of a frequency partition
whose capacity is 0, `put` and `get` return `false` and leave the whole state unchanged,
and `checkGhost(k)` returns `false` and leaves the whole state unchanged when `k` is not
in the ghost index. -/
theorem zero_capacity_noop (s : ArcLruPart K V) (l : ArcLfuPart K V) (order : FreqMap → Nat)
    (k : K) (v out : V) (hs : s.mainCapacity = 0) (hl : l.mainCapacity = 0) :
    s.put k v = some (s, false) ∧
      (∀ st, s.get k out st = some (s, false, out, st)) ∧
      (umFind s.ghostCache k = none → s.checkGhost k = some (s, false)) ∧
      l.put order k v = some (l, false) ∧
      l.get k out = some (l, false, out) ∧
      (umFind l.ghostCache k = none → l.checkGhost k = some (l, false)) :=
  ⟨s.put_zero k v hs, fun st => s.get_miss k out st (Or.inl hs), s.checkGhost_miss k,
    l.lfu_put_zero order k v hl, l.lfu_get_miss k out (Or.inl hl), l.lfu_checkGhost_miss k⟩

/-- C15 (witness): the partitions built with capacity 1 after `put(1, 10)`, `put(2, 20)`
and `decreaseCapacity()` have capacity 0; the key is 5. -/
theorem zero_capacity_noop_witness :
    ((ArcLruPart.after 1 3 [.put 1 10, .put 2 20, .decreaseCapacity]).mainCapacity = 0 ∧
      (ArcLfuPart.after 1 3 [.put firstKey 1 10, .put firstKey 2 20,
        .decreaseCapacity firstKey]).mainCapacity = 0) ∧
      (ArcLruPart.after 1 3 [.put 1 10, .put 2 20, .decreaseCapacity]).put 5 50
        = some (ArcLruPart.after 1 3 [.put 1 10, .put 2 20, .decreaseCapacity], false) ∧
      (∀ st, (ArcLruPart.after 1 3 [.put 1 10, .put 2 20, .decreaseCapacity]).get 5 0 st
        = some (ArcLruPart.after 1 3 [.put 1 10, .put 2 20, .decreaseCapacity], false, 0, st)) ∧
      (umFind (ArcLruPart.after 1 3 [.put 1 10, .put 2 20, .decreaseCapacity]).ghostCache 5
          = none →
        (ArcLruPart.after 1 3 [.put 1 10, .put 2 20, .decreaseCapacity]).checkGhost 5
          = some (ArcLruPart.after 1 3 [.put 1 10, .put 2 20, .decreaseCapacity], false)) ∧
      (ArcLfuPart.after 1 3 [.put firstKey 1 10, .put firstKey 2 20,
          .decreaseCapacity firstKey]).put firstKey 5 50
        = some (ArcLfuPart.after 1 3 [.put firstKey 1 10, .put firstKey 2 20,
          .decreaseCapacity firstKey], false) ∧
      (ArcLfuPart.after 1 3 [.put firstKey 1 10, .put firstKey 2 20,
          .decreaseCapacity firstKey]).get 5 0
        = some (ArcLfuPart.after 1 3 [.put firstKey 1 10, .put firstKey 2 20,
          .decreaseCapacity firstKey], false, 0) ∧
      (umFind (ArcLfuPart.after 1 3 [.put firstKey 1 10, .put firstKey 2 20,
          .decreaseCapacity firstKey]).ghostCache 5 = none →
        (ArcLfuPart.after 1 3 [.put firstKey 1 10, .put firstKey 2 20,
          .decreaseCapacity firstKey]).checkGhost 5
        = some (ArcLfuPart.after 1 3 [.put firstKey 1 10, .put firstKey 2 20,
          .decreaseCapacity firstKey], false)) :=
  ⟨⟨by decide!, by decide!⟩,
    zero_capacity_noop _ _ firstKey 5 50 0 (by decide!) (by decide!)⟩

/-- C15 (counterexample): the partitions built with capacity 1 after `put(1, 10)`,
`put(2, 20)` and `decreaseCapacity()` have capacity 0.  In the recency partition
`checkGhost(1)` returns `true` and enters the key 1 in the main index; in the frequency
partition `checkGhost(2)` returns `true` and empties the ghost index. -/
theorem zero_capacity_noop_counterexample :
    (∃ s s1 : ArcLruPart Nat Nat,
        ArcLruPart.ReachedBy 1 3 [.put 1 10, .put 2 20, .decreaseCapacity] s ∧
        s.mainCapacity = 0 ∧ s.checkGhost 1 = some (s1, true) ∧
        umFind s.mainCache 1 = none ∧ (umFind s1.mainCache 1).isSome = true) ∧
      ∃ l l1 : ArcLfuPart Nat Nat,
        ArcLfuPart.ReachedBy 1 3
          [.put firstKey 1 10, .put firstKey 2 20, .decreaseCapacity firstKey] l ∧
        l.mainCapacity = 0 ∧ l.checkGhost 2 = some (l1, true) ∧
        (umFind l.ghostCache 2).isSome = true ∧ umFind l1.ghostCache 2 = none :=
  ⟨⟨ArcLruPart.after 1 3 [.put 1 10, .put 2 20, .decreaseCapacity],
      ArcLruPart.after 1 3 [.put 1 10, .put 2 20, .decreaseCapacity, .checkGhost 1],
      by unfold ArcLruPart.ReachedBy; decide!, by decide!, by decide!, by decide!, by decide!⟩,
    ArcLfuPart.after 1 3 [.put firstKey 1 10, .put firstKey 2 20, .decreaseCapacity firstKey],
    ArcLfuPart.after 1 3 [.put firstKey 1 10, .put firstKey 2 20, .decreaseCapacity firstKey,
      .checkGhost 2],
    by unfold ArcLfuPart.ReachedBy; decide!, by decide!, by decide!, by decide!, by decide!⟩

/-- C20: on the cache built by `ClockCache(0)` every `get` returns `false` and changes
nothing, and `put(k, v)` reads `clockList[0]` of the empty vector: the model stops with
the fault `outOfRange` whatever the fuel of the loop. -/
theorem ClockCache.put_zero_out_of_range (fuel : Nat) (k : K) (v out : V) :
    (ClockCache.create 0 : ClockCache K V).get k out
        = Except.ok (ClockCache.create 0, false, out) ∧
      (ClockCache.create 0 : ClockCache K V).clockList.length = 0 ∧
      (ClockCache.create 0 : ClockCache K V).slot (ClockCache.create 0 : ClockCache K V).clockHand
        = Except.error ClockFault.outOfRange ∧
      (ClockCache.create 0 : ClockCache K V).put (fuel + 1) k v
        = Except.error ClockFault.outOfRange :=
  ⟨rfl, rfl, rfl, rfl⟩

end PartitionClaims

section GhostClaims

variable {K V : Type} [DecidableEq K] [Inhabited K] [Inhabited V]

/-- C14 (amended): in every state reached from `ArcCache(C, T)`, a `put` or `get` of a key
that is not in the ghost index of the recency partition returns, and afterwards the key
is not in the ghost index of the frequency partition, hence not in both ghost indexes. -/
theorem ArcCache.call_clears_lfu_ghost (C T : Nat) (c : ArcCache K V) (hC : C < SIZE_MOD)
    (hr : ArcCache.Reachable C T c) (a : ArcCall K V)
    (hg : umFind c.lruPart.ghostCache a.key = none) :
    ∃ c1, c.call a = some c1 ∧ umFind c1.lfuPart.ghostCache a.key = none ∧
      ¬ ((umFind c1.lruPart.ghostCache a.key).isSome = true ∧
        (umFind c1.lfuPart.ghostCache a.key).isSome = true) := by
  obtain ⟨calls, hrun⟩ := hr
  have hinv := ArcCache.reachedBy_inv hC hrun
  obtain ⟨c0, b, hcg, hinv0, hcase, -⟩ :=
    ArcCache.checkGhostCache_spec a.order c hinv hC a.key
  have hg0 : umFind c0.lfuPart.ghostCache a.key = none := by
    rcases hcase with ⟨-, h2, h3, -⟩ | ⟨h1, -⟩ | ⟨-, -, -, h2, -⟩
    · rw [h3]; exact h2
    · rw [hg] at h1
      exact Bool.noConfusion h1
    · exact h2
  have key : ∃ c1, c.call a = some c1 ∧ umFind c1.lfuPart.ghostCache a.key = none := by
    cases a with
    | put order k v =>
      obtain ⟨c1, hput, -, -, -, -, -, hgl, -⟩ :=
        ArcCache.put_of_ghost order c c0 k v hcg hinv0 (fun _ => hg0)
      exact ⟨c1, hput, hgl hg0⟩
    | get order k out =>
      obtain ⟨c1, r, val, hget, -, -, -, -, -, -, hgl, -⟩ :=
        ArcCache.get_of_ghost order c c0 k out hcg hinv0 (fun _ => Or.inl hg0)
      exact ⟨c1, by simp [ArcCache.call, hget], hgl hg0⟩
  obtain ⟨c1, hcall, hnone⟩ := key
  refine ⟨c1, hcall, hnone, ?_⟩
  rintro ⟨-, h2⟩
  rw [hnone] at h2
  exact Bool.noConfusion h2

/-- C14 (witness): capacity 4, after `put(1, 10)` the call `put(2, 20)`. -/
theorem ArcCache.call_clears_lfu_ghost_witness :
    (4 < SIZE_MOD ∧ ArcCache.Reachable 4 3 (ArcCache.after 4 3 [.put firstKey 1 10]) ∧
      umFind (ArcCache.after 4 3 [.put firstKey 1 10]).lruPart.ghostCache
        (ArcCall.put firstKey 2 20 : ArcCall Nat Nat).key = none) ∧
      ∃ c1, (ArcCache.after 4 3 [.put firstKey 1 10]).call (.put firstKey 2 20) = some c1 ∧
        umFind c1.lfuPart.ghostCache (ArcCall.put firstKey 2 20 : ArcCall Nat Nat).key = none ∧
        ¬ ((umFind c1.lruPart.ghostCache
            (ArcCall.put firstKey 2 20 : ArcCall Nat Nat).key).isSome = true ∧
          (umFind c1.lfuPart.ghostCache
            (ArcCall.put firstKey 2 20 : ArcCall Nat Nat).key).isSome = true) :=
  ⟨⟨size_lt 4 (by decide), ⟨_, ArcCache.after_reached (size_lt 4 (by decide)) _⟩, by decide!⟩,
    ArcCache.call_clears_lfu_ghost 4 3 _ (size_lt 4 (by decide))
      ⟨_, ArcCache.after_reached (size_lt 4 (by decide)) _⟩ (.put firstKey 2 20) (by decide!)⟩

/-- C14 (counterexample): in the cache of capacity 2, after `put(1, 10)` and `put(2, 20)`
the key 1 is in the ghost index of the recency partition and in the ghost index of the
frequency partition: each partition evicted it to make room for the key 2. -/
theorem ArcCache.call_clears_lfu_ghost_counterexample :
    ∃ c : ArcCache Nat Nat, ArcCache.Reachable 2 3 c ∧
      (umFind c.lruPart.ghostCache 1).isSome = true ∧
      (umFind c.lfuPart.ghostCache 1).isSome = true :=
  ⟨ArcCache.after 2 3 [.put firstKey 1 10, .put firstKey 2 20],
    ⟨_, ArcCache.after_reached (size_lt 2 (by decide)) _⟩, by decide!, by decide!⟩

/-- C16: in every state reached from `ArcCache(C, T)` in which `k` is in neither ghost
index and both partitions have a capacity of at least 1, `put(k, v)` returns and
afterwards the main index of the recency partition and the main index of the frequency
partition both map `k` to a node that holds `v`. -/
theorem ArcCache.put_fills_both (C T : Nat) (c : ArcCache K V) (hC : C < SIZE_MOD)
    (hr : ArcCache.Reachable C T c) (order : FreqMap → Nat) (k : K) (v : V)
    (hg1 : umFind c.lruPart.ghostCache k = none) (hg2 : umFind c.lfuPart.ghostCache k = none)
    (h1 : 1 ≤ c.lruPart.mainCapacity) (h2 : 1 ≤ c.lfuPart.mainCapacity) :
    ∃ c1, c.put order k v = some c1 ∧
      (∃ y, umFind c1.lruPart.mainCache k = some (some y) ∧
        hValue c1.lruPart.heap y = some v) ∧
      (∃ z, umFind c1.lfuPart.mainCache k = some (some z) ∧
        hValue c1.lfuPart.heap z = some v) := by
  obtain ⟨calls, hrun⟩ := hr
  have hinv := ArcCache.reachedBy_inv hC hrun
  have hcg := ArcCache.checkGhostCache_miss order c k hg1 hg2
  obtain ⟨c1, hput, -, hsc, hval, -, hlfu, -⟩ :=
    ArcCache.put_of_ghost order c c k v hcg hinv (fun _ => hg2)
  refine ⟨c1, hput, hval ?_, hlfu rfl (by omega) (by omega)⟩
  rw [hsc.1]
  omega

/-- C16 (witness): capacity 4, after `put(1, 10)` the call `put(2, 20)`. -/
theorem ArcCache.put_fills_both_witness :
    (4 < SIZE_MOD ∧ ArcCache.Reachable 4 3 (ArcCache.after 4 3 [.put firstKey 1 10]) ∧
      umFind (ArcCache.after 4 3 [.put firstKey 1 10]).lruPart.ghostCache 2 = none ∧
      umFind (ArcCache.after 4 3 [.put firstKey 1 10]).lfuPart.ghostCache 2 = none ∧
      1 ≤ (ArcCache.after 4 3 [.put firstKey 1 10]).lruPart.mainCapacity ∧
      1 ≤ (ArcCache.after 4 3 [.put firstKey 1 10]).lfuPart.mainCapacity) ∧
      ∃ c1, (ArcCache.after 4 3 [.put firstKey 1 10]).put firstKey 2 20 = some c1 ∧
        (∃ y, umFind c1.lruPart.mainCache 2 = some (some y) ∧
          hValue c1.lruPart.heap y = some 20) ∧
        (∃ z, umFind c1.lfuPart.mainCache 2 = some (some z) ∧
          hValue c1.lfuPart.heap z = some 20) :=
  ⟨⟨size_lt 4 (by decide), ⟨_, ArcCache.after_reached (size_lt 4 (by decide)) _⟩, by decide!,
      by decide!, by decide!, by decide!⟩,
    ArcCache.put_fills_both 4 3 _ (size_lt 4 (by decide))
      ⟨_, ArcCache.after_reached (size_lt 4 (by decide)) _⟩ firstKey 2 20 (by decide!)
      (by decide!) (by decide!) (by decide!)⟩

/-- C19: the cache of capacity 2 after `put(1, 1)` and `put(2, 2)`: the key 1 is in
neither main index, it is in the ghost index of the recency partition with the value 1
it had when it was evicted, and `get(1, out)` returns `true` with `out = 1`. -/
theorem ArcCache.stale_ghost_hit :
    ArcCache.ReachedBy 2 3 [.put firstKey 1 1, .put firstKey 2 2]
        (ArcCache.after 2 3 [.put firstKey 1 1, .put firstKey 2 2]) ∧
      umFind (ArcCache.after 2 3 [.put firstKey 1 1, .put firstKey 2 2]).lruPart.mainCache 1
        = none ∧
      umFind (ArcCache.after 2 3 [.put firstKey 1 1, .put firstKey 2 2]).lfuPart.mainCache 1
        = none ∧
      (∃ g, umFind (ArcCache.after 2 3 [.put firstKey 1 1, .put firstKey 2 2]).lruPart.ghostCache
          1 = some (some g) ∧
        hValue (ArcCache.after 2 3 [.put firstKey 1 1, .put firstKey 2 2]).lruPart.heap g
          = some 1) ∧
      ∃ c1, (ArcCache.after 2 3 [.put firstKey 1 1, .put firstKey 2 2]).get firstKey 1 0
        = some (c1, true, 1) :=
  ⟨ArcCache.after_reached (size_lt 2 (by decide)) _, by decide!, by decide!,
    ⟨4, by decide!, by decide!⟩,
    ⟨ArcCache.after 2 3 [.put firstKey 1 1, .put firstKey 2 2, .get firstKey 1 0],
      by decide!⟩⟩

/-- Source `put` on a key of a ghost index, in every state reached from `ArcCache(C, T)`:
it returns and adds no entry to the main index of the frequency partition.  If `k` is in
the ghost index of the recency partition, then afterwards `k` is in the main index of
the recency partition with value `v` and access count 1.  If `k` is only in the ghost
index of the frequency partition, then afterwards `k` has left that ghost index, the
main index of the frequency partition is unchanged, and provided the recency partition
is left with a capacity other than 0, `k` is in its main index with value `v`. -/
theorem ArcCache.put_on_ghost_spec (C T : Nat) (c : ArcCache K V) (hC : C < SIZE_MOD)
    (hr : ArcCache.Reachable C T c) (order : FreqMap → Nat) (k : K) (v : V) :
    ∃ c1, c.put order k v = some c1 ∧
      ((umFind c.lruPart.ghostCache k).isSome = true →
        (∃ y, umFind c1.lruPart.mainCache k = some (some y) ∧
          hValue c1.lruPart.heap y = some v ∧ hCount c1.lruPart.heap y = some 1) ∧
        ∀ x ∈ c1.lfuPart.mainCache, x ∈ c.lfuPart.mainCache) ∧
      (umFind c.lruPart.ghostCache k = none →
        (umFind c.lfuPart.ghostCache k).isSome = true →
        umFind c1.lfuPart.ghostCache k = none ∧
        c1.lfuPart.mainCache = c.lfuPart.mainCache ∧
        (c1.lruPart.mainCapacity ≠ 0 →
          ∃ y, umFind c1.lruPart.mainCache k = some (some y) ∧
            hValue c1.lruPart.heap y = some v)) := by
  obtain ⟨calls, hrun⟩ := hr
  have hinv := ArcCache.reachedBy_inv hC hrun
  obtain ⟨c0, b, hcg, hinv0, hcase, hgs1, hgs2, -⟩ :=
    ArcCache.checkGhostCache_spec order c hinv hC k
  have hD : b = false → umFind c0.lfuPart.ghostCache k = none := by
    intro hb
    rcases hcase with ⟨-, h2, h3, -⟩ | ⟨-, h2, -⟩ | ⟨-, -, h2, -⟩
    · rw [h3]; exact h2
    · rw [hb] at h2; exact Bool.noConfusion h2
    · rw [hb] at h2; exact Bool.noConfusion h2
  obtain ⟨c1, hput, -, hsc, -⟩ := ArcCache.put_of_ghost order c c0 k v hcg hinv0 hD
  obtain ⟨⟨ok, hlput⟩, hlfu, -⟩ := ArcCache.put_steps order c c0 c1 k v hcg hput
  -- the `put` of the recency partition when its capacity is not 0
  have hlru : c0.lruPart.mainCapacity ≠ 0 →
      ∃ y, umFind c1.lruPart.mainCache k = some (some y) ∧
        hValue c1.lruPart.heap y = some v ∧
        (∀ y0, umFind c0.lruPart.mainCache k = some (some y0) →
          hCount c1.lruPart.heap y = hCount c0.lruPart.heap y0) := by
    intro hcap
    obtain ⟨s1, y, hp, -, -, hmk, hvk, -, -, -, hc1, -⟩ := c0.lruPart.put_inv hinv0.1 k v hcap
    rw [hp] at hlput
    have e := (Prod.mk.inj (Option.some.inj hlput)).1
    subst e
    exact ⟨y, hmk, hvk, fun y0 h0 => (hc1 y0 h0).2⟩
  refine ⟨c1, hput, ?_, ?_⟩
  · intro hg
    have hC2 : 2 ≤ C := by
      by_contra hlt
      have hsmall := ArcCache.run_small (K := K) (V := V) C T (by omega) calls
      unfold ArcCache.ReachedBy at hrun
      rw [hsmall] at hrun
      rw [← Option.some.inj hrun] at hg
      exact Bool.noConfusion hg
    rcases hcase with ⟨h1, -⟩ | ⟨-, hb, ⟨y, hmk, hcnt⟩, hcaps⟩ | ⟨h1, -⟩
    · rw [h1] at hg
      exact Bool.noConfusion hg
    · have hcap0 : c0.lruPart.mainCapacity ≠ 0 := by
        have hsum := hinv.2.2.1
        rcases hcaps with ⟨h0, hs⟩ | ⟨-, hs, -⟩
        · rw [hs.1]
          omega
        · rw [hs.1]
          omega
      obtain ⟨y1, hm1, hv1, hc1⟩ := hlru hcap0
      refine ⟨⟨y1, hm1, hv1, ?_⟩, ?_⟩
      · rw [hc1 y hmk]
        exact hcnt
      · rw [hlfu hb]
        exact ArcLfuPart.ghostStep_main order k _ _ hinv.2.1 hgs2
    · rw [h1] at hg
      exact Bool.noConfusion hg
  · intro hg1 hg2
    obtain ⟨-, hf⟩ := ArcCache.checkGhostCache_of_lru_miss order c c0 k hg1 hcg
    rcases hf with ⟨-, hn, -⟩ | ⟨l, hcl, hb, hl0⟩
    · rw [hn] at hg2
      exact Bool.noConfusion hg2
    · obtain ⟨p, hp⟩ := Option.isSome_iff_exists.mp hg2
      obtain ⟨l1, hcg1, -, -, -, -, -, hmain, hghost, -⟩ :=
        c.lfuPart.lfu_checkGhost_hit hinv.2.1 k hp
      rw [hcg1] at hcl
      have e := (Prod.mk.inj (Option.some.inj hcl)).1
      subst e
      have hgn : umFind c0.lfuPart.ghostCache k = none := by
        rcases hcase with ⟨-, h2, -⟩ | ⟨h1, -⟩ | ⟨-, -, -, h2, -⟩
        · rw [h2] at hg2
          exact Bool.noConfusion hg2
        · rw [hg1] at h1
          exact Bool.noConfusion h1
        · exact h2
      have hm0 : c0.lfuPart.mainCache = c.lfuPart.mainCache := by
        rcases hl0 with e | e
        · rw [e, hmain]
        · rw [e]
          exact hmain
      refine ⟨by rw [hlfu hb]; exact hgn, by rw [hlfu hb]; exact hm0, ?_⟩
      intro hcap1
      rw [hsc.1] at hcap1
      obtain ⟨y1, hm1, hv1, -⟩ := hlru hcap1
      exact ⟨y1, hm1, hv1⟩

/-- C17 (failing input): capacity 6 and threshold 3.  After `put(1, 10)` twice,
`put(2, 20)` twice, `put(3, 30)`, `get(3)` and `put(4, 40)` the key 3 is in the main index
of the recency partition with access count 2, it is not in the ghost index of the recency
partition and it is in the ghost index of the frequency partition.  `put(3, 99)` returns;
afterwards the key 3 is in the main index of the recency partition with value 99 and its
access count is still 2, not 1. -/
theorem ArcCache.put_on_ghost_keeps_count :
    ∃ c c1 : ArcCache Nat Nat, ArcCache.Reachable 6 3 c ∧
      (∃ y, umFind c.lruPart.mainCache 3 = some (some y) ∧
        hCount c.lruPart.heap y = some 2) ∧
      umFind c.lruPart.ghostCache 3 = none ∧ (umFind c.lfuPart.ghostCache 3).isSome = true ∧
      c.put firstKey 3 99 = some c1 ∧
      ∃ y, umFind c1.lruPart.mainCache 3 = some (some y) ∧
        hValue c1.lruPart.heap y = some 99 ∧ hCount c1.lruPart.heap y = some 2 :=
  ⟨ArcCache.after 6 3 [.put firstKey 1 10, .put firstKey 1 10, .put firstKey 2 20,
      .put firstKey 2 20, .put firstKey 3 30, .get firstKey 3 0, .put firstKey 4 40],
    ArcCache.after 6 3 [.put firstKey 1 10, .put firstKey 1 10, .put firstKey 2 20,
      .put firstKey 2 20, .put firstKey 3 30, .get firstKey 3 0, .put firstKey 4 40,
      .put firstKey 3 99],
    ⟨_, ArcCache.after_reached (size_lt 6 (by decide)) _⟩, ⟨6, by decide!, by decide!⟩,
    by decide!, by decide!, by decide!, 6, by decide!, by decide!, by decide!⟩

/-- The empty frequency partition is tidy. -/
theorem ArcLfuPart.create_tidy (c T : Nat) : (ArcLfuPart.create c T : ArcLfuPart K V).Tidy := by
  refine ⟨⟨?_, ?_, ?_⟩, ?_⟩
  · intro k i h
    simp [ArcLfuPart.create, umFind] at h
  · intro f l h
    simp [ArcLfuPart.create, umFind] at h
  · intro h
    exact absurd rfl h
  · simp [ArcLfuPart.create]

/-- A call met with an admissible order keeps the frequency partition tidy. -/
theorem ArcCache.call_tidy (c c1 : ArcCache K V) {C T : Nat} {S : List K}
    (hinv : c.Inv C T S) (hC : C < SIZE_MOD) (ht : c.lfuPart.Tidy) (a : ArcCall K V)
    (ha : Admissible a.order) (hcall : c.call a = some c1) : c1.lfuPart.Tidy := by
  obtain ⟨c0, b, hcg, hinv0, -, -, hgs2, -⟩ :=
    ArcCache.checkGhostCache_spec a.order c hinv hC a.key
  have ht0 := ArcLfuPart.ghostStep_tidy a.order a.key _ _ hinv.2.1 ht ha hgs2
  have hms : c0.lfuPart.MainStep a.order a.key c1.lfuPart := by
    cases a with
    | put order k v => exact (ArcCache.put_steps order c c0 c1 k v hcg hcall).2.2
    | get order k out =>
      simp only [ArcCache.call] at hcall
      cases hg : c.get order k out with
      | none =>
        rw [hg] at hcall
        simp at hcall
      | some r =>
        obtain ⟨c2, r1, val⟩ := r
        rw [hg] at hcall
        simp at hcall
        subst hcall
        exact ArcCache.get_steps order c c0 c2 k out val hcg hg
  exact ArcLfuPart.mainStep_tidy a.order a.key _ _ hinv0.2.1 ht0 ha hms

/-- Calls met with admissible orders keep the frequency partition tidy. -/
theorem ArcCache.run_tidy {C T : Nat} (hC : C < SIZE_MOD) (calls : List (ArcCall K V)) :
    ∀ (c c1 : ArcCache K V) (S : List K), c.Inv C T S → c.lfuPart.Tidy →
      (∀ a ∈ calls, Admissible a.order) → c.run calls = some c1 → c1.lfuPart.Tidy := by
  induction calls with
  | nil =>
    intro c c1 S _ ht _ hrun
    simp only [ArcCache.run] at hrun
    rw [← Option.some.inj hrun]
    exact ht
  | cons a rest ih =>
    intro c c1 S hinv ht hadm hrun
    obtain ⟨c0, b, c2, -, hcall, hi2, -⟩ := ArcCache.call_spec c hinv hC a
    simp only [ArcCache.run, hcall, Option.some_bind] at hrun
    exact ih c2 c1 _ hi2
      (ArcCache.call_tidy c c2 hinv hC ht a (hadm a (List.mem_cons_self _ _)) hcall)
      (fun x hx => hadm x (List.mem_cons_of_mem _ hx)) hrun

end GhostClaims

/-! ## Runs of the partitions, `LruCache`, `LruKCache` and the locks -/

section PartRuns

variable {K V : Type} [DecidableEq K]

/-- Every call on the recency partition returns and keeps the invariant and the
threshold. -/
theorem ArcLruPart.call_inv (s : ArcLruPart K V) (hinv : s.Inv) (a : LruCall K V) :
    ∃ s1, s.call a = some s1 ∧ s1.Inv ∧ s1.transformThreshold = s.transformThreshold := by
  cases a with
  | put k v =>
    by_cases hcap : s.mainCapacity = 0
    · exact ⟨s, by simp [ArcLruPart.call, s.put_zero k v hcap], hinv, rfl⟩
    · obtain ⟨s1, y, hput, hi1, hfr, -⟩ := s.put_inv hinv k v hcap
      exact ⟨s1, by simp [ArcLruPart.call, hput], hi1, hfr.2.2.1⟩
  | get k out =>
    by_cases hhit : s.mainCapacity ≠ 0 ∧ (umFind s.mainCache k).isSome = true
    · obtain ⟨hcap, hsome⟩ := hhit
      obtain ⟨p, hp⟩ := Option.isSome_iff_exists.mp hsome
      obtain ⟨y, val, c, h1, -, -, -, hget, hi1, -⟩ := s.get_hit hinv k out false hcap hp
      exact ⟨_, by simp [ArcLruPart.call, hget], hi1, rfl⟩
    · have hmiss : s.mainCapacity = 0 ∨ umFind s.mainCache k = none := by
        by_cases h0 : s.mainCapacity = 0
        · exact Or.inl h0
        · right
          cases hf : umFind s.mainCache k with
          | none => rfl
          | some p => exact absurd ⟨h0, by simp [hf]⟩ hhit
      exact ⟨s, by simp [ArcLruPart.call, s.get_miss k out false hmiss], hinv, rfl⟩
  | checkGhost k =>
    cases hf : umFind s.ghostCache k with
    | none => exact ⟨s, by simp [ArcLruPart.call, s.checkGhost_miss k hf], hinv, rfl⟩
    | some p =>
      obtain ⟨s1, g, val, hcg, hi1, hfr, -⟩ := s.checkGhost_hit hinv k hf
      exact ⟨s1, by simp [ArcLruPart.call, hcg], hi1, hfr.2.2.1⟩
  | increaseCapacity => exact ⟨_, rfl, s.increaseCapacity_inv hinv, rfl⟩
  | decreaseCapacity =>
    by_cases hcap : s.mainCapacity = 0
    · exact ⟨s, by simp [ArcLruPart.call, s.decreaseCapacity_zero hcap], hinv, rfl⟩
    · obtain ⟨s1, hdec, hi1, -, -, hlt, -⟩ := s.decreaseCapacity_inv hinv hcap
      exact ⟨s1, by simp [ArcLruPart.call, hdec], hi1, hlt⟩

/-- Every list of calls on the recency partition returns and keeps the invariant and the
threshold. -/
theorem ArcLruPart.run_inv (calls : List (LruCall K V)) :
    ∀ s : ArcLruPart K V, s.Inv →
      ∃ s1, s.run calls = some s1 ∧ s1.Inv ∧ s1.transformThreshold = s.transformThreshold := by
  induction calls with
  | nil =>
    intro s hinv
    exact ⟨s, rfl, hinv, rfl⟩
  | cons a rest ih =>
    intro s hinv
    obtain ⟨s1, hcall, hi1, ht1⟩ := s.call_inv hinv a
    obtain ⟨s2, hrun, hi2, ht2⟩ := ih s1 hi1
    exact ⟨s2, by simp [ArcLruPart.run, hcall, hrun], hi2, by rw [ht2, ht1]⟩

/-- The invariant holds in every state of the recency partition reached from the
constructor. -/
theorem ArcLruPart.lru_reachedBy_inv [Inhabited K] [Inhabited V] {c T : Nat}
    {calls : List (LruCall K V)} {s : ArcLruPart K V} (hr : ArcLruPart.ReachedBy c T calls s) :
    s.Inv ∧ s.transformThreshold = T := by
  obtain ⟨s1, hrun, hi1, ht1⟩ := ArcLruPart.run_inv calls (ArcLruPart.create c T : ArcLruPart K V)
    (ArcLruPart.create_inv c T)
  unfold ArcLruPart.ReachedBy at hr
  rw [hr] at hrun
  rw [Option.some.inj hrun]
  exact ⟨hi1, ht1⟩

/-- The states after `put(k, v)` created the entry of `k` and `j` calls `get(k)` were
made: the access count of the entry is `1 + j` modulo `2 ^ 64`. -/
theorem ArcLruPart.run_on_key (k : K) (more : List (LruCall K V)) :
    ∀ (s : ArcLruPart K V) (j : Nat), s.Inv → s.mainCapacity ≠ 0 →
      (∃ y, umFind s.mainCache k = some (some y) ∧
        hCount s.heap y = some ((1 + j) % SIZE_MOD)) →
      (∀ a ∈ more, LruCall.onKey k a) →
      ∃ s1, s.run more = some s1 ∧ s1.Inv ∧ s1.mainCapacity ≠ 0 ∧
        s1.transformThreshold = s.transformThreshold ∧
        ∃ y, umFind s1.mainCache k = some (some y) ∧
          hCount s1.heap y = some ((1 + (j + LruCall.gets more)) % SIZE_MOD) := by
  induction more with
  | nil =>
    intro s j hinv hcap hy _
    exact ⟨s, rfl, hinv, hcap, rfl, hy⟩
  | cons a rest ih =>
    intro s j hinv hcap hy hon
    obtain ⟨y, hmy, hcy⟩ := hy
    have ha := hon a (List.mem_cons_self _ _)
    have hrest : ∀ b ∈ rest, LruCall.onKey k b := fun b hb => hon b (List.mem_cons_of_mem _ hb)
    cases a with
    | put k1 v1 =>
      simp only [LruCall.onKey] at ha
      subst ha
      obtain ⟨s1, y1, hput, hi1, hfr, hmk, -, -, -, -, hc1, -⟩ := s.put_inv hinv k1 v1 hcap
      obtain ⟨e, hcnt⟩ := hc1 y hmy
      obtain ⟨s2, hrun, hi2, hcap2, ht2, hy2⟩ := ih s1 j hi1 (by rw [hfr.1]; exact hcap)
        ⟨y1, hmk, by rw [hcnt]; exact hcy⟩ hrest
      refine ⟨s2, by simp [ArcLruPart.run, ArcLruPart.call, hput, hrun], hi2, hcap2,
        by rw [ht2, hfr.2.2.1], ?_⟩
      simpa [LruCall.gets] using hy2
    | get k1 o1 =>
      simp only [LruCall.onKey] at ha
      subst ha
      obtain ⟨y1, val, c, h1, hp, -, hc, hget, hi1, -, -, -, hcnt, -, -⟩ :=
        s.get_hit hinv k1 o1 false hcap hmy
      have e := Option.some.inj hp
      subst e
      rw [hcy] at hc
      have hc2 := Option.some.inj hc
      have hmod : (c + 1) % SIZE_MOD = (1 + (j + 1)) % SIZE_MOD := by
        rw [← hc2]
        unfold SIZE_MOD
        omega
      obtain ⟨s2, hrun, hi2, hcap2, ht2, hy2⟩ := ih { s with heap := h1 } (j + 1) hi1 hcap
        ⟨y, hmy, by rw [hcnt, hmod]⟩ hrest
      refine ⟨s2, by simp [ArcLruPart.run, ArcLruPart.call, hget, hrun], hi2, hcap2, ht2, ?_⟩
      obtain ⟨y2, hm2, hc2⟩ := hy2
      refine ⟨y2, hm2, ?_⟩
      rw [hc2]
      simp only [LruCall.gets]
      congr 2
      omega
    | checkGhost k1 => exact absurd ha (by simp [LruCall.onKey])
    | increaseCapacity => exact absurd ha (by simp [LruCall.onKey])
    | decreaseCapacity => exact absurd ha (by simp [LruCall.onKey])

end PartRuns

section LruClaims

variable {K V : Type} [DecidableEq K] [Inhabited K] [Inhabited V]

/-- C24: in every state of the recency partition reached from `ArcLruPart(c, T)` with a
capacity of at least 1: `get` on a key of the main index returns `true` and the value of
the entry, makes the entry the one before the tail sentinel, raises its access count by
one (`accessCount++` on a `size_t`, so modulo `2 ^ 64`) and reports whether the new count
is at least `T`; `get` on a key that is not in the main index returns `false` and changes
nothing; `put` of a key that is not in the main index makes an entry with access count 1
and `put` of a key of the main index keeps the count.  Hence, after the `put` that
creates the entry and any `put` and `get` calls of the same key, the next `get`, which is
the `i`-th one with `i = gets + 1`, reports whether `(i + 1) mod 2 ^ 64 >= T`, which is
`i + 1 >= T` as long as `i + 1 < 2 ^ 64`. -/
theorem ArcLruPart.get_counts_accesses (c T : Nat) (calls : List (LruCall K V))
    (s : ArcLruPart K V) (hr : ArcLruPart.ReachedBy c T calls s) (hcap : 1 ≤ s.mainCapacity)
    (k : K) (v out : V) :
    s.transformThreshold = T ∧ s.mainTail = some 1 ∧
    (∀ p, umFind s.mainCache k = some p →
      ∃ y val n h1, p = some y ∧ hValue s.heap y = some val ∧ hCount s.heap y = some n ∧
        s.get k out false = some ({ s with heap := h1 }, true, val,
          decide ((n + 1) % SIZE_MOD ≥ T)) ∧
        hCount h1 y = some ((n + 1) % SIZE_MOD) ∧ hPrev h1 1 = some y ∧
        (∀ i, hValue h1 i = hValue s.heap i) ∧ (∀ i, hKey h1 i = hKey s.heap i) ∧
        (∀ i, i ≠ y → hCount h1 i = hCount s.heap i)) ∧
    (umFind s.mainCache k = none → ∀ st, s.get k out st = some (s, false, out, st)) ∧
    (∃ s1 y, s.put k v = some (s1, true) ∧ umFind s1.mainCache k = some (some y) ∧
      (umFind s.mainCache k = none → hCount s1.heap y = some 1) ∧
      (∀ y0, umFind s.mainCache k = some (some y0) →
        y = y0 ∧ hCount s1.heap y = hCount s.heap y0)) ∧
    (umFind s.mainCache k = none → ∀ more : List (LruCall K V),
      (∀ a ∈ more, LruCall.onKey k a) →
      ∃ s1 s2 s3 val, s.put k v = some (s1, true) ∧ s1.run more = some s2 ∧
        s2.get k out false = some (s3, true, val,
          decide ((LruCall.gets more + 2) % SIZE_MOD ≥ T)) ∧
        (LruCall.gets more + 2 < SIZE_MOD →
          s2.get k out false = some (s3, true, val, decide (LruCall.gets more + 2 ≥ T)))) := by
  obtain ⟨hinv, hT⟩ := ArcLruPart.lru_reachedBy_inv hr
  have hcap0 : s.mainCapacity ≠ 0 := by omega
  refine ⟨hT, hinv.1.2.1, ?_, ?_, ?_, ?_⟩
  · intro p hp
    obtain ⟨y, val, n, h1, hpy, hval, hcnt, hget, -, -, hkeys, hvals, hc1, hco, hpn⟩ :=
      s.get_hit hinv k out false hcap0 hp
    have hd : decide ((n + 1) % SIZE_MOD ≥ s.transformThreshold)
        = decide ((n + 1) % SIZE_MOD ≥ T) := by rw [hT]
    rw [hd] at hget
    exact ⟨y, val, n, h1, hpy, hval, hcnt, hget, hc1, hpn, hvals, hkeys, hco⟩
  · intro hnone st
    exact s.get_miss k out st (Or.inr hnone)
  · obtain ⟨s1, y, hput, -, -, hmk, -, -, -, -, hc1, hc2⟩ := s.put_inv hinv k v hcap0
    exact ⟨s1, y, hput, hmk, hc2, hc1⟩
  · intro hnone more hon
    obtain ⟨s1, y, hput, hi1, hfr, hmk, -, -, -, -, -, hc2⟩ := s.put_inv hinv k v hcap0
    have hone : (1 + 0) % SIZE_MOD = 1 := by decide
    obtain ⟨s2, hrun, hi2, hcap2, ht2, y2, hm2, hcnt2⟩ :=
      ArcLruPart.run_on_key k more s1 0 hi1 (by rw [hfr.1]; exact hcap0)
        ⟨y, hmk, by rw [hone]; exact hc2 hnone⟩ hon
    obtain ⟨y3, val, n, h1, hpy, -, hcnt, hget, -⟩ := s2.get_hit hi2 k out false hcap2 hm2
    have e := Option.some.inj hpy
    subst e
    rw [hcnt2] at hcnt
    have hn := Option.some.inj hcnt
    have hmod : (n + 1) % SIZE_MOD = (LruCall.gets more + 2) % SIZE_MOD := by
      rw [← hn]
      unfold SIZE_MOD
      omega
    rw [hmod, ht2, hfr.2.2.1, hT] at hget
    refine ⟨s1, s2, _, val, hput, hrun, hget, ?_⟩
    intro hlt
    rw [Nat.mod_eq_of_lt hlt] at hget
    exact hget

/-- C24 (witness): the partition `ArcLruPart(2, 3)` after `put(1, 10)`; the key 2 is then
put, and got after one more `put` and one `get`. -/
theorem ArcLruPart.get_counts_accesses_witness :
    (ArcLruPart.ReachedBy 2 3 [.put 1 10] (ArcLruPart.after 2 3 [.put 1 10]) ∧
      1 ≤ (ArcLruPart.after 2 3 [.put 1 10]).mainCapacity) ∧
    ∃ s1 s2 s3 val, (ArcLruPart.after 2 3 [.put 1 10]).put 2 20 = some (s1, true) ∧
      s1.run [.put 2 21, .get 2 0] = some s2 ∧
      s2.get 2 0 false = some (s3, true, val, true) := by
  have hr : ArcLruPart.ReachedBy 2 3 [.put 1 10] (ArcLruPart.after 2 3 [.put 1 10]) := by
    unfold ArcLruPart.ReachedBy
    decide!
  obtain ⟨-, -, -, -, -, h⟩ := ArcLruPart.get_counts_accesses 2 3 [.put 1 10]
    (ArcLruPart.after 2 3 [.put 1 10]) hr (by decide!) 2 20 0
  obtain ⟨s1, s2, s3, val, hput, hrun, hget, -⟩ := h (by decide!) [.put 2 21, .get 2 0]
    (by
      intro a ha
      simp only [List.mem_cons, List.mem_singleton, List.not_mem_nil, or_false] at ha
      rcases ha with e | e <;> subst e <;> rfl)
  exact ⟨⟨hr, by decide!⟩, s1, s2, s3, val, hput, hrun, hget⟩

/-- C25: the recency partition built by `ArcLruPart(1, 3)` after `put` of the keys 1, 2
and 3: the ghost index holds the key 1 and not the key 2, which was evicted last; the
main index holds the keys 2 and 3. -/
theorem ArcLruPart.ghost_keeps_first_evicted :
    ArcLruPart.ReachedBy 1 3 [.put 1 10, .put 2 20, .put 3 30]
        (ArcLruPart.after 1 3 [.put 1 10, .put 2 20, .put 3 30]) ∧
      (ArcLruPart.after 1 3 [.put 1 10, .put 2 20, .put 3 30]).ghostCapacity = 1 ∧
      (ArcLruPart.after 1 3 [.put 1 10, .put 2 20, .put 3 30]).ghostCache.map Prod.fst = [1] ∧
      umFind (ArcLruPart.after 1 3 [.put 1 10, .put 2 20, .put 3 30]).ghostCache 2 = none ∧
      (ArcLruPart.after 1 3 [.put 1 10, .put 2 20, .put 3 30]).mainCache.map Prod.fst
        = [2, 3] :=
  ⟨by unfold ArcLruPart.ReachedBy; decide!, by decide!, by decide!, by decide!, by decide!⟩

/-- C26: the recency partition built by `ArcLruPart(1, 3)` after `put(1, 10)` and
`put(2, 20)`: the main index holds the key 2 only, and the walk from the head sentinel
(cell 0) along `next` meets the node of key 1, then the node of key 2, then the tail
sentinel (cell 1). -/
theorem ArcLruPart.main_list_keeps_evicted :
    ArcLruPart.ReachedBy 1 3 [.put 1 10, .put 2 20]
        (ArcLruPart.after 1 3 [.put 1 10, .put 2 20]) ∧
      (ArcLruPart.after 1 3 [.put 1 10, .put 2 20]).mainCache.map Prod.fst = [2] ∧
      (ArcLruPart.after 1 3 [.put 1 10, .put 2 20]).mainHead = some 0 ∧
      (ArcLruPart.after 1 3 [.put 1 10, .put 2 20]).mainTail = some 1 ∧
      hNext (ArcLruPart.after 1 3 [.put 1 10, .put 2 20]).heap 0 = some 4 ∧
      hKey (ArcLruPart.after 1 3 [.put 1 10, .put 2 20]).heap 4 = some 1 ∧
      hNext (ArcLruPart.after 1 3 [.put 1 10, .put 2 20]).heap 4 = some 5 ∧
      hKey (ArcLruPart.after 1 3 [.put 1 10, .put 2 20]).heap 5 = some 2 ∧
      hNext (ArcLruPart.after 1 3 [.put 1 10, .put 2 20]).heap 5 = some 1 :=
  ⟨by unfold ArcLruPart.ReachedBy; decide!, by decide!, by decide!, by decide!, by decide!,
    by decide!, by decide!, by decide!, by decide!⟩

end LruClaims

section LfuRuns

variable {K V : Type} [DecidableEq K] [Inhabited K] [Inhabited V]

theorem lastKey_admissible : Admissible lastKey := by
  intro m hm
  unfold lastKey
  cases hl : m.getLast? with
  | none =>
    rw [List.getLast?_eq_none_iff] at hl
    exact absurd hl hm
  | some x =>
    obtain ⟨f, l⟩ := x
    obtain ⟨w, hw⟩ := umFind_isSome_of_mem (List.mem_of_getLast?_eq_some hl)
    simp only [hw]
    rfl

/-- Source `put` of the frequency partition, met with an admissible order, keeps the
buckets covering the main index. -/
theorem ArcLfuPart.put_buckets (order : FreqMap → Nat) (s s1 : ArcLfuPart K V) (hinv : s.Inv)
    (hb : Buckets s.mainCache s.freqListMap s.minFreq) (ha : Admissible order) (k : K) (v : V)
    {ok : Bool} (h : s.put order k v = some (s1, ok)) :
    Buckets s1.mainCache s1.freqListMap s1.minFreq := by
  by_cases hcap : s.mainCapacity = 0
  · rw [ArcLfuPart.lfu_put_zero order s k v hcap] at h
    rw [← (Prod.mk.inj (Option.some.inj h)).1]
    exact hb
  · cases hfk : umFind s.mainCache k with
    | some p =>
      obtain ⟨y, hp, hyl, -, -⟩ := hinv.2.2.2.1 k p (umFind_mem hfk)
      subst hp
      obtain ⟨c, hc⟩ := hCount_of_lt s.heap hyl
      rw [ArcLfuPart.put_eq order s k v hcap hfk hyl hc] at h
      rw [← (Prod.mk.inj (Option.some.inj h)).1]
      exact buckets_bump hb y c _ (succ_mod_ne c)
    | none =>
      obtain ⟨s0, h0, hadd, -, hi0, hfr, -, -, -, hk0, -⟩ :=
        ArcLfuPart.lfu_addNewNode_inv order s hinv k v hfk
      have hput : s.put order k v = some (s0.pushNew k v, true) := by
        unfold ArcLfuPart.put
        simp only [hcap, if_false, hfk, Option.bind_eq_bind, hadd, Option.some_bind,
          Option.pure_def]
      rw [hput] at h
      rw [← (Prod.mk.inj (Option.some.inj h)).1]
      have h0t : Buckets s0.mainCache s0.freqListMap s0.minFreq := by
        by_cases hfull : s.mainCache.length ≥ s.mainCapacity
        · rw [if_pos hfull] at h0
          have hne : s.mainCache ≠ [] := by
            intro e
            rw [e] at hfull
            simp at hfull
            exact hcap hfull
          exact (ArcLfuPart.evict_tidy order s s0 hinv hb ha hne h0).1
        · rw [if_neg hfull] at h0
          have e := Option.some.inj h0
          subst e
          exact hb
      exact buckets_push h0t k s0.heap.length

/-- Source `get` of the frequency partition keeps the buckets covering the main index. -/
theorem ArcLfuPart.get_buckets (s s1 : ArcLfuPart K V) (hinv : s.Inv)
    (hb : Buckets s.mainCache s.freqListMap s.minFreq) (k : K) (out : V) {r : Bool} {val : V}
    (h : s.get k out = some (s1, r, val)) :
    Buckets s1.mainCache s1.freqListMap s1.minFreq := by
  by_cases hmiss : s.mainCapacity = 0 ∨ umFind s.mainCache k = none
  · rw [ArcLfuPart.lfu_get_miss s k out hmiss] at h
    rw [← (Prod.mk.inj (Option.some.inj h)).1]
    exact hb
  · have hcap : s.mainCapacity ≠ 0 := fun e => hmiss (Or.inl e)
    cases hfk : umFind s.mainCache k with
    | none => exact absurd (Or.inr hfk) hmiss
    | some p =>
      obtain ⟨y, hp, hyl, -, -⟩ := hinv.2.2.2.1 k p (umFind_mem hfk)
      subst hp
      obtain ⟨c, hc⟩ := hCount_of_lt s.heap hyl
      obtain ⟨w, hw⟩ := hValue_of_lt s.heap hyl
      rw [ArcLfuPart.get_eq s k out hcap hfk hyl hc hw] at h
      rw [← (Prod.mk.inj (Option.some.inj h)).1]
      exact buckets_bump hb y c _ (succ_mod_ne c)

/-- Source `checkGhost` of the frequency partition keeps the buckets covering the main
index. -/
theorem ArcLfuPart.checkGhost_buckets (s s1 : ArcLfuPart K V) (hinv : s.Inv)
    (hb : Buckets s.mainCache s.freqListMap s.minFreq) (k : K) {b : Bool}
    (h : s.checkGhost k = some (s1, b)) :
    Buckets s1.mainCache s1.freqListMap s1.minFreq := by
  cases hf : umFind s.ghostCache k with
  | none =>
    rw [ArcLfuPart.lfu_checkGhost_miss s k hf] at h
    rw [← (Prod.mk.inj (Option.some.inj h)).1]
    exact hb
  | some p =>
    obtain ⟨l, hcg, -, -, -, -, -, hmain, -, hfm, hmf, -⟩ := s.lfu_checkGhost_hit hinv k hf
    rw [hcg] at h
    rw [← (Prod.mk.inj (Option.some.inj h)).1, hmain, hfm, hmf]
    exact hb

/-- Source `decreaseCapacity` of the frequency partition, met with an admissible order,
keeps the buckets covering the main index. -/
theorem ArcLfuPart.decreaseCapacity_buckets (order : FreqMap → Nat) (s s1 : ArcLfuPart K V)
    (hinv : s.Inv) (hb : Buckets s.mainCache s.freqListMap s.minFreq) (ha : Admissible order)
    {ok : Bool} (h : s.decreaseCapacity order = some (s1, ok)) :
    Buckets s1.mainCache s1.freqListMap s1.minFreq := by
  by_cases hcap : s.mainCapacity = 0
  · rw [ArcLfuPart.lfu_decreaseCapacity_zero order s hcap] at h
    rw [← (Prod.mk.inj (Option.some.inj h)).1]
    exact hb
  · unfold ArcLfuPart.decreaseCapacity at h
    simp only [hcap, if_false, Option.bind_eq_bind, Option.pure_def] at h
    by_cases hfull : s.mainCapacity = s.mainCache.length
    · simp only [hfull, if_true] at h
      obtain ⟨s0, he, -⟩ := ArcLfuPart.evictLeastFrequent_inv order s hinv
      have hne : s.mainCache ≠ [] := by
        intro e
        rw [e] at hfull
        exact hcap hfull
      have hb0 := (ArcLfuPart.evict_tidy order s s0 hinv hb ha hne he).1
      rw [he] at h
      simp only [Option.some_bind] at h
      rw [← (Prod.mk.inj (Option.some.inj h)).1]
      exact hb0
    · simp only [hfull, if_false, Option.some_bind] at h
      rw [← (Prod.mk.inj (Option.some.inj h)).1]
      exact hb

/-- Every call on the frequency partition returns and keeps the invariant. -/
theorem ArcLfuPart.lfu_call_inv (s : ArcLfuPart K V) (hinv : s.Inv) (a : LfuCall K V) :
    ∃ s1, s.call a = some s1 ∧ s1.Inv := by
  cases a with
  | put order k v =>
    by_cases hcap : s.mainCapacity = 0
    · exact ⟨s, by simp [ArcLfuPart.call, s.lfu_put_zero order k v hcap], hinv⟩
    · obtain ⟨s1, y, hput, hi1, -⟩ := s.lfu_put_inv order hinv k v hcap
      exact ⟨s1, by simp [ArcLfuPart.call, hput], hi1⟩
  | get k out =>
    by_cases hhit : s.mainCapacity ≠ 0 ∧ (umFind s.mainCache k).isSome = true
    · obtain ⟨hcap, hsome⟩ := hhit
      obtain ⟨p, hp⟩ := Option.isSome_iff_exists.mp hsome
      obtain ⟨y, val, s1, -, -, hget, hi1, -⟩ := s.lfu_get_hit hinv k out hcap hp
      exact ⟨s1, by simp [ArcLfuPart.call, hget], hi1⟩
    · have hmiss : s.mainCapacity = 0 ∨ umFind s.mainCache k = none := by
        by_cases h0 : s.mainCapacity = 0
        · exact Or.inl h0
        · right
          cases hf : umFind s.mainCache k with
          | none => rfl
          | some p => exact absurd ⟨h0, by simp [hf]⟩ hhit
      exact ⟨s, by simp [ArcLfuPart.call, s.lfu_get_miss k out hmiss], hinv⟩
  | checkGhost k =>
    cases hf : umFind s.ghostCache k with
    | none => exact ⟨s, by simp [ArcLfuPart.call, s.lfu_checkGhost_miss k hf], hinv⟩
    | some p =>
      obtain ⟨s1, hcg, hi1, -⟩ := s.lfu_checkGhost_hit hinv k hf
      exact ⟨s1, by simp [ArcLfuPart.call, hcg], hi1⟩
  | increaseCapacity => exact ⟨_, rfl, s.lfu_increaseCapacity_inv hinv⟩
  | decreaseCapacity order =>
    by_cases hcap : s.mainCapacity = 0
    · exact ⟨s, by simp [ArcLfuPart.call, s.lfu_decreaseCapacity_zero order hcap], hinv⟩
    · obtain ⟨s1, hdec, hi1, -⟩ := s.lfu_decreaseCapacity_inv order hinv hcap
      exact ⟨s1, by simp [ArcLfuPart.call, hdec], hi1⟩

/-- A call on the frequency partition met with an admissible order keeps the buckets
covering the main index. -/
theorem ArcLfuPart.call_buckets (s s1 : ArcLfuPart K V) (hinv : s.Inv)
    (hb : Buckets s.mainCache s.freqListMap s.minFreq) (a : LfuCall K V) (ha : a.Admissible)
    (h : s.call a = some s1) : Buckets s1.mainCache s1.freqListMap s1.minFreq := by
  cases a with
  | put order k v =>
    simp only [ArcLfuPart.call] at h
    cases hp : s.put order k v with
    | none => rw [hp] at h; simp at h
    | some r =>
      obtain ⟨s2, ok⟩ := r
      rw [hp] at h
      simp at h
      subst h
      exact ArcLfuPart.put_buckets order s s2 hinv hb ha k v hp
  | get k out =>
    simp only [ArcLfuPart.call] at h
    cases hp : s.get k out with
    | none => rw [hp] at h; simp at h
    | some r =>
      obtain ⟨s2, r1, val⟩ := r
      rw [hp] at h
      simp at h
      subst h
      exact ArcLfuPart.get_buckets s s2 hinv hb k out hp
  | checkGhost k =>
    simp only [ArcLfuPart.call] at h
    cases hp : s.checkGhost k with
    | none => rw [hp] at h; simp at h
    | some r =>
      obtain ⟨s2, b⟩ := r
      rw [hp] at h
      simp at h
      subst h
      exact ArcLfuPart.checkGhost_buckets s s2 hinv hb k hp
  | increaseCapacity =>
    simp only [ArcLfuPart.call] at h
    rw [← Option.some.inj h]
    exact hb
  | decreaseCapacity order =>
    simp only [ArcLfuPart.call] at h
    cases hp : s.decreaseCapacity order with
    | none => rw [hp] at h; simp at h
    | some r =>
      obtain ⟨s2, ok⟩ := r
      rw [hp] at h
      simp at h
      subst h
      exact ArcLfuPart.decreaseCapacity_buckets order s s2 hinv hb ha hp

/-- The capacity after a call on the frequency partition: one more after
`increaseCapacity` (modulo `2 ^ 64`), not more than before after any other call. -/
theorem ArcLfuPart.call_capacity (s s1 : ArcLfuPart K V) (hinv : s.Inv) (a : LfuCall K V)
    (h : s.call a = some s1) :
    s1.mainCapacity + LfuCall.increases [a] ≤ s.mainCapacity + 2 * LfuCall.increases [a] ∧
      (s.mainCapacity + LfuCall.increases [a] < SIZE_MOD →
        s1.mainCapacity ≤ s.mainCapacity + LfuCall.increases [a]) := by
  cases a with
  | put order k v =>
    simp only [ArcLfuPart.call] at h
    by_cases hcap : s.mainCapacity = 0
    · rw [s.lfu_put_zero order k v hcap] at h
      simp at h
      subst h
      simp [LfuCall.increases]
    · obtain ⟨s2, y, hput, -, hfr, -⟩ := s.lfu_put_inv order hinv k v hcap
      rw [hput] at h
      simp at h
      subst h
      simp [LfuCall.increases, hfr.1]
  | get k out =>
    simp only [ArcLfuPart.call] at h
    by_cases hhit : s.mainCapacity ≠ 0 ∧ (umFind s.mainCache k).isSome = true
    · obtain ⟨hcap, hsome⟩ := hhit
      obtain ⟨p, hp⟩ := Option.isSome_iff_exists.mp hsome
      obtain ⟨y, val, s2, -, -, hget, -, hfr, -⟩ := s.lfu_get_hit hinv k out hcap hp
      rw [hget] at h
      simp at h
      subst h
      simp [LfuCall.increases, hfr.1]
    · have hmiss : s.mainCapacity = 0 ∨ umFind s.mainCache k = none := by
        by_cases h0 : s.mainCapacity = 0
        · exact Or.inl h0
        · right
          cases hf : umFind s.mainCache k with
          | none => rfl
          | some p => exact absurd ⟨h0, by simp [hf]⟩ hhit
      rw [s.lfu_get_miss k out hmiss] at h
      simp at h
      subst h
      simp [LfuCall.increases]
  | checkGhost k =>
    simp only [ArcLfuPart.call] at h
    cases hf : umFind s.ghostCache k with
    | none =>
      rw [s.lfu_checkGhost_miss k hf] at h
      simp at h
      subst h
      simp [LfuCall.increases]
    | some p =>
      obtain ⟨s2, hcg, -, hfr, -⟩ := s.lfu_checkGhost_hit hinv k hf
      rw [hcg] at h
      simp at h
      subst h
      simp [LfuCall.increases, hfr.1]
  | increaseCapacity =>
    simp only [ArcLfuPart.call] at h
    rw [← Option.some.inj h]
    simp only [LfuCall.increases, ArcLfuPart.increaseCapacity]
    constructor
    · have := Nat.mod_le (s.mainCapacity + 1) SIZE_MOD
      omega
    · intro hlt
      rw [Nat.mod_eq_of_lt hlt]
  | decreaseCapacity order =>
    simp only [ArcLfuPart.call] at h
    by_cases hcap : s.mainCapacity = 0
    · rw [s.lfu_decreaseCapacity_zero order hcap] at h
      simp at h
      subst h
      simp [LfuCall.increases]
    · obtain ⟨s2, hdec, -, hc, -⟩ := s.lfu_decreaseCapacity_inv order hinv hcap
      rw [hdec] at h
      simp at h
      subst h
      simp only [LfuCall.increases]
      omega

end LfuRuns

section LfuClaims

variable {K V : Type} [DecidableEq K] [Inhabited K] [Inhabited V]

/-- Every list of calls on the frequency partition returns and keeps the invariant. -/
theorem ArcLfuPart.lfu_run_inv (calls : List (LfuCall K V)) :
    ∀ s : ArcLfuPart K V, s.Inv → ∃ s1, s.run calls = some s1 ∧ s1.Inv := by
  induction calls with
  | nil =>
    intro s hinv
    exact ⟨s, rfl, hinv⟩
  | cons a rest ih =>
    intro s hinv
    obtain ⟨s1, hcall, hi1⟩ := s.lfu_call_inv hinv a
    obtain ⟨s2, hrun, hi2⟩ := ih s1 hi1
    exact ⟨s2, by simp [ArcLfuPart.run, hcall, hrun], hi2⟩

/-- The invariant holds in every state of the frequency partition reached from the
constructor. -/
theorem ArcLfuPart.lfu_reachedBy_inv {c T : Nat} {calls : List (LfuCall K V)}
    {s : ArcLfuPart K V} (hr : ArcLfuPart.ReachedBy c T calls s) : s.Inv := by
  obtain ⟨s1, hrun, hi1⟩ := ArcLfuPart.lfu_run_inv calls (ArcLfuPart.create c T : ArcLfuPart K V)
    (ArcLfuPart.lfu_create_inv c T)
  unfold ArcLfuPart.ReachedBy at hr
  rw [hr] at hrun
  rw [Option.some.inj hrun]
  exact hi1

/-- Calls met with admissible orders keep the buckets covering the main index. -/
theorem ArcLfuPart.run_buckets (calls : List (LfuCall K V)) :
    ∀ s : ArcLfuPart K V, s.Inv → Buckets s.mainCache s.freqListMap s.minFreq →
      (∀ a ∈ calls, a.Admissible) →
      ∃ s1, s.run calls = some s1 ∧ s1.Inv ∧
        Buckets s1.mainCache s1.freqListMap s1.minFreq := by
  induction calls with
  | nil =>
    intro s hinv hb _
    exact ⟨s, rfl, hinv, hb⟩
  | cons a rest ih =>
    intro s hinv hb hadm
    obtain ⟨s1, hcall, hi1⟩ := s.lfu_call_inv hinv a
    have hb1 := ArcLfuPart.call_buckets s s1 hinv hb a (hadm a (List.mem_cons_self _ _)) hcall
    obtain ⟨s2, hrun, hi2, hb2⟩ := ih s1 hi1 hb1
      (fun x hx => hadm x (List.mem_cons_of_mem _ hx))
    exact ⟨s2, by simp [ArcLfuPart.run, hcall, hrun], hi2, hb2⟩

theorem LfuCall.increases_cons (a : LfuCall K V) (rest : List (LfuCall K V)) :
    LfuCall.increases (a :: rest) = LfuCall.increases [a] + LfuCall.increases rest := by
  cases a <;> simp [LfuCall.increases]
  omega

/-- A call on the frequency partition met with an admissible order, in which the
capacity does not wrap, keeps the main index within the capacity. -/
theorem ArcLfuPart.call_size (s s1 : ArcLfuPart K V) (hinv : s.Inv) (ht : s.Tidy)
    (a : LfuCall K V) (ha : a.Admissible)
    (hno : s.mainCapacity + LfuCall.increases [a] < SIZE_MOD) (h : s.call a = some s1) :
    s1.Tidy := by
  cases a with
  | put order k v =>
    simp only [ArcLfuPart.call] at h
    cases hp : s.put order k v with
    | none => rw [hp] at h; simp at h
    | some r =>
      obtain ⟨s2, ok⟩ := r
      rw [hp] at h
      simp at h
      subst h
      exact ArcLfuPart.put_tidy order s s2 hinv ht ha k v hp
  | get k out =>
    simp only [ArcLfuPart.call] at h
    cases hp : s.get k out with
    | none => rw [hp] at h; simp at h
    | some r =>
      obtain ⟨s2, r1, val⟩ := r
      rw [hp] at h
      simp at h
      subst h
      exact ArcLfuPart.get_tidy s s2 hinv ht k out hp
  | checkGhost k =>
    simp only [ArcLfuPart.call] at h
    cases hp : s.checkGhost k with
    | none => rw [hp] at h; simp at h
    | some r =>
      obtain ⟨s2, b⟩ := r
      rw [hp] at h
      simp at h
      subst h
      exact ArcLfuPart.checkGhost_tidy s s2 hinv ht k hp
  | increaseCapacity =>
    simp only [ArcLfuPart.call] at h
    rw [← Option.some.inj h]
    refine ⟨ht.1, ?_⟩
    show s.mainCache.length ≤ (s.mainCapacity + 1) % SIZE_MOD
    simp only [LfuCall.increases] at hno
    rw [Nat.mod_eq_of_lt hno]
    have := ht.2
    omega
  | decreaseCapacity order =>
    simp only [ArcLfuPart.call] at h
    cases hp : s.decreaseCapacity order with
    | none => rw [hp] at h; simp at h
    | some r =>
      obtain ⟨s2, ok⟩ := r
      rw [hp] at h
      simp at h
      subst h
      exact ArcLfuPart.decreaseCapacity_tidy order s s2 hinv ht ha hp

/-- Calls met with admissible orders, in which the capacity does not wrap, keep the main
index within the capacity. -/
theorem ArcLfuPart.run_size (calls : List (LfuCall K V)) :
    ∀ s : ArcLfuPart K V, s.Inv → s.Tidy → (∀ a ∈ calls, a.Admissible) →
      s.mainCapacity + LfuCall.increases calls < SIZE_MOD →
      ∃ s1, s.run calls = some s1 ∧ s1.Inv ∧ s1.Tidy := by
  induction calls with
  | nil =>
    intro s hinv ht _ _
    exact ⟨s, rfl, hinv, ht⟩
  | cons a rest ih =>
    intro s hinv ht hadm hno
    rw [LfuCall.increases_cons] at hno
    obtain ⟨s1, hcall, hi1⟩ := s.lfu_call_inv hinv a
    have ht1 := ArcLfuPart.call_size s s1 hinv ht a (hadm a (List.mem_cons_self _ _))
      (by omega) hcall
    have hc := (ArcLfuPart.call_capacity s s1 hinv a hcall).2 (by omega)
    obtain ⟨s2, hrun, hi2, ht2⟩ := ih s1 hi1 ht1
      (fun x hx => hadm x (List.mem_cons_of_mem _ hx)) (by omega)
    exact ⟨s2, by simp [ArcLfuPart.run, hcall, hrun], hi2, ht2⟩

/-- The calls `increaseCapacity()` made `n` times in a row. -/
theorem ArcLfuPart.run_increase (n : Nat) :
    ∀ s : ArcLfuPart K V, s.mainCapacity < SIZE_MOD →
      s.run (List.replicate n LfuCall.increaseCapacity)
        = some { s with mainCapacity := (s.mainCapacity + n) % SIZE_MOD } := by
  induction n with
  | zero =>
    intro s hlt
    simp only [List.replicate, ArcLfuPart.run, Nat.add_zero, Nat.mod_eq_of_lt hlt]
  | succ n ih =>
    intro s hlt
    have hlt1 : s.increaseCapacity.mainCapacity < SIZE_MOD :=
      Nat.mod_lt _ (by unfold SIZE_MOD; omega)
    simp only [List.replicate, ArcLfuPart.run, ArcLfuPart.call, Option.some_bind,
      ih s.increaseCapacity hlt1]
    simp only [ArcLfuPart.increaseCapacity]
    congr 2
    unfold SIZE_MOD
    omega

end LfuClaims

section LfuClaims2

variable {K V : Type} [DecidableEq K] [Inhabited K] [Inhabited V]

/-- C27: `minFreq` after `decreaseCapacity()` emptied the bucket of `minFreq` is the
frequency `freqListMap.begin()` yields, which need not be the smallest.  With
`ArcLfuPart(3, 3)`: after `put` of the keys 1, 2, 3, `get(2)`, `get(3)`, `get(3)` and
`decreaseCapacity()`, when `begin()` is the bucket inserted last, `minFreq` is 3 while
the key 2 has access count 2; after `put(1)`, `get(1)`, `get(1)`, `put(2)`, `get(2)`,
`put(3)` and `decreaseCapacity()`, when `begin()` is the bucket inserted first, `minFreq`
is 3 while the key 2 has access count 2. -/
theorem ArcLfuPart.minFreq_not_smallest :
    (Admissible lastKey ∧
      ArcLfuPart.ReachedBy 3 3
        [.put lastKey 1 10, .put lastKey 2 20, .put lastKey 3 30, .get 2 0, .get 3 0,
          .get 3 0, .decreaseCapacity lastKey]
        (ArcLfuPart.after 3 3
          [.put lastKey 1 10, .put lastKey 2 20, .put lastKey 3 30, .get 2 0, .get 3 0,
            .get 3 0, .decreaseCapacity lastKey]) ∧
      (ArcLfuPart.after 3 3
        [.put lastKey 1 10, .put lastKey 2 20, .put lastKey 3 30, .get 2 0, .get 3 0,
          .get 3 0, .decreaseCapacity lastKey]).minFreq = 3 ∧
      umFind (ArcLfuPart.after 3 3
        [.put lastKey 1 10, .put lastKey 2 20, .put lastKey 3 30, .get 2 0, .get 3 0,
          .get 3 0, .decreaseCapacity lastKey]).mainCache 2 = some (some 3) ∧
      hCount (ArcLfuPart.after 3 3
        [.put lastKey 1 10, .put lastKey 2 20, .put lastKey 3 30, .get 2 0, .get 3 0,
          .get 3 0, .decreaseCapacity lastKey]).heap 3 = some 2) ∧
    (Admissible firstKey ∧
      ArcLfuPart.ReachedBy 3 3
        [.put firstKey 1 10, .get 1 0, .get 1 0, .put firstKey 2 20, .get 2 0,
          .put firstKey 3 30, .decreaseCapacity firstKey]
        (ArcLfuPart.after 3 3
          [.put firstKey 1 10, .get 1 0, .get 1 0, .put firstKey 2 20, .get 2 0,
            .put firstKey 3 30, .decreaseCapacity firstKey]) ∧
      (ArcLfuPart.after 3 3
        [.put firstKey 1 10, .get 1 0, .get 1 0, .put firstKey 2 20, .get 2 0,
          .put firstKey 3 30, .decreaseCapacity firstKey]).minFreq = 3 ∧
      umFind (ArcLfuPart.after 3 3
        [.put firstKey 1 10, .get 1 0, .get 1 0, .put firstKey 2 20, .get 2 0,
          .put firstKey 3 30, .decreaseCapacity firstKey]).mainCache 2 = some (some 3) ∧
      hCount (ArcLfuPart.after 3 3
        [.put firstKey 1 10, .get 1 0, .get 1 0, .put firstKey 2 20, .get 2 0,
          .put firstKey 3 30, .decreaseCapacity firstKey]).heap 3 = some 2) :=
  ⟨⟨lastKey_admissible, by unfold ArcLfuPart.ReachedBy; decide!, by decide!, by decide!,
      by decide!⟩,
    ⟨firstKey_admissible, by unfold ArcLfuPart.ReachedBy; decide!, by decide!, by decide!,
      by decide!⟩⟩

/-- C28: after every list of calls on the frequency partition built by `ArcLfuPart(c, T)`
that met admissible iteration orders, the buckets partition the main index: every entry
of the main index is in the bucket of its access count, once, and in no other bucket;
every member of a bucket is the entry of its key in the main index and has the bucket's
frequency as access count; no bucket is empty. -/
theorem ArcLfuPart.buckets_partition_main (c T : Nat) (calls : List (LfuCall K V))
    (hadm : ∀ a ∈ calls, a.Admissible) :
    ∃ s : ArcLfuPart K V, (ArcLfuPart.create c T).run calls = some s ∧
      (∀ k p, umFind s.mainCache k = some p → ∃ i n l, p = some i ∧
        hCount s.heap i = some n ∧ umFind s.freqListMap n = some l ∧ some i ∈ l ∧
        l.Nodup ∧
        ∀ f l1, umFind s.freqListMap f = some l1 → some i ∈ l1 → f = n) ∧
      (∀ f l p, umFind s.freqListMap f = some l → p ∈ l → ∃ i k, p = some i ∧
        hKey s.heap i = some k ∧ umFind s.mainCache k = some (some i) ∧
        hCount s.heap i = some f) ∧
      (∀ f l, umFind s.freqListMap f = some l → l ≠ []) := by
  obtain ⟨s, hrun, hinv, hb⟩ := ArcLfuPart.run_buckets calls
    (ArcLfuPart.create c T : ArcLfuPart K V) (ArcLfuPart.lfu_create_inv c T)
    (ArcLfuPart.create_tidy c T).1 hadm
  have hfo := hinv.2.2.2.2
  refine ⟨s, hrun, ?_, ?_, hb.2.1⟩
  · intro k p hp
    obtain ⟨i, hpi, -⟩ := hinv.2.2.2.1 k p (umFind_mem hp)
    subst hpi
    obtain ⟨f, l, hl, hil⟩ := hb.1 k i hp
    obtain ⟨hnd, hall⟩ := hfo f l hl
    obtain ⟨i1, k1, e1, -, -, hc1, -⟩ := hall (some i) hil
    have e := Option.some.inj e1
    subst e
    refine ⟨i, f, l, rfl, hc1, hl, hil, hnd, ?_⟩
    intro f2 l2 hl2 hil2
    obtain ⟨i2, k2, e2, -, -, hc2, -⟩ := (hfo f2 l2 hl2).2 (some i) hil2
    have e := Option.some.inj e2
    subst e
    rw [hc1] at hc2
    exact (Option.some.inj hc2).symm
  · intro f l p hl hp
    obtain ⟨i, k, e1, -, -, hc, hk, hm⟩ := (hfo f l hl).2 p hp
    exact ⟨i, k, e1, hk, hm, hc⟩

theorem lfu_calls_admissible_example :
    ∀ a ∈ [LfuCall.put firstKey 1 10, LfuCall.put firstKey 2 20, LfuCall.get 1 0,
      LfuCall.put firstKey 3 (30 : Nat)], a.Admissible := by
  intro a ha
  simp only [List.mem_cons, List.mem_singleton, List.not_mem_nil, or_false] at ha
  rcases ha with e | e | e | e <;> subst e
  · exact firstKey_admissible
  · exact firstKey_admissible
  · trivial
  · exact firstKey_admissible

/-- C28 (witness): `ArcLfuPart(2, 3)` with `put(1)`, `put(2)`, `get(1)`, `put(3)`. -/
theorem ArcLfuPart.buckets_partition_main_witness :
    (∀ a ∈ [LfuCall.put firstKey 1 10, LfuCall.put firstKey 2 20, LfuCall.get 1 0,
        LfuCall.put firstKey 3 (30 : Nat)], a.Admissible) ∧
    ∃ s : ArcLfuPart Nat Nat, (ArcLfuPart.create 2 3).run
        [.put firstKey 1 10, .put firstKey 2 20, .get 1 0, .put firstKey 3 30] = some s ∧
      (∀ k p, umFind s.mainCache k = some p → ∃ i n l, p = some i ∧
        hCount s.heap i = some n ∧ umFind s.freqListMap n = some l ∧ some i ∈ l ∧
        l.Nodup ∧
        ∀ f l1, umFind s.freqListMap f = some l1 → some i ∈ l1 → f = n) ∧
      (∀ f l p, umFind s.freqListMap f = some l → p ∈ l → ∃ i k, p = some i ∧
        hKey s.heap i = some k ∧ umFind s.mainCache k = some (some i) ∧
        hCount s.heap i = some f) ∧
      (∀ f l, umFind s.freqListMap f = some l → l ≠ []) :=
  ⟨lfu_calls_admissible_example,
    ArcLfuPart.buckets_partition_main 2 3 _ lfu_calls_admissible_example⟩

/-- C29 (amended): after every list of calls on the frequency partition built by
`ArcLfuPart(c, T)` that met admissible iteration orders and in which `mainCapacity++` did
not wrap (`c` plus the number of `increaseCapacity` calls is below `2 ^ 64`), the number
of keys in the main index is at most `mainCapacity`. -/
theorem ArcLfuPart.main_within_capacity (c T : Nat) (calls : List (LfuCall K V))
    (hadm : ∀ a ∈ calls, a.Admissible) (hno : c + LfuCall.increases calls < SIZE_MOD) :
    ∃ s : ArcLfuPart K V, (ArcLfuPart.create c T).run calls = some s ∧
      s.mainCache.length ≤ s.mainCapacity := by
  obtain ⟨s, hrun, -, ht⟩ := ArcLfuPart.run_size calls
    (ArcLfuPart.create c T : ArcLfuPart K V) (ArcLfuPart.lfu_create_inv c T)
    (ArcLfuPart.create_tidy c T) hadm hno
  exact ⟨s, hrun, ht.2⟩

theorem lfu_calls_admissible_example2 :
    ∀ a ∈ [LfuCall.put firstKey 1 10, LfuCall.put firstKey 2 20, LfuCall.increaseCapacity,
      LfuCall.put firstKey 3 (30 : Nat), LfuCall.decreaseCapacity firstKey],
      a.Admissible := by
  intro a ha
  simp only [List.mem_cons, List.mem_singleton, List.not_mem_nil, or_false] at ha
  rcases ha with e | e | e | e | e <;> subst e
  · exact firstKey_admissible
  · exact firstKey_admissible
  · trivial
  · exact firstKey_admissible
  · exact firstKey_admissible

/-- C29 (witness): `ArcLfuPart(1, 3)` with `put(1)`, `put(2)`, `increaseCapacity()`,
`put(3)` and `decreaseCapacity()`. -/
theorem ArcLfuPart.main_within_capacity_witness :
    ((∀ a ∈ [LfuCall.put firstKey 1 10, LfuCall.put firstKey 2 20, LfuCall.increaseCapacity,
        LfuCall.put firstKey 3 (30 : Nat), LfuCall.decreaseCapacity firstKey],
        a.Admissible) ∧
      1 + LfuCall.increases [LfuCall.put firstKey 1 10, LfuCall.put firstKey 2 20,
        LfuCall.increaseCapacity, LfuCall.put firstKey 3 (30 : Nat),
        LfuCall.decreaseCapacity firstKey] < SIZE_MOD) ∧
    ∃ s : ArcLfuPart Nat Nat, (ArcLfuPart.create 1 3).run
        [.put firstKey 1 10, .put firstKey 2 20, .increaseCapacity, .put firstKey 3 30,
          .decreaseCapacity firstKey] = some s ∧
      s.mainCache.length ≤ s.mainCapacity :=
  ⟨⟨lfu_calls_admissible_example2, by decide⟩,
    ArcLfuPart.main_within_capacity 1 3 _ lfu_calls_admissible_example2 (by decide)⟩

/-- C29 (counterexample): `ArcLfuPart(1, 3)` with `put(1, 10)` and then
`increaseCapacity()` called `2 ^ 64 - 1` times: `mainCapacity++` wraps to 0 while the
main index holds one key. -/
theorem ArcLfuPart.main_within_capacity_counterexample :
    ∃ (calls : List (LfuCall Nat Nat)) (s : ArcLfuPart Nat Nat),
      (∀ a ∈ calls, a.Admissible) ∧ ArcLfuPart.ReachedBy 1 3 calls s ∧
      s.mainCapacity = 0 ∧ s.mainCache.length = 1 := by
  refine ⟨.put firstKey 1 10 :: List.replicate (SIZE_MOD - 1) .increaseCapacity,
    { ArcLfuPart.after 1 3 [.put firstKey 1 10] with
      mainCapacity := ((ArcLfuPart.after 1 3 [.put firstKey 1 10]).mainCapacity
        + (SIZE_MOD - 1)) % SIZE_MOD }, ?_, ?_, by decide!, by decide!⟩
  · intro a ha
    rcases List.mem_cons.mp ha with e | e
    · subst e
      exact firstKey_admissible
    · rw [List.eq_of_mem_replicate e]
      trivial
  · have h1 : (ArcLfuPart.create 1 3 : ArcLfuPart Nat Nat).call (.put firstKey 1 10)
        = some (ArcLfuPart.after 1 3 [.put firstKey 1 10]) := by decide!
    unfold ArcLfuPart.ReachedBy
    rw [ArcLfuPart.run, h1, Option.some_bind]
    exact ArcLfuPart.run_increase (SIZE_MOD - 1) _ (by decide!)

/-- C30: in every state of the frequency partition reached from `ArcLfuPart(c, T)`,
`checkGhost(k)` returns `false` and changes nothing when `k` is not in the ghost index;
when `k` is in the ghost index it returns `true`, erases `k` from the ghost index and
unlinks its node from the ghost list (the neighbours `a = node->prev` and
`q = node->next` point to each other afterwards), and changes nothing else: the main
index, the buckets, `minFreq`, the capacities, the other entries of the ghost index and
the key, value and access count of every node are as before. -/
theorem ArcLfuPart.checkGhost_frame (c T : Nat) (calls : List (LfuCall K V))
    (s : ArcLfuPart K V) (hr : ArcLfuPart.ReachedBy c T calls s) (k : K) :
    (umFind s.ghostCache k = none → s.checkGhost k = some (s, false)) ∧
    (∀ p, umFind s.ghostCache k = some p → ∃ y a q, p = some y ∧
      hPrev s.heap y = some a ∧ hNext s.heap y = some q ∧
      s.checkGhost k = some ({ s with heap := unlink s.heap a q,
                                      ghostCache := umErase s.ghostCache k }, true) ∧
      umFind (umErase s.ghostCache k) k = none ∧
      (∀ k1, k1 ≠ k → umFind (umErase s.ghostCache k) k1 = umFind s.ghostCache k1) ∧
      hNext (unlink s.heap a q) a = some q ∧ hPrev (unlink s.heap a q) q = some a ∧
      (∀ i, i ≠ a → hNext (unlink s.heap a q) i = hNext s.heap i) ∧
      (∀ i, i ≠ q → hPrev (unlink s.heap a q) i = hPrev s.heap i) ∧
      (∀ i, hKey (unlink s.heap a q) i = hKey s.heap i) ∧
      (∀ i, hValue (unlink s.heap a q) i = hValue s.heap i) ∧
      (∀ i, hCount (unlink s.heap a q) i = hCount s.heap i)) := by
  have hinv := ArcLfuPart.lfu_reachedBy_inv hr
  refine ⟨s.lfu_checkGhost_miss k, ?_⟩
  intro p hf
  obtain ⟨hb, hg, hmg, -, -⟩ := hinv
  obtain ⟨y, hp, hyl, ⟨hy2, hyp⟩, -⟩ := hmg k p (umFind_mem hf)
  subst hp
  obtain ⟨a, ha⟩ := Option.isSome_iff_exists.mp hyp
  obtain ⟨-, q, hq, -⟩ := hg.2.2 y hy2 hyl a ha
  obtain ⟨-, -, hal, hql⟩ := glinks_unlink hg hy2 hyl ha hq
  have hrem := s.removeGhostNode_eq ha hq hal hql
  refine ⟨y, a, q, rfl, ha, hq, ?_, ?_, ?_, ?_, ?_, ?_, ?_, by intro i; simp,
    by intro i; simp, by intro i; simp⟩
  · unfold ArcLfuPart.checkGhost
    simp only [hf, Option.bind_eq_bind, hrem, Option.some_bind, Option.pure_def]
  · rw [umFind_umErase]
    simp
  · intro k1 hk1
    rw [umFind_umErase]
    simp [hk1]
  · rw [hNext_unlink _ _ _ _ hal]
    simp
  · rw [hPrev_unlink _ _ _ _ hql]
    simp
  · intro i hi
    rw [hNext_unlink _ _ _ _ hal]
    simp [hi]
  · intro i hi
    rw [hPrev_unlink _ _ _ _ hql]
    simp [hi]

/-- C30 (witness): `ArcLfuPart(1, 3)` after `put(1, 10)` and `put(2, 20)`, the key 1 is
in the ghost index. -/
theorem ArcLfuPart.checkGhost_frame_witness :
    ArcLfuPart.ReachedBy 1 3 [.put firstKey 1 10, .put firstKey 2 20]
      (ArcLfuPart.after 1 3 [.put firstKey 1 10, .put firstKey 2 20]) ∧
    (umFind (ArcLfuPart.after 1 3 [.put firstKey 1 10, .put firstKey 2 20]).ghostCache 1).isSome
      = true ∧
    ((ArcLfuPart.after 1 3 [.put firstKey 1 10, .put firstKey 2 20]).checkGhost 1).map Prod.snd
      = some true ∧
    (umFind (ArcLfuPart.after 1 3 [.put firstKey 1 10, .put firstKey 2 20]).ghostCache 5 = none →
      (ArcLfuPart.after 1 3 [.put firstKey 1 10, .put firstKey 2 20]).checkGhost 5
        = some (ArcLfuPart.after 1 3 [.put firstKey 1 10, .put firstKey 2 20], false)) := by
  have hr : ArcLfuPart.ReachedBy 1 3 [.put firstKey 1 10, .put firstKey 2 20]
      (ArcLfuPart.after 1 3 [.put firstKey 1 10, .put firstKey 2 20]) := by
    unfold ArcLfuPart.ReachedBy
    decide!
  obtain ⟨hmiss, hhit⟩ := ArcLfuPart.checkGhost_frame 1 3 _ _ hr 1
  obtain ⟨hmiss5, -⟩ := ArcLfuPart.checkGhost_frame 1 3 _ _ hr 5
  obtain ⟨y, a, q, -, -, -, hcg, -⟩ := hhit (some 2) (by decide!)
  exact ⟨hr, by decide!, by rw [hcg]; rfl, hmiss5⟩

end LfuClaims2

section LruHeap

variable {K V : Type}

theorem lru_getElem?_lt {h : List (LruNode K V)} {i : Nat} {n : LruNode K V}
    (hi : h[i]? = some n) : i < h.length := by
  rcases List.getElem?_eq_some.mp hi with ⟨hl, _⟩
  exact hl

theorem lru_getElem?_of_lt (h : List (LruNode K V)) {i : Nat} (hi : i < h.length) :
    ∃ n, h[i]? = some n := ⟨h[i], List.getElem?_eq_getElem hi⟩

/-- What a read of an allocated cell yields. -/
theorem readLru_of_lt (h : List (LruNode K V)) {i : Nat} (hi : i < h.length) :
    ∃ n, readLru h (some i) = some n ∧ n.prev = lPrev h i ∧ n.next = lNext h i ∧
      some n.key = lKey h i ∧ some n.value = lValue h i := by
  obtain ⟨n, hn⟩ := lru_getElem?_of_lt h hi
  exact ⟨n, hn, by simp [lPrev, hn], by simp [lNext, hn], by simp [lKey, hn],
    by simp [lValue, hn]⟩

/-- A read that succeeds reads an allocated cell. -/
theorem readLru_eq_some {h : List (LruNode K V)} {p : NodePtr} {n : LruNode K V}
    (hr : readLru h p = some n) :
    ∃ i, p = some i ∧ i < h.length ∧ n.prev = lPrev h i ∧ n.next = lNext h i ∧
      some n.key = lKey h i ∧ some n.value = lValue h i := by
  cases p with
  | none => simp [readLru] at hr
  | some i =>
    have hn : h[i]? = some n := hr
    exact ⟨i, rfl, lru_getElem?_lt hn, by simp [lPrev, hn], by simp [lNext, hn],
      by simp [lKey, hn], by simp [lValue, hn]⟩

theorem lPrev_lt {h : List (LruNode K V)} {i : Nat} {p : Nat} (hp : lPrev h i = some p) :
    i < h.length := by
  unfold lPrev at hp
  cases hi : h[i]? with
  | none => rw [hi] at hp; cases hp
  | some n => exact lru_getElem?_lt hi

theorem lNext_lt {h : List (LruNode K V)} {i : Nat} {p : Nat} (hp : lNext h i = some p) :
    i < h.length := by
  unfold lNext at hp
  cases hi : h[i]? with
  | none => rw [hi] at hp; cases hp
  | some n => exact lru_getElem?_lt hi

theorem lKey_lt {h : List (LruNode K V)} {i : Nat} {k : K} (hp : lKey h i = some k) :
    i < h.length := by
  unfold lKey at hp
  cases hi : h[i]? with
  | none => rw [hi] at hp; cases hp
  | some n => exact lru_getElem?_lt hi

theorem lKey_isSome (h : List (LruNode K V)) {i : Nat} (hi : i < h.length) :
    ∃ k, lKey h i = some k := by
  obtain ⟨n, hn⟩ := lru_getElem?_of_lt h hi
  exact ⟨n.key, by simp [lKey, hn]⟩

theorem lValue_isSome (h : List (LruNode K V)) {i : Nat} (hi : i < h.length) :
    ∃ v, lValue h i = some v := by
  obtain ⟨n, hn⟩ := lru_getElem?_of_lt h hi
  exact ⟨n.value, by simp [lValue, hn]⟩

/-- The assignment `heap[i].next = v`. -/
theorem writeLru_next (h : List (LruNode K V)) {i : Nat} (hi : i < h.length) (v : NodePtr) :
    ∃ h1, writeLru h (some i) (fun x => { x with next := v }) = some h1 ∧
      h1.length = h.length ∧
      (∀ j, lNext h1 j = if j = i then v else lNext h j) ∧
      (∀ j, lPrev h1 j = lPrev h j) ∧ (∀ j, lKey h1 j = lKey h j) ∧
      (∀ j, lValue h1 j = lValue h j) := by
  obtain ⟨n, hn⟩ := lru_getElem?_of_lt h hi
  refine ⟨h.set i { n with next := v }, by simp [writeLru, hn], by simp, ?_, ?_, ?_, ?_⟩
  all_goals
    intro j
    by_cases hji : j = i
    · subst hji
      simp [lNext, lPrev, lKey, lValue, List.getElem?_set, hi, hn]
    · have hne : i ≠ j := fun e => hji e.symm
      simp [lNext, lPrev, lKey, lValue, List.getElem?_set, hji, hne]

/-- The assignment `heap[i].prev = v`. -/
theorem writeLru_prev (h : List (LruNode K V)) {i : Nat} (hi : i < h.length) (v : NodePtr) :
    ∃ h1, writeLru h (some i) (fun x => { x with prev := v }) = some h1 ∧
      h1.length = h.length ∧
      (∀ j, lPrev h1 j = if j = i then v else lPrev h j) ∧
      (∀ j, lNext h1 j = lNext h j) ∧ (∀ j, lKey h1 j = lKey h j) ∧
      (∀ j, lValue h1 j = lValue h j) := by
  obtain ⟨n, hn⟩ := lru_getElem?_of_lt h hi
  refine ⟨h.set i { n with prev := v }, by simp [writeLru, hn], by simp, ?_, ?_, ?_, ?_⟩
  all_goals
    intro j
    by_cases hji : j = i
    · subst hji
      simp [lNext, lPrev, lKey, lValue, List.getElem?_set, hi, hn]
    · have hne : i ≠ j := fun e => hji e.symm
      simp [lNext, lPrev, lKey, lValue, List.getElem?_set, hji, hne]

/-- The call `heap[i].setValue(v)`. -/
theorem writeLru_value (h : List (LruNode K V)) {i : Nat} (hi : i < h.length) (v : V) :
    ∃ h1, writeLru h (some i) (fun x => x.setValue v) = some h1 ∧
      h1.length = h.length ∧
      (∀ j, lValue h1 j = if j = i then some v else lValue h j) ∧
      (∀ j, lPrev h1 j = lPrev h j) ∧ (∀ j, lNext h1 j = lNext h j) ∧
      (∀ j, lKey h1 j = lKey h j) := by
  obtain ⟨n, hn⟩ := lru_getElem?_of_lt h hi
  refine ⟨h.set i (n.setValue v), by simp [writeLru, hn], by simp, ?_, ?_, ?_, ?_⟩
  all_goals
    intro j
    by_cases hji : j = i
    · subst hji
      simp [lNext, lPrev, lKey, lValue, List.getElem?_set, hi, hn, LruNode.setValue]
    · have hne : i ≠ j := fun e => hji e.symm
      simp [lNext, lPrev, lKey, lValue, List.getElem?_set, hji, hne]

/-- A write that succeeds writes an allocated cell. -/
theorem writeLru_eq_some {h h1 : List (LruNode K V)} {p : NodePtr}
    {f : LruNode K V → LruNode K V} (hw : writeLru h p f = some h1) :
    ∃ i, p = some i ∧ i < h.length := by
  cases p with
  | none => simp [writeLru] at hw
  | some i =>
    cases hi : h[i]? with
    | none => simp [writeLru, hi] at hw
    | some n => exact ⟨i, rfl, lru_getElem?_lt hi⟩

/-- The views of the heap after an allocation. -/
theorem allocLru_views (h : List (LruNode K V)) (k : K) (v : V) :
    (h ++ [LruNode.create k v]).length = h.length + 1 ∧
    (∀ j, lNext (h ++ [LruNode.create k v]) j = if j = h.length then none else lNext h j) ∧
    (∀ j, lPrev (h ++ [LruNode.create k v]) j = if j = h.length then none else lPrev h j) ∧
    (∀ j, lKey (h ++ [LruNode.create k v]) j
      = if j = h.length then some k else lKey h j) ∧
    (∀ j, lValue (h ++ [LruNode.create k v]) j
      = if j = h.length then some v else lValue h j) := by
  refine ⟨by simp, ?_, ?_, ?_, ?_⟩
  all_goals
    intro j
    rcases Nat.lt_trichotomy j h.length with hlt | heq | hgt
    · have hne : j ≠ h.length := by omega
      simp [lNext, lPrev, lKey, lValue, List.getElem?_append_left hlt, hne]
    · subst heq
      simp [lNext, lPrev, lKey, lValue, LruNode.create]
    · have hne : j ≠ h.length := by omega
      have h1 : (h ++ [LruNode.create k v])[j]? = none := by
        apply List.getElem?_eq_none
        simp
        omega
      have h2 : h[j]? = none := by
        apply List.getElem?_eq_none
        omega
      simp [lNext, lPrev, lKey, lValue, h1, h2, hne]

end LruHeap

/-! ## The list primitives of `LruCache` -/

section LruListOps

variable {K V : Type} [DecidableEq K]

/-- What `removeNode` does to a node whose neighbours are allocated. -/
theorem LruCache.lru_removeNode_eq (s : LruCache K V) {y p q : Nat} (hp : lPrev s.heap y = some p)
    (hq : lNext s.heap y = some q) (hpl : p < s.heap.length) (hql : q < s.heap.length) :
    ∃ h2, s.removeNode (some y) = some { s with heap := h2 } ∧
      h2.length = s.heap.length ∧
      (∀ j, lNext h2 j = if j = p then some q else lNext s.heap j) ∧
      (∀ j, lPrev h2 j = if j = q then some p else lPrev s.heap j) ∧
      (∀ j, lKey h2 j = lKey s.heap j) ∧ (∀ j, lValue h2 j = lValue s.heap j) := by
  have hyl := lPrev_lt hp
  obtain ⟨n, hn, hnp, hnn, -, -⟩ := readLru_of_lt s.heap hyl
  obtain ⟨h1, hw1, hl1, hn1, hp1, hk1, hv1⟩ := writeLru_next s.heap hpl (some q)
  obtain ⟨n1, hr1, hn1p, hn1n, -, -⟩ := readLru_of_lt h1 (by rw [hl1]; exact hyl)
  have e1 : n1.next = some q := by
    rw [hn1n, hn1]
    by_cases hyp : y = p
    · simp [hyp]
    · simp [hyp, hq]
  have e2 : n1.prev = some p := by rw [hn1p, hp1, hp]
  obtain ⟨h2, hw2, hl2, hp2, hn2, hk2, hv2⟩ := writeLru_prev h1 (by rw [hl1]; exact hql) (some p)
  refine ⟨h2, ?_, by rw [hl2, hl1], ?_, ?_, ?_, ?_⟩
  · unfold LruCache.removeNode
    simp only [hn, Option.bind_eq_bind, Option.some_bind, hnp, hp, hnn, hq, hw1, hr1, e1, e2,
      hw2, Option.pure_def]
  · intro j; rw [hn2, hn1]
  · intro j; rw [hp2, hp1]
  · intro j; rw [hk2, hk1]
  · intro j; rw [hv2, hv1]

/-- What `insertNode` does to an allocated node other than the tail. -/
theorem LruCache.insertNode_eq (s : LruCache K V) {y t b : Nat} (ht : s.tail = some t)
    (hb : lPrev s.heap t = some b) (hyl : y < s.heap.length) (hbl : b < s.heap.length)
    (hyt : y ≠ t) :
    ∃ h4, s.insertNode (some y) = some { s with heap := h4 } ∧
      h4.length = s.heap.length ∧
      (∀ j, lNext h4 j = if j = b then some y else if j = y then some t
        else lNext s.heap j) ∧
      (∀ j, lPrev h4 j = if j = t then some y else if j = y then some b
        else lPrev s.heap j) ∧
      (∀ j, lKey h4 j = lKey s.heap j) ∧ (∀ j, lValue h4 j = lValue s.heap j) := by
  have htl := lPrev_lt hb
  obtain ⟨h1, hw1, hl1, hn1, hp1, hk1, hv1⟩ := writeLru_next s.heap hyl (some t)
  obtain ⟨t1, hr1, ht1p, -, -, -⟩ := readLru_of_lt h1 (by rw [hl1]; exact htl)
  have e1 : t1.prev = some b := by rw [ht1p, hp1, hb]
  obtain ⟨h2, hw2, hl2, hp2, hn2, hk2, hv2⟩ := writeLru_prev h1 (by rw [hl1]; exact hyl) (some b)
  obtain ⟨t2, hr2, ht2p, -, -, -⟩ := readLru_of_lt h2 (by rw [hl2, hl1]; exact htl)
  have hty : t ≠ y := fun e => hyt e.symm
  have e2 : t2.prev = some b := by
    rw [ht2p, hp2, hp1, hb]
    simp [hty]
  obtain ⟨h3, hw3, hl3, hn3, hp3, hk3, hv3⟩ :=
    writeLru_next h2 (by rw [hl2, hl1]; exact hbl) (some y)
  obtain ⟨h4, hw4, hl4, hp4, hn4, hk4, hv4⟩ :=
    writeLru_prev h3 (by rw [hl3, hl2, hl1]; exact htl) (some y)
  refine ⟨h4, ?_, by rw [hl4, hl3, hl2, hl1], ?_, ?_, ?_, ?_⟩
  · unfold LruCache.insertNode
    simp only [ht, hw1, Option.bind_eq_bind, Option.some_bind, hr1, e1, hw2, hr2, e2, hw3, hw4,
      Option.pure_def]
  · intro j; rw [hn4, hn3, hn2, hn1]
  · intro j; rw [hp4, hp3, hp2, hp1]
  · intro j; rw [hk4, hk3, hk2, hk1]
  · intro j; rw [hv4, hv3, hv2, hv1]

end LruListOps

section SegLemmas

variable {K V : Type}

theorem lruSeg_frame {h h1 : List (LruNode K V)} :
    ∀ (ys : List Nat) (b a : Nat), LruSeg h b ys a →
      (∀ j ∈ b :: ys, lPrev h1 j = lPrev h j) → (∀ j ∈ ys ++ [a], lNext h1 j = lNext h j) →
      LruSeg h1 b ys a := by
  intro ys
  induction ys with
  | nil =>
    intro b a hs hp hn
    exact ⟨by rw [hp b (by simp)]; exact hs.1, by rw [hn a (by simp)]; exact hs.2⟩
  | cons y ys ih =>
    intro b a hs hp hn
    refine ⟨by rw [hp b (by simp)]; exact hs.1, by rw [hn y (by simp)]; exact hs.2.1, ?_⟩
    apply ih y a hs.2.2
    · intro j hj
      exact hp j (List.mem_cons_of_mem _ hj)
    · intro j hj
      exact hn j (by simp at hj ⊢; tauto)

/-- Every node of the list is allocated. -/
theorem lruSeg_lt {h : List (LruNode K V)} :
    ∀ (ys : List Nat) (b a : Nat), LruSeg h b ys a → ∀ j ∈ b :: ys ++ [a], j < h.length := by
  intro ys
  induction ys with
  | nil =>
    intro b a hs j hj
    simp at hj
    rcases hj with e | e
    · subst e; exact lPrev_lt hs.1
    · subst e; exact lNext_lt hs.2
  | cons y ys ih =>
    intro b a hs j hj
    simp only [List.cons_append, List.mem_cons] at hj
    rcases hj with e | hj
    · subst e; exact lPrev_lt hs.1
    · exact ih y a hs.2.2 j (by simp only [List.cons_append, List.mem_cons]; exact hj)

/-- The neighbours of a node in the middle of the list. -/
theorem lruSeg_mid {h : List (LruNode K V)} :
    ∀ (A : List Nat) (b y : Nat) (B : List Nat) (a : Nat), LruSeg h b (A ++ y :: B) a →
      ∃ pr fo, lNext h y = some pr ∧ lPrev h y = some fo ∧ pr ∈ b :: A ∧ fo ∈ B ++ [a] := by
  intro A
  induction A with
  | nil =>
    intro b y B a hs
    have hs1 : LruSeg h b (y :: B) a := hs
    refine ⟨b, ?_⟩
    cases B with
    | nil => exact ⟨a, hs1.2.1, hs1.2.2.1, by simp, by simp⟩
    | cons z B => exact ⟨z, hs1.2.1, hs1.2.2.1, by simp, by simp⟩
  | cons x A ih =>
    intro b y B a hs
    have hs1 : LruSeg h b (x :: (A ++ y :: B)) a := hs
    obtain ⟨pr, fo, h1, h2, h3, h4⟩ := ih x y B a hs1.2.2
    exact ⟨pr, fo, h1, h2, List.mem_cons_of_mem _ h3, h4⟩

/-- Unlinking a node: the list loses it. -/
theorem lruSeg_remove {h h1 : List (LruNode K V)} {y pr fo : Nat}
    (hpr : lNext h y = some pr) (hfo : lPrev h y = some fo)
    (hn : ∀ j, lNext h1 j = if j = fo then some pr else lNext h j)
    (hp : ∀ j, lPrev h1 j = if j = pr then some fo else lPrev h j) :
    ∀ (A : List Nat) (b : Nat) (B : List Nat) (a : Nat), LruSeg h b (A ++ y :: B) a →
      (b :: (A ++ y :: B) ++ [a]).Nodup → LruSeg h1 b (A ++ B) a := by
  intro A
  induction A with
  | nil =>
    intro b B a hs hnd
    have hs1 : LruSeg h b (y :: B) a := hs
    have e1 : pr = b := by
      have := hs1.2.1
      rw [hpr] at this
      exact Option.some.inj this
    subst e1
    have hnd1 : (pr :: y :: (B ++ [a])).Nodup := by simpa using hnd
    cases B with
    | nil =>
      have e2 : fo = a := by
        have := hs1.2.2.1
        rw [hfo] at this
        exact Option.some.inj this
      subst e2
      exact ⟨by rw [hp]; simp, by rw [hn]; simp⟩
    | cons z B =>
      have hs2 : LruSeg h y (z :: B) a := hs1.2.2
      have e2 : fo = z := by
        have := hs2.1
        rw [hfo] at this
        exact Option.some.inj this
      subst e2
      refine ⟨by rw [hp]; simp, by rw [hn]; simp, ?_⟩
      apply lruSeg_frame B fo a hs2.2.2
      · intro j hj
        have hne : j ≠ pr := by
          rintro rfl
          simp only [List.nodup_cons, List.mem_cons, List.mem_append, List.cons_append,
            List.mem_singleton] at hnd1
          simp only [List.mem_cons] at hj
          tauto
        rw [hp]; simp [hne]
      · intro j hj
        have hne : j ≠ fo := by
          rintro rfl
          simp only [List.nodup_cons, List.mem_cons, List.mem_append, List.cons_append,
            List.mem_singleton] at hnd1
          simp only [List.mem_append, List.mem_singleton] at hj
          tauto
        rw [hn]; simp [hne]
  | cons x A ih =>
    intro b B a hs hnd
    have hs1 : LruSeg h b (x :: (A ++ y :: B)) a := hs
    obtain ⟨pr1, fo1, h1, h2, h3, h4⟩ := lruSeg_mid A x y B a hs1.2.2
    have e1 : pr1 = pr := by rw [hpr] at h1; exact (Option.some.inj h1).symm
    have e2 : fo1 = fo := by rw [hfo] at h2; exact (Option.some.inj h2).symm
    subst e1; subst e2
    have hnd1 : (b :: x :: (A ++ y :: (B ++ [a]))).Nodup := by simpa using hnd
    have hnd2 : (x :: (A ++ y :: B) ++ [a]).Nodup := by
      have := (List.nodup_cons.mp hnd1).2
      simpa using this
    have hbpr : b ≠ pr1 := by
      rintro rfl
      have := (List.nodup_cons.mp hnd1).1
      apply this
      simp only [List.mem_cons] at h3
      simp only [List.mem_cons, List.mem_append]
      tauto
    have hxfo : x ≠ fo1 := by
      rintro rfl
      have := (List.nodup_cons.mp (List.nodup_cons.mp hnd1).2).1
      apply this
      simp only [List.mem_append, List.mem_singleton] at h4
      simp only [List.mem_cons, List.mem_append, List.mem_singleton]
      tauto
    refine ⟨by rw [hp]; simp [hbpr]; exact hs1.1, by rw [hn]; simp [hxfo]; exact hs1.2.1, ?_⟩
    exact ih x B a hs1.2.2 hnd2

/-- Linking a node in front of the tail sentinel: the list gains it at the recent end. -/
theorem lruSeg_insert {h h1 : List (LruNode K V)} {y t fo : Nat} {ys : List Nat} {a : Nat}
    (hs : LruSeg h t ys a) (hfo : lPrev h t = some fo) (hnd : (t :: ys ++ [a]).Nodup)
    (hy : y ∉ t :: ys ++ [a])
    (hn : ∀ j, lNext h1 j = if j = fo then some y else if j = y then some t else lNext h j)
    (hp : ∀ j, lPrev h1 j = if j = t then some y else if j = y then some fo
      else lPrev h j) :
    LruSeg h1 t (y :: ys) a := by
  have hyt : y ≠ t := by
    rintro rfl
    exact hy (by simp)
  cases ys with
  | nil =>
    have e : fo = a := by
      have := hs.1
      rw [hfo] at this
      exact Option.some.inj this
    subst e
    have hyfo : y ≠ fo := by
      rintro rfl
      exact hy (by simp)
    exact ⟨by rw [hp]; simp, by rw [hn]; simp [hyfo], by rw [hp]; simp [hyt],
      by rw [hn]; simp⟩
  | cons z ys =>
    have hs1 : LruSeg h t (z :: ys) a := hs
    have e : fo = z := by
      have := hs1.1
      rw [hfo] at this
      exact Option.some.inj this
    subst e
    have hyfo : y ≠ fo := by
      rintro rfl
      exact hy (by simp)
    have hnd1 : (t :: fo :: (ys ++ [a])).Nodup := by simpa using hnd
    refine ⟨by rw [hp]; simp, by rw [hn]; simp [hyfo], by rw [hp]; simp [hyt],
      by rw [hn]; simp, ?_⟩
    apply lruSeg_frame ys fo a hs1.2.2
    · intro j hj
      have h1 : j ≠ t := by
        rintro rfl
        have := (List.nodup_cons.mp hnd1).1
        apply this
        simp only [List.mem_cons] at hj
        simp only [List.mem_cons, List.mem_append]
        tauto
      have h2 : j ≠ y := by
        rintro rfl
        apply hy
        simp only [List.mem_cons] at hj
        simp only [List.cons_append, List.mem_cons, List.mem_append]
        tauto
      rw [hp]; simp [h1, h2]
    · intro j hj
      have h1 : j ≠ fo := by
        rintro rfl
        have := (List.nodup_cons.mp (List.nodup_cons.mp hnd1).2).1
        exact this hj
      have h2 : j ≠ y := by
        rintro rfl
        apply hy
        simp only [List.mem_append, List.mem_singleton] at hj
        simp only [List.cons_append, List.mem_cons, List.mem_append, List.mem_singleton]
        tauto
      rw [hn]; simp [h1, h2]

theorem lEntry_congr {h h1 : List (LruNode K V)} {j : Nat} (hk : lKey h1 j = lKey h j)
    (hv : lValue h1 j = lValue h j) : lEntry h1 j = lEntry h j := by
  unfold lEntry
  rw [hk, hv]

theorem lEntry_eq {h : List (LruNode K V)} {j : Nat} {k : K} {v : V} (hk : lKey h j = some k)
    (hv : lValue h j = some v) : lEntry h j = some (k, v) := by
  unfold lEntry
  rw [hk, hv]

theorem lEntry_some {h : List (LruNode K V)} {j : Nat} {e : K × V} (he : lEntry h j = some e) :
    lKey h j = some e.1 ∧ lValue h j = some e.2 := by
  unfold lEntry at he
  cases hk : lKey h j with
  | none => rw [hk] at he; cases he
  | some k =>
    cases hv : lValue h j with
    | none => rw [hk, hv] at he; cases he
    | some v =>
      rw [hk, hv] at he
      have := Option.some.inj he
      subst this
      exact ⟨rfl, rfl⟩

end SegLemmas

section MapLemmas2

variable {A B : Type} [DecidableEq A]

theorem umFind_eq_none_iff (m : List (A × B)) (k : A) :
    umFind m k = none ↔ k ∉ m.map Prod.fst := by
  induction m with
  | nil => simp [umFind]
  | cons x m ih =>
    obtain ⟨a, b⟩ := x
    unfold umFind
    by_cases hak : a = k
    · simp [hak]
    · have hka : ¬ k = a := fun e => hak e.symm
      simp [hak, hka, ih]

theorem umSet_of_none {m : List (A × B)} {k : A} (h : umFind m k = none) (v : B) :
    umSet m k v = m ++ [(k, v)] := by
  induction m with
  | nil => rfl
  | cons x m ih =>
    obtain ⟨a, b⟩ := x
    unfold umFind at h
    by_cases hak : a = k
    · simp [hak] at h
    · simp only [hak, if_false] at h
      unfold umSet
      simp [hak, ih h]

theorem umErase_eq_filter (m : List (A × B)) (k : A) :
    umErase m k = m.filter (fun e => decide (e.1 ≠ k)) := by
  induction m with
  | nil => rfl
  | cons x m ih =>
    obtain ⟨a, b⟩ := x
    unfold umErase
    by_cases hak : a = k
    · simp [hak, ih]
    · simp [hak, ih]

theorem nodup_keys_filter {m : List (A × B)} (h : (m.map Prod.fst).Nodup)
    (p : A × B → Bool) : ((m.filter p).map Prod.fst).Nodup :=
  List.Nodup.sublist (List.Sublist.map _ (List.filter_sublist m)) h

theorem nodup_keys_umErase {m : List (A × B)} (h : (m.map Prod.fst).Nodup) (k : A) :
    ((umErase m k).map Prod.fst).Nodup := by
  rw [umErase_eq_filter]
  exact nodup_keys_filter h _

theorem length_umErase_of_nodup {m : List (A × B)} (h : (m.map Prod.fst).Nodup) {k : A}
    {v : B} (hf : umFind m k = some v) : (umErase m k).length + 1 = m.length := by
  induction m with
  | nil => simp [umFind] at hf
  | cons x m ih =>
    obtain ⟨a, b⟩ := x
    have hnd := List.nodup_cons.mp h
    unfold umFind at hf
    unfold umErase
    by_cases hak : a = k
    · subst hak
      have hnone : umFind m a = none := (umFind_eq_none_iff m a).mpr hnd.1
      have : umErase m a = m := by
        rw [umErase_eq_filter]
        apply List.filter_eq_self.mpr
        intro e he
        have : e.1 ≠ a := by
          rintro rfl
          exact hnd.1 (List.mem_map.mpr ⟨e, he, rfl⟩)
        simp [this]
      simp [this]
    · simp only [hak, if_false] at hf ⊢
      simp [ih hnd.2 hf]

theorem umFind_of_mem_nodup {m : List (A × B)} (h : (m.map Prod.fst).Nodup) {k : A} {v : B}
    (hm : (k, v) ∈ m) : umFind m k = some v := by
  induction m with
  | nil => cases hm
  | cons x m ih =>
    obtain ⟨a, b⟩ := x
    have hnd := List.nodup_cons.mp h
    unfold umFind
    rcases List.mem_cons.mp hm with e | hm1
    · have e1 := (Prod.mk.inj e).1
      have e2 := (Prod.mk.inj e).2
      subst e1; subst e2
      simp
    · have hak : a ≠ k := by
        rintro rfl
        exact hnd.1 (List.mem_map.mpr ⟨(a, v), hm1, rfl⟩)
      simp [hak, ih hnd.2 hm1]

theorem filter_keys_eq_self {m : List (A × B)} {k : A} (h : k ∉ m.map Prod.fst) :
    m.filter (fun e => decide (e.1 ≠ k)) = m := by
  apply List.filter_eq_self.mpr
  intro e he
  have : e.1 ≠ k := by
    rintro rfl
    exact h (List.mem_map.mpr ⟨e, he, rfl⟩)
  simp [this]

end MapLemmas2

section SegLemmas2

variable {K V : Type}

theorem lruSeg_head {h : List (LruNode K V)} {b a : Nat} {ys : List Nat}
    (hs : LruSeg h b ys a) : ∃ fo, lPrev h b = some fo ∧ fo ∈ ys ++ [a] := by
  cases ys with
  | nil => exact ⟨a, hs.1, by simp⟩
  | cons z ys =>
    have hs1 : LruSeg h b (z :: ys) a := hs
    exact ⟨z, hs1.1, by simp⟩

theorem lruSeg_last {h : List (LruNode K V)} :
    ∀ (A : List Nat) (b y a : Nat), LruSeg h b (A ++ [y]) a → lNext h a = some y := by
  intro A
  induction A with
  | nil =>
    intro b y a hs
    have hs1 : LruSeg h b [y] a := hs
    exact hs1.2.2.2
  | cons x A ih =>
    intro b y a hs
    have hs1 : LruSeg h b (x :: (A ++ [y])) a := hs
    exact ih x y a hs1.2.2

end SegLemmas2

section LruOps2

variable {K V : Type} [DecidableEq K]

/-- On a listed state `moveNodeToRecent` returns and moves the node to the recent end. -/
theorem LruCache.moveNodeToRecent_listed (s : LruCache K V) (A B : List Nat) (y : Nat)
    (hl : s.Listed (A ++ y :: B)) :
    ∃ s1, s.moveNodeToRecent (some y) = some s1 ∧ s1.Listed (y :: (A ++ B)) ∧
      s1.capacity = s.capacity ∧ s1.nodeMap = s.nodeMap ∧
      s1.heap.length = s.heap.length ∧
      (∀ j, lKey s1.heap j = lKey s.heap j) ∧ (∀ j, lValue s1.heap j = lValue s.heap j) := by
  obtain ⟨hh, ht, hseg, hnd, hmk, hml, hmap⟩ := hl
  have hlt := lruSeg_lt _ _ _ hseg
  obtain ⟨pr, fo, hpr, hfo, hprm, hfom⟩ := lruSeg_mid A 1 y B 0 hseg
  have hprl : pr < s.heap.length := hlt pr (by
    simp only [List.mem_cons] at hprm
    simp only [List.cons_append, List.mem_cons, List.mem_append]
    tauto)
  have hfol : fo < s.heap.length := hlt fo (by
    simp only [List.mem_append, List.mem_singleton] at hfom
    simp only [List.cons_append, List.mem_cons, List.mem_append, List.mem_singleton,
      List.append_assoc]
    tauto)
  have hyl : y < s.heap.length := hlt y (by simp)
  obtain ⟨h2, hrem, hl2, hn2, hp2, hk2, hv2⟩ := s.lru_removeNode_eq hfo hpr hfol hprl
  have hseg2 : LruSeg h2 1 (A ++ B) 0 := lruSeg_remove hpr hfo hn2 hp2 A 1 B 0 hseg hnd
  have hperm : List.Perm (1 :: (A ++ y :: B) ++ [0]) (y :: (1 :: (A ++ B) ++ [0])) := by
    have h1 : List.Perm (A ++ y :: B) (y :: (A ++ B)) := List.perm_middle
    have h2 : List.Perm (1 :: (A ++ y :: B) ++ [0]) (1 :: y :: (A ++ B) ++ [0]) :=
      List.Perm.cons 1 (List.Perm.append_right [0] h1)
    exact h2.trans (List.Perm.swap y 1 _)
  have hnd1 : (y :: (1 :: (A ++ B) ++ [0])).Nodup := hperm.nodup_iff.mp hnd
  have hnd2 := List.nodup_cons.mp hnd1
  obtain ⟨b0, hb0, hb0m⟩ := lruSeg_head hseg2
  have hlt2 := lruSeg_lt _ _ _ hseg2
  have hb0l : b0 < h2.length := hlt2 b0 (by
    simp only [List.cons_append, List.mem_cons]
    exact Or.inr hb0m)
  have hy1 : y ≠ 1 := by
    rintro rfl
    exact hnd2.1 (by simp)
  obtain ⟨h4, hins, hl4, hn4, hp4, hk4, hv4⟩ :=
    LruCache.insertNode_eq { s with heap := h2 } (y := y) (t := 1) (b := b0) ht hb0
      (by rw [hl2]; exact hyl) hb0l hy1
  have hseg4 : LruSeg h4 1 (y :: (A ++ B)) 0 :=
    lruSeg_insert hseg2 hb0 hnd2.2 hnd2.1 hn4 hp4
  refine ⟨{ s with heap := h4 }, ?_, ⟨hh, ht, hseg4, ?_, hmk, ?_, ?_⟩, rfl, rfl, ?_, ?_, ?_⟩
  · unfold LruCache.moveNodeToRecent
    simp only [hrem, Option.bind_eq_bind, Option.some_bind]
    exact hins
  · have : List.Perm (y :: (1 :: (A ++ B) ++ [0])) (1 :: (y :: (A ++ B)) ++ [0]) :=
      List.Perm.swap 1 y _
    exact this.nodup_iff.mp hnd1
  · rw [hml]
    simp
    omega
  · intro k p
    rw [hmap k p]
    constructor
    · rintro ⟨z, hz, e, hkz⟩
      refine ⟨z, ?_, e, ?_⟩
      · simp only [List.mem_append, List.mem_cons] at hz
        simp only [List.mem_append, List.mem_cons]
        tauto
      · show lKey h4 z = some k
        rw [hk4]
        show lKey h2 z = some k
        rw [hk2]; exact hkz
    · rintro ⟨z, hz, e, hkz⟩
      refine ⟨z, ?_, e, ?_⟩
      · simp only [List.mem_append, List.mem_cons] at hz
        simp only [List.mem_append, List.mem_cons]
        tauto
      · have h1 : lKey h4 z = some k := hkz
        rw [hk4] at h1
        have h2 : lKey h2 z = some k := h1
        rw [hk2] at h2
        exact h2
  · show h4.length = s.heap.length
    rw [hl4]; exact hl2
  · intro j
    show lKey h4 j = lKey s.heap j
    rw [hk4]
    show lKey h2 j = _
    rw [hk2]
  · intro j
    show lValue h4 j = lValue s.heap j
    rw [hv4]
    show lValue h2 j = _
    rw [hv2]

/-- On a listed state that is not empty `kickOut` returns and drops the least recently
used node and its key. -/
theorem LruCache.kickOut_listed (s : LruCache K V) (A : List Nat) (y : Nat)
    (hl : s.Listed (A ++ [y])) :
    ∃ s1 k, lKey s.heap y = some k ∧ s.kickOut = some s1 ∧ s1.Listed A ∧
      s1.capacity = s.capacity ∧ s1.nodeMap = umErase s.nodeMap k ∧
      s1.heap.length = s.heap.length ∧
      (∀ j, lKey s1.heap j = lKey s.heap j) ∧ (∀ j, lValue s1.heap j = lValue s.heap j) := by
  obtain ⟨hh, ht, hseg, hnd, hmk, hml, hmap⟩ := hl
  have hlt := lruSeg_lt _ _ _ hseg
  obtain ⟨pr, fo, hpr, hfo, hprm, hfom⟩ := lruSeg_mid A 1 y [] 0 hseg
  have hfo0 : fo = 0 := by simpa using hfom
  subst hfo0
  have hprl : pr < s.heap.length := hlt pr (by
    simp only [List.mem_cons] at hprm
    simp only [List.cons_append, List.mem_cons, List.mem_append]
    tauto)
  have h0l : 0 < s.heap.length := hlt 0 (by simp)
  have hyl : y < s.heap.length := hlt y (by simp)
  have hlast := lruSeg_last A 1 y 0 hseg
  obtain ⟨hd, hrd, -, hdn, -, -⟩ := readLru_of_lt s.heap h0l
  obtain ⟨h2, hrem, hl2, hn2, hp2, hk2, hv2⟩ := s.lru_removeNode_eq hfo hpr h0l hprl
  have hseg2 : LruSeg h2 1 (A ++ []) 0 := lruSeg_remove hpr hfo hn2 hp2 A 1 [] 0 hseg hnd
  rw [List.append_nil] at hseg2
  obtain ⟨n, hrn, -, -, hnk, -⟩ := readLru_of_lt h2 (by rw [hl2]; exact hyl)
  have hky : lKey s.heap y = some n.key := by rw [hnk, hk2]
  have hnd1 : (1 :: (A ++ ([y] ++ [0]))).Nodup := by simpa using hnd
  have hyA : y ∉ A := by
    intro hy
    have := (List.nodup_cons.mp hnd1).2
    have h3 := (List.nodup_append.mp this).2.2
    exact h3 hy (by simp)
  have hfy : umFind s.nodeMap n.key = some (some y) :=
    (hmap n.key (some y)).mpr ⟨y, by simp, rfl, hky⟩
  refine ⟨{ s with heap := h2, nodeMap := umErase s.nodeMap n.key }, n.key, hky, ?_,
    ⟨hh, ht, hseg2, ?_, nodup_keys_umErase hmk _, ?_, ?_⟩, rfl, rfl, hl2, hk2, hv2⟩
  · unfold LruCache.kickOut
    simp only [hh, hrd, Option.bind_eq_bind, Option.some_bind, hdn, hlast, hrem, hrn,
      Option.pure_def]
  · have hsub : List.Sublist (1 :: A ++ [0]) (1 :: (A ++ [y]) ++ [0]) := by
      simp only [List.cons_append, List.append_assoc]
      apply List.Sublist.cons₂
      apply List.Sublist.append_left
      simp
    exact List.Nodup.sublist hsub hnd
  · have := length_umErase_of_nodup hmk hfy
    show (umErase s.nodeMap n.key).length = A.length
    rw [hml] at this
    simp at this
    exact this
  · intro k p
    show umFind (umErase s.nodeMap n.key) k = some p ↔ ∃ z ∈ A, p = some z ∧ lKey h2 z = some k
    rw [umFind_umErase]
    by_cases hk : k = n.key
    · subst hk
      simp only [if_true]
      constructor
      · intro h; cases h
      · rintro ⟨z, hz, e, hkz⟩
        exfalso
        rw [hk2] at hkz
        have h1 : umFind s.nodeMap n.key = some (some z) :=
          (hmap n.key (some z)).mpr ⟨z, by simp [hz], rfl, hkz⟩
        rw [hfy] at h1
        have : y = z := Option.some.inj (Option.some.inj h1)
        subst this
        exact hyA hz
    · simp only [hk, if_false]
      rw [hmap k p]
      constructor
      · rintro ⟨z, hz, e, hkz⟩
        rcases List.mem_append.mp hz with hz1 | hz1
        · exact ⟨z, hz1, e, by rw [hk2]; exact hkz⟩
        · have : z = y := by simpa using hz1
          subst this
          rw [hky] at hkz
          exact absurd (Option.some.inj hkz).symm hk
      · rintro ⟨z, hz, e, hkz⟩
        exact ⟨z, by simp [hz], e, by rw [hk2] at hkz; exact hkz⟩

end LruOps2

section LruOps3

variable {K V : Type} [DecidableEq K]

/-- Allocating a node for a key that is not cached and linking it at the recent end. -/
theorem LruCache.insert_fresh (s : LruCache K V) (ys : List Nat) (key : K) (value : V)
    (hl : s.Listed ys) (hnone : umFind s.nodeMap key = none) :
    ∃ s2, LruCache.insertNode { s with heap := s.heap ++ [LruNode.create key value] }
        (some s.heap.length) = some s2 ∧
      LruCache.Listed { s2 with nodeMap := umSet s2.nodeMap key (some s.heap.length) }
        (s.heap.length :: ys) ∧
      s2.capacity = s.capacity ∧ s2.nodeMap = s.nodeMap ∧
      s2.heap.length = s.heap.length + 1 ∧
      (∀ j, lKey s2.heap j = if j = s.heap.length then some key else lKey s.heap j) ∧
      (∀ j, lValue s2.heap j = if j = s.heap.length then some value
        else lValue s.heap j) := by
  obtain ⟨hh, ht, hseg, hnd, hmk, hml, hmap⟩ := hl
  have hlt := lruSeg_lt _ _ _ hseg
  obtain ⟨hal, han, hap, hak, hav⟩ := allocLru_views s.heap key value
  have hnew : s.heap.length ∉ 1 :: ys ++ [0] := by
    intro hm
    exact Nat.lt_irrefl _ (hlt _ hm)
  have hseg1 : LruSeg (s.heap ++ [LruNode.create key value]) 1 ys 0 := by
    apply lruSeg_frame ys 1 0 hseg
    · intro j hj
      have hne : j ≠ s.heap.length := by
        rintro rfl
        exact hnew (by
          simp only [List.mem_cons] at hj
          simp only [List.cons_append, List.mem_cons, List.mem_append]
          tauto)
      rw [hap]; simp [hne]
    · intro j hj
      have hne : j ≠ s.heap.length := by
        rintro rfl
        exact hnew (by
          simp only [List.cons_append, List.mem_cons]
          exact Or.inr hj)
      rw [han]; simp [hne]
  obtain ⟨b0, hb0, hb0m⟩ := lruSeg_head hseg1
  have hb0l : b0 < s.heap.length := hlt b0 (by
    simp only [List.cons_append, List.mem_cons]
    exact Or.inr hb0m)
  have hy1 : s.heap.length ≠ 1 := by
    rintro e
    exact hnew (by rw [e]; simp)
  obtain ⟨h4, hins, hl4, hn4, hp4, hk4, hv4⟩ :=
    LruCache.insertNode_eq { s with heap := s.heap ++ [LruNode.create key value] }
      (y := s.heap.length) (t := 1) (b := b0) ht hb0
      (by show s.heap.length < (s.heap ++ [LruNode.create key value]).length
          rw [hal]; omega)
      (by show b0 < (s.heap ++ [LruNode.create key value]).length
          rw [hal]; omega) hy1
  have hseg4 : LruSeg h4 1 (s.heap.length :: ys) 0 :=
    lruSeg_insert hseg1 hb0 hnd hnew hn4 hp4
  have hk4a : ∀ j, lKey h4 j = if j = s.heap.length then some key else lKey s.heap j := by
    intro j
    rw [hk4]
    exact hak j
  have hv4a : ∀ j, lValue h4 j = if j = s.heap.length then some value
      else lValue s.heap j := by
    intro j
    rw [hv4]
    exact hav j
  refine ⟨{ s with heap := h4 }, hins, ⟨hh, ht, hseg4, ?_, ?_, ?_, ?_⟩, rfl, rfl, ?_, hk4a,
    hv4a⟩
  · have hperm : List.Perm (1 :: (s.heap.length :: ys) ++ [0])
        (s.heap.length :: (1 :: ys ++ [0])) := List.Perm.swap _ _ _
    exact hperm.nodup_iff.mpr (List.nodup_cons.mpr ⟨hnew, hnd⟩)
  · show ((umSet s.nodeMap key (some s.heap.length)).map Prod.fst).Nodup
    rw [umSet_of_none hnone, List.map_append]
    apply List.Nodup.append hmk (by simp)
    intro a ha hb
    have : a = key := by simpa using hb
    subst this
    exact (umFind_eq_none_iff _ _).mp hnone ha
  · show (umSet s.nodeMap key (some s.heap.length)).length = (s.heap.length :: ys).length
    rw [umSet_of_none hnone]
    simp [hml]
  · intro k p
    show umFind (umSet s.nodeMap key (some s.heap.length)) k = some p ↔
      ∃ z ∈ s.heap.length :: ys, p = some z ∧ lKey h4 z = some k
    rw [umFind_umSet]
    by_cases hk : k = key
    · subst hk
      simp only [if_true]
      constructor
      · intro e
        refine ⟨s.heap.length, by simp, (Option.some.inj e).symm, ?_⟩
        rw [hk4a]; simp
      · rintro ⟨z, hz, e, hkz⟩
        rcases List.mem_cons.mp hz with hz1 | hz1
        · rw [e, hz1]
        · exfalso
          have hne : z ≠ s.heap.length := by
            rintro rfl
            exact hnew (by simp [hz1])
          rw [hk4a] at hkz
          simp only [hne, if_false] at hkz
          have := (hmap k (some z)).mpr ⟨z, hz1, rfl, hkz⟩
          rw [hnone] at this
          cases this
    · simp only [hk, if_false]
      rw [hmap k p]
      constructor
      · rintro ⟨z, hz, e, hkz⟩
        have hne : z ≠ s.heap.length := by
          rintro rfl
          exact hnew (by simp [hz])
        exact ⟨z, List.mem_cons_of_mem _ hz, e, by rw [hk4a]; simp [hne, hkz]⟩
      · rintro ⟨z, hz, e, hkz⟩
        rcases List.mem_cons.mp hz with hz1 | hz1
        · subst hz1
          rw [hk4a] at hkz
          simp only [if_true] at hkz
          exact absurd (Option.some.inj hkz).symm hk
        · have hne : z ≠ s.heap.length := by
            rintro rfl
            exact hnew (by simp [hz1])
          rw [hk4a] at hkz
          simp only [hne, if_false] at hkz
          exact ⟨z, hz1, e, hkz⟩
  · show h4.length = s.heap.length + 1
    rw [hl4]
    exact hal

/-- On a listed state with a capacity of at least one, `addNewNode` of a key that is
not cached returns: the least recently used node is dropped when the cache is full, and
the new node is the most recently used one. -/
theorem LruCache.addNewNode_listed (s : LruCache K V) (ys : List Nat) (key : K) (value : V)
    (hl : s.Listed ys) (hnone : umFind s.nodeMap key = none) (hc : 1 ≤ s.capacity) :
    ∃ s1 ys1, s.addNewNode key value = some s1 ∧ s1.Listed (s.heap.length :: ys1) ∧
      s1.capacity = s.capacity ∧
      ((ys.length < s.capacity ∧ ys1 = ys) ∨
        (s.capacity ≤ ys.length ∧ ∃ y, ys = ys1 ++ [y])) ∧
      (∀ j, lKey s1.heap j = if j = s.heap.length then some key else lKey s.heap j) ∧
      (∀ j, lValue s1.heap j = if j = s.heap.length then some value
        else lValue s.heap j) := by
  have hml := hl.2.2.2.2.2.1
  by_cases hfull : s.nodeMap.length ≥ s.capacity
  · have hne : ys ≠ [] := by
      intro e
      rw [e] at hml
      simp at hml
      rw [hml] at hfull
      simp at hfull
      omega
    have hsplit : ys = ys.dropLast ++ [ys.getLast hne] :=
      (List.dropLast_append_getLast hne).symm
    rw [hsplit] at hl
    obtain ⟨s1, k0, hk0, hkick, hl1, hc1, hm1, hlen1, hk1, hv1⟩ :=
      s.kickOut_listed ys.dropLast (ys.getLast hne) hl
    have hnone1 : umFind s1.nodeMap key = none := by
      rw [hm1, umFind_umErase]
      by_cases e : key = k0
      · simp [e]
      · simp [e, hnone]
    obtain ⟨s2, hins, hl2, hc2, hm2, hlen2, hk2, hv2⟩ :=
      s1.insert_fresh ys.dropLast key value hl1 hnone1
    refine ⟨{ s2 with nodeMap := umSet s2.nodeMap key (some s1.heap.length) }, ys.dropLast,
      ?_, by rw [← hlen1]; exact hl2, by show s2.capacity = _; rw [hc2, hc1],
      Or.inr ⟨by rw [← hml]; exact hfull, ys.getLast hne, hsplit⟩, ?_, ?_⟩
    · unfold LruCache.addNewNode
      simp only [hfull, if_true, hkick, Option.bind_eq_bind, Option.some_bind, allocLru, hins,
        Option.pure_def]
    · intro j
      show lKey s2.heap j = _
      rw [hk2, hlen1, hk1]
    · intro j
      show lValue s2.heap j = _
      rw [hv2, hlen1, hv1]
  · obtain ⟨s2, hins, hl2, hc2, hm2, hlen2, hk2, hv2⟩ :=
      s.insert_fresh ys key value hl hnone
    refine ⟨{ s2 with nodeMap := umSet s2.nodeMap key (some s.heap.length) }, ys, ?_, hl2, hc2,
      Or.inl ⟨by rw [← hml]; omega, rfl⟩, hk2, hv2⟩
    unfold LruCache.addNewNode
    simp only [hfull, if_false, Option.pure_def, Option.bind_eq_bind, Option.some_bind,
      allocLru, hins]

/-- On a listed state `updateNode` of a cached node returns: the value is replaced and
the node is the most recently used one. -/
theorem LruCache.updateNode_listed (s : LruCache K V) (A B : List Nat) (y : Nat) (value : V)
    (hl : s.Listed (A ++ y :: B)) :
    ∃ s1, s.updateNode (some y) value = some s1 ∧ s1.Listed (y :: (A ++ B)) ∧
      s1.capacity = s.capacity ∧
      (∀ j, lKey s1.heap j = lKey s.heap j) ∧
      (∀ j, lValue s1.heap j = if j = y then some value else lValue s.heap j) := by
  have hlt := lruSeg_lt _ _ _ hl.2.2.1
  have hyl : y < s.heap.length := hlt y (by simp)
  obtain ⟨h1, hw, hl1, hv1, hp1, hn1, hk1⟩ := writeLru_value s.heap hyl value
  have hl0 : LruCache.Listed { s with heap := h1 } (A ++ y :: B) := by
    obtain ⟨hh, ht, hseg, hnd, hmk, hml, hmap⟩ := hl
    refine ⟨hh, ht, ?_, hnd, hmk, hml, ?_⟩
    · exact lruSeg_frame _ 1 0 hseg (fun j _ => hp1 j) (fun j _ => hn1 j)
    · intro k p
      rw [hmap k p]
      constructor
      · rintro ⟨z, hz, e, hkz⟩
        exact ⟨z, hz, e, by show lKey h1 z = some k; rw [hk1]; exact hkz⟩
      · rintro ⟨z, hz, e, hkz⟩
        exact ⟨z, hz, e, by rw [← hk1]; exact hkz⟩
  obtain ⟨s1, hmv, hl2, hc2, -, -, hk2, hv2⟩ :=
    LruCache.moveNodeToRecent_listed { s with heap := h1 } A B y hl0
  refine ⟨s1, ?_, hl2, hc2, ?_, ?_⟩
  · unfold LruCache.updateNode
    simp only [hw, Option.bind_eq_bind, Option.some_bind]
    exact hmv
  · intro j
    rw [hk2]
    exact hk1 j
  · intro j
    rw [hv2]
    exact hv1 j

end LruOps3

section Refinement

variable {K V : Type} [DecidableEq K]

theorem lEntry_of_lt (h : List (LruNode K V)) {j : Nat} (hj : j < h.length) :
    ∃ k v, lKey h j = some k ∧ lValue h j = some v ∧ lEntry h j = some (k, v) := by
  obtain ⟨k, hk⟩ := lKey_isSome h hj
  obtain ⟨v, hv⟩ := lValue_isSome h hj
  exact ⟨k, v, hk, hv, lEntry_eq hk hv⟩

theorem length_entries (h : List (LruNode K V)) :
    ∀ ys : List Nat, (∀ y ∈ ys, y < h.length) →
      (ys.filterMap (lEntry h)).length = ys.length := by
  intro ys
  induction ys with
  | nil => intro _; rfl
  | cons y ys ih =>
    intro hlt
    obtain ⟨k, v, -, -, he⟩ := lEntry_of_lt h (hlt y (by simp))
    rw [List.filterMap_cons_some he]
    simp [ih (fun z hz => hlt z (List.mem_cons_of_mem _ hz))]

theorem entries_congr {h h1 : List (LruNode K V)} (ys : List Nat)
    (hk : ∀ j ∈ ys, lKey h1 j = lKey h j) (hv : ∀ j ∈ ys, lValue h1 j = lValue h j) :
    ys.filterMap (lEntry h1) = ys.filterMap (lEntry h) := by
  induction ys with
  | nil => rfl
  | cons y ys ih =>
    have e : lEntry h1 y = lEntry h y := lEntry_congr (hk y (by simp)) (hv y (by simp))
    have ih1 := ih (fun j hj => hk j (List.mem_cons_of_mem _ hj))
      (fun j hj => hv j (List.mem_cons_of_mem _ hj))
    simp only [List.filterMap_cons, e, ih1]

theorem LruCache.Listed.lt {s : LruCache K V} {ys : List Nat} (hl : s.Listed ys) :
    ∀ y ∈ ys, y < s.heap.length := by
  intro y hy
  exact lruSeg_lt _ _ _ hl.2.2.1 y (by simp [hy])

theorem LruCache.Listed.nodup {s : LruCache K V} {ys : List Nat} (hl : s.Listed ys) :
    ys.Nodup := by
  have h1 := (List.nodup_cons.mp hl.2.2.2.1).2
  exact (List.nodup_append.mp h1).1

/-- The cached entries of the reference model are those carried by the list. -/
theorem RecencyModel.cached_eq {r : RecencyModel K V} {l old : List (K × V)} {c : Nat}
    (hc : r.capacity = c) (hu : r.used = l ++ old) (hle : l.length ≤ c)
    (hold : l.length < c → old = []) : r.cached = l := by
  unfold RecencyModel.cached
  rw [hc, hu]
  rcases Nat.lt_or_ge l.length c with hlt | hge
  · rw [hold hlt]
    simp
    omega
  · have e : l.length = c := by omega
    have : min c (l ++ old).length = l.length := by
      simp
      omega
    rw [this]
    simp

theorem touch_filter {l : List (K × V)} (hnd : (l.map Prod.fst).Nodup) {X Y : List (K × V)}
    {k : K} {v0 : V} (hl : l = X ++ (k, v0) :: Y) :
    l.filter (fun e => decide (e.1 ≠ k)) = X ++ Y := by
  subst hl
  rw [List.map_append, List.map_cons] at hnd
  have h1 : k ∉ X.map Prod.fst := by
    intro hx
    exact (List.nodup_append.mp hnd).2.2 hx (by simp)
  have h2 : k ∉ Y.map Prod.fst :=
    (List.nodup_cons.mp (List.nodup_append.mp hnd).2.1).1
  rw [List.filter_append, List.filter_cons, filter_keys_eq_self h1, filter_keys_eq_self h2]
  simp

theorem touch_nodup {l : List (K × V)} (hnd : (l.map Prod.fst).Nodup) (k : K) (v : V) :
    ((((k, v) :: l.filter (fun e => decide (e.1 ≠ k))) : List (K × V)).map Prod.fst).Nodup := by
  rw [List.map_cons]
  apply List.nodup_cons.mpr
  refine ⟨?_, nodup_keys_filter hnd _⟩
  intro hm
  obtain ⟨e, he, hk⟩ := List.mem_map.mp hm
  have := (List.mem_filter.mp he).2
  simp at this
  exact this hk

/-- A use of a cached key: the state in which its node is the most recently used one
stands for the reference state after the use. -/
theorem LruCache.sim_touch {c : Nat} {s s1 : LruCache K V} {r : RecencyModel K V}
    (hsim : s.capacity = c ∧ r.capacity = c ∧ (r.used.map Prod.fst).Nodup)
    {ys1 ys2 : List Nat} {y : Nat} {k : K} {v : V}
    {oldl : List (K × V)}
    (hl : s.Listed (ys1 ++ y :: ys2))
    (hu : r.used = (ys1 ++ y :: ys2).filterMap (lEntry s.heap) ++ oldl)
    (hle : (ys1 ++ y :: ys2).length ≤ c)
    (hold : (ys1 ++ y :: ys2).length < c → oldl = [])
    (hky : lKey s.heap y = some k)
    (hl1 : s1.Listed (y :: (ys1 ++ ys2))) (hc1 : s1.capacity = s.capacity)
    (hk1 : ∀ j, lKey s1.heap j = lKey s.heap j)
    (hv1 : ∀ j, lValue s1.heap j = if j = y then some v else lValue s.heap j) :
    s1.Sim c (r.touch k v) := by
  obtain ⟨hcap, hrc, hnd⟩ := hsim
  have hlt := hl.lt
  have hyl : y < s.heap.length := hlt y (by simp)
  obtain ⟨k0, v0, hk0, hv0, he0⟩ := lEntry_of_lt s.heap hyl
  have ek : k0 = k := by rw [hky] at hk0; exact (Option.some.inj hk0).symm
  subst ek
  have hnodup := hl.nodup
  have hy1 : y ∉ ys1 := by
    intro hm
    exact (List.nodup_append.mp hnodup).2.2 hm (by simp)
  have hy2 : y ∉ ys2 :=
    (List.nodup_cons.mp (List.nodup_append.mp hnodup).2.1).1
  have hused : r.used = ys1.filterMap (lEntry s.heap) ++ (k0, v0) ::
      (ys2.filterMap (lEntry s.heap) ++ oldl) := by
    rw [hu, List.filterMap_append, List.filterMap_cons_some he0]
    simp
  have hfil := touch_filter hnd hused
  have hey : lEntry s1.heap y = some (k0, v) := by
    apply lEntry_eq
    · rw [hk1]; exact hky
    · rw [hv1]; simp
  have hfr : (ys1 ++ ys2).filterMap (lEntry s1.heap)
      = (ys1 ++ ys2).filterMap (lEntry s.heap) := by
    apply entries_congr
    · intro j _; exact hk1 j
    · intro j hj
      have hne : j ≠ y := by
        rintro rfl
        rcases List.mem_append.mp hj with h | h
        · exact hy1 h
        · exact hy2 h
      rw [hv1]; simp [hne]
  refine ⟨by rw [hc1]; exact hcap, hrc, touch_nodup hnd k0 v, y :: (ys1 ++ ys2), oldl, hl1, ?_,
    ?_, ?_⟩
  · show (k0, v) :: r.used.filter _ = _
    rw [hfil, List.filterMap_cons_some hey, hfr, List.filterMap_append]
    simp
  · simp at hle ⊢
    omega
  · intro h
    apply hold
    simp at h ⊢
    omega

/-- The key of a missed `put` is not among the entries carried by the list. -/
theorem LruCache.Listed.key_not_cached {s : LruCache K V} {ys : List Nat} (hl : s.Listed ys)
    {key : K} (hnone : umFind s.nodeMap key = none) :
    key ∉ (ys.filterMap (lEntry s.heap)).map Prod.fst := by
  intro hm
  obtain ⟨e, he, hk⟩ := List.mem_map.mp hm
  obtain ⟨y, hy, hey⟩ := List.mem_filterMap.mp he
  have hky := (lEntry_some hey).1
  rw [hk] at hky
  have := (hl.2.2.2.2.2.2 key (some y)).mpr ⟨y, hy, rfl, hky⟩
  rw [hnone] at this
  cases this

/-- One `put` on the cache is one `put` on the reference model. -/
theorem LruCache.put_sim {c : Nat} (hc : 1 ≤ c) {s : LruCache K V} {r : RecencyModel K V}
    (hsim : s.Sim c r) (key : K) (value : V) :
    ∃ s1, s.put key value = some s1 ∧ s1.Sim c (r.put key value) := by
  obtain ⟨hcap, hrc, hnd, ys, old, hl, hu, hle, hold⟩ := hsim
  have hc0 : s.capacity ≠ 0 := by omega
  unfold LruCache.put
  simp only [hc0, if_false]
  cases hf : umFind s.nodeMap key with
  | some p =>
    obtain ⟨y, hy, hp, hky⟩ := (hl.2.2.2.2.2.2 key p).mp hf
    subst hp
    obtain ⟨A, B, hsplit⟩ := List.append_of_mem hy
    subst hsplit
    obtain ⟨s1, hup, hl1, hc1, hk1, hv1⟩ := s.updateNode_listed A B y value hl
    exact ⟨s1, hup, LruCache.sim_touch ⟨hcap, hrc, hnd⟩ hl hu hle hold hky hl1 hc1 hk1 hv1⟩
  | none =>
    obtain ⟨s1, ys1, hadd, hl1, hc1, hcase, hk1, hv1⟩ :=
      s.addNewNode_listed ys key value hl hf (by omega)
    refine ⟨s1, hadd, by rw [hc1]; exact hcap, hrc, touch_nodup hnd key value,
      s.heap.length :: ys1, ?_⟩
    have hlt := hl.lt
    have hknc := hl.key_not_cached hf
    have hey : lEntry s1.heap s.heap.length = some (key, value) := by
      apply lEntry_eq
      · rw [hk1]; simp
      · rw [hv1]; simp
    have hfr : ∀ zs : List Nat, (∀ z ∈ zs, z ∈ ys) →
        zs.filterMap (lEntry s1.heap) = zs.filterMap (lEntry s.heap) := by
      intro zs hzs
      apply entries_congr
      · intro j hj
        have hne : j ≠ s.heap.length := by
          have := hlt j (hzs j hj)
          omega
        rw [hk1]; simp [hne]
      · intro j hj
        have hne : j ≠ s.heap.length := by
          have := hlt j (hzs j hj)
          omega
        rw [hv1]; simp [hne]
    rcases hcase with ⟨hlt1, e⟩ | ⟨hge, y0, e⟩
    · subst e
      have hold0 : old = [] := hold (by rw [← hcap]; exact hlt1)
      subst hold0
      refine ⟨[], hl1, ?_, ?_, fun _ => rfl⟩
      · show (key, value) :: r.used.filter _ = _
        rw [hu, List.append_nil, filter_keys_eq_self hknc, List.filterMap_cons_some hey,
          hfr ys1 (fun z hz => hz)]
        simp
      · simp
        rw [← hcap]
        omega
    · subst e
      have hy0l : y0 < s.heap.length := hlt y0 (by simp)
      obtain ⟨k0, v0, hk0, hv0, he0⟩ := lEntry_of_lt s.heap hy0l
      have hne0 : k0 ≠ key := by
        rintro rfl
        have := (hl.2.2.2.2.2.2 k0 (some y0)).mpr ⟨y0, by simp, rfl, hk0⟩
        rw [hf] at this
        cases this
      have hknc1 : key ∉ (ys1.filterMap (lEntry s.heap)).map Prod.fst := by
        intro hm
        apply hknc
        rw [List.filterMap_append, List.map_append]
        exact List.mem_append_left _ hm
      refine ⟨(k0, v0) :: old.filter (fun e => decide (e.1 ≠ key)), hl1, ?_, ?_, ?_⟩
      · show (key, value) :: r.used.filter _ = _
        rw [hu, List.filterMap_append, List.filter_append, List.filter_append,
          filter_keys_eq_self hknc1, List.filterMap_cons_some he0, List.filterMap_nil,
          List.filterMap_cons_some hey, hfr ys1 (fun z hz => by simp [hz])]
        simp [hne0]
      · simp at hle ⊢
        omega
      · intro h
        exfalso
        simp at hle h
        rw [hcap] at hge
        simp at hge
        omega

/-- One `get` on the cache is one `get` on the reference model, with the same result. -/
theorem LruCache.get_sim {c : Nat} (hc : 1 ≤ c) {s : LruCache K V} {r : RecencyModel K V}
    (hsim : s.Sim c r) (key : K) (value : V) :
    ∃ s1, s.get key value = some (s1, (r.get key value).2) ∧
      s1.Sim c (r.get key value).1 := by
  obtain ⟨hcap, hrc, hnd, ys, old, hl, hu, hle, hold⟩ := hsim
  have hc0 : s.capacity ≠ 0 := by omega
  have hlt := hl.lt
  have hcached : r.cached = ys.filterMap (lEntry s.heap) :=
    RecencyModel.cached_eq hrc hu (by rw [length_entries _ _ hlt]; exact hle)
      (by rw [length_entries _ _ hlt]; exact hold)
  have hndc : ((ys.filterMap (lEntry s.heap)).map Prod.fst).Nodup := by
    rw [hu, List.map_append] at hnd
    exact (List.nodup_append.mp hnd).1
  unfold LruCache.get RecencyModel.get
  simp only [hc0, if_false]
  cases hf : umFind s.nodeMap key with
  | some p =>
    obtain ⟨y, hy, hp, hky⟩ := (hl.2.2.2.2.2.2 key p).mp hf
    subst hp
    have hyl := hlt y hy
    obtain ⟨k0, v0, hk0, hv0, he0⟩ := lEntry_of_lt s.heap hyl
    have ek : k0 = key := by rw [hky] at hk0; exact (Option.some.inj hk0).symm
    subst ek
    have hfind : umFind r.cached k0 = some v0 := by
      rw [hcached]
      exact umFind_of_mem_nodup hndc (List.mem_filterMap.mpr ⟨y, hy, he0⟩)
    obtain ⟨A, B, hsplit⟩ := List.append_of_mem hy
    subst hsplit
    obtain ⟨s1, hmv, hl1, hc1, -, hlen1, hk1, hv1⟩ := s.moveNodeToRecent_listed A B y hl
    obtain ⟨n, hrn, -, -, -, hnv⟩ := readLru_of_lt s1.heap (by rw [hlen1]; exact hyl)
    have env : n.value = v0 := by
      rw [hv1, hv0] at hnv
      exact Option.some.inj hnv
    refine ⟨s1, ?_, ?_⟩
    · simp only [hmv, Option.bind_eq_bind, Option.some_bind, hrn, Option.pure_def, hfind, env]
    · simp only [hfind]
      apply LruCache.sim_touch ⟨hcap, hrc, hnd⟩ hl hu hle hold hky hl1 hc1 hk1
      intro j
      rw [hv1]
      by_cases hj : j = y
      · subst hj
        simp [hv0]
      · simp [hj]
  | none =>
    have hfind : umFind r.cached key = none := by
      rw [hcached]
      exact (umFind_eq_none_iff _ _).mpr (hl.key_not_cached hf)
    refine ⟨s, by simp only [hfind], ?_⟩
    simp only [hfind]
    exact ⟨hcap, hrc, hnd, ys, old, hl, hu, hle, hold⟩

/-- The fresh cache stands for the fresh reference model. -/
theorem LruCache.create_sim [Inhabited K] [Inhabited V] (c : Nat) :
    (LruCache.create c : LruCache K V).Sim c (RecencyModel.create c) := by
  refine ⟨rfl, rfl, by simp [RecencyModel.create], [], [], ?_, rfl, by simp, fun _ => rfl⟩
  refine ⟨rfl, rfl, ⟨rfl, rfl⟩, by decide, by simp [LruCache.create],
    by simp [LruCache.create], ?_⟩
  intro k p
  simp [LruCache.create, umFind]

/-- Every list of calls on the cache returns, with the results of the reference model. -/
theorem LruCache.run_sim {c : Nat} (hc : 1 ≤ c) (calls : List (CacheCall K V)) :
    ∀ (s : LruCache K V) (r : RecencyModel K V), s.Sim c r →
      ∃ s1, s.run calls = some (s1, (r.run calls).2) ∧ s1.Sim c (r.run calls).1 := by
  induction calls with
  | nil =>
    intro s r hsim
    exact ⟨s, rfl, hsim⟩
  | cons a rest ih =>
    intro s r hsim
    cases a with
    | put key value =>
      obtain ⟨s1, hput, hsim1⟩ := LruCache.put_sim hc hsim key value
      obtain ⟨s2, hrun, hsim2⟩ := ih s1 (r.put key value) hsim1
      refine ⟨s2, ?_, hsim2⟩
      unfold LruCache.run RecencyModel.run
      simp only [LruCache.call, hput, Option.map_some', Option.bind_eq_bind, Option.some_bind,
        hrun, Option.pure_def, RecencyModel.call]
    | get key value =>
      obtain ⟨s1, hget, hsim1⟩ := LruCache.get_sim hc hsim key value
      obtain ⟨s2, hrun, hsim2⟩ := ih s1 (r.get key value).1 hsim1
      refine ⟨s2, ?_, hsim2⟩
      unfold LruCache.run RecencyModel.run
      simp only [LruCache.call, hget, Option.map_some', Option.bind_eq_bind, Option.some_bind,
        hrun, Option.pure_def, RecencyModel.call]

/-- In a state that stands for a reference state, the keys of `nodeMap` are the cached
keys of the reference model. -/
theorem LruCache.Sim.keys {c : Nat} {s : LruCache K V} {r : RecencyModel K V}
    (hsim : s.Sim c r) :
    (∀ k, (umFind s.nodeMap k).isSome = true ↔ k ∈ r.cached.map Prod.fst) ∧
      s.nodeMap.length = min c r.used.length ∧ s.nodeMap.length = r.cached.length := by
  obtain ⟨hcap, hrc, hnd, ys, old, hl, hu, hle, hold⟩ := hsim
  have hlt := hl.lt
  have hlen := length_entries _ _ hlt
  have hcached : r.cached = ys.filterMap (lEntry s.heap) :=
    RecencyModel.cached_eq hrc hu (by rw [hlen]; exact hle) (by rw [hlen]; exact hold)
  have hml := hl.2.2.2.2.2.1
  refine ⟨?_, ?_, by rw [hcached, hlen]; exact hml⟩
  · intro k
    rw [hcached]
    constructor
    · intro h
      obtain ⟨p, hp⟩ := Option.isSome_iff_exists.mp h
      obtain ⟨y, hy, -, hky⟩ := (hl.2.2.2.2.2.2 k p).mp hp
      obtain ⟨k0, v0, hk0, hv0, he0⟩ := lEntry_of_lt s.heap (hlt y hy)
      have ek : k0 = k := by rw [hky] at hk0; exact (Option.some.inj hk0).symm
      subst ek
      exact List.mem_map.mpr ⟨(k0, v0), List.mem_filterMap.mpr ⟨y, hy, he0⟩, rfl⟩
    · intro h
      cases hf : umFind s.nodeMap k with
      | some p => rfl
      | none => exact absurd h (hl.key_not_cached hf)
  · rw [hml, hu, List.length_append, hlen]
    rcases Nat.lt_or_ge ys.length c with h1 | h1
    · rw [hold h1]
      simp
      omega
    · omega

end Refinement

section ReferenceModel

variable {K V : Type} [DecidableEq K]

theorem umFind_touch (r : RecencyModel K V) (k k1 : K) (v : V) :
    umFind (r.touch k v).used k1 = if k1 = k then some v else umFind r.used k1 := by
  have e : umFind (r.touch k v).used k1
      = if k = k1 then some v
        else umFind (r.used.filter (fun e => decide (e.1 ≠ k))) k1 := rfl
  rw [e]
  by_cases h : k = k1
  · subst h; simp
  · have h1 : ¬ k1 = k := fun e => h e.symm
    simp only [h, if_false, h1]
    rw [← umErase_eq_filter, umFind_umErase]
    simp [h1]

theorem umFind_take {l : List (K × V)} (hnd : (l.map Prod.fst).Nodup) (n : Nat) {k : K} {v : V}
    (h : umFind (l.take n) k = some v) : umFind l k = some v :=
  umFind_of_mem_nodup hnd (List.mem_of_mem_take (umFind_mem h))

theorem RecencyModel.call_nodup (r : RecencyModel K V) (hnd : (r.used.map Prod.fst).Nodup)
    (a : CacheCall K V) : ((r.call a).1.used.map Prod.fst).Nodup := by
  cases a with
  | put key value => exact touch_nodup hnd key value
  | get key value =>
    cases hf : umFind r.cached key with
    | none =>
      have e : (r.call (.get key value)).1 = r := by
        simp only [RecencyModel.call, RecencyModel.get, hf]
      rw [e]
      exact hnd
    | some v =>
      have e : (r.call (.get key value)).1 = r.touch key v := by
        simp only [RecencyModel.call, RecencyModel.get, hf]
      rw [e]
      exact touch_nodup hnd key v

/-- The reference model records, for every key, the last value put for it. -/
theorem RecencyModel.run_lastPut (calls : List (CacheCall K V)) :
    ∀ (r : RecencyModel K V), (r.used.map Prod.fst).Nodup → ∀ k,
      umFind (r.run calls).1.used k
        = match CacheCall.lastPut k calls with
          | some v => some v
          | none => umFind r.used k := by
  induction calls with
  | nil =>
    intro r _ k
    rfl
  | cons a rest ih =>
    intro r hnd k
    have ih1 := ih (r.call a).1 (r.call_nodup hnd a) k
    unfold RecencyModel.run
    simp only
    rw [ih1]
    cases a with
    | put key value =>
      simp only [CacheCall.lastPut]
      cases hl : CacheCall.lastPut k rest with
      | some v => rfl
      | none =>
        simp only [RecencyModel.call, RecencyModel.put]
        rw [umFind_touch]
        by_cases hk : key = k
        · subst hk
          simp
        · have hk1 : ¬ k = key := fun e => hk e.symm
          simp [hk, hk1]
    | get key value =>
      simp only [CacheCall.lastPut]
      cases hl : CacheCall.lastPut k rest with
      | some v => rfl
      | none =>
        simp only [RecencyModel.call, RecencyModel.get]
        cases hf : umFind r.cached key with
        | none => rfl
        | some v =>
          simp only
          rw [umFind_touch]
          by_cases hk : k = key
          · subst hk
            simp only [if_true]
            exact (umFind_take hnd _ hf).symm
          · simp [hk]

end ReferenceModel

section RefinementClaim

variable {K V : Type} [DecidableEq K] [Inhabited K] [Inhabited V]

/-- C21: an `LruCache` built with capacity `c >= 1` behaves as the reference recency
model on every list of `put` and `get` calls: the run returns, every call hands back
what the reference model hands back (a `get` hits exactly when its key is among the
`min(c, d)` most recently used of the `d` distinct keys put so far, with the last value
put for it), the keys of `nodeMap` are those cached keys, and there are `min(c, d)` of
them.  The reference model holds each key put so far once, with the last value put. -/
theorem LruCache.refines_recency (c : Nat) (hc : 1 ≤ c) (calls : List (CacheCall K V)) :
    ∃ s : LruCache K V,
      (LruCache.create c).run calls = some (s, ((RecencyModel.create c).run calls).2) ∧
      (∀ k, (umFind s.nodeMap k).isSome = true ↔
        k ∈ ((RecencyModel.create c : RecencyModel K V).run calls).1.cached.map Prod.fst) ∧
      s.nodeMap.length
        = min c ((RecencyModel.create c : RecencyModel K V).run calls).1.used.length ∧
      s.nodeMap.length
        = ((RecencyModel.create c : RecencyModel K V).run calls).1.cached.length ∧
      (((RecencyModel.create c : RecencyModel K V).run calls).1.used.map Prod.fst).Nodup ∧
      (∀ k, umFind ((RecencyModel.create c : RecencyModel K V).run calls).1.used k
        = CacheCall.lastPut k calls) := by
  obtain ⟨s, hrun, hsim⟩ := LruCache.run_sim hc calls (LruCache.create c : LruCache K V)
    (RecencyModel.create c) (LruCache.create_sim c)
  obtain ⟨h1, h2, h3⟩ := hsim.keys
  refine ⟨s, hrun, h1, h2, h3, hsim.2.2.1, ?_⟩
  intro k
  have := RecencyModel.run_lastPut calls (RecencyModel.create c : RecencyModel K V)
    (by simp [RecencyModel.create]) k
  rw [this]
  cases CacheCall.lastPut k calls <;> rfl

/-- C21 (witness): capacity 2 and the calls `put(1, 10)`, `put(2, 20)`, `get(1)`,
`put(3, 30)`, `get(2)`, `get(3)`, `put(1, 11)`, `get(1)`. -/
theorem LruCache.refines_recency_witness :
    1 ≤ 2 ∧ ∃ s : LruCache Nat Nat,
      (LruCache.create 2).run [.put 1 10, .put 2 20, .get 1 0, .put 3 30, .get 2 0, .get 3 0,
          .put 1 11, .get 1 0]
        = some (s, ((RecencyModel.create 2).run [.put 1 10, .put 2 20, .get 1 0, .put 3 30,
          .get 2 0, .get 3 0, .put 1 11, .get 1 0]).2) ∧
      (∀ k, (umFind s.nodeMap k).isSome = true ↔
        k ∈ ((RecencyModel.create 2 : RecencyModel Nat Nat).run [.put 1 10, .put 2 20,
          .get 1 0, .put 3 30, .get 2 0, .get 3 0, .put 1 11, .get 1 0]).1.cached.map
            Prod.fst) ∧
      s.nodeMap.length
        = min 2 ((RecencyModel.create 2 : RecencyModel Nat Nat).run [.put 1 10, .put 2 20,
          .get 1 0, .put 3 30, .get 2 0, .get 3 0, .put 1 11, .get 1 0]).1.used.length ∧
      s.nodeMap.length
        = ((RecencyModel.create 2 : RecencyModel Nat Nat).run [.put 1 10, .put 2 20,
          .get 1 0, .put 3 30, .get 2 0, .get 3 0, .put 1 11, .get 1 0]).1.cached.length ∧
      (((RecencyModel.create 2 : RecencyModel Nat Nat).run [.put 1 10, .put 2 20,
          .get 1 0, .put 3 30, .get 2 0, .get 3 0, .put 1 11,
          .get 1 0]).1.used.map Prod.fst).Nodup ∧
      (∀ k, umFind ((RecencyModel.create 2 : RecencyModel Nat Nat).run [.put 1 10, .put 2 20,
          .get 1 0, .put 3 30, .get 2 0, .get 3 0, .put 1 11, .get 1 0]).1.used k
        = CacheCall.lastPut k [.put 1 10, .put 2 20, .get 1 0, .put 3 30, .get 2 0, .get 3 0,
          .put 1 11, .get 1 0]) :=
  ⟨by decide, LruCache.refines_recency 2 (by decide) _⟩

end RefinementClaim

section LruData

variable {K V : Type} [DecidableEq K]

theorem LruCache.SameData.refl (s : LruCache K V) : s.SameData s :=
  ⟨rfl, rfl, rfl, rfl, rfl, fun _ => rfl, fun _ => rfl⟩

theorem LruCache.SameData.trans {s s1 s2 : LruCache K V} (h1 : s.SameData s1)
    (h2 : s1.SameData s2) : s.SameData s2 := by
  obtain ⟨a1, a2, a3, a4, a5, a6, a7⟩ := h1
  obtain ⟨b1, b2, b3, b4, b5, b6, b7⟩ := h2
  exact ⟨b1.trans a1, b2.trans a2, b3.trans a3, b4.trans a4, b5.trans a5,
    fun j => (b6 j).trans (a6 j), fun j => (b7 j).trans (a7 j)⟩

/-- A write that keeps the key and the value of the cell keeps all keys and values. -/
theorem writeLru_data {h h1 : List (LruNode K V)} {p : NodePtr} {f : LruNode K V → LruNode K V}
    (hw : writeLru h p f = some h1) (hf : ∀ x, (f x).key = x.key ∧ (f x).value = x.value) :
    h1.length = h.length ∧ (∀ j, lKey h1 j = lKey h j) ∧ (∀ j, lValue h1 j = lValue h j) := by
  cases p with
  | none => simp [writeLru] at hw
  | some i =>
    cases hi : h[i]? with
    | none => simp [writeLru, hi] at hw
    | some n =>
      have hl := lru_getElem?_lt hi
      simp only [writeLru, hi, Option.some.injEq] at hw
      subst hw
      refine ⟨by simp, ?_, ?_⟩
      all_goals
        intro j
        by_cases hji : j = i
        · subst hji
          simp [lKey, lValue, List.getElem?_set, hl, hi, (hf n).1, (hf n).2]
        · have hne : i ≠ j := fun e => hji e.symm
          simp [lKey, lValue, List.getElem?_set, hji, hne]

theorem LruCache.removeNode_data {s s1 : LruCache K V} {node : NodePtr}
    (h : s.removeNode node = some s1) : s.SameData s1 := by
  unfold LruCache.removeNode at h
  simp only [Option.bind_eq_bind, Option.bind_eq_some, Option.pure_def,
    Option.some.injEq] at h
  obtain ⟨n, -, h1, hw1, n1, -, h2, hw2, e⟩ := h
  subst e
  obtain ⟨a1, a2, a3⟩ := writeLru_data hw1 (fun x => ⟨rfl, rfl⟩)
  obtain ⟨b1, b2, b3⟩ := writeLru_data hw2 (fun x => ⟨rfl, rfl⟩)
  exact ⟨rfl, rfl, rfl, rfl, b1.trans a1, fun j => (b2 j).trans (a2 j),
    fun j => (b3 j).trans (a3 j)⟩

theorem LruCache.insertNode_data {s s1 : LruCache K V} {node : NodePtr}
    (h : s.insertNode node = some s1) : s.SameData s1 := by
  unfold LruCache.insertNode at h
  simp only [Option.bind_eq_bind, Option.bind_eq_some, Option.pure_def,
    Option.some.injEq] at h
  obtain ⟨h1, hw1, t1, -, h2, hw2, t2, -, h3, hw3, h4, hw4, e⟩ := h
  subst e
  obtain ⟨a1, a2, a3⟩ := writeLru_data hw1 (fun x => ⟨rfl, rfl⟩)
  obtain ⟨b1, b2, b3⟩ := writeLru_data hw2 (fun x => ⟨rfl, rfl⟩)
  obtain ⟨c1, c2, c3⟩ := writeLru_data hw3 (fun x => ⟨rfl, rfl⟩)
  obtain ⟨d1, d2, d3⟩ := writeLru_data hw4 (fun x => ⟨rfl, rfl⟩)
  exact ⟨rfl, rfl, rfl, rfl, by rw [d1, c1, b1, a1],
    fun j => by rw [d2, c2, b2, a2], fun j => by rw [d3, c3, b3, a3]⟩

theorem LruCache.moveNodeToRecent_data {s s1 : LruCache K V} {node : NodePtr}
    (h : s.moveNodeToRecent node = some s1) : s.SameData s1 := by
  unfold LruCache.moveNodeToRecent at h
  simp only [Option.bind_eq_bind, Option.bind_eq_some] at h
  obtain ⟨s0, h0, h1⟩ := h
  exact (LruCache.removeNode_data h0).trans (LruCache.insertNode_data h1)

/-- When `kickOut` returns it has erased at most one key and changed neither keys nor
values of the cells. -/
theorem LruCache.kickOut_data {s s1 : LruCache K V} (h : s.kickOut = some s1) :
    ∃ k0, s1.capacity = s.capacity ∧ s1.nodeMap = umErase s.nodeMap k0 ∧
      s1.head = s.head ∧ s1.tail = s.tail ∧
      s1.heap.length = s.heap.length ∧ (∀ j, lKey s1.heap j = lKey s.heap j) ∧
      (∀ j, lValue s1.heap j = lValue s.heap j) := by
  unfold LruCache.kickOut at h
  simp only [Option.bind_eq_bind, Option.bind_eq_some, Option.pure_def,
    Option.some.injEq] at h
  obtain ⟨hd, -, s0, h0, n, -, e⟩ := h
  subst e
  obtain ⟨a1, a2, a3, a4, a5, a6, a7⟩ := LruCache.removeNode_data h0
  exact ⟨n.key, a1, by show umErase s0.nodeMap n.key = _; rw [a2], a3, a4, a5, a6, a7⟩

theorem LruCache.Keyed.of_sameData {s s1 : LruCache K V} {P : K → V → Prop}
    (hk : s.Keyed P) (hd : s.SameData s1) : s1.Keyed P := by
  obtain ⟨-, a2, -, -, -, a6, a7⟩ := hd
  intro key p hf
  rw [a2] at hf
  obtain ⟨y, v, e, h1, h2, h3⟩ := hk key p hf
  exact ⟨y, v, e, by rw [a6]; exact h1, by rw [a7]; exact h2, h3⟩

theorem LruCache.Keyed.mono {s : LruCache K V} {P Q : K → V → Prop} (hk : s.Keyed P)
    (hpq : ∀ k v, P k v → Q k v) : s.Keyed Q := by
  intro key p hf
  obtain ⟨y, v, e, h1, h2, h3⟩ := hk key p hf
  exact ⟨y, v, e, h1, h2, hpq _ _ h3⟩

/-- When `get` returns: only links changed; a hit is on a key of `nodeMap` and hands back
the value of its node, a miss leaves `value` as it was. -/
theorem LruCache.get_data {s s1 : LruCache K V} {key : K} {value out : V} {found : Bool}
    (h : s.get key value = some (s1, found, out)) :
    s.SameData s1 ∧
    (found = true → ∃ p, umFind s.nodeMap key = some p ∧
      ∃ y, p = some y ∧ lValue s.heap y = some out) ∧
    (found = false → out = value) := by
  unfold LruCache.get at h
  by_cases hc : s.capacity = 0
  · simp only [hc, if_true, Option.some.injEq, Prod.mk.injEq] at h
    obtain ⟨e1, e2, e3⟩ := h
    subst e1; subst e2; subst e3
    exact ⟨LruCache.SameData.refl s, (by intro h; cases h), fun _ => rfl⟩
  · simp only [hc, if_false] at h
    cases hf : umFind s.nodeMap key with
    | none =>
      simp only [hf, Option.some.injEq, Prod.mk.injEq] at h
      obtain ⟨e1, e2, e3⟩ := h
      subst e1; subst e2; subst e3
      exact ⟨LruCache.SameData.refl s, (by intro h; cases h), fun _ => rfl⟩
    | some p =>
      simp only [hf, Option.bind_eq_bind, Option.bind_eq_some, Option.pure_def,
        Option.some.injEq, Prod.mk.injEq] at h
      obtain ⟨s0, h0, n, hn, e1, e2, e3⟩ := h
      subst e1; subst e2; subst e3
      have hd := LruCache.moveNodeToRecent_data h0
      obtain ⟨y, hp, -, -, -, -, hv⟩ := readLru_eq_some hn
      refine ⟨hd, fun _ => ⟨p, rfl, y, hp, ?_⟩, (by intro h; cases h)⟩
      rw [hv]
      exact (hd.2.2.2.2.2.2 y).symm

/-- When `addNewNode` returns: the state after the optional `kickOut`, and the state
after `insertNode` of the fresh node. -/
theorem LruCache.addNewNode_split {s s1 : LruCache K V} {key : K} {value : V}
    (h : s.addNewNode key value = some s1) :
    ∃ s0 s2, (s.kickOut = some s0 ∨ s0 = s) ∧
      LruCache.insertNode { s0 with heap := s0.heap ++ [LruNode.create key value] }
        (some s0.heap.length) = some s2 ∧
      s1 = { s2 with nodeMap := umSet s2.nodeMap key (some s0.heap.length) } := by
  unfold LruCache.addNewNode at h
  by_cases hfull : s.nodeMap.length ≥ s.capacity
  · simp only [hfull, if_true, Option.bind_eq_bind, Option.bind_eq_some, allocLru,
      Option.pure_def, Option.some.injEq] at h
    obtain ⟨s0, hs0, s2, hins, e⟩ := h
    exact ⟨s0, s2, Or.inl hs0, hins, e.symm⟩
  · simp only [hfull, if_false, Option.bind_eq_bind, Option.bind_eq_some, allocLru,
      Option.pure_def, Option.some.injEq] at h
    obtain ⟨s0, hs0, s2, hins, e⟩ := h
    exact ⟨s0, s2, Or.inr hs0.symm, hins, e.symm⟩

/-- When `put` returns, a key of `nodeMap` is the key that was put or was a key of
`nodeMap` before. -/
theorem LruCache.put_keys {s s1 : LruCache K V} {key : K} {value : V}
    (h : s.put key value = some s1) :
    s1.capacity = s.capacity ∧
    ∀ k1, (umFind s1.nodeMap k1).isSome = true → k1 = key ∨ (umFind s.nodeMap k1).isSome = true := by
  unfold LruCache.put at h
  by_cases hc : s.capacity = 0
  · simp only [hc, if_true, Option.some.injEq] at h
    subst h
    exact ⟨rfl, fun k1 h1 => Or.inr h1⟩
  · simp only [hc, if_false] at h
    cases hf : umFind s.nodeMap key with
    | some p =>
      simp only [hf] at h
      unfold LruCache.updateNode at h
      simp only [Option.bind_eq_bind, Option.bind_eq_some] at h
      obtain ⟨h1, -, hmv⟩ := h
      have hd := LruCache.moveNodeToRecent_data hmv
      refine ⟨hd.1, fun k1 hk1 => Or.inr ?_⟩
      rw [hd.2.1] at hk1
      exact hk1
    | none =>
      simp only [hf] at h
      obtain ⟨s0, s2, hs0, hins, e⟩ := LruCache.addNewNode_split h
      subst e
      have hd := LruCache.insertNode_data hins
      have hsub : s0.capacity = s.capacity ∧
          ∀ k1, (umFind s0.nodeMap k1).isSome = true → (umFind s.nodeMap k1).isSome = true := by
        rcases hs0 with hs0 | hs0
        · obtain ⟨k0, a1, a2, -⟩ := LruCache.kickOut_data hs0
          refine ⟨a1, fun k1 hk1 => ?_⟩
          rw [a2, umFind_umErase] at hk1
          by_cases e : k1 = k0
          · simp [e] at hk1
          · simpa [e] using hk1
        · subst hs0
          exact ⟨rfl, fun k1 hk1 => hk1⟩
      refine ⟨by show s2.capacity = _; rw [hd.1]; exact hsub.1, fun k1 hk1 => ?_⟩
      have hk2 : (umFind (umSet s2.nodeMap key (some s0.heap.length)) k1).isSome = true := hk1
      rw [umFind_umSet] at hk2
      by_cases e : k1 = key
      · exact Or.inl e
      · simp only [e, if_false] at hk2
        rw [hd.2.1] at hk2
        exact Or.inr (hsub.2 k1 hk2)

/-- When `put` returns, the entries of `nodeMap` still point to nodes with their key, the
node of the key that was put carrying the new value. -/
theorem LruCache.put_keyed {s s1 : LruCache K V} {key : K} {value : V} {P : K → V → Prop}
    (hk : s.Keyed P) (hp : P key value) (h : s.put key value = some s1) : s1.Keyed P := by
  unfold LruCache.put at h
  by_cases hc : s.capacity = 0
  · simp only [hc, if_true, Option.some.injEq] at h
    subst h
    exact hk
  · simp only [hc, if_false] at h
    cases hf : umFind s.nodeMap key with
    | some p =>
      simp only [hf] at h
      unfold LruCache.updateNode at h
      simp only [Option.bind_eq_bind, Option.bind_eq_some] at h
      obtain ⟨h1, hw, hmv⟩ := h
      obtain ⟨y, v0, e, hky, -, -⟩ := hk key p hf
      subst e
      obtain ⟨h1a, hwa, hl1, hv1, -, -, hk1⟩ := writeLru_value s.heap (lKey_lt hky) value
      rw [hwa] at hw
      have e := Option.some.inj hw
      subst e
      have hd := LruCache.moveNodeToRecent_data hmv
      have hk0 : LruCache.Keyed { s with heap := h1a } P := by
        intro key1 p1 hf1
        obtain ⟨y1, v1, e1, hky1, hv, hP⟩ := hk key1 p1 hf1
        by_cases hy : y1 = y
        · subst hy
          have : key1 = key := by
            rw [hky] at hky1
            exact (Option.some.inj hky1).symm
          subst this
          exact ⟨y1, value, e1, by show lKey h1a y1 = _; rw [hk1]; exact hky,
            by show lValue h1a y1 = _; rw [hv1]; simp, hp⟩
        · exact ⟨y1, v1, e1, by show lKey h1a y1 = _; rw [hk1]; exact hky1,
            by show lValue h1a y1 = _; rw [hv1]; simp [hy, hv], hP⟩
      exact hk0.of_sameData hd
    | none =>
      simp only [hf] at h
      obtain ⟨s0, s2, hs0, hins, e⟩ := LruCache.addNewNode_split h
      subst e
      have hd := LruCache.insertNode_data hins
      have hk0 : s0.Keyed P := by
        rcases hs0 with hs0 | hs0
        · obtain ⟨k0, -, a2, -, -, -, a6, a7⟩ := LruCache.kickOut_data hs0
          intro key1 p1 hf1
          rw [a2, umFind_umErase] at hf1
          by_cases e : key1 = k0
          · simp [e] at hf1
          · simp only [e, if_false] at hf1
            obtain ⟨y1, v1, e1, hky1, hv, hP⟩ := hk key1 p1 hf1
            exact ⟨y1, v1, e1, by rw [a6]; exact hky1, by rw [a7]; exact hv, hP⟩
        · subst hs0
          exact hk
      obtain ⟨-, han, hap, hak, hav⟩ := allocLru_views s0.heap key value
      intro key1 p1 hf1
      have hf2 : umFind (umSet s2.nodeMap key (some s0.heap.length)) key1 = some p1 := hf1
      rw [umFind_umSet, hd.2.1] at hf2
      have hk2 : ∀ j, lKey s2.heap j = if j = s0.heap.length then some key
          else lKey s0.heap j := by
        intro j
        rw [hd.2.2.2.2.2.1 j]
        exact hak j
      have hv2 : ∀ j, lValue s2.heap j = if j = s0.heap.length then some value
          else lValue s0.heap j := by
        intro j
        rw [hd.2.2.2.2.2.2 j]
        exact hav j
      by_cases e : key1 = key
      · subst e
        simp only [if_true, Option.some.injEq] at hf2
        exact ⟨s0.heap.length, value, hf2.symm, by show lKey s2.heap _ = _; rw [hk2]; simp,
          by show lValue s2.heap _ = _; rw [hv2]; simp, hp⟩
      · simp only [e, if_false] at hf2
        obtain ⟨y1, v1, e1, hky1, hv, hP⟩ := hk0 key1 p1 hf2
        have hne : y1 ≠ s0.heap.length := by
          have := lKey_lt hky1
          omega
        exact ⟨y1, v1, e1, by show lKey s2.heap _ = _; rw [hk2]; simp [hne, hky1],
          by show lValue s2.heap _ = _; rw [hv2]; simp [hne, hv], hP⟩

theorem LruCache.remove_data {s s1 : LruCache K V} {key : K} (h : s.remove key = some s1) :
    s.SameData s1 := by
  unfold LruCache.remove at h
  by_cases hc : s.capacity = 0
  · simp only [hc, if_true, Option.some.injEq] at h
    subst h
    exact LruCache.SameData.refl s
  · simp only [hc, if_false] at h
    cases hf : umFind s.nodeMap key with
    | none =>
      simp only [hf, Option.some.injEq] at h
      subst h
      exact LruCache.SameData.refl s
    | some p =>
      simp only [hf] at h
      exact LruCache.removeNode_data h

end LruData

section LruK

variable {K V : Type} [DecidableEq K]

theorem CacheCall.uses_append (k : K) (l1 l2 : List (CacheCall K V)) :
    CacheCall.uses k (l1 ++ l2) = CacheCall.uses k l1 + CacheCall.uses k l2 := by
  simp [CacheCall.uses]

theorem CacheCall.uses_single (k : K) (a : CacheCall K V) :
    CacheCall.uses k [a] = if a.key = k then 1 else 0 := by
  by_cases h : a.key = k <;> simp [CacheCall.uses, h]

theorem toInt_small {v : Nat} (h : v < 2 ^ 31) : toInt v = (v : Int) := by
  unfold toInt
  have : (v + 2 ^ 31) % 2 ^ 32 = v + 2 ^ 31 := Nat.mod_eq_of_lt (by omega)
  rw [this]
  push_cast
  omega

theorem toSize_small {i : Int} (h0 : 0 ≤ i) (h1 : i < 2 ^ 31) : ((toSize i : Nat) : Int) = i := by
  unfold toSize
  have : i % 2 ^ 64 = i := Int.emod_eq_of_lt h0 (by omega)
  rw [this]
  exact Int.toNat_of_nonneg h0

/-- When `getValue` returns: only links changed, and the value is `V{}` or the value of
the node of the key. -/
theorem LruCache.getValue_data [Inhabited V] {s s1 : LruCache K V} {key : K} {v : V}
    {P : K → V → Prop} (hk : s.Keyed P) (h : s.getValue key = some (s1, v)) :
    s.SameData s1 ∧ (v = default ∨ P key v) := by
  unfold LruCache.getValue at h
  simp only [Option.bind_eq_bind, Option.bind_eq_some, Option.pure_def, Option.some.injEq,
    Prod.mk.injEq] at h
  obtain ⟨⟨s0, found, out⟩, hget, e1, e2⟩ := h
  simp only at e1 e2
  subst e1; subst e2
  obtain ⟨hd, hhit, hmiss⟩ := LruCache.get_data hget
  refine ⟨hd, ?_⟩
  cases found with
  | false => exact Or.inl (hmiss rfl)
  | true =>
    obtain ⟨p, hf, y, hp, hv⟩ := hhit rfl
    obtain ⟨y1, v1, e1, -, hv1, hP⟩ := hk key p hf
    subst hp
    have : y1 = y := (Option.some.inj e1).symm
    subst this
    rw [hv] at hv1
    have := Option.some.inj hv1
    subst this
    exact Or.inr hP

/-- When the two history statements return: the count read is at most the number of
calls that passed the key, and the counts stay within bounds after one more call on the
key. -/
theorem LruKCache.count_spec {hl h2 : LruCache K Nat} {key : K} {hc : Int}
    {past : List (CacheCall K V)} {a : CacheCall K V} (ha : a.key = key)
    (hk : hl.Keyed (fun key v => v ≤ CacheCall.uses key past ∧ v < 2 ^ 31))
    (h : LruKCache.count hl key = some (h2, hc)) :
    hc ≤ ((CacheCall.uses key past : Nat) : Int) ∧
    h2.Keyed (fun key v => v ≤ CacheCall.uses key (past ++ [a]) ∧ v < 2 ^ 31) := by
  unfold LruKCache.count at h
  simp only [Option.bind_eq_bind, Option.bind_eq_some] at h
  obtain ⟨⟨h1, v⟩, hget, h⟩ := h
  simp only at h
  obtain ⟨hd, hv⟩ := LruCache.getValue_data hk hget
  have hvb : v ≤ CacheCall.uses key past ∧ v < 2 ^ 31 := by
    rcases hv with e | hP
    · have : v = 0 := e
      subst this
      exact ⟨Nat.zero_le _, by decide⟩
    · exact hP
  have hti : toInt v = (v : Int) := toInt_small hvb.2
  by_cases hmax : toInt v = INT_MAX
  · simp [hmax] at h
  · simp only [hmax, if_false, Option.bind_eq_some, Option.pure_def, Option.some.injEq,
      Prod.mk.injEq] at h
    obtain ⟨h3, hput, e1, e2⟩ := h
    subst e1; subst e2
    have hv1 : v + 1 < 2 ^ 31 := by
      rw [hti] at hmax
      unfold INT_MAX at hmax
      have : (v : Int) ≠ 2 ^ 31 - 1 := hmax
      have h2 := hvb.2
      omega
    have hts : toSize (toInt v + 1) = v + 1 := by
      have := toSize_small (i := toInt v + 1) (by rw [hti]; omega) (by rw [hti]; omega)
      rw [hti] at this ⊢
      omega
    rw [hts] at hput
    refine ⟨by rw [hti]; exact_mod_cast hvb.1, ?_⟩
    have hk1 : h1.Keyed (fun key v => v ≤ CacheCall.uses key (past ++ [a]) ∧ v < 2 ^ 31) := by
      apply (hk.of_sameData hd).mono
      intro k1 v1 hP
      refine ⟨?_, hP.2⟩
      rw [CacheCall.uses_append]
      exact Nat.le_trans hP.1 (Nat.le_add_right _ _)
    apply LruCache.put_keyed hk1 _ hput
    refine ⟨?_, hv1⟩
    rw [CacheCall.uses_append, CacheCall.uses_single]
    simp only [ha, if_true]
    have := hvb.1
    omega

theorem LruKCache.inv_extend {past : List (CacheCall K V)} {a : CacheCall K V} {k : Int}
    {m : List (K × NodePtr)}
    (h : ∀ key, (umFind m key).isSome = true →
      ∃ pre v post, past = pre ++ CacheCall.put key v :: post ∧
        k ≤ ((CacheCall.uses key pre : Nat) : Int)) :
    ∀ key, (umFind m key).isSome = true →
      ∃ pre v post, past ++ [a] = pre ++ CacheCall.put key v :: post ∧
        k ≤ ((CacheCall.uses key pre : Nat) : Int) := by
  intro key hkey
  obtain ⟨pre, v, post, e, hle⟩ := h key hkey
  exact ⟨pre, v, post ++ [a], by rw [e]; simp, hle⟩

/-- What `put` does when it returns: a key of the main cache was there before, or is the
key that was put, its history count read by this `put` being at least `k`. -/
theorem LruKCache.put_admits [Inhabited V] {s s1 : LruKCache K V} {key : K} {value : V}
    (h : s.put key value = some s1) :
    s1.k = s.k ∧
    ∀ k1, (umFind s1.base.nodeMap k1).isSome = true →
      (umFind s.base.nodeMap k1).isSome = true ∨
      (k1 = key ∧ ∃ h2 hc, LruKCache.count s.historyList key = some (h2, hc) ∧ s.k ≤ hc) := by
  unfold LruKCache.put at h
  simp only [Option.bind_eq_bind, Option.bind_eq_some] at h
  obtain ⟨⟨b1, found, out⟩, hget, h⟩ := h
  simp only at h
  obtain ⟨hd, hhit, -⟩ := LruCache.get_data hget
  cases found with
  | true =>
    simp only [if_true, Option.bind_eq_some, Option.pure_def, Option.some.injEq] at h
    obtain ⟨b2, hput, e⟩ := h
    subst e
    obtain ⟨p, hf, -⟩ := hhit rfl
    refine ⟨rfl, fun k1 hk1 => Or.inl ?_⟩
    rcases (LruCache.put_keys hput).2 k1 hk1 with e | h1
    · rw [e, hf]; rfl
    · rw [hd.2.1] at h1
      exact h1
  | false =>
    simp only [Bool.false_eq_true, if_false, Option.bind_eq_some] at h
    obtain ⟨⟨h2, hc⟩, hcount, h⟩ := h
    simp only at h
    by_cases hge : hc ≥ s.k
    · simp only [hge, if_true, Option.bind_eq_some, Option.pure_def, Option.some.injEq] at h
      obtain ⟨h3, -, b2, hput, e⟩ := h
      subst e
      refine ⟨rfl, fun k1 hk1 => ?_⟩
      rcases (LruCache.put_keys hput).2 k1 hk1 with e | h1
      · exact Or.inr ⟨e, h2, hc, hcount, hge⟩
      · rw [hd.2.1] at h1
        exact Or.inl h1
    · simp only [hge, if_false, Option.pure_def, Option.some.injEq] at h
      subst h
      refine ⟨rfl, fun k1 hk1 => Or.inl ?_⟩
      have h1 : (umFind b1.nodeMap k1).isSome = true := hk1
      rw [hd.2.1] at h1
      exact h1

/-- One `put` keeps the invariant. -/
theorem LruKCache.lruk_put_inv [Inhabited V] {past : List (CacheCall K V)} {s s1 : LruKCache K V}
    {key : K} {value : V} (hinv : LruKCache.Inv past s) (h : s.put key value = some s1) :
    LruKCache.Inv (past ++ [CacheCall.put key value]) s1 := by
  obtain ⟨hk, hadm⟩ := hinv
  obtain ⟨hkk, hkeys⟩ := LruKCache.put_admits h
  have hmono : s.historyList.Keyed
      (fun key1 v => v ≤ CacheCall.uses key1 (past ++ [CacheCall.put key value])
        ∧ v < 2 ^ 31) := by
    apply hk.mono
    intro k1 v1 hP
    refine ⟨?_, hP.2⟩
    rw [CacheCall.uses_append]
    exact Nat.le_trans hP.1 (Nat.le_add_right _ _)
  constructor
  · unfold LruKCache.put at h
    simp only [Option.bind_eq_bind, Option.bind_eq_some] at h
    obtain ⟨⟨b1, found, out⟩, hget, h⟩ := h
    simp only at h
    cases found with
    | true =>
      simp only [if_true, Option.bind_eq_some, Option.pure_def, Option.some.injEq] at h
      obtain ⟨b2, hput, e⟩ := h
      subst e
      exact hmono
    | false =>
      simp only [Bool.false_eq_true, if_false, Option.bind_eq_some] at h
      obtain ⟨⟨h2, hc⟩, hcount, h⟩ := h
      simp only at h
      obtain ⟨-, hk2⟩ := LruKCache.count_spec (a := CacheCall.put key value) rfl hk hcount
      by_cases hge : hc ≥ s.k
      · simp only [hge, if_true, Option.bind_eq_some, Option.pure_def, Option.some.injEq] at h
        obtain ⟨h3, hrem, b2, hput, e⟩ := h
        subst e
        exact hk2.of_sameData (LruCache.remove_data hrem)
      · simp only [hge, if_false, Option.pure_def, Option.some.injEq] at h
        subst h
        exact hk2
  · intro k1 hk1
    rw [hkk]
    rcases hkeys k1 hk1 with h1 | ⟨e, h2, hc, hcount, hge⟩
    · exact LruKCache.inv_extend hadm k1 h1
    · subst e
      obtain ⟨hle, -⟩ := LruKCache.count_spec (a := CacheCall.put k1 value) rfl hk hcount
      exact ⟨past, value, [], rfl, le_trans hge hle⟩

/-- When `get` returns, the main cache has the keys it had, and a hit is on one of
them. -/
theorem LruKCache.get_keys {s s1 : LruKCache K V} {key : K} {value out : V} {found : Bool}
    (h : s.get key value = some (s1, found, out)) :
    s1.k = s.k ∧ s1.base.nodeMap = s.base.nodeMap ∧
    (found = true → (umFind s.base.nodeMap key).isSome = true) ∧
    ∃ hc, LruKCache.count s.historyList key = some (s1.historyList, hc) := by
  unfold LruKCache.get at h
  simp only [Option.bind_eq_bind, Option.bind_eq_some] at h
  obtain ⟨⟨h2, hc⟩, hcount, h⟩ := h
  simp only [Option.bind_eq_some, Option.pure_def, Option.some.injEq, Prod.mk.injEq] at h
  obtain ⟨⟨b1, found1, out1⟩, hget, e1, e2, e3⟩ := h
  simp only at e1 e2 e3
  subst e1; subst e2; subst e3
  obtain ⟨hd, hhit, -⟩ := LruCache.get_data hget
  refine ⟨rfl, hd.2.1, ?_, hc, hcount⟩
  intro hf
  obtain ⟨p, hp, -⟩ := hhit hf
  rw [hp]
  rfl

/-- One `get` keeps the invariant. -/
theorem LruKCache.lruk_get_inv {past : List (CacheCall K V)} {s s1 : LruKCache K V}
    {key : K} {value out : V} {found : Bool} (hinv : LruKCache.Inv past s)
    (h : s.get key value = some (s1, found, out)) :
    LruKCache.Inv (past ++ [CacheCall.get key value]) s1 := by
  obtain ⟨hk, hadm⟩ := hinv
  obtain ⟨hkk, hm, -, hc, hcount⟩ := LruKCache.get_keys h
  constructor
  · exact (LruKCache.count_spec (a := CacheCall.get key value) rfl hk hcount).2
  · rw [hkk, hm]
    exact LruKCache.inv_extend hadm

/-- The fresh cache satisfies the invariant. -/
theorem LruKCache.lruk_create_inv [Inhabited K] [Inhabited V] (n historyCapacity : Nat) (k : Int) :
    LruKCache.Inv ([] : List (CacheCall K V))
      (LruKCache.create n historyCapacity k : LruKCache K V) := by
  constructor
  · intro key p hf
    simp [LruKCache.create, LruCache.create, umFind] at hf
  · intro key hf
    simp [LruKCache.create, LruCache.create, umFind] at hf

/-- Every list of calls that returns keeps the invariant. -/
theorem LruKCache.lruk_run_inv [Inhabited V] (calls : List (CacheCall K V)) :
    ∀ (past : List (CacheCall K V)) (s s1 : LruKCache K V), LruKCache.Inv past s →
      s.run calls = some s1 → LruKCache.Inv (past ++ calls) s1 ∧ s1.k = s.k := by
  induction calls with
  | nil =>
    intro past s s1 hinv h
    have e : s = s1 := Option.some.inj h
    subst e
    rw [List.append_nil]
    exact ⟨hinv, rfl⟩
  | cons a rest ih =>
    intro past s s1 hinv h
    unfold LruKCache.run at h
    simp only [Option.bind_eq_bind, Option.bind_eq_some] at h
    obtain ⟨⟨s0, r⟩, hcall, hrun⟩ := h
    simp only at hrun
    have hstep : LruKCache.Inv (past ++ [a]) s0 ∧ s0.k = s.k := by
      cases a with
      | put key value =>
        simp only [LruKCache.call, Option.map_eq_some', Prod.mk.injEq] at hcall
        obtain ⟨s2, hput, e, -⟩ := hcall
        subst e
        exact ⟨LruKCache.lruk_put_inv hinv hput, (LruKCache.put_admits hput).1⟩
      | get key value =>
        simp only [LruKCache.call, Option.map_eq_some', Prod.mk.injEq] at hcall
        obtain ⟨⟨s2, found, out⟩, hget, e, -⟩ := hcall
        simp only at e
        subst e
        exact ⟨LruKCache.lruk_get_inv hinv hget, (LruKCache.get_keys hget).1⟩
    obtain ⟨h1, h2⟩ := ih (past ++ [a]) s0 s1 hstep.1 hrun
    rw [List.append_assoc] at h1
    exact ⟨h1, h2.trans hstep.2⟩

/-- The history list after `remove`: the calls `put(1, 10)`, `put(1, 11)`, `put(2, 20)` on
`LruKCache(2, 1, 1)` do not return.  The second `put` admits the key 1 and `remove`
unlinks its history node but leaves its entry in `nodeMap`; the third `put` finds the
history list full, `kickOut` takes `head->next`, which is `tail`, and `removeNode(tail)`
dereferences `tail->next`, which is `nullptr`. -/
theorem LruKCache.history_kickOut_null :
    (LruKCache.create 2 1 1 : LruKCache Nat Nat).run [.put 1 10, .put 1 11, .put 2 20]
      = none := by decide!

end LruK

section LruKClaim

variable {K V : Type} [DecidableEq K] [Inhabited K] [Inhabited V]

/-- C22: after every list of `put` and `get` calls on a fresh `LruKCache(n, h, k)` that
returns, every key of the main cache was admitted by a `put` of it that came after at
least `k` calls passing the key; a `get` hits only keys of the main cache; and a `put`
adds no key to the main cache but its own, and that only when the history count it read
for the key is at least `k`, a count that is at most the number of earlier calls passing
the key. -/
theorem LruKCache.admits_after_k_uses (n historyCapacity : Nat) (k : Int)
    (calls : List (CacheCall K V)) (s : LruKCache K V)
    (hrun : (LruKCache.create n historyCapacity k).run calls = some s) :
    (∀ key, (umFind s.base.nodeMap key).isSome = true →
      ∃ pre v post, calls = pre ++ CacheCall.put key v :: post ∧
        k ≤ ((CacheCall.uses key pre : Nat) : Int)) ∧
    (∀ key value s1 found out, s.get key value = some (s1, found, out) → found = true →
      (umFind s.base.nodeMap key).isSome = true) ∧
    (∀ key value s1, s.put key value = some s1 →
      ∀ k1, (umFind s1.base.nodeMap k1).isSome = true →
        (umFind s.base.nodeMap k1).isSome = true ∨
        (k1 = key ∧ ∃ h2 hc, LruKCache.count s.historyList key = some (h2, hc) ∧ k ≤ hc ∧
          hc ≤ ((CacheCall.uses key calls : Nat) : Int))) := by
  obtain ⟨hinv, hk⟩ := LruKCache.lruk_run_inv calls [] _ s
    (LruKCache.lruk_create_inv n historyCapacity k) hrun
  have hk1 : s.k = k := hk
  rw [List.nil_append] at hinv
  refine ⟨?_, ?_, ?_⟩
  · intro key hkey
    have := hinv.2 key hkey
    rw [hk1] at this
    exact this
  · intro key value s1 found out hget hf
    exact (LruKCache.get_keys hget).2.2.1 hf
  · intro key value s1 hput k1 hk1s
    rcases (LruKCache.put_admits hput).2 k1 hk1s with h1 | ⟨e, h2, hc, hcount, hge⟩
    · exact Or.inl h1
    · refine Or.inr ⟨e, h2, hc, hcount, by rw [← hk1]; exact hge, ?_⟩
      exact (LruKCache.count_spec (a := CacheCall.put key value) rfl hinv.1 hcount).1

/-- C22 (witness): `LruKCache(2, 2, 2)` and the calls `put(1, 10)`, `get(1)`, `put(1, 11)`,
`put(2, 20)`: the third call admits the key 1. -/
theorem LruKCache.admits_after_k_uses_witness :
    (LruKCache.create 2 2 2 : LruKCache Nat Nat).run
        [.put 1 10, .get 1 0, .put 1 11, .put 2 20]
      = some (LruKCache.after 2 2 2 [.put 1 10, .get 1 0, .put 1 11, .put 2 20]) ∧
    (umFind (LruKCache.after 2 2 2 [.put 1 10, .get 1 0, .put 1 11, .put 2 20]).base.nodeMap
      1).isSome = true ∧
    (umFind (LruKCache.after 2 2 2 [.put 1 10, .get 1 0, .put 1 11, .put 2 20]).base.nodeMap
      2).isSome = false ∧
    ∃ pre v post, [CacheCall.put 1 10, .get 1 0, .put 1 11, .put 2 20]
        = pre ++ CacheCall.put 1 v :: post ∧
      (2 : Int) ≤ ((CacheCall.uses 1 pre : Nat) : Int) :=
  ⟨by decide!, by decide!, by decide!,
    (LruKCache.admits_after_k_uses 2 2 2 [.put 1 10, .get 1 0, .put 1 11, .put 2 20]
      (LruKCache.after 2 2 2 [.put 1 10, .get 1 0, .put 1 11, .put 2 20])
      (by decide!)).1 1 (by decide!)⟩

end LruKClaim

section LockClaims

/-- C23: not every read or write of a partition's state happens while its mutex is
held.  `ArcLruPart::checkGhost` takes the mutex first, but `put` and `get` of both
partitions test `mainCapacity` before they take it, and `ArcLfuPart::checkGhost` and
`increaseCapacity` and `decreaseCapacity` of both partitions never take it, although they
write the ghost index and the ghost list, `mainCapacity`, the main index and the buckets.
Two threads in `ArcLfuPart::checkGhost` and `ArcLfuPart::put` race on the ghost index, as
do two threads in `checkGhost`. -/
theorem lock_not_held :
    unguarded ArcLruPart.checkGhostSteps = [] ∧
    unguarded ArcLruPart.putSteps = [.read .mainCapacity] ∧
    unguarded ArcLruPart.getSteps = [.read .mainCapacity] ∧
    unguarded ArcLfuPart.putSteps = [.read .mainCapacity] ∧
    unguarded ArcLfuPart.getSteps = [.read .mainCapacity] ∧
    unguarded ArcLruPart.increaseCapacitySteps = [.write .mainCapacity] ∧
    unguarded ArcLfuPart.increaseCapacitySteps = [.write .mainCapacity] ∧
    unguarded ArcLruPart.decreaseCapacitySteps = ArcLruPart.decreaseCapacitySteps ∧
    unguarded ArcLfuPart.decreaseCapacitySteps = ArcLfuPart.decreaseCapacitySteps ∧
    LockStep.write .mainCache ∈ unguarded ArcLruPart.decreaseCapacitySteps ∧
    LockStep.write .freqListMap ∈ unguarded ArcLfuPart.decreaseCapacitySteps ∧
    unguarded ArcLfuPart.checkGhostSteps
      = [.read .ghostCache, .write .ghostList, .write .ghostList, .write .ghostCache] ∧
    LockStep.write .ghostCache ∈ guarded ArcLfuPart.putSteps ∧
    races ArcLfuPart.checkGhostSteps ArcLfuPart.putSteps = true ∧
    races ArcLfuPart.checkGhostSteps ArcLfuPart.checkGhostSteps = true ∧
    races ArcLruPart.putSteps ArcLruPart.increaseCapacitySteps = true ∧
    races ArcLruPart.checkGhostSteps ArcLruPart.putSteps = false := by
  decide

end LockClaims

section LruClaims3

theorem LruCall.gets_replicate {K V : Type} (k : K) (v : V) (n : Nat) :
    LruCall.gets (List.replicate n (LruCall.get k v)) = n := by
  induction n with
  | zero => rfl
  | succ n ih =>
    rw [List.replicate_succ]
    simp only [LruCall.gets, ih]

/-- C24 (counterexample): `ArcLruPart(1, 3)`, `put(1, 10)` and then `get(1)` called
`2 ^ 64 - 1` times: the access count has wrapped to 0, and the next `get`, the
`2 ^ 64`-th one, reports `false` although `2 ^ 64 + 1 >= 3`. -/
theorem ArcLruPart.get_counts_accesses_counterexample :
    ∃ (more : List (LruCall Nat Nat)) (s s1 : ArcLruPart Nat Nat) (y val : Nat),
      (∀ a ∈ more, LruCall.onKey 1 a) ∧ LruCall.gets more = SIZE_MOD - 1 ∧
      ArcLruPart.ReachedBy 1 3 (.put 1 10 :: more) s ∧
      umFind s.mainCache 1 = some (some y) ∧ hCount s.heap y = some 0 ∧
      s.get 1 0 false = some (s1, true, val, false) := by
  have hr0 : ArcLruPart.ReachedBy 1 3 [.put 1 10] (ArcLruPart.after 1 3 [.put 1 10]) := by
    unfold ArcLruPart.ReachedBy
    decide!
  have hmore : ∀ a ∈ List.replicate (SIZE_MOD - 1) (LruCall.get 1 (0 : Nat) : LruCall Nat Nat),
      LruCall.onKey 1 a := by
    intro a ha
    rw [List.eq_of_mem_replicate ha]
    rfl
  obtain ⟨s, hrun, hinv, hcap, hT, y, hy, hc⟩ :=
    ArcLruPart.run_on_key 1 (List.replicate (SIZE_MOD - 1) (LruCall.get 1 0))
      (ArcLruPart.after 1 3 [.put 1 10]) 0 (ArcLruPart.lru_reachedBy_inv hr0).1 (by decide!)
      ⟨4, by decide!, by decide!⟩ hmore
  rw [LruCall.gets_replicate] at hc
  have hc0 : hCount s.heap y = some 0 := by
    rw [hc]
    decide
  have hT3 : s.transformThreshold = 3 := by
    rw [hT]
    decide!
  obtain ⟨y1, val, c, h1, e, -, hcnt, hget, -⟩ := s.get_hit hinv 1 0 false hcap hy
  have ey : y1 = y := (Option.some.inj e).symm
  subst ey
  rw [hc0] at hcnt
  have ec : c = 0 := (Option.some.inj hcnt).symm
  subst ec
  rw [hT3] at hget
  refine ⟨_, s, _, y1, val, hmore, LruCall.gets_replicate 1 0 _, ?_, hy, hc0, hget⟩
  have h1 : (ArcLruPart.create 1 3 : ArcLruPart Nat Nat).call (.put 1 10)
      = some (ArcLruPart.after 1 3 [.put 1 10]) := by decide!
  unfold ArcLruPart.ReachedBy
  rw [ArcLruPart.run, h1, Option.some_bind]
  exact hrun

end LruClaims3

/-! ## Values returned by `get`, small capacities, `remove`, and the clock hand -/

section PairLemmas

variable {K V : Type} [DecidableEq K]

theorem nodePairs_frame {h h1 : List (ArcNode K V)} {n : Nat} {P : List (K × V)}
    (hn : NodePairs h n P)
    (hold : ∀ i, i < h.length → hKey h1 i = hKey h i ∧ hValue h1 i = hValue h i)
    (hnew : ∀ i, h.length ≤ i → i < h1.length →
      ∃ k v, hKey h1 i = some k ∧ hValue h1 i = some v ∧ (k, v) ∈ P) :
    NodePairs h1 n P := by
  intro i hi1 hi2
  by_cases hlt : i < h.length
  · obtain ⟨k, v, hk, hv, hm⟩ := hn i hi1 hlt
    exact ⟨k, v, by rw [(hold i hlt).1]; exact hk, by rw [(hold i hlt).2]; exact hv, hm⟩
  · exact hnew i (by omega) hi2

theorem nodePairs_congr {h h1 : List (ArcNode K V)} {n : Nat} {P : List (K × V)}
    (hn : NodePairs h n P) (hl : h1.length = h.length) (hk : ∀ i, hKey h1 i = hKey h i)
    (hv : ∀ i, hValue h1 i = hValue h i) : NodePairs h1 n P :=
  nodePairs_frame hn (fun i _ => ⟨hk i, hv i⟩) (fun i h1 h2 => by omega)

theorem nodePairs_mono {h : List (ArcNode K V)} {n : Nat} {P P1 : List (K × V)}
    (hn : NodePairs h n P) (hs : ∀ x, x ∈ P → x ∈ P1) : NodePairs h n P1 := by
  intro i hi1 hi2
  obtain ⟨k, v, hk, hv, hm⟩ := hn i hi1 hi2
  exact ⟨k, v, hk, hv, hs _ hm⟩

theorem ArcCall.putPairs_append (l1 l2 : List (ArcCall K V)) :
    ArcCall.putPairs (l1 ++ l2) = ArcCall.putPairs l1 ++ ArcCall.putPairs l2 := by
  induction l1 with
  | nil => rfl
  | cons a rest ih =>
    cases a <;> simp [ArcCall.putPairs, ih]

/-- Source `put` of the recency partition keeps the pairs when its own pair is one. -/
theorem ArcLruPart.put_pairs (s s1 : ArcLruPart K V) (hinv : s.Inv) {P : List (K × V)}
    (hp : NodePairs s.heap 4 P) (k : K) (v : V) (hkv : (k, v) ∈ P) {b : Bool}
    (h : s.put k v = some (s1, b)) : NodePairs s1.heap 4 P := by
  by_cases hcap : s.mainCapacity = 0
  · rw [s.put_zero k v hcap] at h
    rw [← (Prod.mk.inj (Option.some.inj h)).1]
    exact hp
  · cases hf : umFind s.mainCache k with
    | none =>
      obtain ⟨s2, he, -, hfr, hl1, hkn, hvn, -, -, hvo, -⟩ := s.addNewNode_inv hinv k v
      have e : s.put k v = some (s2, true) := by simp [ArcLruPart.put, hcap, hf, he]
      rw [e] at h
      have e1 := (Prod.mk.inj (Option.some.inj h)).1
      subst e1
      apply nodePairs_frame hp
      · intro i hi
        exact ⟨hfr.2.2.2.2 i hi, hvo i hi⟩
      · intro i hi1 hi2
        have : i = s.heap.length := by omega
        subst this
        exact ⟨k, v, hkn, hvn, hkv⟩
    | some p =>
      obtain ⟨y, hpy, hy4, hyl, hky⟩ := s.main_key hinv hf
      subst hpy
      have hmem := umFind_mem hf
      have hinv1 : ({ s with heap := setValue s.heap y v } : ArcLruPart K V).Inv :=
        s.inv_of_heap hinv (setValue s.heap y v) (sameLinks_setValue _ _ _)
          (fun i => by simp) s.mainCapacity
      obtain ⟨h1, he, hsd, -, -⟩ :=
        ArcLruPart.moveToMainTail_inv { s with heap := setValue s.heap y v } hinv1 (k := k)
          (y := y) hmem
      have hw : writeNode s.heap (some y) (fun x => x.setValue v)
          = some (setValue s.heap y v) := writeNode_value _ hyl _
      have e : s.put k v = some ({ s with heap := h1 }, true) := by
        simp only [ArcLruPart.put, hcap, if_false, hf, ArcLruPart.updateMainNode,
          Option.bind_eq_bind, hw, Option.some_bind, he, Option.pure_def]
      rw [e] at h
      have e1 := (Prod.mk.inj (Option.some.inj h)).1
      subst e1
      have hlen : h1.length = s.heap.length := by
        have := hsd.1
        simpa using this
      intro i hi1 hi2
      have hil : i < s.heap.length := by
        have : i < h1.length := hi2
        omega
      obtain ⟨k1, v1, hk1, hv1, hm⟩ := hp i hi1 hil
      by_cases hiy : i = y
      · subst hiy
        refine ⟨k, v, ?_, ?_, hkv⟩
        · show hKey h1 i = some k
          rw [(hsd.2 i).1]
          simpa using hky
        · show hValue h1 i = some v
          rw [(hsd.2 i).2.1]
          show hValue (setValue s.heap i v) i = some v
          rw [hValue_setValue]
          simp [hil]
      · refine ⟨k1, v1, ?_, ?_, hm⟩
        · show hKey h1 i = some k1
          rw [(hsd.2 i).1]
          simpa using hk1
        · show hValue h1 i = some v1
          rw [(hsd.2 i).2.1]
          show hValue (setValue s.heap y v) i = some v1
          rw [hValue_setValue]
          simp [hiy, hv1]

/-- Source `get` of the recency partition keeps the pairs, and a hit hands back the value
of a pair of its key. -/
theorem ArcLruPart.get_pairs (s s1 : ArcLruPart K V) (hinv : s.Inv) {P : List (K × V)}
    (hp : NodePairs s.heap 4 P) (k : K) (out val : V) (st st1 found : Bool)
    (h : s.get k out st = some (s1, found, val, st1)) :
    NodePairs s1.heap 4 P ∧ (found = true → (k, val) ∈ P) ∧ (found = false → val = out) := by
  by_cases hmiss : s.mainCapacity = 0 ∨ umFind s.mainCache k = none
  · rw [s.get_miss k out st hmiss] at h
    have e := Prod.mk.inj (Option.some.inj h)
    have e2 := Prod.mk.inj e.2
    have e3 := Prod.mk.inj e2.2
    rw [← e.1, ← e2.1, ← e3.1]
    exact ⟨hp, fun h => Bool.noConfusion h, fun _ => rfl⟩
  · have hcap : s.mainCapacity ≠ 0 := fun e => hmiss (Or.inl e)
    cases hf : umFind s.mainCache k with
    | none => exact absurd (Or.inr hf) hmiss
    | some p =>
      obtain ⟨y, val0, c, h1, hpy, hval, -, hget, -, hl1, hk1, hv1, -⟩ :=
        s.get_hit hinv k out st hcap hf
      obtain ⟨y1, e1, hy4, hyl, hky⟩ := s.main_key hinv hf
      rw [hpy] at e1
      have ey : y1 = y := (Option.some.inj e1).symm
      subst ey
      rw [hget] at h
      have e := Prod.mk.inj (Option.some.inj h)
      have e2 := Prod.mk.inj e.2
      have e3 := Prod.mk.inj e2.2
      rw [← e.1, ← e2.1, ← e3.1]
      refine ⟨nodePairs_congr hp hl1 hk1 hv1, fun _ => ?_, fun h => Bool.noConfusion h⟩
      obtain ⟨k1, v1, hk, hv, hm⟩ := hp y1 hy4 hyl
      rw [hky] at hk
      rw [hval] at hv
      rw [Option.some.inj hk, Option.some.inj hv]
      exact hm

/-- Source `checkGhost` of the recency partition keeps the pairs: the node it makes
carries the key and the value of the ghost node. -/
theorem ArcLruPart.checkGhost_pairs (s s1 : ArcLruPart K V) (hinv : s.Inv)
    {P : List (K × V)} (hp : NodePairs s.heap 4 P) (k : K) {b : Bool}
    (h : s.checkGhost k = some (s1, b)) : NodePairs s1.heap 4 P := by
  cases hf : umFind s.ghostCache k with
  | none =>
    rw [s.checkGhost_miss k hf] at h
    rw [← (Prod.mk.inj (Option.some.inj h)).1]
    exact hp
  | some p =>
    have hmem := umFind_mem hf
    obtain ⟨hb, hph⟩ := hinv
    rcases hph with ⟨hg, hd, hm⟩ | ⟨n1, hl, hg, hm⟩
    · rw [hg] at hmem
      simp at hmem
    · obtain ⟨e1, e2⟩ := hg k p hmem
      subst e1
      have hnl : n1 < s.heap.length := hl.2.2.1
      have hn4 : 4 ≤ n1 := hl.2.1
      obtain ⟨q, hq1, hq2, hq3⟩ := hl.2.2.2.2.2.1
      have hp1 : hPrev s.heap n1 = some 2 := hl.2.2.2.2.1
      have hrem := s.removeNode_eq hp1 hq1 (by omega) hq3
      have hl1 := links2_unghost hl hq1
      obtain ⟨val, hval⟩ := hValue_of_lt s.heap hnl
      have hinv1 : ({ s with heap := unlink s.heap 2 q } : ArcLruPart K V).Inv := by
        obtain ⟨b0, b1, b2, b3, b4⟩ := hb
        refine ⟨⟨b0, b1, b2, b3, by simpa using b4⟩, Or.inr ⟨n1, by simpa using hl1, ?_, ?_⟩⟩
        · intro k1 p1 hmem1
          obtain ⟨a1, a2⟩ := hg k1 p1 hmem1
          exact ⟨a1, by simpa using a2⟩
        · exact mapOk_congr (by simp) (fun i => by simp) hm
      obtain ⟨s2, he, -, hfr, hl2, hkn, hvn, -, -, hvo, -⟩ :=
        ArcLruPart.addNewNode_inv { s with heap := unlink s.heap 2 q } hinv1 k val
      have hnl1 : n1 < (unlink s.heap 2 q).length := by simpa using hnl
      rcases getElem?_of_lt (unlink s.heap 2 q) hnl1 with ⟨n, hn⟩
      have hnv : n.value = val := by
        have := (getElem?_fields hn).2.2.2.1
        rw [hValue_unlink, hval] at this
        exact (Option.some.inj this).symm
      have hlen : (unlink s.heap 2 q).length = s.heap.length := by simp
      have e : s.checkGhost k = some (s2, true) := by
        simp only [ArcLruPart.checkGhost, hf, ArcLruPart.removeGhostNode, hrem,
          Option.bind_eq_bind, Option.some_bind, readNode_some, hn, hnv, he, Option.pure_def]
      rw [e] at h
      have e3 := (Prod.mk.inj (Option.some.inj h)).1
      subst e3
      have hkv : (k, val) ∈ P := by
        obtain ⟨k1, v1, hk, hv, hm1⟩ := hp n1 hn4 hnl
        rw [e2] at hk
        rw [hval] at hv
        rw [Option.some.inj hk, Option.some.inj hv]
        exact hm1
      apply nodePairs_frame hp
      · intro i hi
        have hi' : i < (unlink s.heap 2 q).length := by omega
        refine ⟨?_, ?_⟩
        · rw [hfr.2.2.2.2 i hi']
          show hKey (unlink s.heap 2 q) i = hKey s.heap i
          simp
        · rw [hvo i hi']
          show hValue (unlink s.heap 2 q) i = hValue s.heap i
          simp
      · intro i hi1 hi2
        have hl2' : s2.heap.length = (unlink s.heap 2 q).length + 1 := hl2
        have : i = (unlink s.heap 2 q).length := by omega
        subst this
        exact ⟨k, val, hkn, hvn, hkv⟩

/-- Source `decreaseCapacity` of the recency partition keeps the pairs. -/
theorem ArcLruPart.decreaseCapacity_pairs (s s1 : ArcLruPart K V) (hinv : s.Inv)
    {P : List (K × V)} (hp : NodePairs s.heap 4 P) {b : Bool}
    (h : s.decreaseCapacity = some (s1, b)) : NodePairs s1.heap 4 P := by
  by_cases hcap : s.mainCapacity = 0
  · rw [s.decreaseCapacity_zero hcap] at h
    rw [← (Prod.mk.inj (Option.some.inj h)).1]
    exact hp
  · unfold ArcLruPart.decreaseCapacity at h
    simp only [hcap, if_false, Option.bind_eq_bind, Option.pure_def, ge_iff_le] at h
    by_cases hc : s.mainCache.length ≤ s.mainCapacity
    · obtain ⟨h1, g1, m1, he, -, hl1, hk1, hv1, -⟩ := s.evictLeastRecent_inv hinv
      simp only [hc, if_true, he, Option.some_bind, Option.some.injEq, Prod.mk.injEq] at h
      rw [← h.1]
      exact nodePairs_congr hp hl1 hk1 hv1
    · simp only [hc, if_false, Option.some_bind, Option.some.injEq, Prod.mk.injEq] at h
      rw [← h.1]
      exact hp

/-- What `checkGhostCache` does to the recency partition keeps the pairs. -/
theorem ArcLruPart.ghostStep_pairs (k : K) (s s1 : ArcLruPart K V) (hinv : s.Inv)
    {P : List (K × V)} (hp : NodePairs s.heap 4 P) (h : s.GhostStep k s1) :
    NodePairs s1.heap 4 P := by
  rcases h with h | ⟨l, h, hl⟩ | ⟨ok, h⟩
  · rw [h]
    exact hp
  · have := ArcLruPart.checkGhost_pairs s l hinv hp k h
    rcases hl with hl | ⟨hl, -⟩
    · rw [hl]
      exact this
    · rw [hl]
      exact this
  · exact ArcLruPart.decreaseCapacity_pairs s s1 hinv hp h

end PairLemmas

section PairLemmas2

variable {K V : Type} [DecidableEq K] [Inhabited K] [Inhabited V]

/-- Source `put` of the frequency partition keeps the pairs when its own pair is one. -/
theorem ArcLfuPart.lfu_put_pairs (order : FreqMap → Nat) (s s1 : ArcLfuPart K V)
    (hinv : s.Inv) {P : List (K × V)} (hp : NodePairs s.heap 2 P) (k : K) (v : V)
    (hkv : (k, v) ∈ P) {b : Bool} (h : s.put order k v = some (s1, b)) :
    NodePairs s1.heap 2 P := by
  by_cases hcap : s.mainCapacity = 0
  · rw [s.lfu_put_zero order k v hcap] at h
    rw [← (Prod.mk.inj (Option.some.inj h)).1]
    exact hp
  · cases hfk : umFind s.mainCache k with
    | some p =>
      obtain ⟨y, hpy, hyl, hy2, hyk⟩ := hinv.2.2.2.1 k p (umFind_mem hfk)
      subst hpy
      obtain ⟨c, hc⟩ := hCount_of_lt s.heap hyl
      rw [ArcLfuPart.put_eq order s k v hcap hfk hyl hc] at h
      rw [← (Prod.mk.inj (Option.some.inj h)).1]
      intro i hi1 hi2
      have hil : i < s.heap.length := by simpa using hi2
      obtain ⟨k1, v1, hk1, hv1, hm⟩ := hp i hi1 hil
      by_cases hiy : i = y
      · subst hiy
        refine ⟨k, v, by simpa using hyk, ?_, hkv⟩
        show hValue (incCount (setValue s.heap i v) i) i = some v
        rw [hValue_incCount, hValue_setValue]
        simp [hil]
      · refine ⟨k1, v1, by simpa using hk1, ?_, hm⟩
        show hValue (incCount (setValue s.heap y v) y) i = some v1
        rw [hValue_incCount, hValue_setValue]
        simp [hiy, hv1]
    | none =>
      obtain ⟨s0, -, hadd, -, -, hfr, hlen, hkeys, hvals, -⟩ :=
        ArcLfuPart.lfu_addNewNode_inv order s hinv k v hfk
      have e : s.put order k v = some (s0.pushNew k v, true) := by
        unfold ArcLfuPart.put
        simp only [hcap, if_false, hfk, Option.bind_eq_bind, hadd, Option.some_bind,
          Option.pure_def]
      rw [e] at h
      rw [← (Prod.mk.inj (Option.some.inj h)).1]
      apply nodePairs_frame hp
      · intro i hi
        have hi0 : i < s0.heap.length := by omega
        refine ⟨?_, ?_⟩
        · simp only [ArcLfuPart.pushNew]
          rw [hKey_append_lt _ _ hi0, hkeys]
        · simp only [ArcLfuPart.pushNew]
          rw [hValue_append]
          have hne : i ≠ s0.heap.length := by omega
          simp [hne, hvals, hi0]
      · intro i hi1 hi2
        simp only [ArcLfuPart.pushNew, List.length_append, List.length_singleton] at hi2
        have : i = s0.heap.length := by omega
        subst this
        exact ⟨k, v, by simp [ArcLfuPart.pushNew, hKey_append, ArcNode.create],
          by simp [ArcLfuPart.pushNew, hValue_append, ArcNode.create], hkv⟩

/-- Source `get` of the frequency partition keeps the pairs, and a hit hands back the
value of a pair of its key. -/
theorem ArcLfuPart.lfu_get_pairs (s s1 : ArcLfuPart K V) (hinv : s.Inv) {P : List (K × V)}
    (hp : NodePairs s.heap 2 P) (k : K) (out val : V) (found : Bool)
    (h : s.get k out = some (s1, found, val)) :
    NodePairs s1.heap 2 P ∧ (found = true → (k, val) ∈ P) ∧ (found = false → val = out) := by
  by_cases hmiss : s.mainCapacity = 0 ∨ umFind s.mainCache k = none
  · rw [s.lfu_get_miss k out hmiss] at h
    have e := Prod.mk.inj (Option.some.inj h)
    have e2 := Prod.mk.inj e.2
    rw [← e.1, ← e2.1, ← e2.2]
    exact ⟨hp, fun h => Bool.noConfusion h, fun _ => rfl⟩
  · have hcap : s.mainCapacity ≠ 0 := fun e => hmiss (Or.inl e)
    cases hf : umFind s.mainCache k with
    | none => exact absurd (Or.inr hf) hmiss
    | some p =>
      obtain ⟨y, val0, s2, hpy, hval, hget, -, -, hl1, hk1, hv1, -⟩ :=
        s.lfu_get_hit hinv k out hcap hf
      obtain ⟨y1, e1, hyl, hy2, hky⟩ := hinv.2.2.2.1 k p (umFind_mem hf)
      rw [hpy] at e1
      have ey : y1 = y := (Option.some.inj e1).symm
      subst ey
      rw [hget] at h
      have e := Prod.mk.inj (Option.some.inj h)
      have e2 := Prod.mk.inj e.2
      rw [← e.1, ← e2.1, ← e2.2]
      refine ⟨nodePairs_congr hp hl1 hk1 hv1, fun _ => ?_, fun h => Bool.noConfusion h⟩
      obtain ⟨k1, v1, hk, hv, hm⟩ := hp y1 hy2 hyl
      rw [hky] at hk
      rw [hval] at hv
      rw [Option.some.inj hk, Option.some.inj hv]
      exact hm

/-- Source `checkGhost` of the frequency partition keeps the pairs. -/
theorem ArcLfuPart.lfu_checkGhost_pairs (s s1 : ArcLfuPart K V) (hinv : s.Inv)
    {P : List (K × V)} (hp : NodePairs s.heap 2 P) (k : K) {b : Bool}
    (h : s.checkGhost k = some (s1, b)) : NodePairs s1.heap 2 P := by
  cases hf : umFind s.ghostCache k with
  | none =>
    rw [s.lfu_checkGhost_miss k hf] at h
    rw [← (Prod.mk.inj (Option.some.inj h)).1]
    exact hp
  | some p =>
    obtain ⟨s2, hcg, -, -, hl1, hk1, hv1, -⟩ := s.lfu_checkGhost_hit hinv k hf
    rw [hcg] at h
    rw [← (Prod.mk.inj (Option.some.inj h)).1]
    exact nodePairs_congr hp hl1 hk1 hv1

/-- Source `decreaseCapacity` of the frequency partition keeps the pairs. -/
theorem ArcLfuPart.lfu_decreaseCapacity_pairs (order : FreqMap → Nat) (s s1 : ArcLfuPart K V)
    (hinv : s.Inv) {P : List (K × V)} (hp : NodePairs s.heap 2 P) {b : Bool}
    (h : s.decreaseCapacity order = some (s1, b)) : NodePairs s1.heap 2 P := by
  by_cases hcap : s.mainCapacity = 0
  · rw [s.lfu_decreaseCapacity_zero order hcap] at h
    rw [← (Prod.mk.inj (Option.some.inj h)).1]
    exact hp
  · unfold ArcLfuPart.decreaseCapacity at h
    simp only [hcap, if_false, Option.bind_eq_bind, Option.pure_def] at h
    by_cases hc : s.mainCapacity = s.mainCache.length
    · obtain ⟨s2, he, -, -, hl1, hk1, hv1, -⟩ := s.evictLeastFrequent_inv order hinv
      simp only [hc, if_true] at h he
      rw [he] at h
      simp only [Option.some_bind, Option.some.injEq, Prod.mk.injEq] at h
      rw [← h.1]
      exact nodePairs_congr hp hl1 hk1 hv1
    · simp only [hc, if_false, Option.some_bind, Option.some.injEq, Prod.mk.injEq] at h
      rw [← h.1]
      exact hp

/-- What `checkGhostCache` does to the frequency partition keeps the pairs. -/
theorem ArcLfuPart.lfu_ghostStep_pairs (order : FreqMap → Nat) (k : K)
    (s s1 : ArcLfuPart K V) (hinv : s.Inv) {P : List (K × V)} (hp : NodePairs s.heap 2 P)
    (h : s.GhostStep order k s1) : NodePairs s1.heap 2 P := by
  rcases h with h | ⟨ok, h⟩ | ⟨l, h, hl⟩
  · rw [h]
    exact hp
  · exact ArcLfuPart.lfu_decreaseCapacity_pairs order s s1 hinv hp h
  · have := ArcLfuPart.lfu_checkGhost_pairs s l hinv hp k h
    rcases hl with hl | ⟨hl, -⟩
    · rw [hl]
      exact this
    · rw [hl]
      exact this

/-- One `put` of `ArcCache` keeps the pairs, its own pair added. -/
theorem ArcCache.cache_put_pairs (order : FreqMap → Nat) (c c1 : ArcCache K V) {C T : Nat}
    {S : List K} (hinv : c.Inv C T S) (hC : C < SIZE_MOD) {P : List (K × V)}
    (hp1 : NodePairs c.lruPart.heap 4 P) (hp2 : NodePairs c.lfuPart.heap 2 P) (k : K) (v : V)
    (hput : c.put order k v = some c1) :
    NodePairs c1.lruPart.heap 4 ((k, v) :: P) ∧ NodePairs c1.lfuPart.heap 2 ((k, v) :: P) := by
  obtain ⟨c0, b, hcg, hinv0, -, hgs1, hgs2, -⟩ :=
    ArcCache.checkGhostCache_spec order c hinv hC k
  have hq1 := nodePairs_mono (ArcLruPart.ghostStep_pairs k _ _ hinv.1 hp1 hgs1)
    (fun x hx => List.mem_cons_of_mem (k, v) hx)
  have hq2 := nodePairs_mono (ArcLfuPart.lfu_ghostStep_pairs order k _ _ hinv.2.1 hp2 hgs2)
    (fun x hx => List.mem_cons_of_mem (k, v) hx)
  have hm : (k, v) ∈ (k, v) :: P := List.mem_cons_self _ _
  unfold ArcCache.put at hput
  simp only [hcg, Option.bind_eq_bind, Option.some_bind] at hput
  cases hp : c0.lruPart.put k v with
  | none => cases b <;> simp [hp] at hput
  | some r =>
    obtain ⟨l1, ok⟩ := r
    have hl1 := ArcLruPart.put_pairs _ l1 hinv0.1 hq1 k v hm hp
    cases b with
    | true =>
      simp [hp] at hput
      subst hput
      exact ⟨hl1, hq2⟩
    | false =>
      cases ok with
      | false =>
        simp [hp] at hput
        subst hput
        exact ⟨hl1, hq2⟩
      | true =>
        cases hq : c0.lfuPart.put order k v with
        | none => simp [hp, hq] at hput
        | some r2 =>
          obtain ⟨l2, ok2⟩ := r2
          simp [hp, hq] at hput
          subst hput
          exact ⟨hl1, ArcLfuPart.lfu_put_pairs order _ l2 hinv0.2.1 hq2 k v hm hq⟩

/-- One `get` of `ArcCache` keeps the pairs; a hit hands back the value of a pair of its
key, a miss leaves `value` as it was. -/
theorem ArcCache.cache_get_pairs (order : FreqMap → Nat) (c c1 : ArcCache K V) {C T : Nat}
    {S : List K} (hinv : c.Inv C T S) (hC : C < SIZE_MOD) {P : List (K × V)}
    (hp1 : NodePairs c.lruPart.heap 4 P) (hp2 : NodePairs c.lfuPart.heap 2 P) (k : K)
    (out val : V) (r : Bool) (hget : c.get order k out = some (c1, r, val)) :
    NodePairs c1.lruPart.heap 4 P ∧ NodePairs c1.lfuPart.heap 2 P ∧
      (r = true → (k, val) ∈ P) ∧ (r = false → val = out) := by
  obtain ⟨c0, b, hcg, hinv0, -, hgs1, hgs2, -⟩ :=
    ArcCache.checkGhostCache_spec order c hinv hC k
  have hq1 := ArcLruPart.ghostStep_pairs k _ _ hinv.1 hp1 hgs1
  have hq2 := ArcLfuPart.lfu_ghostStep_pairs order k _ _ hinv.2.1 hp2 hgs2
  unfold ArcCache.get at hget
  simp only [hcg, Option.bind_eq_bind, Option.some_bind] at hget
  cases hp : c0.lruPart.get k out false with
  | none => simp [hp] at hget
  | some r1 =>
    obtain ⟨l1, found, value1, st⟩ := r1
    obtain ⟨hl1, hhit, hmiss⟩ := ArcLruPart.get_pairs _ l1 hinv0.1 hq1 k out value1 false st
      found hp
    cases found with
    | true =>
      have hm := hhit rfl
      cases st with
      | true =>
        cases hq : c0.lfuPart.put order k value1 with
        | none => simp [hp, hq] at hget
        | some r2 =>
          obtain ⟨l2, ok2⟩ := r2
          simp [hp, hq] at hget
          obtain ⟨e, e2, e3⟩ := hget
          subst e; subst e2; subst e3
          exact ⟨hl1, ArcLfuPart.lfu_put_pairs order _ l2 hinv0.2.1 hq2 k value1 hm hq,
            fun _ => hm, fun h => Bool.noConfusion h⟩
      | false =>
        simp [hp] at hget
        obtain ⟨e, e2, e3⟩ := hget
        subst e; subst e2; subst e3
        exact ⟨hl1, hq2, fun _ => hm, fun h => Bool.noConfusion h⟩
    | false =>
      have ev := hmiss rfl
      subst ev
      cases hq : c0.lfuPart.get k value1 with
      | none => simp [hp, hq] at hget
      | some r2 =>
        obtain ⟨l2, r3, v3⟩ := r2
        simp [hp, hq] at hget
        obtain ⟨e, e2, e3⟩ := hget
        subst e; subst e2; subst e3
        obtain ⟨h1, h2, h3⟩ := ArcLfuPart.lfu_get_pairs _ l2 hinv0.2.1 hq2 k value1 v3 r3 hq
        exact ⟨hl1, h1, h2, h3⟩

/-- Every list of calls keeps the pairs, those of its `put` calls added. -/
theorem ArcCache.run_pairs {C T : Nat} (hC : C < SIZE_MOD) (calls : List (ArcCall K V)) :
    ∀ (c c1 : ArcCache K V) (S : List K) (P : List (K × V)), c.Inv C T S →
      NodePairs c.lruPart.heap 4 P → NodePairs c.lfuPart.heap 2 P →
      c.run calls = some c1 →
      NodePairs c1.lruPart.heap 4 (ArcCall.putPairs calls ++ P) ∧
        NodePairs c1.lfuPart.heap 2 (ArcCall.putPairs calls ++ P) := by
  induction calls with
  | nil =>
    intro c c1 S P _ hp1 hp2 hrun
    have e : c = c1 := Option.some.inj hrun
    subst e
    exact ⟨hp1, hp2⟩
  | cons a rest ih =>
    intro c c1 S P hinv hp1 hp2 hrun
    obtain ⟨c0, b, c2, -, hcall, hinv2, -⟩ := ArcCache.call_spec c hinv hC a
    unfold ArcCache.run at hrun
    rw [hcall, Option.some_bind] at hrun
    cases a with
    | put order k v =>
      obtain ⟨h1, h2⟩ := ArcCache.cache_put_pairs order c c2 hinv hC hp1 hp2 k v hcall
      obtain ⟨h3, h4⟩ := ih c2 c1 _ _ hinv2 h1 h2 hrun
      have e : ArcCall.putPairs (ArcCall.put order k v :: rest) ++ P
          = (k, v) :: (ArcCall.putPairs rest ++ P) := rfl
      rw [e]
      refine ⟨nodePairs_mono h3 ?_, nodePairs_mono h4 ?_⟩
      all_goals
        intro x hx
        simp only [List.mem_append, List.mem_cons] at hx ⊢
        tauto
    | get order k out =>
      have hcall1 : (c.get order k out).map Prod.fst = some c2 := hcall
      cases hg : c.get order k out with
      | none => rw [hg] at hcall1; cases hcall1
      | some res =>
        obtain ⟨c3, r, val⟩ := res
        rw [hg] at hcall1
        have e : c3 = c2 := Option.some.inj hcall1
        subst e
        obtain ⟨h1, h2, -⟩ := ArcCache.cache_get_pairs order c c3 hinv hC hp1 hp2 k out val r hg
        exact ih c3 c1 _ _ hinv2 h1 h2 hrun

/-- The nodes of the fresh cache are the sentinels. -/
theorem ArcCache.create_pairs (C T : Nat) :
    NodePairs (ArcCache.create C T : ArcCache K V).lruPart.heap 4 [] ∧
      NodePairs (ArcCache.create C T : ArcCache K V).lfuPart.heap 2 [] := by
  constructor
  · intro i h1 h2
    simp [ArcCache.create, ArcLruPart.create] at h2
    omega
  · intro i h1 h2
    simp [ArcCache.create, ArcLfuPart.create] at h2
    omega

end PairLemmas2

section ValueClaims

variable {K V : Type} [DecidableEq K] [Inhabited K] [Inhabited V]

/-- C32: in the state reached from `ArcCache(C, T)` by the calls `calls`, `get(k, out)`
returns; when it returns `true`, the value it writes to `out` is a value `v` for which
`put(k, v)` is one of `calls`; when it returns `false`, `out` is as it was. -/
theorem ArcCache.get_returns_put_value (C T : Nat) (calls : List (ArcCall K V))
    (c : ArcCache K V) (hC : C < SIZE_MOD) (hr : ArcCache.ReachedBy C T calls c)
    (order : FreqMap → Nat) (k : K) (out : V) :
    ∃ c1 r val, c.get order k out = some (c1, r, val) ∧
      (r = true → (k, val) ∈ ArcCall.putPairs calls) ∧ (r = false → val = out) := by
  have hinv := ArcCache.reachedBy_inv hC hr
  obtain ⟨h1, h2⟩ := ArcCache.run_pairs hC calls (ArcCache.create C T) c []
    [] (ArcCache.cache_create_inv C T) (ArcCache.create_pairs C T).1
    (ArcCache.create_pairs C T).2 hr
  rw [List.append_nil] at h1 h2
  obtain ⟨c0, b, c1, r, val, -, hget, -⟩ := ArcCache.get_spec order c hinv hC k out
  obtain ⟨-, -, h3, h4⟩ := ArcCache.cache_get_pairs order c c1 hinv hC h1 h2 k out val r hget
  exact ⟨c1, r, val, hget, h3, h4⟩

end ValueClaims

section LastClaims

variable {K V : Type} [DecidableEq K] [Inhabited K] [Inhabited V]

/-- C31: in a reached state, a `put` or `get` whose key is in the ghost index of the
frequency partition and not in that of the recency partition, made while the recency
partition has capacity above 0, returns, removes the key from the ghost index of the
frequency partition, takes exactly 1 off the capacity of the recency partition and adds
exactly 1 to that of the frequency partition. -/
theorem ArcCache.lfu_ghost_hit_shifts_capacity (C T : Nat) (c : ArcCache K V)
    (a : ArcCall K V) (hC : C < SIZE_MOD) (hr : ArcCache.Reachable C T c)
    (hlfu : (umFind c.lfuPart.ghostCache a.key).isSome = true)
    (hlru : umFind c.lruPart.ghostCache a.key = none)
    (hcap : 0 < c.lruPart.mainCapacity) :
    ∃ c1, c.call a = some c1 ∧ umFind c1.lfuPart.ghostCache a.key = none ∧
      c1.lruPart.mainCapacity + 1 = c.lruPart.mainCapacity ∧
      c1.lfuPart.mainCapacity = c.lfuPart.mainCapacity + 1 := by
  obtain ⟨calls, hrun⟩ := hr
  have hinv := ArcCache.reachedBy_inv hC hrun
  obtain ⟨c0, b, hcg, hinv0, hcase, -⟩ :=
    ArcCache.checkGhostCache_spec a.order c hinv hC a.key
  have h0 : umFind c0.lfuPart.ghostCache a.key = none ∧ ArcCache.LruToLfu c c0 := by
    rcases hcase with ⟨-, h2, -⟩ | ⟨h1, -⟩ | ⟨-, -, -, h2, h3⟩
    · rw [h2] at hlfu
      exact Bool.noConfusion hlfu
    · rw [hlru] at h1
      exact Bool.noConfusion h1
    · rcases h3 with ⟨h4, -⟩ | ⟨-, h4, -⟩
      · omega
      · exact ⟨h2, h4⟩
  obtain ⟨hg0, hshift⟩ := h0
  have key : ∃ c1, c.call a = some c1 ∧ umFind c1.lfuPart.ghostCache a.key = none ∧
      ArcCache.SameCaps c0 c1 := by
    cases a with
    | put order k v =>
      obtain ⟨c1, hput, -, hsc, -, -, -, hgl, -⟩ :=
        ArcCache.put_of_ghost order c c0 k v hcg hinv0 (fun _ => hg0)
      exact ⟨c1, hput, hgl hg0, hsc⟩
    | get order k out =>
      obtain ⟨c1, r, val, hget, -, hsc, -, -, -, -, hgl, -⟩ :=
        ArcCache.get_of_ghost order c c0 k out hcg hinv0 (fun _ => Or.inl hg0)
      exact ⟨c1, by simp [ArcCache.call, hget], hgl hg0, hsc⟩
  obtain ⟨c1, hcall, hnone, hsc⟩ := key
  exact ⟨c1, hcall, hnone, by rw [hsc.1]; exact hshift.2, by rw [hsc.2]; exact hshift.1⟩

/-- C31 (witness): capacity 2 after `put` of the keys 1, 2, 3, and a `put` of key 2, which
is in the ghost index of the frequency partition only. -/
theorem ArcCache.lfu_ghost_hit_shifts_capacity_witness :
    (2 < SIZE_MOD ∧
      ArcCache.Reachable 2 3
        (ArcCache.after 2 3 [.put firstKey 1 10, .put firstKey 2 20, .put firstKey 3 30]) ∧
      (umFind (ArcCache.after 2 3 [.put firstKey 1 10, .put firstKey 2 20,
        .put firstKey 3 30]).lfuPart.ghostCache
          (ArcCall.put firstKey 2 99 : ArcCall Nat Nat).key).isSome = true ∧
      umFind (ArcCache.after 2 3 [.put firstKey 1 10, .put firstKey 2 20,
        .put firstKey 3 30]).lruPart.ghostCache
          (ArcCall.put firstKey 2 99 : ArcCall Nat Nat).key = none ∧
      0 < (ArcCache.after 2 3 [.put firstKey 1 10, .put firstKey 2 20,
        .put firstKey 3 30]).lruPart.mainCapacity) ∧
    ∃ c1, (ArcCache.after 2 3 [.put firstKey 1 10, .put firstKey 2 20,
        .put firstKey 3 30]).call (.put firstKey 2 99) = some c1 ∧
      umFind c1.lfuPart.ghostCache (ArcCall.put firstKey 2 99 : ArcCall Nat Nat).key = none ∧
      c1.lruPart.mainCapacity + 1 = (ArcCache.after 2 3 [.put firstKey 1 10,
        .put firstKey 2 20, .put firstKey 3 30]).lruPart.mainCapacity ∧
      c1.lfuPart.mainCapacity = (ArcCache.after 2 3 [.put firstKey 1 10,
        .put firstKey 2 20, .put firstKey 3 30]).lfuPart.mainCapacity + 1 :=
  ⟨⟨size_lt 2 (by decide), ⟨_, ArcCache.after_reached (size_lt 2 (by decide)) _⟩,
      by decide!, by decide!, by decide!⟩,
    ArcCache.lfu_ghost_hit_shifts_capacity 2 3 _ (.put firstKey 2 99) (size_lt 2 (by decide))
      ⟨_, ArcCache.after_reached (size_lt 2 (by decide)) _⟩ (by decide!) (by decide!)
      (by decide!)⟩

/-- C32 (witness): capacity 4, after `put(1, 10)`, `put(2, 20)` and `put(1, 11)` the call
`get(1, out)`. -/
theorem ArcCache.get_returns_put_value_witness :
    (4 < SIZE_MOD ∧
      ArcCache.ReachedBy 4 3 [.put firstKey 1 10, .put firstKey 2 20, .put firstKey 1 11]
        (ArcCache.after 4 3 [.put firstKey 1 10, .put firstKey 2 20, .put firstKey 1 11])) ∧
    ∃ c1 r val,
      (ArcCache.after 4 3 [.put firstKey 1 10, .put firstKey 2 20, .put firstKey 1 11]).get
        firstKey 1 0 = some (c1, r, val) ∧
      (r = true → (1, val) ∈ ArcCall.putPairs
        [ArcCall.put firstKey 1 10, .put firstKey 2 20, .put firstKey 1 11]) ∧
      (r = false → val = 0) :=
  ⟨⟨size_lt 4 (by decide), ArcCache.after_reached (size_lt 4 (by decide)) _⟩,
    ArcCache.get_returns_put_value 4 3 _ _ (size_lt 4 (by decide))
      (ArcCache.after_reached (size_lt 4 (by decide)) _) firstKey 1 0⟩

/-- C33: an `ArcCache` built with capacity 0 or 1 gives both partitions capacity 0; every
list of calls returns and leaves the cache as it was built, so every `put` stores nothing,
every `get(k, out)` returns `false` with `out` unchanged, both main indexes stay empty
and both capacities stay 0. -/
theorem ArcCache.small_capacity_stores_nothing (C T : Nat) (hC : C < 2)
    (calls : List (ArcCall K V)) :
    (ArcCache.create C T : ArcCache K V).lruPart.mainCapacity = 0 ∧
    (ArcCache.create C T : ArcCache K V).lfuPart.mainCapacity = 0 ∧
    (ArcCache.create C T : ArcCache K V).lruPart.mainCache = [] ∧
    (ArcCache.create C T : ArcCache K V).lfuPart.mainCache = [] ∧
    (ArcCache.create C T : ArcCache K V).run calls = some (ArcCache.create C T) ∧
    ∀ (order : FreqMap → Nat) (k : K) (v out : V),
      (ArcCache.create C T : ArcCache K V).put order k v = some (ArcCache.create C T) ∧
      (ArcCache.create C T : ArcCache K V).get order k out
        = some (ArcCache.create C T, false, out) := by
  have h2 : C / 2 = 0 := Nat.div_eq_of_lt hC
  refine ⟨by simp [ArcCache.create, ArcLruPart.create, h2],
    by simp [ArcCache.create, ArcLfuPart.create, h2], rfl, rfl,
    ArcCache.run_small C T hC calls, ?_⟩
  intro order k v out
  refine ⟨ArcCache.call_small C T hC (.put order k v), ?_⟩
  exact ArcCache.get_absent order _ (ArcCache.cache_create_inv C T) k out (by simp)

/-- C33 (witness): capacity 1 and the calls `put(1, 10)`, `get(1)`, `put(2, 20)`. -/
theorem ArcCache.small_capacity_stores_nothing_witness :
    1 < 2 ∧
    (ArcCache.create 1 3 : ArcCache Nat Nat).lruPart.mainCapacity = 0 ∧
    (ArcCache.create 1 3 : ArcCache Nat Nat).lfuPart.mainCapacity = 0 ∧
    (ArcCache.create 1 3 : ArcCache Nat Nat).lruPart.mainCache = [] ∧
    (ArcCache.create 1 3 : ArcCache Nat Nat).lfuPart.mainCache = [] ∧
    (ArcCache.create 1 3 : ArcCache Nat Nat).run
      [.put firstKey 1 10, .get firstKey 1 0, .put firstKey 2 20]
        = some (ArcCache.create 1 3) ∧
    ∀ (order : FreqMap → Nat) (k : Nat) (v out : Nat),
      (ArcCache.create 1 3 : ArcCache Nat Nat).put order k v = some (ArcCache.create 1 3) ∧
      (ArcCache.create 1 3 : ArcCache Nat Nat).get order k out
        = some (ArcCache.create 1 3, false, out) :=
  ⟨by decide, ArcCache.small_capacity_stores_nothing 1 3 (by decide) _⟩

/-- C35: `LruCache(2)` after `put(1, 10)` and `put(2, 20)`: `remove(1)` returns, but
afterwards `get(1, out)` still returns `true` with the value 10, `nodeMap` still has two
entries, and a `put(3, 30)` made after `remove(1)` finds the cache full and evicts the
key 2, so that `get(2, out)` returns `false`. -/
theorem LruCache.remove_keeps_key :
    (LruCache.create 2).run [.put 1 10, .put 2 20]
      = some (LruCache.after 2 [.put 1 10, .put 2 20], [none, none]) ∧
    (umFind (LruCache.after 2 [.put 1 10, .put 2 20]).nodeMap 1).isSome = true ∧
    (((LruCache.after 2 [.put 1 10, .put 2 20]).remove 1).bind
      (fun s1 => s1.get 1 0)).map Prod.snd = some (true, 10) ∧
    ((LruCache.after 2 [.put 1 10, .put 2 20]).remove 1).map
      (fun s1 => s1.nodeMap.map Prod.fst) = some [1, 2] ∧
    (((LruCache.after 2 [.put 1 10, .put 2 20]).remove 1).bind
      (fun s1 => (s1.put 3 30).bind (fun s2 => s2.get 2 0))).map Prod.snd
        = some (false, 0) := by
  refine ⟨by decide!, by decide!, by decide!, by decide!, by decide!⟩

end LastClaims

section ClockLemmas

variable {K V : Type} [DecidableEq K]

theorem ClockCache.sweep_pass (key : K) (value : V) (fuel : Nat) (s : ClockCache K V)
    {n : ClockNode K V} (hn : s.clockList[s.clockHand]? = some n)
    (href : n.reference = true) (hc : s.capacity ≠ 0) :
    ClockCache.sweep key value (fuel + 1) s = ClockCache.sweep key value fuel s.pass := by
  rw [ClockCache.sweep]
  simp only [ClockCache.slot, hn, pure_bind, href, if_true, hc, if_false, ClockCache.pass]

theorem ClockCache.sweep_replace (key : K) (value : V) (fuel : Nat) (s : ClockCache K V)
    {n : ClockNode K V} (hn : s.clockList[s.clockHand]? = some n)
    (href : n.reference = false) :
    ClockCache.sweep key value (fuel + 1) s = Except.ok (s.replace n.key key value) := by
  rw [ClockCache.sweep]
  simp only [ClockCache.slot, hn, pure_bind, href, Bool.false_eq_true, if_false,
    ClockCache.replace]
  rfl

theorem ClockCache.sweep_zero (key : K) (value : V) (s : ClockCache K V) :
    ClockCache.sweep key value 0 s = Except.error ClockFault.outOfFuel := rfl

theorem mod_add_inj {c h i j : Nat} (hi : i < c) (hj : j < c)
    (e : (h + i) % c = (h + j) % c) : i = j := by
  have h1 : Nat.ModEq c (h + i) (h + j) := e
  have h2 : Nat.ModEq c i j := Nat.ModEq.add_left_cancel' h h1
  have h3 : i % c = j % c := h2
  rw [Nat.mod_eq_of_lt hi, Nat.mod_eq_of_lt hj] at h3
  exact h3

/-- The state after `j` passes: only reference bits of the slots passed have changed, and
the hand has moved on by `j`. -/
theorem ClockCache.passes_spec (s : ClockCache K V) {c : Nat} (hcap : s.capacity = c)
    (hlen : s.clockList.length = c) (hh : s.clockHand < c) (hcs : c < SIZE_MOD) (j : Nat) :
    (s.passes j).capacity = c ∧ (s.passes j).nodeMap = s.nodeMap ∧
    (s.passes j).size = s.size ∧ (s.passes j).clockList.length = c ∧
    (s.passes j).clockHand = (s.clockHand + j) % c ∧
    ∀ p n, s.clockList[p]? = some n →
      ∃ n1, (s.passes j).clockList[p]? = some n1 ∧ n1.key = n.key ∧ n1.value = n.value ∧
        n1.dirty = n.dirty ∧ ((∃ i, i < j ∧ (s.clockHand + i) % c = p) → n1.reference = false) ∧
        ((∀ i, i < j → (s.clockHand + i) % c ≠ p) → n1 = n) := by
  induction j with
  | zero =>
    refine ⟨hcap, rfl, rfl, hlen, by simp [ClockCache.passes, Nat.mod_eq_of_lt hh], ?_⟩
    intro p n hp
    exact ⟨n, hp, rfl, rfl, rfl, by rintro ⟨i, hi, -⟩; omega, fun _ => rfl⟩
  | succ j ih =>
    obtain ⟨h1, h2, h3, h4, h5, h6⟩ := ih
    have hc0 : 0 < c := by omega
    have hhj : (s.passes j).clockHand < (s.passes j).clockList.length := by
      rw [h5, h4]
      exact Nat.mod_lt _ hc0
    obtain ⟨m, hm⟩ : ∃ m, (s.passes j).clockList[(s.passes j).clockHand]? = some m :=
      ⟨_, List.getElem?_eq_getElem hhj⟩
    have hpass : s.passes (j + 1) =
        { s.passes j with
          clockList := (s.passes j).clockList.set (s.passes j).clockHand
            { m with reference := false }
          clockHand := (((s.passes j).clockHand + 1) % SIZE_MOD) % (s.passes j).capacity } := by
      show (s.passes j).pass = _
      unfold ClockCache.pass
      rw [hm]
    rw [hpass]
    refine ⟨h1, h2, h3, by simp [h4], ?_, ?_⟩
    · show (((s.passes j).clockHand + 1) % SIZE_MOD) % (s.passes j).capacity = _
      rw [h5, h1]
      have hlt : (s.clockHand + j) % c + 1 < SIZE_MOD := by
        have := Nat.mod_lt (s.clockHand + j) hc0
        omega
      rw [Nat.mod_eq_of_lt hlt, Nat.mod_add_mod, Nat.add_assoc]
    · intro p n hp
      obtain ⟨n1, hn1, a1, a2, a3, a4, a5⟩ := h6 p n hp
      show ∃ n2, ((s.passes j).clockList.set (s.passes j).clockHand
        { m with reference := false })[p]? = some n2 ∧ _
      by_cases hph : (s.passes j).clockHand = p
      · subst hph
        rw [hm] at hn1
        have e := Option.some.inj hn1
        subst e
        refine ⟨{ m with reference := false }, by simp [List.getElem?_set, hhj], a1, a2, a3,
          fun _ => rfl, ?_⟩
        intro hall
        exact absurd h5.symm (hall j (Nat.lt_succ_self j))
      · refine ⟨n1, by simp [List.getElem?_set, hph, hn1], a1, a2, a3, ?_, ?_⟩
        · rintro ⟨i, hi, hip⟩
          apply a4
          refine ⟨i, ?_, hip⟩
          rcases Nat.lt_succ_iff_lt_or_eq.mp hi with h | h
          · exact h
          · subst h
            rw [h5] at hph
            exact absurd hip hph
        · intro hall
          exact a5 (fun i hi => hall i (Nat.lt_succ_of_lt hi))

end ClockLemmas

section ClockLemmas2

variable {K V : Type} [DecidableEq K]

/-- The loop of `put` runs through the slots whose bit is set. -/
theorem ClockCache.sweep_passes (key : K) (value : V) (s : ClockCache K V) {c : Nat}
    (hcap : s.capacity = c) (hlen : s.clockList.length = c) (hh : s.clockHand < c)
    (hcs : c < SIZE_MOD) (j : Nat)
    (hset : ∀ i, i < j → ∃ n, (s.passes i).clockList[(s.clockHand + i) % c]? = some n ∧
      n.reference = true) :
    ∀ fuel, ClockCache.sweep key value (fuel + j) s
      = ClockCache.sweep key value fuel (s.passes j) := by
  induction j with
  | zero =>
    intro fuel
    rfl
  | succ j ih =>
    intro fuel
    have e : fuel + (j + 1) = (fuel + 1) + j := by omega
    rw [e, ih (fun i hi => hset i (Nat.lt_succ_of_lt hi)) (fuel + 1)]
    obtain ⟨h1, -, -, -, h5, -⟩ := s.passes_spec hcap hlen hh hcs j
    obtain ⟨n, hn, href⟩ := hset j (Nat.lt_succ_self j)
    rw [← h5] at hn
    exact ClockCache.sweep_pass key value fuel (s.passes j) hn href (by rw [h1]; omega)

/-- After at most `c` passes the loop of `put` meets a slot whose bit is clear. -/
theorem ClockCache.first_clear (s : ClockCache K V) {c : Nat} (hcap : s.capacity = c)
    (hlen : s.clockList.length = c) (hh : s.clockHand < c) (hcs : c < SIZE_MOD) :
    ∀ r i, i + r = c →
      (∀ i1, i1 < i → ∃ n, (s.passes i1).clockList[(s.clockHand + i1) % c]? = some n ∧
        n.reference = true) →
      ∃ j, j ≤ c ∧
        (∀ i1, i1 < j → ∃ n, (s.passes i1).clockList[(s.clockHand + i1) % c]? = some n ∧
          n.reference = true) ∧
        ∃ n, (s.passes j).clockList[(s.clockHand + j) % c]? = some n ∧
          n.reference = false := by
  have hc0 : 0 < c := by omega
  have hslot : ∀ i, ∃ n, (s.passes i).clockList[(s.clockHand + i) % c]? = some n := by
    intro i
    obtain ⟨-, -, -, h4, -⟩ := s.passes_spec hcap hlen hh hcs i
    exact ⟨_, List.getElem?_eq_getElem (by rw [h4]; exact Nat.mod_lt _ hc0)⟩
  intro r
  induction r with
  | zero =>
    intro i hi hall
    have e : i = c := by omega
    subst e
    obtain ⟨m, hm⟩ : ∃ m, s.clockList[s.clockHand]? = some m :=
      ⟨_, List.getElem?_eq_getElem (by rw [hlen]; exact hh)⟩
    obtain ⟨-, -, -, -, -, h6⟩ := s.passes_spec hcap hlen hh hcs i
    obtain ⟨n1, hn1, -, -, -, a4, -⟩ := h6 s.clockHand m hm
    have hmod : (s.clockHand + i) % i = s.clockHand := by
      rw [Nat.add_mod_right, Nat.mod_eq_of_lt hh]
    refine ⟨i, le_refl _, hall, n1, by rw [hmod]; exact hn1, ?_⟩
    exact a4 ⟨0, hc0, by simp [Nat.mod_eq_of_lt hh]⟩
  | succ r ih =>
    intro i hi hall
    obtain ⟨n, hn⟩ := hslot i
    cases href : n.reference with
    | false => exact ⟨i, by omega, hall, n, hn, href⟩
    | true =>
      apply ih (i + 1) (by omega)
      intro i1 hi1
      rcases Nat.lt_succ_iff_lt_or_eq.mp hi1 with h | h
      · exact hall i1 h
      · subst h
        exact ⟨n, hn, href⟩

/-- The loop of `put` on a full vector: it passes `j` slots whose bit is set, `j` at most
`c`, clears their bits, and replaces the node of the next slot; it comes to its end with
more than `j` iterations and not with fewer. -/
theorem ClockCache.sweep_spec (key : K) (value : V) (s : ClockCache K V) {c : Nat}
    (hcap : s.capacity = c) (hlen : s.clockList.length = c) (hh : s.clockHand < c)
    (hcs : c < SIZE_MOD) :
    ∃ j m, j ≤ c ∧ s.clockList[(s.clockHand + j) % c]? = some m ∧
      (∀ i, i < j → ∃ n, s.clockList[(s.clockHand + i) % c]? = some n ∧
        n.reference = true) ∧
      (j < c → m.reference = false) ∧
      (∀ fuel, fuel ≤ j →
        ClockCache.sweep key value fuel s = Except.error ClockFault.outOfFuel) ∧
      (∀ fuel, j < fuel →
        ClockCache.sweep key value fuel s = Except.ok ((s.passes j).replace m.key key value)) := by
  have hc0 : 0 < c := by omega
  obtain ⟨j, hjc, hset, n, hn, href⟩ :=
    s.first_clear hcap hlen hh hcs c 0 (by omega) (fun i1 h => absurd h (Nat.not_lt_zero _))
  obtain ⟨m, hm⟩ : ∃ m, s.clockList[(s.clockHand + j) % c]? = some m :=
    ⟨_, List.getElem?_eq_getElem (by rw [hlen]; exact Nat.mod_lt _ hc0)⟩
  have horig : ∀ i, i < c → ∀ m1, s.clockList[(s.clockHand + i) % c]? = some m1 →
      (s.passes i).clockList[(s.clockHand + i) % c]? = some m1 := by
    intro i hi m1 hm1
    obtain ⟨-, -, -, -, -, h6⟩ := s.passes_spec hcap hlen hh hcs i
    obtain ⟨n1, hn1, -, -, -, -, a5⟩ := h6 _ m1 hm1
    rw [hn1, a5]
    intro i1 hi1 e
    have := mod_add_inj (by omega) hi e
    omega
  obtain ⟨-, -, -, -, h5j, h6j⟩ := s.passes_spec hcap hlen hh hcs j
  obtain ⟨n1, hn1, hk1, -⟩ := h6j _ m hm
  rw [hn] at hn1
  have en : n = n1 := Option.some.inj hn1
  subst en
  refine ⟨j, m, hjc, hm, ?_, ?_, ?_, ?_⟩
  · intro i hi
    obtain ⟨m1, hm1⟩ : ∃ m1, s.clockList[(s.clockHand + i) % c]? = some m1 :=
      ⟨_, List.getElem?_eq_getElem (by rw [hlen]; exact Nat.mod_lt _ hc0)⟩
    obtain ⟨n2, hn2, href2⟩ := hset i hi
    rw [horig i (by omega) m1 hm1] at hn2
    have e := Option.some.inj hn2
    subst e
    exact ⟨m1, hm1, href2⟩
  · intro hj
    have := horig j hj m hm
    rw [hn] at this
    rw [← Option.some.inj this]
    exact href
  · intro fuel hf
    have := ClockCache.sweep_passes key value s hcap hlen hh hcs fuel
      (fun i hi => hset i (by omega)) 0
    rw [Nat.zero_add] at this
    rw [this]
    rfl
  · intro fuel hf
    obtain ⟨f, hfe⟩ : ∃ f, fuel = (f + 1) + j := ⟨fuel - j - 1, by omega⟩
    rw [hfe, ClockCache.sweep_passes key value s hcap hlen hh hcs j hset (f + 1)]
    rw [← h5j] at hn
    rw [ClockCache.sweep_replace key value f (s.passes j) hn href, hk1]

end ClockLemmas2

section ClockInv

variable {K V : Type} [DecidableEq K]

/-- A vector with the same keys in the same slots has the same index. -/
theorem clock_keys_congr {l l1 : List (ClockNode K V)} (hl : l1.length = l.length)
    (hk : ∀ (p : Nat) (n : ClockNode K V), l[p]? = some n →
      ∃ n1, l1[p]? = some n1 ∧ n1.key = n.key) (i : Nat) (k : K) :
    (∃ n, l1[i]? = some n ∧ n.key = k) ↔ (∃ n, l[i]? = some n ∧ n.key = k) := by
  constructor
  · rintro ⟨n1, hn1, hk1⟩
    have hi : i < l.length := by
      rcases List.getElem?_eq_some.mp hn1 with ⟨h, -⟩
      omega
    obtain ⟨n2, hn2, hk2⟩ := hk i l[i] (List.getElem?_eq_getElem hi)
    rw [hn1] at hn2
    have e := Option.some.inj hn2
    subst e
    exact ⟨l[i], List.getElem?_eq_getElem hi, by rw [← hk2]; exact hk1⟩
  · rintro ⟨n, hn, hkn⟩
    obtain ⟨n1, hn1, hk1⟩ := hk i n hn
    exact ⟨n1, hn1, by rw [hk1]; exact hkn⟩

/-- Overwriting a slot by a node with the same key keeps the keys of all slots. -/
theorem clock_set_keys {l : List (ClockNode K V)} {i : Nat} {n n1 : ClockNode K V}
    (hn : l[i]? = some n) (hk : n1.key = n.key) (p : Nat) (n0 : ClockNode K V)
    (hp : l[p]? = some n0) : ∃ n2, (l.set i n1)[p]? = some n2 ∧ n2.key = n0.key := by
  have hil : i < l.length := by
    rcases List.getElem?_eq_some.mp hn with ⟨h, -⟩
    exact h
  by_cases hpi : i = p
  · rw [← hpi] at hp ⊢
    rw [hn] at hp
    rw [← Option.some.inj hp]
    exact ⟨n1, by simp [List.getElem?_set, hil], hk⟩
  · exact ⟨n0, by simp [List.getElem?_set, hpi, hp], rfl⟩

theorem ClockCache.clock_create_inv (c : Nat) (hc : 1 ≤ c) :
    (ClockCache.create c : ClockCache K V).Inv c := by
  refine ⟨rfl, rfl, Nat.zero_le _, hc, by simp [ClockCache.create], rfl, ?_⟩
  intro k i
  simp [ClockCache.create, umFind]

/-- A state that differs from one with the invariant only in values and bits has it. -/
theorem ClockCache.inv_of_keys {c : Nat} {s : ClockCache K V} (hinv : s.Inv c)
    (l1 : List (ClockNode K V)) (hand : Nat) (hl : l1.length = s.clockList.length)
    (hk : ∀ (p : Nat) (n : ClockNode K V), s.clockList[p]? = some n →
      ∃ n1, l1[p]? = some n1 ∧ n1.key = n.key)
    (hh : hand < c) :
    ClockCache.Inv c ({ s with clockList := l1, clockHand := hand } : ClockCache K V) := by
  obtain ⟨h1, h2, h3, h4, h5, h6, h7⟩ := hinv
  refine ⟨h1, by show s.size = l1.length; rw [hl]; exact h2, h3, hh, h5, h6, ?_⟩
  intro k i
  show umFind s.nodeMap k = some i ↔ ∃ n, l1[i]? = some n ∧ n.key = k
  rw [h7 k i]
  exact (clock_keys_congr hl hk i k).symm

/-- The passes keep the invariant. -/
theorem ClockCache.passes_inv {c : Nat} {s : ClockCache K V} (hinv : s.Inv c)
    (hfull : s.size = c) (hcs : c < SIZE_MOD) (j : Nat) : (s.passes j).Inv c := by
  have hlen : s.clockList.length = c := by rw [← hinv.2.1]; exact hfull
  obtain ⟨h1, h2, h3, h4, h5, h6⟩ := s.passes_spec hinv.1 hlen hinv.2.2.2.1 hcs j
  have hc0 : 0 < c := by
    have := hinv.2.2.2.1
    omega
  have := ClockCache.inv_of_keys hinv (s.passes j).clockList (s.passes j).clockHand
    (by rw [h4, hlen])
    (fun p n hp => by
      obtain ⟨n1, hn1, hk1, -⟩ := h6 p n hp
      exact ⟨n1, hn1, hk1⟩)
    (by rw [h5]; exact Nat.mod_lt _ hc0)
  have e : ({ s with clockList := (s.passes j).clockList, clockHand := (s.passes j).clockHand }
      : ClockCache K V) = s.passes j := by
    cases hs : s.passes j
    rw [hs] at h1 h2 h3
    simp only at h1 h2 h3
    simp only [ClockCache.mk.injEq, and_true, true_and]
    exact ⟨h2.symm, by rw [h1]; exact hinv.1, h3.symm⟩
  rw [e] at this
  exact this

/-- Replacing the node under the hand by a node for a key that is not cached keeps the
invariant. -/
theorem ClockCache.replace_inv {c : Nat} {s : ClockCache K V} (hinv : s.Inv c)
    {m : ClockNode K V} (hm : s.clockList[s.clockHand]? = some m) (key : K) (value : V)
    (hnew : umFind s.nodeMap key = none) :
    (s.replace m.key key value).Inv c ∧
      (s.replace m.key key value).nodeMap.length = s.nodeMap.length ∧
      umFind (s.replace m.key key value).nodeMap key = some s.clockHand ∧
      umFind (s.replace m.key key value).nodeMap m.key = none := by
  obtain ⟨h1, h2, h3, h4, h5, h6, h7⟩ := hinv
  have hhl : s.clockHand < s.clockList.length := by
    rcases List.getElem?_eq_some.mp hm with ⟨h, -⟩
    exact h
  have hold : umFind s.nodeMap m.key = some s.clockHand := (h7 _ _).mpr ⟨m, hm, rfl⟩
  have hne : m.key ≠ key := by
    intro e
    rw [e, hnew] at hold
    cases hold
  have hnone : umFind (umErase s.nodeMap m.key) key = none := by
    rw [umFind_umErase]
    have : ¬ key = m.key := fun e => hne e.symm
    simp [this, hnew]
  have hlenE := length_umErase_of_nodup h5 hold
  have hfind : ∀ k, umFind (umSet (umErase s.nodeMap m.key) key s.clockHand) k
      = if k = key then some s.clockHand else if k = m.key then none
        else umFind s.nodeMap k := by
    intro k
    rw [umFind_umSet, umFind_umErase]
  refine ⟨⟨h1, ?_, h3, h4, ?_, ?_, ?_⟩, ?_, ?_, ?_⟩
  · show s.size = (s.clockList.set s.clockHand _).length
    simp [h2]
  · show ((umSet (umErase s.nodeMap m.key) key s.clockHand).map Prod.fst).Nodup
    rw [umSet_of_none hnone, List.map_append]
    apply List.Nodup.append (nodup_keys_umErase h5 _) (by simp)
    intro a ha hb
    have : a = key := by simpa using hb
    subst this
    exact (umFind_eq_none_iff _ _).mp hnone ha
  · show (umSet (umErase s.nodeMap m.key) key s.clockHand).length = s.size
    rw [umSet_of_none hnone]
    simp
    omega
  · intro k i
    show umFind (umSet (umErase s.nodeMap m.key) key s.clockHand) k = some i ↔
      ∃ n, (s.clockList.set s.clockHand
        { ClockNode.create key value with reference := true })[i]? = some n ∧ n.key = k
    rw [hfind]
    by_cases hi : i = s.clockHand
    · rw [hi]
      have hslot : (s.clockList.set s.clockHand
          { ClockNode.create key value with reference := true })[s.clockHand]?
          = some { ClockNode.create key value with reference := true } := by
        simp [List.getElem?_set, hhl]
      rw [hslot]
      by_cases hk : k = key
      · subst hk
        simp [ClockNode.create]
      · have hk2 : ¬ key = k := fun e => hk e.symm
        simp only [hk, if_false]
        constructor
        · intro h
          exfalso
          by_cases hko : k = m.key
          · simp [hko] at h
          · simp only [hko, if_false] at h
            obtain ⟨n, hn, hkn⟩ := (h7 k s.clockHand).mp h
            rw [hm] at hn
            rw [← Option.some.inj hn] at hkn
            exact hko hkn.symm
        · rintro ⟨n, hn, hkn⟩
          exfalso
          rw [← Option.some.inj hn] at hkn
          exact hk2 hkn
    · have hi2 : ¬ s.clockHand = i := fun e => hi e.symm
      have hslot : (s.clockList.set s.clockHand
          { ClockNode.create key value with reference := true })[i]? = s.clockList[i]? := by
        simp [List.getElem?_set, hi2]
      rw [hslot, ← h7 k i]
      by_cases hk : k = key
      · subst hk
        simp only [if_true]
        constructor
        · intro h
          exact absurd (Option.some.inj h).symm hi
        · intro h
          rw [hnew] at h
          cases h
      · simp only [hk, if_false]
        by_cases hko : k = m.key
        · subst hko
          simp only [if_true]
          constructor
          · intro h; cases h
          · intro h
            rw [hold] at h
            exact absurd (Option.some.inj h).symm hi
        · simp only [hko, if_false]
  · show (umSet (umErase s.nodeMap m.key) key s.clockHand).length = s.nodeMap.length
    rw [umSet_of_none hnone]
    simp
    omega
  · show umFind (umSet (umErase s.nodeMap m.key) key s.clockHand) key = some s.clockHand
    rw [hfind]
    simp
  · show umFind (umSet (umErase s.nodeMap m.key) key s.clockHand) m.key = none
    rw [hfind]
    simp [hne]

/-- Source `get` keeps the invariant. -/
theorem ClockCache.clock_get_inv {c : Nat} {s s1 : ClockCache K V} (hinv : s.Inv c) (key : K)
    (value out : V) (found : Bool) (h : s.get key value = Except.ok (s1, found, out)) :
    s1.Inv c := by
  unfold ClockCache.get at h
  cases hf : umFind s.nodeMap key with
  | none =>
    rw [hf] at h
    have e : s = s1 := (Prod.mk.inj (Except.ok.inj h)).1
    subst e
    exact hinv
  | some i =>
    rw [hf] at h
    obtain ⟨n, hn, -⟩ := (hinv.2.2.2.2.2.2 key i).mp hf
    have hil : i < s.clockList.length := by
      rcases List.getElem?_eq_some.mp hn with ⟨h, -⟩
      exact h
    simp only [ClockCache.slot, hn, pure_bind] at h
    have e := (Prod.mk.inj (Except.ok.inj h)).1
    rw [← e]
    have := ClockCache.inv_of_keys hinv
      (s.clockList.set i { n with reference := true }) s.clockHand (by simp)
      (clock_set_keys hn rfl)
      hinv.2.2.2.1
    exact this

/-- Source `put` keeps the invariant whenever its loop comes to its end. -/
theorem ClockCache.clock_put_inv {c : Nat} {s s1 : ClockCache K V} (hinv : s.Inv c)
    (hcs : c < SIZE_MOD) (fuel : Nat) (key : K) (value : V)
    (h : s.put fuel key value = Except.ok s1) : s1.Inv c := by
  unfold ClockCache.put at h
  cases hf : umFind s.nodeMap key with
  | some i =>
    rw [hf] at h
    obtain ⟨n, hn, -⟩ := (hinv.2.2.2.2.2.2 key i).mp hf
    have hil : i < s.clockList.length := by
      rcases List.getElem?_eq_some.mp hn with ⟨h, -⟩
      exact h
    simp only [ClockCache.slot, hn, pure_bind] at h
    have e := Except.ok.inj h
    rw [← e]
    have := ClockCache.inv_of_keys hinv
      (s.clockList.set i { n with value := value, reference := true, dirty := true })
      s.clockHand (by simp)
      (clock_set_keys hn rfl)
      hinv.2.2.2.1
    exact this
  | none =>
    rw [hf] at h
    obtain ⟨h1, h2, h3, h4, h5, h6, h7⟩ := hinv
    by_cases hlt : s.size < s.capacity
    · simp only [hlt, if_true] at h
      have e := Except.ok.inj h
      rw [← e]
      have hsz : (s.size + 1) % SIZE_MOD = s.size + 1 := Nat.mod_eq_of_lt (by omega)
      refine ⟨h1, ?_, ?_, h4, ?_, ?_, ?_⟩
      · show (s.size + 1) % SIZE_MOD = (s.clockList ++ [ClockNode.create key value]).length
        rw [hsz]
        simp [h2]
      · show (s.size + 1) % SIZE_MOD ≤ c
        rw [hsz]
        omega
      · show ((umSet s.nodeMap key s.size).map Prod.fst).Nodup
        rw [umSet_of_none hf, List.map_append]
        apply List.Nodup.append h5 (by simp)
        intro a ha hb
        have : a = key := by simpa using hb
        subst this
        exact (umFind_eq_none_iff _ _).mp hf ha
      · show (umSet s.nodeMap key s.size).length = (s.size + 1) % SIZE_MOD
        rw [hsz, umSet_of_none hf]
        simp [h6]
      · intro k i
        show umFind (umSet s.nodeMap key s.size) k = some i ↔
          ∃ n, (s.clockList ++ [ClockNode.create key value])[i]? = some n ∧ n.key = k
        rw [umFind_umSet]
        rcases Nat.lt_trichotomy i s.clockList.length with hi | hi | hi
        · rw [List.getElem?_append_left hi, ← h7 k i]
          by_cases hk : k = key
          · subst hk
            simp only [if_true]
            constructor
            · intro h
              have := Option.some.inj h
              omega
            · intro h
              rw [hf] at h
              cases h
          · simp only [hk, if_false]
        · subst hi
          have hslot : (s.clockList ++ [ClockNode.create key value])[s.clockList.length]?
              = some (ClockNode.create key value) := by simp
          rw [hslot]
          by_cases hk : k = key
          · subst hk
            simp [h2, ClockNode.create]
          · have hk2 : ¬ key = k := fun e => hk e.symm
            simp only [hk, if_false]
            constructor
            · intro h
              obtain ⟨n, hn, -⟩ := (h7 k _).mp h
              rcases List.getElem?_eq_some.mp hn with ⟨hlt2, -⟩
              omega
            · rintro ⟨n, hn, hkn⟩
              rw [← Option.some.inj hn] at hkn
              exact absurd hkn hk2
        · have hslot : (s.clockList ++ [ClockNode.create key value])[i]? = none := by
            apply List.getElem?_eq_none
            simp
            omega
          rw [hslot]
          constructor
          · intro h
            exfalso
            by_cases hk : k = key
            · simp only [hk, if_true] at h
              have := Option.some.inj h
              omega
            · simp only [hk, if_false] at h
              obtain ⟨n, hn, -⟩ := (h7 k _).mp h
              rcases List.getElem?_eq_some.mp hn with ⟨hlt2, -⟩
              omega
          · rintro ⟨n, hn, -⟩
            cases hn
    · simp only [hlt, if_false] at h
      have hfull : s.size = c := by omega
      have hlen : s.clockList.length = c := by rw [← h2]; exact hfull
      have hinv : s.Inv c := ⟨h1, h2, h3, h4, h5, h6, h7⟩
      obtain ⟨j, m, hjc, hm, -, -, hshort, hlong⟩ :=
        ClockCache.sweep_spec key value s h1 hlen h4 hcs
      by_cases hfj : fuel ≤ j
      · rw [hshort fuel hfj] at h
        cases h
      · rw [hlong fuel (by omega)] at h
        rw [← Except.ok.inj h]
        have hpi := ClockCache.passes_inv hinv hfull hcs j
        obtain ⟨-, p2, -, -, p5, p6⟩ := s.passes_spec h1 hlen h4 hcs j
        obtain ⟨n1, hn1, hk1, -⟩ := p6 _ m hm
        rw [← p5] at hn1
        rw [← hk1]
        exact (ClockCache.replace_inv hpi hn1 key value (by rw [p2]; exact hf)).1

/-- Every reached state has the invariant. -/
theorem ClockCache.clock_run_inv {c : Nat} (hcs : c < SIZE_MOD) (fuel : Nat)
    (calls : List (CacheCall K V)) :
    ∀ s s1 : ClockCache K V, s.Inv c → ClockCache.run fuel s calls = Except.ok s1 →
      s1.Inv c := by
  induction calls with
  | nil =>
    intro s s1 hinv h
    have e : s = s1 := Except.ok.inj h
    subst e
    exact hinv
  | cons a rest ih =>
    intro s s1 hinv h
    unfold ClockCache.run at h
    cases hc : s.call fuel a with
    | error e =>
      rw [hc] at h
      cases h
    | ok s0 =>
      rw [hc] at h
      have h' : ClockCache.run fuel s0 rest = Except.ok s1 := h
      refine ih s0 s1 ?_ h'
      cases a with
      | put key value => exact ClockCache.clock_put_inv hinv hcs fuel key value hc
      | get key value =>
        have hc : (do let r ← s.get key value; pure r.1 : Except ClockFault (ClockCache K V))
            = Except.ok s0 := hc
        cases hg : s.get key value with
        | error e =>
          rw [hg] at hc
          cases hc
        | ok r =>
          obtain ⟨s2, found, out⟩ := r
          rw [hg] at hc
          have e : s2 = s0 := Except.ok.inj hc
          subst e
          exact ClockCache.clock_get_inv hinv key value out found hg

end ClockInv

section ClockClaim

variable {K V : Type} [DecidableEq K]

theorem clockNode_cleared {n m : ClockNode K V} (h1 : n.key = m.key) (h2 : n.value = m.value)
    (h3 : n.dirty = m.dirty) (h4 : n.reference = false) :
    n = { m with reference := false } := by
  cases n
  cases m
  simp only at h1 h2 h3 h4
  simp [h1, h2, h3, h4]


theorem ClockCache.sweep_more (key : K) (value : V) :
    ∀ (fuel : Nat) (s s1 : ClockCache K V), ClockCache.sweep key value fuel s = Except.ok s1 →
      ClockCache.sweep key value (fuel + 1) s = Except.ok s1 := by
  intro fuel
  induction fuel with
  | zero =>
    intro s s1 h
    rw [ClockCache.sweep_zero] at h
    cases h
  | succ f ih =>
    intro s s1 h
    cases hn : s.clockList[s.clockHand]? with
    | none =>
      rw [ClockCache.sweep] at h
      simp only [ClockCache.slot, hn] at h
      cases h
    | some n =>
      cases href : n.reference with
      | false =>
        rw [ClockCache.sweep_replace key value f s hn href] at h
        rw [ClockCache.sweep_replace key value (f + 1) s hn href]
        exact h
      | true =>
        by_cases hc : s.capacity = 0
        · rw [ClockCache.sweep] at h
          simp only [ClockCache.slot, hn, pure_bind, href, if_true, hc] at h
          cases h
        · rw [ClockCache.sweep_pass key value f s hn href hc] at h
          rw [ClockCache.sweep_pass key value (f + 1) s hn href hc]
          exact ih _ _ h

theorem ClockCache.put_more (s s1 : ClockCache K V) (key : K) (value : V) (fuel : Nat)
    (h : s.put fuel key value = Except.ok s1) :
    s.put (fuel + 1) key value = Except.ok s1 := by
  unfold ClockCache.put at h ⊢
  cases hf : umFind s.nodeMap key with
  | some i =>
    rw [hf] at h
    exact h
  | none =>
    rw [hf] at h
    by_cases hlt : s.size < s.capacity
    · simp only [hlt, if_true] at h ⊢
      exact h
    · simp only [hlt, if_false] at h ⊢
      exact ClockCache.sweep_more key value fuel s s1 h

theorem ClockCache.call_more (s s1 : ClockCache K V) (a : CacheCall K V) (fuel : Nat)
    (h : s.call fuel a = Except.ok s1) : s.call (fuel + 1) a = Except.ok s1 := by
  cases a with
  | put key value => exact ClockCache.put_more s s1 key value fuel h
  | get key value => exact h

theorem ClockCache.run_more (fuel : Nat) (calls : List (CacheCall K V)) :
    ∀ s s1 : ClockCache K V, ClockCache.run fuel s calls = Except.ok s1 →
      ClockCache.run (fuel + 1) s calls = Except.ok s1 := by
  induction calls with
  | nil => intro s s1 h; exact h
  | cons a rest ih =>
    intro s s1 h
    rw [ClockCache.run] at h ⊢
    cases hc : s.call fuel a with
    | error e =>
      rw [hc] at h
      cases h
    | ok s0 =>
      rw [hc] at h
      rw [ClockCache.call_more s s0 a fuel hc]
      exact ih s0 s1 h

theorem ClockCache.run_mono {fuel fuel1 : Nat} (hle : fuel ≤ fuel1)
    (calls : List (CacheCall K V)) (s s1 : ClockCache K V)
    (h : ClockCache.run fuel s calls = Except.ok s1) :
    ClockCache.run fuel1 s calls = Except.ok s1 := by
  induction hle with
  | refl => exact h
  | step _ ih => exact ClockCache.run_more _ calls s s1 ih

theorem ClockCache.clock_run_append (fuel : Nat) (calls : List (CacheCall K V))
    (a : CacheCall K V) :
    ∀ s s1 s2 : ClockCache K V, ClockCache.run fuel s calls = Except.ok s1 →
      s1.call fuel a = Except.ok s2 →
      ClockCache.run fuel s (calls ++ [a]) = Except.ok s2 := by
  induction calls with
  | nil =>
    intro s s1 s2 h ha
    have e : s = s1 := Except.ok.inj h
    subst e
    show ClockCache.run fuel s [a] = _
    rw [ClockCache.run, ha]
    rfl
  | cons b rest ih =>
    intro s s1 s2 h ha
    show ClockCache.run fuel s (b :: (rest ++ [a])) = _
    rw [ClockCache.run] at h ⊢
    cases hc : s.call fuel b with
    | error e =>
      rw [hc] at h
      cases h
    | ok s0 =>
      rw [hc] at h
      exact ih s0 s1 s2 h ha

/-- C34: in every state of `ClockCache(c)`, `1 <= c < 2 ^ 64`, reached by `put` and `get`
calls, `put` of a key that is not cached while `c` keys are cached comes to its end after
`j + 1` iterations of its loop, `j` at most `c`: it passes the `j` slots from the hand on
(cyclically), whose reference bits are set, and clears those bits; the next slot, whose
bit is clear (when `j = c` it is the slot the loop started at, cleared by the first
iteration), gets a new node with the key, the value and the reference bit set; the hand
stays there, the other slots are unchanged, the index loses the key of the replaced node
and gains the new key, and `c` keys are cached. -/
theorem ClockCache.put_full_terminates (c : Nat) (hc1 : 1 ≤ c) (hcs : c < SIZE_MOD)
    (calls : List (CacheCall K V)) (s : ClockCache K V)
    (hr : ClockCache.ReachedBy c calls s) (key : K) (value : V)
    (hfull : s.nodeMap.length = c) (hnew : umFind s.nodeMap key = none) :
    ∃ j s1 old, j ≤ c ∧
      (∀ fuel, j < fuel → s.put fuel key value = Except.ok s1) ∧
      (∀ fuel, fuel ≤ j → s.put fuel key value = Except.error ClockFault.outOfFuel) ∧
      (∀ i, i < j → ∃ m, s.clockList[(s.clockHand + i) % c]? = some m ∧ m.reference = true ∧
        ((s.clockHand + i) % c ≠ (s.clockHand + j) % c →
          s1.clockList[(s.clockHand + i) % c]? = some { m with reference := false })) ∧
      (∃ m, s.clockList[(s.clockHand + j) % c]? = some m ∧ m.key = old ∧
        (j < c → m.reference = false)) ∧
      s1.clockHand = (s.clockHand + j) % c ∧
      s1.clockList[(s.clockHand + j) % c]?
        = some { key := key, value := value, reference := true, dirty := false } ∧
      (∀ p, (∀ i, i ≤ j → (s.clockHand + i) % c ≠ p) → s1.clockList[p]? = s.clockList[p]?) ∧
      umFind s1.nodeMap key = some ((s.clockHand + j) % c) ∧ umFind s1.nodeMap old = none ∧
      (∀ k, k ≠ key → k ≠ old → umFind s1.nodeMap k = umFind s.nodeMap k) ∧
      s1.nodeMap.length = c ∧ s1.size = c ∧ s1.clockList.length = c ∧ s1.capacity = c ∧
      ClockCache.ReachedBy c (calls ++ [CacheCall.put key value]) s1 := by
  obtain ⟨fuel0, hrun⟩ := hr
  have hinv : s.Inv c := ClockCache.clock_run_inv hcs fuel0 calls _ s
    (ClockCache.clock_create_inv c hc1) hrun
  obtain ⟨h1, h2, h3, h4, h5, h6, h7⟩ := hinv
  have hsize : s.size = c := by rw [← h6]; exact hfull
  have hlen : s.clockList.length = c := by rw [← h2]; exact hsize
  have hinv : s.Inv c := ⟨h1, h2, h3, h4, h5, h6, h7⟩
  have hc0 : 0 < c := hc1
  obtain ⟨j, m, hjc, hm, hset, hclear, hshort, hlong⟩ :=
    ClockCache.sweep_spec key value s h1 hlen h4 hcs
  have hput : ∀ fuel, s.put fuel key value = ClockCache.sweep key value fuel s := by
    intro fuel
    unfold ClockCache.put
    rw [hnew]
    have : ¬ s.size < s.capacity := by omega
    simp only [this, if_false]
  have hpi := ClockCache.passes_inv hinv hsize hcs j
  obtain ⟨p1, p2, p3, p4, p5, p6⟩ := s.passes_spec h1 hlen h4 hcs j
  obtain ⟨n1, hn1, hk1, -⟩ := p6 _ m hm
  have hn1' : (s.passes j).clockList[(s.passes j).clockHand]? = some n1 := by
    rw [p5]; exact hn1
  obtain ⟨r1, r2, r3, r4⟩ := ClockCache.replace_inv hpi hn1' key value (by rw [p2]; exact hnew)
  rw [hk1] at r1 r2 r3 r4
  have hhl : (s.clockHand + j) % c < (s.passes j).clockList.length := by
    rw [p4]; exact Nat.mod_lt _ hc0
  have hslots : ∀ p, p ≠ (s.clockHand + j) % c →
      ((s.passes j).replace m.key key value).clockList[p]? = (s.passes j).clockList[p]? := by
    intro p hp
    show ((s.passes j).clockList.set (s.passes j).clockHand _)[p]? = _
    rw [p5]
    have : ¬ (s.clockHand + j) % c = p := fun e => hp e.symm
    simp [List.getElem?_set, this]
  refine ⟨j, (s.passes j).replace m.key key value, m.key, hjc, ?_, ?_, ?_, ⟨m, hm, rfl, hclear⟩,
    p5, ?_, ?_, ?_, r4, ?_, ?_, ?_, ?_, p1, ?_⟩
  · intro fuel hf
    rw [hput, hlong fuel hf]
  · intro fuel hf
    rw [hput, hshort fuel hf]
  · intro i hi
    obtain ⟨m1, hm1, href1⟩ := hset i hi
    refine ⟨m1, hm1, href1, ?_⟩
    intro hne
    rw [hslots _ hne]
    obtain ⟨n2, hn2, a1, a2, a3, a4, -⟩ := p6 _ m1 hm1
    rw [hn2, clockNode_cleared a1 a2 a3 (a4 ⟨i, hi, rfl⟩)]
  · show ((s.passes j).clockList.set (s.passes j).clockHand _)[(s.clockHand + j) % c]? = _
    rw [p5]
    simp [List.getElem?_set, hhl, ClockNode.create]
  · intro p hall
    have hne : p ≠ (s.clockHand + j) % c := fun e => hall j (le_refl _) e.symm
    rw [hslots p hne]
    cases hp : s.clockList[p]? with
    | none =>
      apply List.getElem?_eq_none
      have := List.getElem?_eq_none_iff.mp hp
      omega
    | some m1 =>
      obtain ⟨n2, hn2, -, -, -, -, a5⟩ := p6 p m1 hp
      rw [hn2, a5 (fun i hi => hall i (by omega))]
  · rw [r3, p5]
  · intro k hk1 hk2
    show umFind (umSet (umErase (s.passes j).nodeMap m.key) key (s.passes j).clockHand) k = _
    rw [umFind_umSet, umFind_umErase, p2]
    simp [hk1, hk2]
  · rw [r2, p2]
    exact hfull
  · exact hsize ▸ p3 ▸ rfl
  · show ((s.passes j).clockList.set (s.passes j).clockHand _).length = c
    simp [p4]
  · refine ⟨max fuel0 (j + 1), ?_⟩
    exact ClockCache.clock_run_append _ calls _ _ s _
      (ClockCache.run_mono (le_max_left _ _) calls _ s hrun)
      (by
        show s.put (max fuel0 (j + 1)) key value = _
        rw [hput, hlong _ (by have := le_max_right fuel0 (j + 1); omega)])

/-- C34 (witness): `ClockCache(2)` after `put(1, 10)`, `put(2, 20)` and `get(1, out)`, and
the call `put(3, 30)`: the slot of key 1 is passed and the slot of key 2 is replaced. -/
theorem ClockCache.put_full_terminates_witness :
    (1 ≤ 2 ∧ 2 < SIZE_MOD ∧
      ClockCache.ReachedBy 2 [CacheCall.put 1 10, CacheCall.put 2 20, CacheCall.get 1 0]
        (ClockCache.after 2
        [CacheCall.put 1 10, CacheCall.put 2 20, CacheCall.get 1 0]) ∧
      (ClockCache.after 2
        [CacheCall.put 1 10, CacheCall.put 2 20, CacheCall.get 1 0]).nodeMap.length = 2 ∧
      umFind (ClockCache.after 2
        [CacheCall.put 1 10, CacheCall.put 2 20, CacheCall.get 1 0]).nodeMap 3 = none) ∧
    ∃ j s1 old, j ≤ 2 ∧
      (∀ fuel, j < fuel → (ClockCache.after 2
        [CacheCall.put 1 10, CacheCall.put 2 20, CacheCall.get 1 0]).put fuel 3 30 = Except.ok s1) ∧
      (∀ fuel, fuel ≤ j → (ClockCache.after 2
        [CacheCall.put 1 10, CacheCall.put 2 20, CacheCall.get 1 0]).put fuel 3 30 = Except.error ClockFault.outOfFuel) ∧
      (∀ i, i < j → ∃ m, (ClockCache.after 2
        [CacheCall.put 1 10, CacheCall.put 2 20, CacheCall.get 1 0]).clockList[((ClockCache.after 2
        [CacheCall.put 1 10, CacheCall.put 2 20, CacheCall.get 1 0]).clockHand + i) % 2]? = some m ∧
        m.reference = true ∧
        (((ClockCache.after 2
        [CacheCall.put 1 10, CacheCall.put 2 20, CacheCall.get 1 0]).clockHand + i) % 2 ≠ ((ClockCache.after 2
        [CacheCall.put 1 10, CacheCall.put 2 20, CacheCall.get 1 0]).clockHand + j) % 2 →
          s1.clockList[((ClockCache.after 2
        [CacheCall.put 1 10, CacheCall.put 2 20, CacheCall.get 1 0]).clockHand + i) % 2]? = some { m with reference := false })) ∧
      (∃ m, (ClockCache.after 2
        [CacheCall.put 1 10, CacheCall.put 2 20, CacheCall.get 1 0]).clockList[((ClockCache.after 2
        [CacheCall.put 1 10, CacheCall.put 2 20, CacheCall.get 1 0]).clockHand + j) % 2]? = some m ∧ m.key = old ∧
        (j < 2 → m.reference = false)) ∧
      s1.clockHand = ((ClockCache.after 2
        [CacheCall.put 1 10, CacheCall.put 2 20, CacheCall.get 1 0]).clockHand + j) % 2 ∧
      s1.clockList[((ClockCache.after 2
        [CacheCall.put 1 10, CacheCall.put 2 20, CacheCall.get 1 0]).clockHand + j) % 2]?
        = some { key := 3, value := 30, reference := true, dirty := false } ∧
      (∀ p, (∀ i, i ≤ j → ((ClockCache.after 2
        [CacheCall.put 1 10, CacheCall.put 2 20, CacheCall.get 1 0]).clockHand + i) % 2 ≠ p) →
        s1.clockList[p]? = (ClockCache.after 2
        [CacheCall.put 1 10, CacheCall.put 2 20, CacheCall.get 1 0]).clockList[p]?) ∧
      umFind s1.nodeMap 3 = some (((ClockCache.after 2
        [CacheCall.put 1 10, CacheCall.put 2 20, CacheCall.get 1 0]).clockHand + j) % 2) ∧ umFind s1.nodeMap old = none ∧
      (∀ k, k ≠ 3 → k ≠ old → umFind s1.nodeMap k = umFind (ClockCache.after 2
        [CacheCall.put 1 10, CacheCall.put 2 20, CacheCall.get 1 0]).nodeMap k) ∧
      s1.nodeMap.length = 2 ∧ s1.size = 2 ∧ s1.clockList.length = 2 ∧ s1.capacity = 2 ∧
      ClockCache.ReachedBy 2 ([CacheCall.put 1 10, CacheCall.put 2 20, CacheCall.get 1 0] ++ [CacheCall.put 3 30]) s1 :=
  ⟨⟨by decide, size_lt 2 (by decide), ⟨3, rfl⟩, by decide!, by decide!⟩,
    ClockCache.put_full_terminates 2 (by decide) (size_lt 2 (by decide))
      [CacheCall.put 1 10, CacheCall.put 2 20, CacheCall.get 1 0]
      (ClockCache.after 2 [CacheCall.put 1 10, CacheCall.put 2 20, CacheCall.get 1 0])
      ⟨3, by rfl⟩ 3 30
      (by decide!) (by decide!)⟩

end ClockClaim

/-! ## The keys of the frequency partition stay in an index of the recency partition -/

section IndexedLemmas

variable {K V : Type} [DecidableEq K]

end IndexedLemmas

section BackedLemmas

variable {K V : Type} [DecidableEq K] [Inhabited K] [Inhabited V]

end BackedLemmas

section FallThrough

variable {K V : Type} [DecidableEq K] [Inhabited K] [Inhabited V]

end FallThrough

end mycache
